import Mathlib

/-!
# sub2api: account scheduling, admission control and the services around them

A shallow embedding of functions of the Go packages under `backend/internal`:

* `service/scheduler_cache.go` (`SchedulerBucket.String`, `ParseSchedulerBucket`, and the
  bucket rebuild lock `TryLockBucket`, of which the source tree has the interface only);
* `service/ops_concurrency.go` (`getAccountsLoadMapBestEffort`, `GetConcurrencyStats`);
* `repository/timeout_counter_cache.go` (`IncrementTimeoutCount`) and
  `middleware/rate_limiter.go` (`LimitWithOptions`), over a model of the store commands;
* `service/openai_tool_continuation.go` (`NeedsToolContinuation`,
  `FunctionCallOutputCallIDs`, `HasItemReferenceForCallIDs`);
* `handler/auth_linuxdo_oauth.go` (`sanitizeFrontendRedirectPath`,
  `buildBearerAuthorization`, `isSafeLinuxDoSubject`, `linuxDoParseUserInfo`);
* `service/promo_code.go`, `service/promo_service.go`, `handler/admin/promo_handler.go`
  (`CanUse`, `validatePromoCodeStatus`, `Update`);
* `service/dashboard_service.go` (`GetDashboardStats`);
* `service/ops_query_mode.go`, `service/ops_dashboard.go` (`resolveOpsQueryMode`);
* `repository/ops_repo_dashboard.go` (`combineApproxPercentiles`);
* `service/ops_request_details.go` (`OpsRequestDetailFilter.Normalize`),

followed by the properties proved about them.

Conventions.  A Go `string` is a `List Char` (`GoString`) and is taken to be valid UTF-8; its
length in bytes is `byteLen`.  A Go `int64` is an `Int`; where the code can overflow the
wrap-around is explicit (`wrap64`, `% 2 ^ 64`).  A Go map is the list of its entries
(`GoMap`), read with `mapGet` and written with `mapSet`; the order in which `range` visits a
map is a parameter.  A `float64` field is the expression that computes it (`F64`); its value
(`F64.value`) is the rational number the expression denotes, every operation rounded to the
nearest `float64` by `toFloat64`.  A `time.Time` is an instant (`GoTime`).  A nil pointer, a nil map or a nil
slice result is `none`.  A call to a collaborator or a library function that is not part of
the source tree is a function parameter, and the calls made are recorded next to the result.
-/

namespace Sub2api

/-! ## Go strings and the library functions used by the bucket key -/

/-- A Go string, as its sequence of characters. -/
abbrev GoString := List Char

/-- Go's `strings.Split(s, ":")`: the pieces of `s` between consecutive colons.
There is always at least one piece, and one more piece than there are colons. -/
def Split : GoString → List GoString
  | [] => [[]]
  | c :: cs =>
    if c = ':' then [] :: Split cs
    else
      match Split cs with
      | [] => [[c]]
      | p :: ps => (c :: p) :: ps

/-- The two errors of Go's `strconv` number parsers. -/
inductive NumError where
  | ErrSyntax
  | ErrRange
  deriving DecidableEq, Repr

/-- Largest `uint64`. -/
def maxUint64 : Nat := 2 ^ 64 - 1

/-- The loop of Go's `strconv.ParseUint(s, 10, 64)` over the remaining bytes, with
`n` the value accumulated so far.  `cutoff = maxUint64/10 + 1` is the smallest
number whose tenfold overflows; `n1` is computed in 64-bit arithmetic. -/
def parseUintLoop : GoString → Nat → Nat × Option NumError
  | [], n => (n, none)
  | c :: cs, n =>
    if '0' ≤ c ∧ c ≤ '9' then
      let d := c.toNat - '0'.toNat
      if n ≥ maxUint64 / 10 + 1 then (maxUint64, some NumError.ErrRange)
      else
        let n10 := (n * 10) % 2 ^ 64
        let n1 := (n10 + d) % 2 ^ 64
        if n1 < n10 ∨ n1 > maxUint64 then (maxUint64, some NumError.ErrRange)
        else parseUintLoop cs n1
    else (0, some NumError.ErrSyntax)

/-- Go's `strconv.ParseUint(s, 10, 64)`: the value and the error (`none` for `nil`). -/
def ParseUint (s : GoString) : Nat × Option NumError :=
  if s = [] then (0, some NumError.ErrSyntax) else parseUintLoop s 0

/-- Go's `strconv.ParseInt(s, 10, 64)`: an optional sign, then `ParseUint`, then the
range check against `cutoff = 2^63`. -/
def ParseInt (s : GoString) : Int × Option NumError :=
  match s with
  | [] => (0, some NumError.ErrSyntax)
  | c :: cs =>
    let neg := decide (c = '-')
    let rest := if c = '+' then cs else if c = '-' then cs else c :: cs
    match ParseUint rest with
    | (_, some NumError.ErrSyntax) => (0, some NumError.ErrSyntax)
    | (un, _) =>
      if !neg ∧ un ≥ 2 ^ 63 then ((2 : Int) ^ 63 - 1, some NumError.ErrRange)
      else if neg ∧ un > 2 ^ 63 then (-(2 : Int) ^ 63, some NumError.ErrRange)
      else (if neg then -(un : Int) else (un : Int), none)

/-- The character of a decimal digit. -/
def digitChar : Nat → Char
  | 0 => '0'
  | 1 => '1'
  | 2 => '2'
  | 3 => '3'
  | 4 => '4'
  | 5 => '5'
  | 6 => '6'
  | 7 => '7'
  | 8 => '8'
  | _ => '9'

/-- Decimal digits of `n`, most significant first, without leading zeros; the
first argument bounds the number of digits. -/
def decimalDigits : Nat → Nat → GoString
  | 0, _ => []
  | fuel + 1, n =>
    if n < 10 then [digitChar n]
    else decimalDigits fuel (n / 10) ++ [digitChar (n % 10)]

/-- The verb `%d` of Go's `fmt.Sprintf` on an integer: a minus sign for a negative
number, then the decimal digits of its magnitude. -/
def formatInt (g : Int) : GoString :=
  if g < 0 then '-' :: decimalDigits (g.natAbs + 1) g.natAbs
  else decimalDigits (g.natAbs + 1) g.natAbs

/-! ## scheduler_cache.go -/

/-- The Go struct `SchedulerBucket`. -/
structure SchedulerBucket where
  GroupID : Int
  Platform : GoString
  Mode : GoString
  deriving DecidableEq, Repr

/-- The zero value `SchedulerBucket{}`. -/
def SchedulerBucket.zero : SchedulerBucket := ⟨0, [], []⟩

/-- The method `SchedulerBucket.String`: `fmt.Sprintf("%d:%s:%s", GroupID, Platform, Mode)`. -/
def SchedulerBucket.String (b : SchedulerBucket) : GoString :=
  formatInt b.GroupID ++ ':' :: (b.Platform ++ ':' :: b.Mode)

/-- The function `ParseSchedulerBucket`. -/
def ParseSchedulerBucket (raw : GoString) : SchedulerBucket × Bool :=
  match Split raw with
  | [p0, p1, p2] =>
    match ParseInt p0 with
    | (groupID, none) =>
      if p1 = [] ∨ p2 = [] then (SchedulerBucket.zero, false)
      else (⟨groupID, p1, p2⟩, true)
    | (_, some _) => (SchedulerBucket.zero, false)
  | _ => (SchedulerBucket.zero, false)

/-- The number a digit string denotes when read after the value `n`. -/
def decVal (n : Nat) (s : GoString) : Nat :=
  s.foldl (fun a c => a * 10 + (c.toNat - '0'.toNat)) n

/-- Whether a group segment is written the way `%d` writes it: no plus sign, no
leading zero in front of another character, no zero right after the minus sign. -/
def canonicalDecimal (s : GoString) : Bool :=
  decide (s.head? ≠ some '+' ∧ (s.head? = some '0' → s.length = 1) ∧
    (s.head? = some '-' → s.tail.head? ≠ some '0'))

/-! ## Go maps, `int64` arithmetic and `float64` expressions -/

/-- A Go map, as the list of its entries; a key occurs in at most one entry of a map
built with `mapSet`. -/
abbrev GoMap (K V : Type) := List (K × V)

/-- The lookup `m[k]` with its `ok` flag: `none` when the key is absent. -/
def mapGet {K V : Type} [DecidableEq K] : GoMap K V → K → Option V
  | [], _ => none
  | (k', v) :: rest, k => if k' = k then some v else mapGet rest k

/-- The assignment `m[k] = v`: replaces the entry of `k` or adds one. -/
def mapSet {K V : Type} [DecidableEq K] : GoMap K V → K → V → GoMap K V
  | [], k, v => [(k, v)]
  | (k', v') :: rest, k, v =>
    if k' = k then (k, v) :: rest else (k', v') :: mapSet rest k v

/-- The value of an `int64` computation whose exact result is `x`: two's complement
wrap-around. -/
def wrap64 (x : Int) : Int := (x + 2 ^ 63) % 2 ^ 64 - 2 ^ 63

/-- A `float64` value, represented by the expression that computes it; the number it stands
for is `F64.value`.  The constructor `zero` is the zero value of a field that was never
assigned. -/
inductive F64 where
  | zero
  | lit100
  | ofInt64 (i : Int)
  | div (a b : F64)
  | mul (a b : F64)
  deriving DecidableEq, Repr

/-- The expression `float64(inUse) / float64(maxCap) * 100`. -/
def loadPercentage (inUse maxCap : Int) : F64 :=
  F64.mul (F64.div (F64.ofInt64 inUse) (F64.ofInt64 maxCap)) F64.lit100

/-! ## ops_concurrency.go: data -/

/-- Modelled from the spec: the declaration of `Group` is not part of the source tree; these
are the fields that `ops_concurrency.go` reads. -/
structure Group where
  ID : Int
  Name : GoString
  Platform : GoString
  deriving DecidableEq, Repr

/-- Modelled from the spec: the declaration of `Account` is not part of the source tree; these
are the fields that `ops_concurrency.go` reads.  `Groups` is a slice of pointers, `none`
being the nil pointer. -/
structure Account where
  ID : Int
  Name : GoString
  Platform : GoString
  Concurrency : Int
  Groups : List (Option Group)
  deriving DecidableEq, Repr

/-- Modelled from the spec: the declaration of `AccountWithConcurrency` is not part of the
source tree; an entry of the batch handed to `GetAccountsLoadBatch`. -/
structure AccountWithConcurrency where
  ID : Int
  MaxConcurrency : Int
  deriving DecidableEq, Repr

/-- Modelled from the spec: the declaration of `AccountLoadInfo` is not part of the source
tree; "`CurrentConcurrency` (in-flight count) and `WaitingCount` (requests queued for a
slot) per account". -/
structure AccountLoadInfo where
  CurrentConcurrency : Int
  WaitingCount : Int
  deriving DecidableEq, Repr

/-- Modelled from the spec: the declaration of `PlatformConcurrencyInfo` is not part of the
source tree; the fields that `GetConcurrencyStats` writes. -/
structure PlatformConcurrencyInfo where
  Platform : GoString
  CurrentInUse : Int
  MaxCapacity : Int
  LoadPercentage : F64
  WaitingInQueue : Int
  deriving DecidableEq, Repr

/-- Modelled from the spec: the declaration of `GroupConcurrencyInfo` is not part of the
source tree; the fields that `GetConcurrencyStats` writes. -/
structure GroupConcurrencyInfo where
  GroupID : Int
  GroupName : GoString
  Platform : GoString
  CurrentInUse : Int
  MaxCapacity : Int
  LoadPercentage : F64
  WaitingInQueue : Int
  deriving DecidableEq, Repr

/-- Modelled from the spec: the declaration of `AccountConcurrencyInfo` is not part of the
source tree; the fields that `GetConcurrencyStats` writes. -/
structure AccountConcurrencyInfo where
  AccountID : Int
  AccountName : GoString
  Platform : GoString
  GroupID : Int
  GroupName : GoString
  CurrentInUse : Int
  MaxCapacity : Int
  LoadPercentage : F64
  WaitingInQueue : Int
  deriving DecidableEq, Repr

/-- A Go `error` value, by its message. -/
abbrev GoError := GoString

/-- Modelled from the spec: `ConcurrencyService.GetAccountsLoadBatch` is not part of the
source tree: "`GetAccountsLoadBatch(accounts-with-capacity) -> map[AccountID]*AccountLoadInfo`",
which may fail.  The first argument is the number of calls made before this one in the same
invocation, so that the answers may differ from call to call; a `none` value is a nil
pointer. -/
abbrev LoadBatchService :=
  Nat → List AccountWithConcurrency → Except GoError (GoMap Int (Option AccountLoadInfo))

/-- The constant `opsConcurrencyBatchChunkSize`. -/
def opsConcurrencyBatchChunkSize : Nat := 200

/-! ## ops_concurrency.go: `getAccountsLoadMapBestEffort` -/

/-- The body of the de-duplication loop: `unique[acc.ID]` keeps the largest `Concurrency`
seen for a positive id. -/
def uniqueStep (unique : GoMap Int Int) (acc : Account) : GoMap Int Int :=
  if acc.ID ≤ 0 then unique
  else
    match mapGet unique acc.ID with
    | none => mapSet unique acc.ID acc.Concurrency
    | some prev => if acc.Concurrency > prev then mapSet unique acc.ID acc.Concurrency else unique

/-- The slice `batch`: one entry per entry of `unique`, in the order in which `range`
visits the map.  Go leaves that order unspecified; `order` is the order of this run. -/
def buildBatch (order : GoMap Int Int → GoMap Int Int) (accounts : List Account) :
    List AccountWithConcurrency :=
  (order (accounts.foldl uniqueStep [])).map (fun e => ⟨e.1, e.2⟩)

/-- The map returned by `getAccountsLoadMapBestEffort`, together with the arguments of the
calls it made to `GetAccountsLoadBatch`, in order. -/
structure LoadResult where
  out : GoMap Int (Option AccountLoadInfo)
  calls : List (List AccountWithConcurrency)
  deriving DecidableEq, Repr

/-- The loop `for i := 0; i < len(batch); i += opsConcurrencyBatchChunkSize`: `rest` is
`batch[i:]`, the chunk `batch[i:end]` is its first 200 entries.  A failed call is skipped,
the entries of a successful one are copied into `out`.  The first argument bounds the number
of iterations. -/
def loadLoop (svc : LoadBatchService) : Nat → List AccountWithConcurrency → LoadResult → LoadResult
  | 0, _, r => r
  | fuel + 1, rest, r =>
    if rest = [] then r
    else
      let chunk := rest.take opsConcurrencyBatchChunkSize
      match svc r.calls.length chunk with
      | Except.error _ =>
        loadLoop svc fuel (rest.drop opsConcurrencyBatchChunkSize)
          { out := r.out, calls := r.calls ++ [chunk] }
      | Except.ok part =>
        loadLoop svc fuel (rest.drop opsConcurrencyBatchChunkSize)
          { out := part.foldl (fun o e => mapSet o e.1 e.2) r.out, calls := r.calls ++ [chunk] }

/-- The method `getAccountsLoadMapBestEffort`.  `svc = none` stands for a nil receiver or a
nil `concurrencyService`.  The Go function returns the field `out`. -/
def getAccountsLoadMapBestEffort (svc : Option LoadBatchService)
    (order : GoMap Int Int → GoMap Int Int) (accounts : List Account) : LoadResult :=
  match svc with
  | none => { out := [], calls := [] }
  | some f =>
    if accounts = [] then { out := [], calls := [] }
    else
      loadLoop f (buildBatch order accounts).length (buildBatch order accounts)
        { out := [], calls := [] }

/-! ## ops_concurrency.go: `GetConcurrencyStats` -/

/-- The group filter when it is in force: `groupIDFilter != nil && *groupIDFilter > 0`. -/
def activeFilter (groupIDFilter : Option Int) : Option Int :=
  match groupIDFilter with
  | some f => if f > 0 then some f else none
  | none => none

/-- The inner loop that looks for `matchedGroup`: the first non-nil group with a positive
id equal to the filter. -/
def findMatchedGroup (filter : Int) : List (Option Group) → Option Group
  | [] => none
  | none :: rest => findMatchedGroup filter rest
  | some grp :: rest =>
    if grp.ID ≤ 0 then findMatchedGroup filter rest
    else if grp.ID = filter then some grp
    else findMatchedGroup filter rest

/-- The three maps built by `GetConcurrencyStats`. -/
structure StatsMaps where
  platform : GoMap GoString PlatformConcurrencyInfo
  group : GoMap Int GroupConcurrencyInfo
  account : GoMap Int AccountConcurrencyInfo
  deriving DecidableEq, Repr

/-- The record `info` that the account-level view stores for `acc`: the display group is the
matched group, or else the first group if it is not nil; the percentage is set only for a
positive capacity. -/
def newAccountInfo (acc : Account) (matchedGroup : Option Group) (currentInUse waiting : Int) :
    AccountConcurrencyInfo :=
  let display : Int × GoString :=
    match matchedGroup with
    | some g => (g.ID, g.Name)
    | none =>
      match acc.Groups with
      | some g0 :: _ => (g0.ID, g0.Name)
      | _ => (0, [])
  { AccountID := acc.ID
    AccountName := acc.Name
    Platform := acc.Platform
    GroupID := display.1
    GroupName := display.2
    CurrentInUse := currentInUse
    MaxCapacity := acc.Concurrency
    LoadPercentage :=
      if acc.Concurrency > 0 then loadPercentage currentInUse acc.Concurrency else F64.zero
    WaitingInQueue := waiting }

/-- The account-level view: `account[acc.ID]` is written only if the id has no entry yet. -/
def accountStep (account : GoMap Int AccountConcurrencyInfo) (acc : Account)
    (matchedGroup : Option Group) (currentInUse waiting : Int) :
    GoMap Int AccountConcurrencyInfo :=
  match mapGet account acc.ID with
  | some _ => account
  | none => mapSet account acc.ID (newAccountInfo acc matchedGroup currentInUse waiting)

/-- Platform aggregation: the entry of `acc.Platform` is created on first use and the three
counters are added to it in `int64` arithmetic. -/
def platformStep (platform : GoMap GoString PlatformConcurrencyInfo) (acc : Account)
    (currentInUse waiting : Int) : GoMap GoString PlatformConcurrencyInfo :=
  if acc.Platform = [] then platform
  else
    let p : PlatformConcurrencyInfo :=
      match mapGet platform acc.Platform with
      | some p => p
      | none =>
        { Platform := acc.Platform, CurrentInUse := 0, MaxCapacity := 0,
          LoadPercentage := F64.zero, WaitingInQueue := 0 }
    mapSet platform acc.Platform
      { p with
        MaxCapacity := wrap64 (p.MaxCapacity + acc.Concurrency)
        CurrentInUse := wrap64 (p.CurrentInUse + currentInUse)
        WaitingInQueue := wrap64 (p.WaitingInQueue + waiting) }

/-- Group aggregation for one group `grp` of the account: the entry is created on first use,
an empty name is filled in, a platform label that disagrees with the group is blanked, and
the three counters are added in `int64` arithmetic.  The source has this block twice, once
for `matchedGroup` and once inside the loop over `acc.Groups`. -/
def addToGroup (group : GoMap Int GroupConcurrencyInfo) (grp : Group) (concurrency : Int)
    (currentInUse waiting : Int) : GoMap Int GroupConcurrencyInfo :=
  let g : GroupConcurrencyInfo :=
    match mapGet group grp.ID with
    | some g => g
    | none =>
      { GroupID := grp.ID, GroupName := grp.Name, Platform := grp.Platform,
        CurrentInUse := 0, MaxCapacity := 0, LoadPercentage := F64.zero, WaitingInQueue := 0 }
  let name := if g.GroupName = [] ∧ grp.Name ≠ [] then grp.Name else g.GroupName
  let label :=
    if g.Platform ≠ [] ∧ grp.Platform ≠ [] ∧ g.Platform ≠ grp.Platform then [] else g.Platform
  mapSet group grp.ID
    { g with
      GroupName := name
      Platform := label
      MaxCapacity := wrap64 (g.MaxCapacity + concurrency)
      CurrentInUse := wrap64 (g.CurrentInUse + currentInUse)
      WaitingInQueue := wrap64 (g.WaitingInQueue + waiting) }

/-- The loop `for _, grp := range acc.Groups` of the unfiltered case: nil groups and groups
with a non-positive id are skipped. -/
def groupsLoop (concurrency currentInUse waiting : Int) :
    List (Option Group) → GoMap Int GroupConcurrencyInfo → GoMap Int GroupConcurrencyInfo
  | [], group => group
  | none :: rest, group => groupsLoop concurrency currentInUse waiting rest group
  | some grp :: rest, group =>
    if grp.ID ≤ 0 then groupsLoop concurrency currentInUse waiting rest group
    else
      groupsLoop concurrency currentInUse waiting rest
        (addToGroup group grp concurrency currentInUse waiting)

/-- Group aggregation for one account. -/
def groupStep (group : GoMap Int GroupConcurrencyInfo) (acc : Account)
    (matchedGroup : Option Group) (currentInUse waiting : Int) :
    GoMap Int GroupConcurrencyInfo :=
  match matchedGroup with
  | some grp => addToGroup group grp acc.Concurrency currentInUse waiting
  | none => groupsLoop acc.Concurrency currentInUse waiting acc.Groups group

/-- The pair `(currentInUse, waiting)` read from `loadMap[acc.ID]`: zero when the id has no
entry or a nil one. -/
def loadOf (loadMap : GoMap Int (Option AccountLoadInfo)) (id : Int) : Int × Int :=
  match mapGet loadMap id with
  | some (some load) => (load.CurrentConcurrency, load.WaitingCount)
  | _ => (0, 0)

/-- The variable `matchedGroup` of the loop body: the group found by the inner loop when the
filter is in force, nil otherwise. -/
def matchedGroupOf (groupIDFilter : Option Int) (acc : Account) : Option Group :=
  match activeFilter groupIDFilter with
  | some f => findMatchedGroup f acc.Groups
  | none => none

/-- The body of the loop `for _, acc := range accounts` of `GetConcurrencyStats`. -/
def statsStep (groupIDFilter : Option Int) (loadMap : GoMap Int (Option AccountLoadInfo))
    (st : StatsMaps) (acc : Account) : StatsMaps :=
  if acc.ID ≤ 0 then st
  else if (activeFilter groupIDFilter).isSome ∧ matchedGroupOf groupIDFilter acc = none then st
  else
    let currentInUse := (loadOf loadMap acc.ID).1
    let waiting := (loadOf loadMap acc.ID).2
    { account := accountStep st.account acc (matchedGroupOf groupIDFilter acc) currentInUse waiting
      platform := platformStep st.platform acc currentInUse waiting
      group := groupStep st.group acc (matchedGroupOf groupIDFilter acc) currentInUse waiting }

/-- The closing loop over the platform map: the percentage is recomputed from the sums. -/
def finishPlatform (info : PlatformConcurrencyInfo) : PlatformConcurrencyInfo :=
  if info.MaxCapacity > 0 then
    { info with LoadPercentage := loadPercentage info.CurrentInUse info.MaxCapacity }
  else info

/-- The closing loop over the group map: the percentage is recomputed from the sums. -/
def finishGroup (info : GroupConcurrencyInfo) : GroupConcurrencyInfo :=
  if info.MaxCapacity > 0 then
    { info with LoadPercentage := loadPercentage info.CurrentInUse info.MaxCapacity }
  else info

/-- What `GetConcurrencyStats` returns when it returns no error: the three maps and the
collection time. -/
structure ConcurrencyStats where
  platform : GoMap GoString PlatformConcurrencyInfo
  group : GoMap Int GroupConcurrencyInfo
  account : GoMap Int AccountConcurrencyInfo
  collectedAt : Nat
  deriving DecidableEq, Repr

/-- The method `GetConcurrencyStats`.  `monitoring` is what `RequireMonitoringEnabled`
returned (`none` for nil), `listed` what `listAllAccountsForOps` returned for the platform
filter, and `now` the value of `time.Now()`. -/
def GetConcurrencyStats (monitoring : Option GoError) (listed : Except GoError (List Account))
    (now : Nat) (svc : Option LoadBatchService) (order : GoMap Int Int → GoMap Int Int)
    (groupIDFilter : Option Int) : Except GoError ConcurrencyStats :=
  match monitoring with
  | some err => Except.error err
  | none =>
    match listed with
    | Except.error err => Except.error err
    | Except.ok accounts =>
      let loadMap := (getAccountsLoadMapBestEffort svc order accounts).out
      let st := accounts.foldl (statsStep groupIDFilter loadMap)
        { platform := [], group := [], account := [] }
      Except.ok
        { platform := st.platform.map (fun e => (e.1, finishPlatform e.2))
          group := st.group.map (fun e => (e.1, finishGroup e.2))
          account := st.account
          collectedAt := now }

/-! ## Notions used to state the properties of `GetConcurrencyStats` -/

/-- Whether the loop body processes the account: a positive id and, when the group filter is
in force, a matched group. -/
def processed (groupIDFilter : Option Int) (acc : Account) : Bool :=
  decide (0 < acc.ID) &&
    !((activeFilter groupIDFilter).isSome && decide (matchedGroupOf groupIDFilter acc = none))

/-- The groups of the account that take part in group aggregation: the matched group when the
filter is in force, otherwise every non-nil group with a positive id, in order. -/
def groupRefs (groupIDFilter : Option Int) (acc : Account) : List Group :=
  match activeFilter groupIDFilter with
  | some f => (findMatchedGroup f acc.Groups).toList
  | none =>
    acc.Groups.filterMap
      (fun og => match og with
        | some g => if g.ID ≤ 0 then none else some g
        | none => none)

/-- Whether the account has a (non-nil) group with id `gid` among its groups. -/
def inGroup (acc : Account) (gid : Int) : Bool :=
  acc.Groups.any (fun og => match og with
    | some g => decide (g.ID = gid)
    | none => false)

/-- The ids of the non-nil groups of the account, in order. -/
def groupIDs (acc : Account) : List Int :=
  acc.Groups.filterMap (fun og => og.map (fun g => g.ID))

/-- The exact sum of an integer quantity over a list of accounts. -/
def sumOver (f : Account → Int) (l : List Account) : Int := (l.map f).sum

/-- The accounts that the loop adds to the totals of platform `p`, in order. -/
def platformMembers (groupIDFilter : Option Int) (p : GoString) (l : List Account) :
    List Account :=
  l.filter (fun acc => processed groupIDFilter acc && decide (acc.Platform = p))

/-- The additions that the loop makes to the group map, in order: a processed account is
added once for each of its `groupRefs`. -/
def groupFlat (groupIDFilter : Option Int) (l : List Account) : List (Group × Account) :=
  l.flatMap (fun acc =>
    if processed groupIDFilter acc = true then (groupRefs groupIDFilter acc).map (fun g => (g, acc))
    else [])

/-- The accounts that the loop adds to the totals of group `gid`, in order and with
repetition. -/
def groupMembers (groupIDFilter : Option Int) (gid : Int) (l : List Account) : List Account :=
  ((groupFlat groupIDFilter l).filter (fun ga => decide (ga.1.ID = gid))).map Prod.snd

/-- The platform label of the entry of group `gid` after one more addition, for the group
`g`: `label` is the label before the addition, `none` when the group has no entry yet. -/
def labelStep (gid : Int) (label : Option GoString) (g : Group) : Option GoString :=
  if g.ID = gid then
    match label with
    | none => some g.Platform
    | some p => if p ≠ [] ∧ g.Platform ≠ [] ∧ p ≠ g.Platform then some [] else some p
  else label

/-! ## Example data -/

/-- A load service that answers every call: each account asked about has three requests in
flight and one waiting. -/
def exampleService : LoadBatchService :=
  fun _ chunk => Except.ok (chunk.map (fun e => (e.ID, some ⟨3, 1⟩)))

/-- A load service whose every call fails. -/
def failingService : LoadBatchService :=
  fun _ _ => Except.error "store unreachable".toList

/-- The group 5 of platform `openai`. -/
def exampleGroup : Group := ⟨5, "g5".toList, "openai".toList⟩

/-- Account 7 listed twice, with capacities 10 and 20, an account without a valid id, and
account 9. -/
def exampleAccounts : List Account :=
  [⟨7, "a".toList, "openai".toList, 10, [some exampleGroup]⟩,
   ⟨7, "a".toList, "openai".toList, 20, [some exampleGroup]⟩,
   ⟨0, "z".toList, "openai".toList, 5, []⟩,
   ⟨9, "b".toList, "gemini".toList, 3, [none]⟩]

/-- Account A (id 1, capacity 10) and account B (id 2, capacity 5), both in group 5. -/
def abAccounts : List Account :=
  [⟨1, "A".toList, "openai".toList, 10, [some exampleGroup]⟩,
   ⟨2, "B".toList, "openai".toList, 5, [some exampleGroup]⟩]

/-- A load service under which account 1 has 3 requests in flight and every other account 5. -/
def abService : LoadBatchService :=
  fun _ chunk => Except.ok (chunk.map (fun e => (e.ID, some ⟨if e.ID = 1 then 3 else 5, 0⟩)))

/-- Two accounts that refer to group 5 under different platform labels, and a third one that
follows them. -/
def conflictAccounts : List Account :=
  [⟨1, "A".toList, "openai".toList, 10, [some ⟨5, "g5".toList, "openai".toList⟩]⟩,
   ⟨2, "B".toList, "gemini".toList, 5, [some ⟨5, "g5".toList, "gemini".toList⟩]⟩,
   ⟨3, "C".toList, "openai".toList, 1, [some ⟨5, "g5".toList, "openai".toList⟩]⟩]

/-- The range of a Go `int64`. -/
def isInt64 (g : Int) : Prop := -(2 : Int) ^ 63 ≤ g ∧ g < (2 : Int) ^ 63

instance (g : Int) : Decidable (isInt64 g) := by
  unfold isInt64
  infer_instance

/-! ## The shared store, as far as the counter scripts use it -/

/-- The removal of a key from a Go map, also used for a key of the store. -/
def mapDelete {K V : Type} [DecidableEq K] : GoMap K V → K → GoMap K V
  | [], _ => []
  | (k', v) :: rest, k => if k' = k then mapDelete rest k else (k', v) :: mapDelete rest k

/-- A counter key of the store: its integer value and the time (in milliseconds) at which it
expires, `none` for a key without a TTL. -/
structure RedisEntry where
  value : Int
  expireAt : Option Nat
  deriving DecidableEq, Repr

/-- The counter keys of the store. -/
abbrev RedisStore := GoMap GoString RedisEntry

/-- The entry that a command sees under the key at time `now`: a key whose expiry time has
been reached is absent. -/
def redisLive (store : RedisStore) (key : GoString) (now : Nat) : Option RedisEntry :=
  match mapGet store key with
  | none => none
  | some e =>
    match e.expireAt with
    | none => some e
    | some t => if now < t then some e else none

/-- The command `INCR key`: an absent key counts as 0 and is created without a TTL, the TTL of
an existing key is kept, and a value that would leave the signed 64-bit range is an error. -/
def redisINCR (store : RedisStore) (key : GoString) (now : Nat) : Except GoError Int × RedisStore :=
  match redisLive store key now with
  | none => (Except.ok 1, mapSet store key { value := 1, expireAt := none })
  | some e =>
    if e.value ≥ 2 ^ 63 - 1 then
      (Except.error "ERR increment or decrement would overflow".toList, store)
    else (Except.ok (e.value + 1), mapSet store key { value := e.value + 1, expireAt := e.expireAt })

/-- The command `PEXPIRE key ms`: 0 for an absent key; otherwise the key expires `ms`
milliseconds from now, at once (it is deleted) when `ms` is not positive. -/
def redisPEXPIRE (store : RedisStore) (key : GoString) (now : Nat) (ms : Int) : Int × RedisStore :=
  match redisLive store key now with
  | none => (0, store)
  | some e =>
    if ms ≤ 0 then (1, mapDelete store key)
    else (1, mapSet store key { value := e.value, expireAt := some (now + ms.toNat) })

/-- The command `EXPIRE key seconds`. -/
def redisEXPIRE (store : RedisStore) (key : GoString) (now : Nat) (seconds : Int) :
    Int × RedisStore :=
  redisPEXPIRE store key now (seconds * 1000)

/-- The command `PTTL key`: -2 for an absent key, -1 for a key without a TTL, otherwise the
milliseconds left. -/
def redisPTTL (store : RedisStore) (key : GoString) (now : Nat) : Int :=
  match redisLive store key now with
  | none => -2
  | some e =>
    match e.expireAt with
    | none => -1
    | some t => (t : Int) - (now : Int)

/-! ## timeout_counter_cache.go -/

/-- The constant `timeoutCounterPrefix`. -/
def timeoutCounterPrefix : GoString := "timeout_count:account:".toList

/-- The Lua script `timeoutCounterIncrScript`, run atomically at time `now` with `KEYS[1] = key`
and `ARGV[1] = ttl`: the count after `INCR`, and the store after the script.  An error of
`INCR` ends the script. -/
def timeoutCounterIncrScript (store : RedisStore) (key : GoString) (now : Nat) (ttl : Int) :
    Except GoError Int × RedisStore :=
  match redisINCR store key now with
  | (Except.error err, st) => (Except.error err, st)
  | (Except.ok count, st) =>
    if count = 1 then (Except.ok count, (redisEXPIRE st key now ttl).2)
    else (Except.ok count, st)

/-- The local `ttlSeconds` of `IncrementTimeoutCount`: `windowMinutes * 60` in `int`
arithmetic, raised to 60 when it is below. -/
def timeoutTTLSeconds (windowMinutes : Int) : Int :=
  if wrap64 (windowMinutes * 60) < 60 then 60 else wrap64 (windowMinutes * 60)

/-- The key of the counter of an account. -/
def timeoutCounterKey (accountID : Int) : GoString :=
  timeoutCounterPrefix ++ formatInt accountID

/-- The method `timeoutCounterCache.IncrementTimeoutCount`, called at time `now`: the pair
`(result, err)` and the store afterwards.  `reachable = false` stands for a store that cannot
be reached, in which case the script does not run. -/
def IncrementTimeoutCount (reachable : Bool) (store : RedisStore) (now : Nat) (accountID : Int)
    (windowMinutes : Int) : (Int × Option GoError) × RedisStore :=
  if reachable = false then
    ((0, some "increment timeout count: connection refused".toList), store)
  else
    match timeoutCounterIncrScript store (timeoutCounterKey accountID) now
        (timeoutTTLSeconds windowMinutes) with
    | (Except.error err, st) => ((0, some ("increment timeout count: ".toList ++ err)), st)
    | (Except.ok result, st) => ((result, none), st)

/-- A series of calls of `IncrementTimeoutCount` for one account, each given by its time and
its `windowMinutes`, all reaching the store: the pairs returned, in order, and the store after
the last call. -/
def runIncrements (accountID : Int) :
    RedisStore → List (Nat × Int) → List (Int × Option GoError) × RedisStore
  | store, [] => ([], store)
  | store, (now, windowMinutes) :: rest =>
    ((IncrementTimeoutCount true store now accountID windowMinutes).1 ::
        (runIncrements accountID (IncrementTimeoutCount true store now accountID windowMinutes).2
          rest).1,
      (runIncrements accountID (IncrementTimeoutCount true store now accountID windowMinutes).2
        rest).2)

/-! ## rate_limiter.go -/

/-- The constant `RateLimitFailOpen` of the integer type `RateLimitFailureMode`. -/
def RateLimitFailOpen : Int := 0

/-- The constant `RateLimitFailClose`. -/
def RateLimitFailClose : Int := 1

/-- The Lua script `rateLimitScript`, run atomically at time `now` with `KEYS[1] = key` and
`ARGV[1] = arg`: the pair `{current, repaired}` and the store after the script.  An error of
`INCR` ends the script. -/
def rateLimitScript (store : RedisStore) (key : GoString) (now : Nat) (arg : Int) :
    Except GoError (Int × Int) × RedisStore :=
  match redisINCR store key now with
  | (Except.error err, st) => (Except.error err, st)
  | (Except.ok current, st) =>
    if current = 1 then (Except.ok (current, 0), (redisPEXPIRE st key now arg).2)
    else if redisPTTL st key now = -1 then
      (Except.ok (current, 1), (redisPEXPIRE st key now arg).2)
    else (Except.ok (current, 0), st)

/-- The function `windowTTLMillis`: the window (a `time.Duration`, in nanoseconds) in whole
milliseconds, at least 1. -/
def windowTTLMillis (window : Int) : Int :=
  if Int.tdiv window 1000000 < 1 then 1 else Int.tdiv window 1000000

/-- The function value `rateLimitRun` against the store: `(count, repaired, err)` and the
store afterwards.  `reachable = false` stands for a store that cannot be reached. -/
def rateLimitRun (reachable : Bool) (store : RedisStore) (now : Nat) (key : GoString)
    (windowMillis : Int) : (Int × Bool × Option GoError) × RedisStore :=
  if reachable = false then ((0, false, some "dial tcp: connection refused".toList), store)
  else
    match rateLimitScript store key now windowMillis with
    | (Except.error err, st) => ((0, false, some err), st)
    | (Except.ok (count, repaired), st) => ((count, decide (repaired = 1), none), st)

/-- What the middleware does with a request. -/
inductive HandlerOutcome where
  | next
  | abort (status : Nat)
  deriving DecidableEq, Repr

/-- The constant `http.StatusTooManyRequests`. -/
def StatusTooManyRequests : Nat := 429

/-- The handler returned by `RateLimiter.LimitWithOptions` for a request from `ip`.  `run` is
the function value `rateLimitRun` (which tests replace), applied to the key and the window in
milliseconds; `keyPrefix` is the field `prefix` of the limiter. -/
def LimitWithOptions (run : GoString → Int → Int × Bool × Option GoError)
    (keyPrefix key : GoString) (limit : Int) (window : Int) (optsFailureMode : Int)
    (ip : GoString) : HandlerOutcome :=
  let failureMode :=
    if optsFailureMode ≠ RateLimitFailClose then RateLimitFailOpen else optsFailureMode
  let redisKey := keyPrefix ++ key ++ ":".toList ++ ip
  match run redisKey (windowTTLMillis window) with
  | (_, _, some _) =>
    if failureMode = RateLimitFailClose then HandlerOutcome.abort StatusTooManyRequests
    else HandlerOutcome.next
  | (count, _, none) =>
    if count > limit then HandlerOutcome.abort StatusTooManyRequests else HandlerOutcome.next

/-- The method `RateLimiter.Limit`: `LimitWithOptions` with the zero value of the options. -/
def Limit (run : GoString → Int → Int × Bool × Option GoError)
    (keyPrefix key : GoString) (limit : Int) (window : Int) (ip : GoString) : HandlerOutcome :=
  LimitWithOptions run keyPrefix key limit window 0 ip

/-! ## Strings: white space, length in bytes, substrings -/

/-- Go's `unicode.IsSpace`: the white space characters of Unicode. -/
def isSpace (c : Char) : Bool :=
  (decide (9 ≤ c.toNat) && decide (c.toNat ≤ 13)) || decide (c.toNat = 32) ||
    decide (c.toNat = 0x85) || decide (c.toNat = 0xA0) || decide (c.toNat = 0x1680) ||
    (decide (0x2000 ≤ c.toNat) && decide (c.toNat ≤ 0x200A)) || decide (c.toNat = 0x2028) ||
    decide (c.toNat = 0x2029) || decide (c.toNat = 0x202F) || decide (c.toNat = 0x205F) ||
    decide (c.toNat = 0x3000)

/-- Go's `strings.TrimSpace`: the string without its leading and trailing white space. -/
def TrimSpace (s : GoString) : GoString :=
  (s.dropWhile isSpace).rdropWhile isSpace

/-- Go's `len(s)`: the number of bytes of the UTF-8 encoding of the string. -/
def byteLen (s : GoString) : Nat :=
  (s.map Char.utf8Size).sum

/-- Go's `strings.Contains(s, sub)`: whether `sub` occurs in `s`. -/
def Contains (sub : GoString) : GoString → Bool
  | [] => sub.isEmpty
  | c :: cs => sub.isPrefixOf (c :: cs) || Contains sub cs

/-- Go's `strings.ContainsAny(s, chars)`: whether some character of `chars` occurs in `s`. -/
def ContainsAny (s chars : GoString) : Bool :=
  s.any (fun c => chars.contains c)

/-- Whether the character `c` is equal to the ASCII character `d` under Unicode simple case
folding: the two cases of a letter, and besides them only the Kelvin sign for `k` and the long
s for `s`. -/
def foldsToASCII (c d : Char) : Bool :=
  decide (c = d) ||
    (decide ('A' ≤ d) && decide (d ≤ 'Z') && decide (c.toNat = d.toNat + 32)) ||
    (decide ('a' ≤ d) && decide (d ≤ 'z') && decide (c.toNat + 32 = d.toNat)) ||
    ((decide (d = 'k') || decide (d = 'K')) && decide (c.toNat = 0x212A)) ||
    ((decide (d = 's') || decide (d = 'S')) && decide (c.toNat = 0x17F))

/-- Go's `strings.EqualFold(s, t)` for a string `t` of ASCII characters, as in the calls of
this program: equality of the two strings under Unicode simple case folding. -/
def EqualFold : GoString → GoString → Bool
  | [], [] => true
  | c :: cs, d :: ds => foldsToASCII c d && EqualFold cs ds
  | _, _ => false

/-! ## Dynamic values (`any`) of a decoded JSON request -/

/-- A Go value of type `any` in a decoded request body: nil, a string, a `[]any`, a
`map[string]any`, or a value of any other type (a number, a boolean, ...). -/
inductive GoAny where
  | null
  | str (s : GoString)
  | arr (items : List GoAny)
  | obj (fields : List (GoString × GoAny))
  | other

instance : Inhabited GoAny := ⟨GoAny.null⟩

/-- The type assertion `v.(string)`, `none` when it fails. -/
def asString : GoAny → Option GoString
  | GoAny.str s => some s
  | _ => none

/-- The type assertion `v.([]any)`, `none` when it fails. -/
def asArray : GoAny → Option (List GoAny)
  | GoAny.arr items => some items
  | _ => none

/-- The type assertion `v.(map[string]any)`, `none` when it fails. -/
def asObject : GoAny → Option (GoMap GoString GoAny)
  | GoAny.obj fields => some fields
  | _ => none

/-- The value `m[k]` of a `map[string]any`: nil for an absent key. -/
def mapIndex (m : GoMap GoString GoAny) (k : GoString) : GoAny :=
  match mapGet m k with
  | some v => v
  | none => GoAny.null

/-- The statement `s, _ := m[k].(string)`: the empty string when the value is not a string. -/
def stringField (m : GoMap GoString GoAny) (k : GoString) : GoString :=
  match asString (mapIndex m k) with
  | some s => s
  | none => []

/-! ## openai_tool_continuation.go -/

/-- The function `hasNonEmptyString`. -/
def hasNonEmptyString (value : GoAny) : Bool :=
  match asString value with
  | some stringValue => decide (TrimSpace stringValue ≠ [])
  | none => false

/-- The function `hasToolsSignal`. -/
def hasToolsSignal (reqBody : GoMap GoString GoAny) : Bool :=
  match mapGet reqBody "tools".toList with
  | none => false
  | some GoAny.null => false
  | some raw =>
    match asArray raw with
    | some tools => decide (tools.length > 0)
    | none => false

/-- The function `hasToolChoiceSignal`. -/
def hasToolChoiceSignal (reqBody : GoMap GoString GoAny) : Bool :=
  match mapGet reqBody "tool_choice".toList with
  | none => false
  | some GoAny.null => false
  | some (GoAny.str value) => decide (TrimSpace value ≠ [])
  | some (GoAny.obj value) => decide (value.length > 0)
  | some _ => false

/-- The loop of `inputHasType` over the items of `input`. -/
def inputHasTypeLoop (want : GoString) : List GoAny → Bool
  | [] => false
  | item :: rest =>
    match asObject item with
    | none => inputHasTypeLoop want rest
    | some itemMap =>
      if stringField itemMap "type".toList = want then true else inputHasTypeLoop want rest

/-- The function `inputHasType`. -/
def inputHasType (reqBody : GoMap GoString GoAny) (want : GoString) : Bool :=
  match asArray (mapIndex reqBody "input".toList) with
  | none => false
  | some input => inputHasTypeLoop want input

/-- The function `NeedsToolContinuation`; `none` is the nil map. -/
def NeedsToolContinuation (reqBody : Option (GoMap GoString GoAny)) : Bool :=
  match reqBody with
  | none => false
  | some body =>
    if hasNonEmptyString (mapIndex body "previous_response_id".toList) then true
    else if hasToolsSignal body then true
    else if hasToolChoiceSignal body then true
    else if inputHasType body "function_call_output".toList then true
    else if inputHasType body "item_reference".toList then true
    else false

/-- The body of the loop of `FunctionCallOutputCallIDs`: the set `ids` after the item. -/
def callIDStep (ids : GoMap GoString Unit) (item : GoAny) : GoMap GoString Unit :=
  match asObject item with
  | none => ids
  | some itemMap =>
    if stringField itemMap "type".toList ≠ "function_call_output".toList then ids
    else
      match asString (mapIndex itemMap "call_id".toList) with
      | some callID => if TrimSpace callID ≠ [] then mapSet ids callID () else ids
      | none => ids

/-- The function `FunctionCallOutputCallIDs`; the result `none` is the nil slice.  The slice is
filled in the order in which `range` visits the set `ids`, which is `order`. -/
def FunctionCallOutputCallIDs (order : GoMap GoString Unit → GoMap GoString Unit)
    (reqBody : Option (GoMap GoString GoAny)) : Option (List GoString) :=
  match reqBody with
  | none => none
  | some body =>
    match asArray (mapIndex body "input".toList) with
    | none => none
    | some input =>
      if (input.foldl callIDStep []).length = 0 then none
      else some ((order (input.foldl callIDStep [])).map Prod.fst)

/-- The body of the first loop of `HasItemReferenceForCallIDs`: the set `referenceIDs` after
the item. -/
def referenceIDStep (referenceIDs : GoMap GoString Unit) (item : GoAny) : GoMap GoString Unit :=
  match asObject item with
  | none => referenceIDs
  | some itemMap =>
    if stringField itemMap "type".toList ≠ "item_reference".toList then referenceIDs
    else if TrimSpace (stringField itemMap "id".toList) = [] then referenceIDs
    else mapSet referenceIDs (TrimSpace (stringField itemMap "id".toList)) ()

/-- The function `HasItemReferenceForCallIDs`; a nil slice `callIDs` is the empty list. -/
def HasItemReferenceForCallIDs (reqBody : Option (GoMap GoString GoAny))
    (callIDs : List GoString) : Bool :=
  match reqBody with
  | none => false
  | some body =>
    if callIDs.length = 0 then false
    else
      match asArray (mapIndex body "input".toList) with
      | none => false
      | some input =>
        if (input.foldl referenceIDStep []).length = 0 then false
        else callIDs.all (fun callID => (mapGet (input.foldl referenceIDStep []) callID).isSome)

/-! ## auth_linuxdo_oauth.go -/

/-- The constant `linuxDoOAuthMaxRedirectLen`. -/
def linuxDoOAuthMaxRedirectLen : Nat := 2048

/-- The constant `linuxDoOAuthMaxSubjectLen`. -/
def linuxDoOAuthMaxSubjectLen : Nat := 64 - byteLen "linuxdo-".toList

/-- Modelled from the spec: the constant `service.LinuxDoConnectSyntheticEmailDomain` is not
part of the source tree; its value is the one the tests of the handler expect. -/
def LinuxDoConnectSyntheticEmailDomain : GoString := "@linuxdo-connect.invalid".toList

/-- The function `sanitizeFrontendRedirectPath`. -/
def sanitizeFrontendRedirectPath (path : GoString) : GoString :=
  if TrimSpace path = [] then []
  else if byteLen (TrimSpace path) > linuxDoOAuthMaxRedirectLen then []
  else if !("/".toList.isPrefixOf (TrimSpace path)) then []
  else if "//".toList.isPrefixOf (TrimSpace path) then []
  else if Contains "://".toList (TrimSpace path) then []
  else if ContainsAny (TrimSpace path) "\r\n".toList then []
  else TrimSpace path

/-- The function `buildBearerAuthorization`. -/
def buildBearerAuthorization (tokenType accessToken : GoString) : Except GoError GoString :=
  if !(EqualFold (if TrimSpace tokenType = [] then "Bearer".toList else TrimSpace tokenType)
      "Bearer".toList) then
    Except.error ("unsupported token_type: ".toList ++
      (if TrimSpace tokenType = [] then "Bearer".toList else TrimSpace tokenType))
  else if TrimSpace accessToken = [] then Except.error "missing access_token".toList
  else if ContainsAny (TrimSpace accessToken) " \t\r\n".toList then
    Except.error "access_token contains whitespace".toList
  else Except.ok ("Bearer ".toList ++ TrimSpace accessToken)

/-- The loop of `isSafeLinuxDoSubject` over the characters of the subject. -/
def safeSubjectLoop : GoString → Bool
  | [] => true
  | r :: rest =>
    if '0' ≤ r ∧ r ≤ '9' then safeSubjectLoop rest
    else if 'a' ≤ r ∧ r ≤ 'z' then safeSubjectLoop rest
    else if 'A' ≤ r ∧ r ≤ 'Z' then safeSubjectLoop rest
    else if r = '_' ∨ r = '-' then safeSubjectLoop rest
    else false

/-- The function `isSafeLinuxDoSubject`. -/
def isSafeLinuxDoSubject (subject : GoString) : Bool :=
  if TrimSpace subject = [] ∨ byteLen (TrimSpace subject) > linuxDoOAuthMaxSubjectLen then false
  else safeSubjectLoop (TrimSpace subject)

/-- The function `linuxDoSyntheticEmail`. -/
def linuxDoSyntheticEmail (subject : GoString) : GoString :=
  if TrimSpace subject = [] then []
  else "linuxdo-".toList ++ TrimSpace subject ++ LinuxDoConnectSyntheticEmailDomain

/-- The function `firstNonEmpty`. -/
def firstNonEmpty : List GoString → GoString
  | [] => []
  | v :: rest => if TrimSpace v ≠ [] then TrimSpace v else firstNonEmpty rest

/-- The function `linuxDoParseUserInfo`, from the values that the `getGJSON` calls return for
the e-mail paths, the user name paths and the id paths of the body, each in the order of the
calls: `(email, username, subject)` or the error. -/
def linuxDoParseUserInfo (emails usernames subjects : List GoString) :
    Except GoError (GoString × GoString × GoString) :=
  if TrimSpace (firstNonEmpty subjects) = [] then
    Except.error "userinfo missing id field".toList
  else if !(isSafeLinuxDoSubject (TrimSpace (firstNonEmpty subjects))) then
    Except.error "userinfo returned invalid id field".toList
  else
    Except.ok
      (if TrimSpace (firstNonEmpty emails) = [] then
          linuxDoSyntheticEmail (TrimSpace (firstNonEmpty subjects))
        else TrimSpace (firstNonEmpty emails),
        if TrimSpace (firstNonEmpty usernames) = [] then
          "linuxdo_".toList ++ TrimSpace (firstNonEmpty subjects)
        else TrimSpace (firstNonEmpty usernames),
        TrimSpace (firstNonEmpty subjects))

/-! ## Notions used to state the properties of the tool continuation checks -/

/-- The string `id` is the `call_id` of a `function_call_output` item of `items`, and is not
blank. -/
def isCallIDOf (items : List GoAny) (id : GoString) : Prop :=
  ∃ fields, GoAny.obj fields ∈ items ∧
    mapGet fields "type".toList = some (GoAny.str "function_call_output".toList) ∧
    mapGet fields "call_id".toList = some (GoAny.str id) ∧ TrimSpace id ≠ []

/-- The string `id` is the `id` of an `item_reference` item of `items`. -/
def isItemReferenceID (items : List GoAny) (id : GoString) : Prop :=
  ∃ fields, GoAny.obj fields ∈ items ∧
    mapGet fields "type".toList = some (GoAny.str "item_reference".toList) ∧
    mapGet fields "id".toList = some (GoAny.str id)

/-- The string `id` is not empty and is the `id`, with its leading and trailing white space
removed, of an `item_reference` item of `items`. -/
def isTrimmedItemReferenceID (items : List GoAny) (id : GoString) : Prop :=
  ∃ fields raw, GoAny.obj fields ∈ items ∧
    mapGet fields "type".toList = some (GoAny.str "item_reference".toList) ∧
    mapGet fields "id".toList = some (GoAny.str raw) ∧ TrimSpace raw = id ∧ id ≠ []

/-! ## Times -/

/-- A `time.Time`, by the instant it names: the number of nanoseconds since the Unix epoch.
The limits of the representation of `time.Time` (instants hundreds of billions of years away)
are not modelled. -/
abbrev GoTime := Int

/-- The call `time.Unix(sec, 0)`. -/
def timeUnix (sec : Int) : GoTime := sec * 1000000000

/-- The call `t.After(u)`. -/
def timeAfter (t u : GoTime) : Bool := decide (u < t)

/-- The duration `time.Hour`, in nanoseconds. -/
def timeHour : Int := 3600000000000

/-! ## promo_code.go, promo_service.go, admin/promo_handler.go -/

/-- The struct `PromoCode`, without the association `UsageRecords`; a nil `ExpiresAt` is
`none`. -/
structure PromoCode where
  ID : Int
  Code : GoString
  BonusAmount : F64
  MaxUses : Int
  UsedCount : Int
  Status : GoString
  ExpiresAt : Option GoTime
  Notes : GoString
  CreatedAt : GoTime
  UpdatedAt : GoTime
  deriving DecidableEq, Repr

/-- The method `PromoCode.CanUse`; `active` is the constant `PromoCodeStatusActive`, which is
declared outside the source tree, and `now` is the value of `time.Now()`. -/
def PromoCode.CanUse (active : GoString) (now : GoTime) (p : PromoCode) : Bool :=
  if p.Status ≠ active then false
  else if p.ExpiresAt.any (fun expiresAt => timeAfter now expiresAt) then false
  else if p.MaxUses > 0 ∧ p.UsedCount ≥ p.MaxUses then false
  else true

/-- The method `PromoCode.IsExpired`. -/
def PromoCode.IsExpired (now : GoTime) (p : PromoCode) : Bool :=
  p.ExpiresAt.any (fun expiresAt => timeAfter now expiresAt)

/-- The error `ErrPromoCodeExpired`, by its code. -/
def ErrPromoCodeExpired : GoError := "PROMO_CODE_EXPIRED".toList

/-- The error `ErrPromoCodeDisabled`, by its code. -/
def ErrPromoCodeDisabled : GoError := "PROMO_CODE_DISABLED".toList

/-- The error `ErrPromoCodeMaxUsed`, by its code. -/
def ErrPromoCodeMaxUsed : GoError := "PROMO_CODE_MAX_USED".toList

/-- The error `ErrPromoCodeInvalid`, by its code. -/
def ErrPromoCodeInvalid : GoError := "PROMO_CODE_INVALID".toList

/-- The method `PromoService.validatePromoCodeStatus`; `none` is the nil error.  The constants
`PromoCodeStatusActive` and `PromoCodeStatusDisabled` are `active` and `disabled`; `now1` is
what `time.Now()` returns inside `CanUse` and `now2` what it returns inside `IsExpired`. -/
def validatePromoCodeStatus (active disabled : GoString) (now1 now2 : GoTime)
    (promoCode : PromoCode) : Option GoError :=
  if !(promoCode.CanUse active now1) then
    if promoCode.IsExpired now2 then some ErrPromoCodeExpired
    else if promoCode.Status = disabled then some ErrPromoCodeDisabled
    else if promoCode.MaxUses > 0 ∧ promoCode.UsedCount ≥ promoCode.MaxUses then
      some ErrPromoCodeMaxUsed
    else some ErrPromoCodeInvalid
  else none

/-- The struct `UpdatePromoCodeRequest` of the handler; a nil pointer is `none`. -/
structure UpdatePromoCodeRequest where
  Code : Option GoString
  BonusAmount : Option F64
  MaxUses : Option Int
  Status : Option GoString
  ExpiresAt : Option Int
  Notes : Option GoString
  deriving DecidableEq, Repr

/-- The struct `UpdatePromoCodeInput` of the service; a nil pointer is `none`. -/
structure UpdatePromoCodeInput where
  Code : Option GoString
  BonusAmount : Option F64
  MaxUses : Option Int
  Status : Option GoString
  ExpiresAt : Option GoTime
  Notes : Option GoString
  deriving DecidableEq, Repr

/-- The input that `PromoHandler.Update` builds from the decoded request. -/
def updateInputOfRequest (req : UpdatePromoCodeRequest) : UpdatePromoCodeInput :=
  { Code := req.Code
    BonusAmount := req.BonusAmount
    MaxUses := req.MaxUses
    Status := req.Status
    Notes := req.Notes
    ExpiresAt :=
      match req.ExpiresAt with
      | none => none
      | some expiresAt => if expiresAt = 0 then none else some (timeUnix expiresAt) }

/-- The promo code of `PromoService.Update` after the fields of the input are applied to the
stored one; `ToUpper` is `strings.ToUpper`. -/
def applyUpdate (ToUpper : GoString → GoString) (promoCode : PromoCode)
    (input : UpdatePromoCodeInput) : PromoCode :=
  { promoCode with
    Code := match input.Code with
      | some code => ToUpper (TrimSpace code)
      | none => promoCode.Code
    BonusAmount := match input.BonusAmount with
      | some bonusAmount => bonusAmount
      | none => promoCode.BonusAmount
    MaxUses := match input.MaxUses with
      | some maxUses => maxUses
      | none => promoCode.MaxUses
    Status := match input.Status with
      | some status => status
      | none => promoCode.Status
    ExpiresAt := match input.ExpiresAt with
      | some expiresAt => some expiresAt
      | none => promoCode.ExpiresAt
    Notes := match input.Notes with
      | some notes => notes
      | none => promoCode.Notes }

/-- The method `PromoService.Update`: the result, and the promo codes passed to the `Update`
of the repository.  The repository is its two methods: `getByID` and `repoUpdate`, which
returns the error or `none`. -/
def PromoService.Update (ToUpper : GoString → GoString)
    (getByID : Int → Except GoError PromoCode) (repoUpdate : PromoCode → Option GoError)
    (id : Int) (input : UpdatePromoCodeInput) : Except GoError PromoCode × List PromoCode :=
  match getByID id with
  | Except.error err => (Except.error err, [])
  | Except.ok promoCode =>
    match repoUpdate (applyUpdate ToUpper promoCode input) with
    | some err =>
      (Except.error ("update promo code: ".toList ++ err), [applyUpdate ToUpper promoCode input])
    | none =>
      (Except.ok (applyUpdate ToUpper promoCode input), [applyUpdate ToUpper promoCode input])

/-- What `PromoHandler.Update` answers. -/
inductive PromoResponse where
  | badRequest (message : GoString)
  | errorFrom (err : GoError)
  | success (code : PromoCode)

/-- The method `PromoHandler.Update`: the answer, and the promo codes passed to the `Update` of
the repository.  `idParam` is the path parameter `id` and `bound` is what `ShouldBindJSON`
makes of the request body. -/
def PromoHandler.Update (ToUpper : GoString → GoString)
    (getByID : Int → Except GoError PromoCode) (repoUpdate : PromoCode → Option GoError)
    (idParam : GoString) (bound : Except GoError UpdatePromoCodeRequest) :
    PromoResponse × List PromoCode :=
  match ParseInt idParam with
  | (_, some _) => (PromoResponse.badRequest "Invalid promo code ID".toList, [])
  | (codeID, none) =>
    match bound with
    | Except.error err => (PromoResponse.badRequest ("Invalid request: ".toList ++ err), [])
    | Except.ok req =>
      match PromoService.Update ToUpper getByID repoUpdate codeID (updateInputOfRequest req) with
      | (Except.error err, calls) => (PromoResponse.errorFrom err, calls)
      | (Except.ok code, calls) => (PromoResponse.success code, calls)

/-! ## The bucket rebuild lock -/

/-- Modelled from the spec: the implementation of `SchedulerCache.TryLockBucket` is not part of
the source tree, which has the method of the interface only.  "`TryLockBucket(bucket, ttl) ->
acquired`: non-blocking; used to serialize rebuild attempts.  Lock auto-expires after `ttl`",
the key is "a fixed prefix plus an account or bucket identifier", and "lock-acquire-with-TTL
must be implemented as single round-trip, non-interruptible operations against the store".
So a call is one step on the store, made at the time `now` (in milliseconds): when the key of
the bucket is absent or has expired, the key is set to expire `ttl` milliseconds later and the
lock is acquired; when the key is live, nothing changes and the lock is not acquired; when the
store cannot be reached, the call fails. -/
def TryLockBucket (keyPrefix : GoString) (reachable : Bool) (store : RedisStore) (now : Nat)
    (bucket : SchedulerBucket) (ttl : Nat) : (Bool × Option GoError) × RedisStore :=
  if !reachable then ((false, some "store unreachable".toList), store)
  else
    match redisLive store (keyPrefix ++ bucket.String) now with
    | some _ => ((false, none), store)
    | none =>
      ((true, none),
        mapSet store (keyPrefix ++ bucket.String) { value := 1, expireAt := some (now + ttl) })

/-- The two callers of a race for a lock. -/
inductive LockCaller where
  | A
  | B
  deriving DecidableEq, Repr

/-- Two concurrent calls `TryLockBucket(bucket, ttl)`, one by each caller: each call is one
step on the store, so the calls take effect one after the other, the call of `first` at the
time `t1` and the other call at the time `t2`.  The result is what the caller `A` and what the
caller `B` is answered, and the store after both calls. -/
def lockRace (keyPrefix : GoString) (store : RedisStore) (first : LockCaller) (t1 t2 : Nat)
    (bucket : SchedulerBucket) (ttl : Nat) : (Bool × Bool) × RedisStore :=
  match first with
  | LockCaller.A =>
    (((TryLockBucket keyPrefix true store t1 bucket ttl).1.1,
      (TryLockBucket keyPrefix true
        (TryLockBucket keyPrefix true store t1 bucket ttl).2 t2 bucket ttl).1.1),
      (TryLockBucket keyPrefix true
        (TryLockBucket keyPrefix true store t1 bucket ttl).2 t2 bucket ttl).2)
  | LockCaller.B =>
    (((TryLockBucket keyPrefix true
        (TryLockBucket keyPrefix true store t1 bucket ttl).2 t2 bucket ttl).1.1,
      (TryLockBucket keyPrefix true store t1 bucket ttl).1.1),
      (TryLockBucket keyPrefix true
        (TryLockBucket keyPrefix true store t1 bucket ttl).2 t2 bucket ttl).2)

/-! ## dashboard_service.go -/

/-- The largest `time.Duration`, in nanoseconds. -/
def maxDuration : Int := 2 ^ 63 - 1

/-- The smallest `time.Duration`, in nanoseconds. -/
def minDuration : Int := -(2 ^ 63)

/-- The call `t.Sub(u)`: the duration between the two instants, or the largest or smallest
duration when the difference is not a `time.Duration`. -/
def timeSub (t u : GoTime) : Int :=
  if t - u > maxDuration then maxDuration
  else if t - u < minDuration then minDuration
  else t - u

/-- The error `ErrDashboardStatsCacheMiss`, by its message. -/
def ErrDashboardStatsCacheMiss : GoError := "仪表盘缓存未命中".toList

/-- The struct `dashboardStatsCacheEntry`; `S` is the type `usagestats.DashboardStats`, which
is declared outside the source tree, and a nil `Stats` is `none`. -/
structure dashboardStatsCacheEntry (S : Type) where
  Stats : Option S
  UpdatedAt : Int

/-- The collaborators of a `DashboardService`, each by what it answers: the three methods of
the cache, `GetDashboardStats` of the usage repository, and `json.Unmarshal` and `json.Marshal`
for a cache entry. -/
structure DashboardDeps (S : Type) where
  cacheGet : Except GoError GoString
  cacheSet : GoString → Int → Option GoError
  cacheDelete : Option GoError
  repoGet : Except GoError (Option S)
  unmarshal : GoString → Except GoError (dashboardStatsCacheEntry S)
  marshal : dashboardStatsCacheEntry S → Except GoError GoString

/-- A call that `GetDashboardStats` makes: to a method of the cache, to the usage repository,
or to `refreshDashboardStatsAsync`, whose goroutine runs on its own and is not followed. -/
inductive DashboardCall where
  | cacheGet
  | cacheDelete
  | cacheSet (data : GoString) (ttl : Int)
  | repoGet
  | refreshAsync
  deriving DecidableEq, Repr

/-- The method `evictDashboardStatsCache`: the calls it makes. -/
def evictDashboardStatsCache (hasCache : Bool) : List DashboardCall :=
  if !hasCache then [] else [DashboardCall.cacheDelete]

/-- The method `getCachedDashboardStats`, called with a cache that is not nil: the statistics,
whether they are fresh, the error, and the calls made.  `now` is the value of `time.Now()`. -/
def getCachedDashboardStats {S : Type} (deps : DashboardDeps S) (cacheFreshTTL : Int)
    (now : GoTime) : (Option S × Bool × Option GoError) × List DashboardCall :=
  match deps.cacheGet with
  | Except.error err => ((none, false, some err), [DashboardCall.cacheGet])
  | Except.ok data =>
    match deps.unmarshal data with
    | Except.error _ =>
      ((none, false, some ErrDashboardStatsCacheMiss),
        DashboardCall.cacheGet :: evictDashboardStatsCache true)
    | Except.ok entry =>
      match entry.Stats with
      | none =>
        ((none, false, some ErrDashboardStatsCacheMiss),
          DashboardCall.cacheGet :: evictDashboardStatsCache true)
      | some stats =>
        ((some stats, decide (timeSub now (timeUnix entry.UpdatedAt) ≤ cacheFreshTTL), none),
          [DashboardCall.cacheGet])

/-- The method `saveDashboardStatsCache`: the calls it makes.  `nowUnix` is the value of
`time.Now().Unix()`. -/
def saveDashboardStatsCache {S : Type} (deps : DashboardDeps S) (hasCache : Bool)
    (cacheTTL : Int) (nowUnix : Int) (stats : Option S) : List DashboardCall :=
  if !hasCache ∨ stats.isNone then []
  else
    match deps.marshal { Stats := stats, UpdatedAt := nowUnix } with
    | Except.error _ => []
    | Except.ok data => [DashboardCall.cacheSet data cacheTTL]

/-- The method `refreshDashboardStats`: the result and the calls made. -/
def refreshDashboardStats {S : Type} (deps : DashboardDeps S) (hasCache : Bool)
    (cacheTTL : Int) (nowUnix : Int) : Except GoError (Option S) × List DashboardCall :=
  match deps.repoGet with
  | Except.error err => (Except.error err, [DashboardCall.repoGet])
  | Except.ok stats =>
    (Except.ok stats,
      DashboardCall.repoGet :: saveDashboardStatsCache deps hasCache cacheTTL nowUnix stats)

/-- The method `GetDashboardStats`: the result and the calls made, in their order.  `hasCache`
says that the cache of the service is not nil. -/
def GetDashboardStats {S : Type} (deps : DashboardDeps S) (hasCache : Bool)
    (cacheFreshTTL cacheTTL : Int) (now : GoTime) (nowUnix : Int) :
    Except GoError (Option S) × List DashboardCall :=
  if hasCache ∧
      (getCachedDashboardStats deps cacheFreshTTL now).1.2.2 = none ∧
      (getCachedDashboardStats deps cacheFreshTTL now).1.1.isSome then
    (Except.ok (getCachedDashboardStats deps cacheFreshTTL now).1.1,
      (getCachedDashboardStats deps cacheFreshTTL now).2 ++
        (if !(getCachedDashboardStats deps cacheFreshTTL now).1.2.1 then
          [DashboardCall.refreshAsync] else []))
  else
    match refreshDashboardStats deps hasCache cacheTTL nowUnix with
    | (Except.error err, calls) =>
      (Except.error ("get dashboard stats: ".toList ++ err),
        (if hasCache then (getCachedDashboardStats deps cacheFreshTTL now).2 else []) ++ calls)
    | (Except.ok stats, calls) =>
      (Except.ok stats,
        (if hasCache then (getCachedDashboardStats deps cacheFreshTTL now).2 else []) ++ calls)

/-- The collaborators of the test `TestDashboardService_CacheParseError_EvictsAndRefetches`:
the cache answers `not-json`, which cannot be decoded, and the repository answers statistics,
here the number 9. -/
def parseErrorDeps : DashboardDeps Nat :=
  { cacheGet := Except.ok "not-json".toList
    cacheSet := fun _ _ => none
    cacheDelete := none
    repoGet := Except.ok (some 9)
    unmarshal := fun _ => Except.error "invalid character".toList
    marshal := fun _ => Except.ok "entry".toList }

/-! ## ops_query_mode.go, ops_dashboard.go -/

/-- The string type `OpsQueryMode`. -/
abbrev OpsQueryMode := GoString

/-- The constant `OpsQueryModeAuto`. -/
def OpsQueryModeAuto : OpsQueryMode := "auto".toList

/-- The constant `OpsQueryModeRaw`. -/
def OpsQueryModeRaw : OpsQueryMode := "raw".toList

/-- The constant `OpsQueryModePreagg`. -/
def OpsQueryModePreagg : OpsQueryMode := "preagg".toList

/-- The function `ParseOpsQueryMode`; `ToLower` is `strings.ToLower`. -/
def ParseOpsQueryMode (ToLower : GoString → GoString) (raw : GoString) : OpsQueryMode :=
  if ToLower (TrimSpace raw) = OpsQueryModeRaw then OpsQueryModeRaw
  else if ToLower (TrimSpace raw) = OpsQueryModePreagg then OpsQueryModePreagg
  else OpsQueryModeAuto

/-- The method `OpsQueryMode.IsValid`. -/
def OpsQueryMode.IsValid (m : OpsQueryMode) : Bool :=
  if m = OpsQueryModeAuto ∨ m = OpsQueryModeRaw ∨ m = OpsQueryModePreagg then true else false

/-- What `resolveOpsQueryMode` reads of an `OpsService`: `cfg`, which is nil (`none`) or holds
the flag `Ops.UsePreaggregatedTables`, and `settingRepo`, which is nil (`none`) or answers the
call `GetValue(ctx, SettingKeyOpsQueryModeDefault)`. -/
structure OpsModeService where
  cfg : Option Bool
  settingRepo : Option (Except GoError GoString)

/-- The condition `s != nil && s.cfg != nil && !s.cfg.Ops.UsePreaggregatedTables`. -/
def autoDisabled (s : Option OpsModeService) : Bool :=
  match s with
  | none => false
  | some svc =>
    match svc.cfg with
    | none => false
    | some usePreaggregatedTables => !usePreaggregatedTables

/-- The stored default mode that `resolveOpsQueryMode` falls back on. -/
def storedDefaultMode (ToLower : GoString → GoString) (s : Option OpsModeService) :
    OpsQueryMode :=
  match s with
  | none => OpsQueryModeAuto
  | some svc =>
    match svc.settingRepo with
    | none => OpsQueryModeAuto
    | some (Except.error _) => OpsQueryModeAuto
    | some (Except.ok raw) => ParseOpsQueryMode ToLower raw

/-- The method `OpsService.resolveOpsQueryMode`; a nil service is `none`. -/
def resolveOpsQueryMode (ToLower : GoString → GoString) (s : Option OpsModeService)
    (requested : OpsQueryMode) : OpsQueryMode :=
  if OpsQueryMode.IsValid requested then
    if requested = OpsQueryModeAuto ∧ autoDisabled s then OpsQueryModeRaw
    else requested
  else if storedDefaultMode ToLower s = OpsQueryModeAuto ∧ autoDisabled s then OpsQueryModeRaw
  else storedDefaultMode ToLower s

/-- Each `function_call_output` item of `items` has a `call_id` that is not blank and is the
`id` of an `item_reference` item of `items`. -/
def everyOutputReferenced (items : List GoAny) : Prop :=
  ∀ fields, GoAny.obj fields ∈ items →
    mapGet fields "type".toList = some (GoAny.str "function_call_output".toList) →
    ∃ id, mapGet fields "call_id".toList = some (GoAny.str id) ∧ TrimSpace id ≠ [] ∧
      isItemReferenceID items id

/-! ## ops_request_details.go -/

/-- The fields of the struct `OpsRequestDetailFilter` that `Normalize` reads; a nil pointer is
`none`. -/
structure OpsRequestDetailFilter where
  StartTime : Option GoTime
  EndTime : Option GoTime
  Page : Int
  PageSize : Int
  deriving DecidableEq, Repr

/-- The method `OpsRequestDetailFilter.Normalize`: `(page, pageSize, startTime, endTime)`.  A
nil filter is `none`, and `now` is the value of `time.Now()`. -/
def OpsRequestDetailFilter.Normalize (now : GoTime) (f : Option OpsRequestDetailFilter) :
    Int × Int × GoTime × GoTime :=
  match f with
  | none => (1, 50, now - 1 * timeHour, now)
  | some f =>
    let page := if f.Page > 0 then f.Page else 1
    let pageSize0 := if f.PageSize > 0 then f.PageSize else 50
    let pageSize := if pageSize0 > 100 then 100 else pageSize0
    let endTime := match f.EndTime with
      | some t => t
      | none => now
    let startTime := match f.StartTime with
      | some t => t
      | none =>
        match f.EndTime with
        | some _ => endTime - 1 * timeHour
        | none => now - 1 * timeHour
    if timeAfter startTime endTime then (page, pageSize, endTime, startTime)
    else (page, pageSize, startTime, endTime)

/-- The exact sum of a field over the entries of the account map whose `Platform` is `p`. -/
def accountEntriesSum (f : AccountConcurrencyInfo → Int) (p : GoString)
    (account : GoMap Int AccountConcurrencyInfo) : Int :=
  ((account.filter (fun e => decide (e.2.Platform = p))).map (fun e => f e.2)).sum

/-! ## ops_repo_dashboard.go: `combineApproxPercentiles` -/

/-- The struct `service.OpsPercentiles`; a nil pointer is `none`. -/
structure OpsPercentiles where
  P50 : Option Int
  P90 : Option Int
  P95 : Option Int
  P99 : Option Int
  Avg : Option Int
  Max : Option Int
  deriving DecidableEq, Repr

/-- The struct `opsPercentileSegment`. -/
structure opsPercentileSegment where
  weight : Int
  p : OpsPercentiles
  deriving DecidableEq, Repr

/-- The integer nearest to a rational number, a tie going to the even integer. -/
def roundHalfEven (x : ℚ) : Int :=
  if x - Int.floor x < 1 / 2 then Int.floor x
  else if x - Int.floor x > 1 / 2 then Int.floor x + 1
  else if Int.floor x % 2 = 0 then Int.floor x
  else Int.floor x + 1

/-- The `float64` that a conversion or an arithmetic operation gives when its exact result is
`x`: the nearest number with a significand of 53 bits, a tie going to the even significand.
Where its numeric value matters a `float64` is the rational number it denotes.  The range of
the exponent is not modelled: the numbers that occur below are integers, of magnitude below
`2 ^ 190` for a slice of any length that Go allows, and quotients of two of them. -/
def toFloat64 (x : ℚ) : ℚ :=
  if x = 0 then 0
  else (roundHalfEven (x / 2 ^ (Int.log 2 (abs x) - 52)) : ℚ) * 2 ^ (Int.log 2 (abs x) - 52)

/-- The value of a `float64` expression: every conversion and every operation gives the
`float64` nearest to its exact result (`toFloat64`), and the constant 100 is a `float64`.  A
division by zero, which Go answers with an infinity or a NaN and which the code excludes by
its test `MaxCapacity > 0`, has the value 0 here. -/
def F64.value : F64 → ℚ
  | F64.zero => 0
  | F64.lit100 => 100
  | F64.ofInt64 i => toFloat64 (i : ℚ)
  | F64.div a b => toFloat64 (a.value / b.value)
  | F64.mul a b => toFloat64 (a.value * b.value)

/-- The function `math.Round` on a `float64`: the nearest integer, a tie going away from
zero. -/
def mathRound (x : ℚ) : Int :=
  if 0 ≤ x then Int.floor (x + 1 / 2) else -Int.floor (-x + 1 / 2)

/-- The conversion `int(f)` of a `float64` whose value is the integer `n`: the integer when it
is an `int64`; otherwise the result depends on the implementation and is `convOverflow n`. -/
def intOfFloat64 (convOverflow : Int → Int) (n : Int) : Int :=
  if isInt64 n then n else convOverflow n

/-- The body of the loop of `weightedInt`: the variables `sum` and `w` after the segment.
`fused` says whether the compiler fuses the multiplication and the addition of
`sum += float64(*v) * float64(seg.weight)` into one operation with one rounding, as Go allows;
otherwise the product is rounded first. -/
def weightedStep (fused : Bool) (get : OpsPercentiles → Option Int) (acc : ℚ × Int)
    (seg : opsPercentileSegment) : ℚ × Int :=
  if seg.weight ≤ 0 then acc
  else
    match get seg.p with
    | none => acc
    | some v =>
      (if fused then toFloat64 (acc.1 + toFloat64 v * toFloat64 seg.weight)
        else toFloat64 (acc.1 + toFloat64 (toFloat64 v * toFloat64 seg.weight)),
        wrap64 (acc.2 + seg.weight))

/-- The closure `weightedInt` of `combineApproxPercentiles`. -/
def weightedInt (fused : Bool) (convOverflow : Int → Int) (segments : List opsPercentileSegment)
    (get : OpsPercentiles → Option Int) : Option Int :=
  if (segments.foldl (weightedStep fused get) (0, 0)).2 ≤ 0 then none
  else
    some (intOfFloat64 convOverflow (mathRound (toFloat64
      ((segments.foldl (weightedStep fused get) (0, 0)).1 /
        toFloat64 (segments.foldl (weightedStep fused get) (0, 0)).2))))

/-- The body of the loop of `maxInt`: the variable `max` after the segment. -/
def maxStep (get : OpsPercentiles → Option Int) (max : Option Int)
    (seg : opsPercentileSegment) : Option Int :=
  match get seg.p with
  | none => max
  | some v =>
    match max with
    | none => some v
    | some m => if v > m then some v else some m

/-- The closure `maxInt` of `combineApproxPercentiles`. -/
def maxInt (segments : List opsPercentileSegment) (get : OpsPercentiles → Option Int) :
    Option Int :=
  segments.foldl (maxStep get) none

/-- The function `combineApproxPercentiles`. -/
def combineApproxPercentiles (fused : Bool) (convOverflow : Int → Int)
    (segments : List opsPercentileSegment) : OpsPercentiles :=
  { P50 := weightedInt fused convOverflow segments (fun p => p.P50)
    P90 := weightedInt fused convOverflow segments (fun p => p.P90)
    P95 := maxInt segments (fun p => p.P95)
    P99 := maxInt segments (fun p => p.P99)
    Avg := weightedInt fused convOverflow segments (fun p => p.Avg)
    Max := maxInt segments (fun p => p.Max) }

/-- The values of a field over the segments that have it: the values that `maxInt` compares. -/
def fieldValues (get : OpsPercentiles → Option Int) (segments : List opsPercentileSegment) :
    List Int :=
  segments.filterMap (fun seg => get seg.p)

/-- The segments that contribute to a weighted field: a positive weight and a value that is
not nil, as the pair of the weight and the value. -/
def contributions (get : OpsPercentiles → Option Int) (segments : List opsPercentileSegment) :
    List (Int × Int) :=
  segments.filterMap (fun seg =>
    if seg.weight ≤ 0 then none else (get seg.p).map (fun v => (seg.weight, v)))

/-- The sum of the weights of the contributions. -/
def weightSum (c : List (Int × Int)) : Int := (c.map (fun wv => wv.1)).sum

/-- The exact weighted sum of the values of the contributions. -/
def weightedSum (c : List (Int × Int)) : Int := (c.map (fun wv => wv.1 * wv.2)).sum

/-- The sum of the magnitudes of the weighted values of the contributions. -/
def weightedMagnitude (c : List (Int × Int)) : Int := (c.map (fun wv => wv.1 * abs wv.2)).sum

/-- The value `m` is the maximum of the list: nil exactly when the list is empty, and otherwise
a member of the list that bounds every member. -/
def isMaxOf (values : List Int) (m : Option Int) : Prop :=
  (m = none ↔ values = []) ∧ ∀ x, m = some x → x ∈ values ∧ ∀ v ∈ values, v ≤ x

/-- The value `m` is a weighted mean of the contributions `c` as far as this can be said of a
`float64` computation: it is nil when there is no contribution; and when the weights and the
magnitudes of the weighted values each sum to at most `2 ^ 53`, it is nil only then, and lies
within any bounds of the values of the contributions. -/
def weightedWithin (c : List (Int × Int)) (m : Option Int) : Prop :=
  (∀ x, m = some x → c ≠ []) ∧
  (weightedMagnitude c ≤ 2 ^ 53 → weightSum c ≤ 2 ^ 53 →
    (m = none ↔ c = []) ∧
    ∀ x, m = some x → ∀ lo hi, (∀ wv ∈ c, lo ≤ wv.2 ∧ wv.2 ≤ hi) → lo ≤ x ∧ x ≤ hi)

/-- The three segments of a dashboard window, with the medians 10, 20 and 40 under the weights
2, 1 and 1 and the maxima 90, 70 and nil. -/
def exampleSegments : List opsPercentileSegment :=
  [⟨2, ⟨some 10, none, none, none, none, some 90⟩⟩,
   ⟨1, ⟨some 20, none, none, none, none, some 70⟩⟩,
   ⟨1, ⟨some 40, none, none, none, none, none⟩⟩]

/-! # Properties -/

/-! ## Lemmas on `Split` -/

theorem Split_ne_nil (s : GoString) : Split s ≠ [] := by
  cases s with
  | nil => simp [Split]
  | cons c cs =>
    unfold Split
    split
    · simp
    · split <;> simp

/-- A colon-free prefix followed by a colon is the first piece. -/
theorem Split_append_colon (p rest : GoString) (hp : ':' ∉ p) :
    Split (p ++ ':' :: rest) = p :: Split rest := by
  induction p with
  | nil => simp [Split]
  | cons c cs ih =>
    have hc : c ≠ ':' := fun h => hp (by simp [h])
    have hcs : ':' ∉ cs := fun h => hp (by simp [h])
    rw [List.cons_append, Split, if_neg hc, ih hcs]

/-- A colon-free string is its only piece. -/
theorem Split_noColon (p : GoString) (hp : ':' ∉ p) : Split p = [p] := by
  induction p with
  | nil => simp [Split]
  | cons c cs ih =>
    have hc : c ≠ ':' := fun h => hp (by simp [h])
    have hcs : ':' ∉ cs := fun h => hp (by simp [h])
    rw [Split, if_neg hc, ih hcs]

/-- There is one more piece than there are colons. -/
theorem Split_length (s : GoString) : (Split s).length = s.count ':' + 1 := by
  induction s with
  | nil => simp [Split]
  | cons c cs ih =>
    unfold Split
    by_cases hc : c = ':'
    · subst hc
      simp [ih]
    · have hc2 : ¬ ((':' : Char) = c) := fun h => hc h.symm
      simp only [hc, if_false]
      cases hs : Split cs with
      | nil => exact absurd hs (Split_ne_nil cs)
      | cons p ps =>
        rw [hs] at ih
        simp only [List.length_cons] at ih ⊢
        rw [List.count_cons_of_ne hc2]
        exact ih

/-- No piece contains a colon. -/
theorem Split_noColon_mem (s : GoString) : ∀ p ∈ Split s, ':' ∉ p := by
  induction s with
  | nil => simp [Split]
  | cons c cs ih =>
    unfold Split
    by_cases hc : c = ':'
    · subst hc
      intro p hp
      simp only [if_true, List.mem_cons] at hp
      rcases hp with rfl | hp
      · simp
      · exact ih p hp
    · simp only [hc, if_false]
      cases hs : Split cs with
      | nil => exact absurd hs (Split_ne_nil cs)
      | cons q qs =>
        rw [hs] at ih
        intro p hp
        simp only [List.mem_cons] at hp
        rcases hp with rfl | hp
        · intro hmem
          simp only [List.mem_cons] at hmem
          rcases hmem with h | h
          · exact hc h.symm
          · exact ih q (by simp) h
        · exact ih p (by simp [hp])

/-- Joining the pieces with colons gives the string back. -/
theorem Split_three (s p0 p1 p2 : GoString) (h : Split s = [p0, p1, p2]) :
    s = p0 ++ ':' :: (p1 ++ ':' :: p2) := by
  have key : ∀ (t : GoString) (ps : List GoString), Split t = ps →
      t = (ps.head?.getD []) ++ (ps.tail.map (fun q => ':' :: q)).flatten := by
    intro t
    induction t with
    | nil => intro ps hps; simp [Split] at hps; subst hps; simp
    | cons c cs ih =>
      intro ps hps
      unfold Split at hps
      by_cases hc : c = ':'
      · subst hc
        simp only [if_true] at hps
        subst hps
        have := ih (Split cs) rfl
        cases hs : Split cs with
        | nil => exact absurd hs (Split_ne_nil cs)
        | cons q qs =>
          rw [hs] at this
          simp at this ⊢
          exact this
      · simp only [hc, if_false] at hps
        cases hs : Split cs with
        | nil => exact absurd hs (Split_ne_nil cs)
        | cons q qs =>
          rw [hs] at hps
          have := ih (q :: qs) hs
          subst hps
          simp at this ⊢
          exact this
  have := key s _ h
  simpa using this

/-! ## Lemmas on the decimal rendering and its parser -/

theorem maxUint64_eq : maxUint64 = 18446744073709551615 := by decide

theorem digitChar_le (d : Nat) : '0' ≤ digitChar d ∧ digitChar d ≤ '9' := by
  unfold digitChar
  split <;> decide

theorem digitChar_toNat (d : Nat) (h : d < 10) : (digitChar d).toNat - '0'.toNat = d := by
  interval_cases d <;> rfl

theorem digitChar_of_toNat (c : Char) (h0 : '0' ≤ c) (h9 : c ≤ '9') :
    digitChar (c.toNat - '0'.toNat) = c := by
  have h1 : 48 ≤ c.toNat := h0
  have h2 : c.toNat ≤ 57 := h9
  have h3 := Char.ofNat_toNat c
  generalize c.toNat = k at h1 h2 h3
  subst h3
  interval_cases k <;> rfl

theorem digit_val_lt (c : Char) (h9 : c ≤ '9') : c.toNat - '0'.toNat < 10 := by
  have h2 : c.toNat ≤ 57 := h9
  have h0 : '0'.toNat = 48 := rfl
  omega

theorem decVal_nil (n : Nat) : decVal n [] = n := rfl

theorem decVal_cons (n : Nat) (c : Char) (cs : GoString) :
    decVal n (c :: cs) = decVal (n * 10 + (c.toNat - '0'.toNat)) cs := rfl

theorem decVal_snoc (n : Nat) (cs : GoString) (c : Char) :
    decVal n (cs ++ [c]) = decVal n cs * 10 + (c.toNat - '0'.toNat) := by
  simp [decVal, List.foldl_append]

theorem le_decVal (s : GoString) : ∀ n, n ≤ decVal n s := by
  induction s with
  | nil => intro n; exact Nat.le_refl _
  | cons c cs ih =>
    intro n
    rw [decVal_cons]
    have := ih (n * 10 + (c.toNat - '0'.toNat))
    omega

/-- One step of the loop on a digit that does not overflow. -/
theorem parseUintLoop_digit (c : Char) (cs : GoString) (n : Nat) (h0 : '0' ≤ c) (h9 : c ≤ '9')
    (hn : n * 10 + (c.toNat - '0'.toNat) ≤ maxUint64) :
    parseUintLoop (c :: cs) n = parseUintLoop cs (n * 10 + (c.toNat - '0'.toNat)) := by
  rw [maxUint64_eq] at hn
  have e1 : (n * 10) % 2 ^ 64 = n * 10 := Nat.mod_eq_of_lt (by norm_num; omega)
  have e2 : (n * 10 + (c.toNat - '0'.toNat)) % 2 ^ 64 = n * 10 + (c.toNat - '0'.toNat) :=
    Nat.mod_eq_of_lt (by norm_num; omega)
  have c1 : ¬ (n ≥ maxUint64 / 10 + 1) := by rw [maxUint64_eq]; omega
  have c2 : ¬ (n * 10 + (c.toNat - '0'.toNat) < n * 10 ∨
      n * 10 + (c.toNat - '0'.toNat) > maxUint64) := by rw [maxUint64_eq]; omega
  simp only [parseUintLoop, h0, h9, and_self, if_true, e1, e2, if_neg c1, if_neg c2]

/-- One step of the loop on a digit that overflows. -/
theorem parseUintLoop_overflow (c : Char) (cs : GoString) (n : Nat) (h0 : '0' ≤ c) (h9 : c ≤ '9')
    (hn : maxUint64 < n * 10 + (c.toNat - '0'.toNat)) :
    parseUintLoop (c :: cs) n = (maxUint64, some NumError.ErrRange) := by
  have hd := digit_val_lt c h9
  rw [maxUint64_eq] at hn
  simp only [parseUintLoop, h0, h9, and_self, if_true]
  by_cases c1 : n ≥ maxUint64 / 10 + 1
  · rw [if_pos c1]
  · rw [if_neg c1]
    rw [maxUint64_eq] at c1
    have e1 : (n * 10) % 2 ^ 64 = n * 10 := Nat.mod_eq_of_lt (by norm_num; omega)
    rw [e1]
    have c2 : (n * 10 + (c.toNat - '0'.toNat)) % 2 ^ 64 < n * 10 ∨
        (n * 10 + (c.toNat - '0'.toNat)) % 2 ^ 64 > maxUint64 := by
      left
      rw [Nat.mod_eq_sub_mod (by norm_num; omega), Nat.mod_eq_of_lt (by norm_num; omega)]
      norm_num
      omega
    rw [if_pos c2]

/-- The loop on digits whose value fits 64 bits returns that value. -/
theorem parseUintLoop_of_digits (s : GoString) : ∀ n,
    (∀ c ∈ s, '0' ≤ c ∧ c ≤ '9') → decVal n s ≤ maxUint64 →
    parseUintLoop s n = (decVal n s, none) := by
  induction s with
  | nil => intro n _ _; rfl
  | cons c cs ih =>
    intro n hd hv
    have hc := hd c (by simp)
    rw [decVal_cons] at hv ⊢
    have hle := le_decVal cs (n * 10 + (c.toNat - '0'.toNat))
    rw [parseUintLoop_digit c cs n hc.1 hc.2 (le_trans hle hv)]
    exact ih _ (fun x hx => hd x (by simp [hx])) hv

/-- A successful loop read digits only, and their value fits 64 bits. -/
theorem parseUintLoop_ok (s : GoString) : ∀ n v, parseUintLoop s n = (v, none) →
    (∀ c ∈ s, '0' ≤ c ∧ c ≤ '9') ∧ v = decVal n s ∧ (n ≤ maxUint64 → v ≤ maxUint64) := by
  induction s with
  | nil =>
    intro n v h
    simp only [parseUintLoop, Prod.mk.injEq, and_true] at h
    subst h
    exact ⟨by simp, rfl, fun h => h⟩
  | cons c cs ih =>
    intro n v h
    by_cases hc : '0' ≤ c ∧ c ≤ '9'
    · by_cases hn : n * 10 + (c.toNat - '0'.toNat) ≤ maxUint64
      · rw [parseUintLoop_digit c cs n hc.1 hc.2 hn] at h
        obtain ⟨h1, h2, h3⟩ := ih _ _ h
        refine ⟨?_, by rw [decVal_cons]; exact h2, fun _ => h3 hn⟩
        intro x hx
        simp only [List.mem_cons] at hx
        rcases hx with rfl | hx
        · exact hc
        · exact h1 x hx
      · rw [parseUintLoop_overflow c cs n hc.1 hc.2 (by omega)] at h
        simp at h
    · simp only [parseUintLoop, hc, if_false] at h
      simp at h

theorem decimalDigits_digits (fuel : Nat) : ∀ n, ∀ c ∈ decimalDigits fuel n, '0' ≤ c ∧ c ≤ '9' := by
  induction fuel with
  | zero => intro n c hc; simp [decimalDigits] at hc
  | succ f ih =>
    intro n c hc
    unfold decimalDigits at hc
    split at hc
    · simp only [List.mem_singleton] at hc
      subst hc
      exact digitChar_le n
    · simp only [List.mem_append, List.mem_singleton] at hc
      rcases hc with hc | rfl
      · exact ih _ c hc
      · exact digitChar_le _

theorem decimalDigits_ne_nil (fuel n : Nat) : decimalDigits (fuel + 1) n ≠ [] := by
  unfold decimalDigits
  split <;> simp

/-- With enough fuel the digits denote the number. -/
theorem decVal_decimalDigits (fuel : Nat) : ∀ n, n < fuel → decVal 0 (decimalDigits fuel n) = n := by
  induction fuel with
  | zero => intro n h; omega
  | succ f ih =>
    intro n h
    unfold decimalDigits
    split
    · rename_i h10
      simp only [decVal, List.foldl_cons, List.foldl_nil]
      rw [digitChar_toNat n h10]
      omega
    · rw [decVal_snoc, ih (n / 10) (by omega), digitChar_toNat _ (Nat.mod_lt _ (by norm_num))]
      omega

/-- With enough fuel a positive number is written without a leading zero. -/
theorem decimalDigits_head (fuel : Nat) : ∀ n, n < fuel → 1 ≤ n →
    (decimalDigits fuel n).head? ≠ some '0' := by
  induction fuel with
  | zero => intro n h; omega
  | succ f ih =>
    intro n h h1
    unfold decimalDigits
    split
    · rename_i h10
      simp only [List.head?_cons, ne_eq, Option.some.injEq]
      interval_cases n <;> decide
    · have hne : decimalDigits f (n / 10) ≠ [] := by
        cases f with
        | zero => omega
        | succ f2 => exact decimalDigits_ne_nil f2 _
      rw [List.head?_append_of_ne_nil _ hne]
      exact ih _ (by omega) (by omega)

/-- Digits written without a leading zero are the rendering of their value. -/
theorem decimalDigits_decVal (s : GoString) : (∀ c ∈ s, '0' ≤ c ∧ c ≤ '9') → s ≠ [] →
    s.head? ≠ some '0' →
    1 ≤ decVal 0 s ∧ ∀ fuel, decVal 0 s < fuel → decimalDigits fuel (decVal 0 s) = s := by
  induction s using List.reverseRecOn with
  | nil => intro _ h; exact absurd rfl h
  | append_singleton xs c ih =>
    intro hd _ hh
    have hc : '0' ≤ c ∧ c ≤ '9' := hd c (by simp)
    have hlt := digit_val_lt c hc.2
    have hback := digitChar_of_toNat c hc.1 hc.2
    by_cases hxs : xs = []
    · subst hxs
      simp only [List.nil_append, List.head?_cons, ne_eq, Option.some.injEq] at hh
      have hpos : 1 ≤ c.toNat - '0'.toNat := by
        by_contra hz
        have hz2 : c.toNat - '0'.toNat = 0 := by omega
        rw [hz2] at hback
        exact hh hback.symm
      have hv : decVal 0 ([] ++ [c]) = c.toNat - '0'.toNat := by
        simp [decVal]
      rw [hv]
      refine ⟨hpos, ?_⟩
      intro fuel hf
      cases fuel with
      | zero => omega
      | succ f =>
        unfold decimalDigits
        rw [if_pos hlt, hback]
        rfl
    · have hh2 : xs.head? ≠ some '0' := by
        rw [List.head?_append_of_ne_nil _ hxs] at hh
        exact hh
      obtain ⟨h1, h2⟩ := ih (fun x hx => hd x (by simp [hx])) hxs hh2
      rw [decVal_snoc]
      refine ⟨by omega, ?_⟩
      intro fuel hf
      cases fuel with
      | zero => omega
      | succ f =>
        unfold decimalDigits
        rw [if_neg (by omega)]
        have e1 : (decVal 0 xs * 10 + (c.toNat - '0'.toNat)) / 10 = decVal 0 xs := by omega
        have e2 : (decVal 0 xs * 10 + (c.toNat - '0'.toNat)) % 10 = c.toNat - '0'.toNat := by omega
        rw [e1, e2, hback, h2 f (by omega)]

theorem parseUintLoop_range (s : GoString) : ∀ n u, parseUintLoop s n = (u, some NumError.ErrRange) →
    u = maxUint64 := by
  induction s with
  | nil => intro n u h; simp [parseUintLoop] at h
  | cons c cs ih =>
    intro n u h
    by_cases hc : '0' ≤ c ∧ c ≤ '9'
    · by_cases hn : n * 10 + (c.toNat - '0'.toNat) ≤ maxUint64
      · rw [parseUintLoop_digit c cs n hc.1 hc.2 hn] at h
        exact ih _ _ h
      · rw [parseUintLoop_overflow c cs n hc.1 hc.2 (by omega)] at h
        simp only [Prod.mk.injEq, and_true] at h
        exact h.symm
    · simp only [parseUintLoop, hc, if_false] at h
      simp at h

/-- The two outcomes of `ParseUint`: a value read from a non-empty digit string, or an error;
a range error comes with the largest `uint64`. -/
theorem ParseUint_cases (s : GoString) :
    (ParseUint s = (decVal 0 s, none) ∧ s ≠ [] ∧ (∀ c ∈ s, '0' ≤ c ∧ c ≤ '9') ∧
      decVal 0 s ≤ maxUint64) ∨
    ParseUint s = (maxUint64, some NumError.ErrRange) ∨
    ∃ u, ParseUint s = (u, some NumError.ErrSyntax) := by
  unfold ParseUint
  by_cases hs : s = []
  · right; right
    exact ⟨0, by simp [hs]⟩
  · rw [if_neg hs]
    rcases hr : parseUintLoop s 0 with ⟨u, e⟩
    cases e with
    | none =>
      obtain ⟨h1, h2, h3⟩ := parseUintLoop_ok s 0 u hr
      left
      subst h2
      exact ⟨rfl, hs, h1, h3 (Nat.zero_le _)⟩
    | some e =>
      cases e with
      | ErrSyntax => right; right; exact ⟨u, rfl⟩
      | ErrRange =>
        right; left
        rw [parseUintLoop_range s 0 u hr]

theorem ParseUint_of_digits (s : GoString) (hs : s ≠ []) (hd : ∀ c ∈ s, '0' ≤ c ∧ c ≤ '9')
    (hv : decVal 0 s ≤ maxUint64) : ParseUint s = (decVal 0 s, none) := by
  unfold ParseUint
  rw [if_neg hs]
  exact parseUintLoop_of_digits s 0 hd hv

/-- Unfolding of `ParseInt` on a non-empty string once `ParseUint` has succeeded. -/
theorem ParseInt_cons_ok (c : Char) (cs : GoString) (un : Nat)
    (h : ParseUint (if c = '+' then cs else if c = '-' then cs else c :: cs) = (un, none)) :
    ParseInt (c :: cs) =
      if !decide (c = '-') ∧ un ≥ 2 ^ 63 then ((2 : Int) ^ 63 - 1, some NumError.ErrRange)
      else if decide (c = '-') ∧ un > 2 ^ 63 then (-(2 : Int) ^ 63, some NumError.ErrRange)
      else (if decide (c = '-') then -(un : Int) else (un : Int), none) := by
  simp only [ParseInt, h]

/-- A digit string below `2^63` parses to its value. -/
theorem ParseInt_digits (s : GoString) (hs : s ≠ []) (hd : ∀ c ∈ s, '0' ≤ c ∧ c ≤ '9')
    (hv : decVal 0 s < 2 ^ 63) : ParseInt s = (((decVal 0 s : Nat) : Int), none) := by
  cases s with
  | nil => exact absurd rfl hs
  | cons c cs =>
    have hc := hd c (by simp)
    have hp : c ≠ '+' := by rintro rfl; exact absurd hc.1 (by decide)
    have hm : c ≠ '-' := by rintro rfl; exact absurd hc.1 (by decide)
    have hu := ParseUint_of_digits (c :: cs) hs hd (by rw [maxUint64_eq]; norm_num at hv; omega)
    rw [ParseInt_cons_ok c cs (decVal 0 (c :: cs)) (by rw [if_neg hp, if_neg hm]; exact hu)]
    simp only [hm, decide_False, Bool.not_false, true_and, Bool.false_eq_true, false_and,
      if_false]
    rw [if_neg (by omega)]

/-- A minus sign followed by a digit string of value at most `2^63` parses to the negated value. -/
theorem ParseInt_neg (s : GoString) (hs : s ≠ []) (hd : ∀ c ∈ s, '0' ≤ c ∧ c ≤ '9')
    (hv : decVal 0 s ≤ 2 ^ 63) : ParseInt ('-' :: s) = (-((decVal 0 s : Nat) : Int), none) := by
  have hu := ParseUint_of_digits s hs hd (by rw [maxUint64_eq]; norm_num at hv; omega)
  rw [ParseInt_cons_ok '-' s (decVal 0 s) (by simpa using hu)]
  simp only [decide_True, Bool.not_true, Bool.false_eq_true, false_and, if_false, true_and,
    if_true]
  rw [if_neg (by omega)]

/-- The result of `ParseInt` on a minus sign followed by `cs`. -/
theorem ParseInt_minus (cs : GoString) :
    ParseInt ('-' :: cs) =
      match ParseUint cs with
      | (_, some NumError.ErrSyntax) => (0, some NumError.ErrSyntax)
      | (un, _) =>
        if un > 2 ^ 63 then (-(2 : Int) ^ 63, some NumError.ErrRange) else (-(un : Int), none) := by
  simp [ParseInt]

/-- The result of `ParseInt` on a string that does not start with a minus sign: `rest` is what follows
the plus sign, or the whole string. -/
theorem ParseInt_plain (c : Char) (cs : GoString) (hm : c ≠ '-') :
    ParseInt (c :: cs) =
      match ParseUint (if c = '+' then cs else c :: cs) with
      | (_, some NumError.ErrSyntax) => (0, some NumError.ErrSyntax)
      | (un, _) =>
        if un ≥ 2 ^ 63 then ((2 : Int) ^ 63 - 1, some NumError.ErrRange) else ((un : Int), none) := by
  simp [ParseInt, hm]

/-- What a successful `ParseInt` has read: digits, after an optional sign, within range. -/
theorem ParseInt_ok (s : GoString) (v : Int) (h : ParseInt s = (v, none)) :
    ∃ ds : GoString, ds ≠ [] ∧ (∀ c ∈ ds, '0' ≤ c ∧ c ≤ '9') ∧
      (((s = ds ∨ s = '+' :: ds) ∧ v = (decVal 0 ds : Nat) ∧ decVal 0 ds < 2 ^ 63) ∨
        (s = '-' :: ds ∧ v = -((decVal 0 ds : Nat) : Int) ∧ decVal 0 ds ≤ 2 ^ 63)) := by
  cases s with
  | nil => simp [ParseInt] at h
  | cons c cs =>
    by_cases hm : c = '-'
    · subst hm
      rw [ParseInt_minus] at h
      rcases ParseUint_cases cs with ⟨hu, hne, hd, _⟩ | hu | ⟨u, hu⟩
      · rw [hu] at h
        dsimp only at h
        by_cases hv : decVal 0 cs > 2 ^ 63
        · rw [if_pos hv] at h
          exact absurd (congrArg Prod.snd h) (by simp)
        · simp only [hv, if_false, Prod.mk.injEq, and_true] at h
          exact ⟨cs, hne, hd, Or.inr ⟨rfl, h.symm, by omega⟩⟩
      · rw [hu] at h
        dsimp only at h
        have : maxUint64 > 2 ^ 63 := by decide
        simp only [this, if_true, Prod.mk.injEq] at h
        exact absurd h.2 (by simp)
      · rw [hu] at h
        simp at h
    · rw [ParseInt_plain c cs hm] at h
      generalize hds : (if c = '+' then cs else c :: cs) = ds at h
      have hs : c :: cs = ds ∨ c :: cs = '+' :: ds := by
        by_cases hp : c = '+'
        · right
          rw [if_pos hp] at hds
          rw [hp, hds]
        · left
          rw [if_neg hp] at hds
          exact hds
      rcases ParseUint_cases ds with ⟨hu, hne, hd, _⟩ | hu | ⟨u, hu⟩
      · rw [hu] at h
        dsimp only at h
        by_cases hv : decVal 0 ds ≥ 2 ^ 63
        · rw [if_pos hv] at h
          exact absurd (congrArg Prod.snd h) (by simp)
        · simp only [hv, if_false, Prod.mk.injEq, and_true] at h
          exact ⟨ds, hne, hd, Or.inl ⟨hs, h.symm, by omega⟩⟩
      · rw [hu] at h
        dsimp only at h
        have : maxUint64 ≥ 2 ^ 63 := by decide
        simp only [this, if_true, Prod.mk.injEq] at h
        exact absurd h.2 (by simp)
      · rw [hu] at h
        simp at h

/-- A successfully parsed group id is an `int64`. -/
theorem ParseInt_range (s : GoString) (v : Int) (h : ParseInt s = (v, none)) :
    -(2 : Int) ^ 63 ≤ v ∧ v < (2 : Int) ^ 63 := by
  obtain ⟨ds, _, _, ⟨_, hv, hlt⟩ | ⟨_, hv, hle⟩⟩ := ParseInt_ok s v h
  · subst hv
    constructor
    · have : (0 : Int) ≤ (decVal 0 ds : Nat) := Int.natCast_nonneg _
      norm_num
      omega
    · exact_mod_cast hlt
  · subst hv
    have h2 : ((decVal 0 ds : Nat) : Int) ≤ (2 : Int) ^ 63 := by exact_mod_cast hle
    have : (0 : Int) ≤ (decVal 0 ds : Nat) := Int.natCast_nonneg _
    constructor
    · omega
    · norm_num
      omega

/-- The digits of the magnitude of `g`. -/
theorem formatInt_nonneg (g : Int) (h : 0 ≤ g) :
    formatInt g = decimalDigits (g.natAbs + 1) g.natAbs := by
  unfold formatInt
  rw [if_neg (by omega)]

theorem formatInt_neg (g : Int) (h : g < 0) :
    formatInt g = '-' :: decimalDigits (g.natAbs + 1) g.natAbs := by
  unfold formatInt
  rw [if_pos h]

/-- Parsing the rendering of an `int64` gives the number back. -/
theorem ParseInt_formatInt (g : Int) (h1 : -(2 : Int) ^ 63 ≤ g) (h2 : g < (2 : Int) ^ 63) :
    ParseInt (formatInt g) = (g, none) := by
  have hd := decimalDigits_digits (g.natAbs + 1) g.natAbs
  have hne := decimalDigits_ne_nil g.natAbs g.natAbs
  have hv := decVal_decimalDigits (g.natAbs + 1) g.natAbs (Nat.lt_succ_self _)
  by_cases hg : g < 0
  · rw [formatInt_neg g hg, ParseInt_neg _ hne hd (by rw [hv]; norm_num at h1 ⊢; omega), hv]
    congr 1
    omega
  · rw [formatInt_nonneg g (by omega),
      ParseInt_digits _ hne hd (by rw [hv]; norm_num at h2 ⊢; omega), hv]
    congr 1
    omega

/-- The rendering of a number has no colon. -/
theorem formatInt_noColon (g : Int) : ':' ∉ formatInt g := by
  have hd := decimalDigits_digits (g.natAbs + 1) g.natAbs
  have hcol : ':' ∉ decimalDigits (g.natAbs + 1) g.natAbs := by
    intro hmem
    exact absurd (hd _ hmem).2 (by decide)
  by_cases hg : g < 0
  · rw [formatInt_neg g hg]
    intro hmem
    simp only [List.mem_cons] at hmem
    rcases hmem with h | h
    · exact absurd h (by decide)
    · exact hcol h
  · rw [formatInt_nonneg g (by omega)]
    exact hcol

/-- The rendering of a number is canonical. -/
theorem formatInt_canonical (g : Int) : canonicalDecimal (formatInt g) = true := by
  have hd := decimalDigits_digits (g.natAbs + 1) g.natAbs
  have hne := decimalDigits_ne_nil g.natAbs g.natAbs
  unfold canonicalDecimal
  rw [decide_eq_true_iff]
  by_cases hg : g < 0
  · rw [formatInt_neg g hg]
    refine ⟨by simp, ?_, ?_⟩
    · intro h
      simp at h
    · intro _
      exact decimalDigits_head _ _ (Nat.lt_succ_self _) (by omega)
  · rw [formatInt_nonneg g (by omega)]
    cases hs : decimalDigits (g.natAbs + 1) g.natAbs with
    | nil => exact absurd hs hne
    | cons c cs =>
      have hc := hd c (by rw [hs]; simp)
      refine ⟨?_, ?_, ?_⟩
      · simp only [List.head?_cons, ne_eq, Option.some.injEq]
        rintro rfl
        exact absurd hc.1 (by decide)
      · intro h0
        by_cases hz : g.natAbs = 0
        · rw [hz] at hs
          simp only [decimalDigits, Nat.lt_irrefl, Nat.zero_lt_succ, if_true] at hs
          rw [← hs]
          rfl
        · have := decimalDigits_head (g.natAbs + 1) g.natAbs (Nat.lt_succ_self _) (by omega)
          rw [hs] at this
          exact absurd h0 this
      · simp only [List.head?_cons, Option.some.injEq]
        rintro rfl
        exact absurd hc.1 (by decide)

/-- A canonical group segment is the rendering of the number it parses to. -/
theorem formatInt_of_ParseInt (s : GoString) (v : Int) (h : ParseInt s = (v, none))
    (hc : canonicalDecimal s = true) : formatInt v = s := by
  unfold canonicalDecimal at hc
  rw [decide_eq_true_iff] at hc
  obtain ⟨hplus, hzero, hminus⟩ := hc
  obtain ⟨ds, hne, hd, ⟨hs, hv, _⟩ | ⟨hs, hv, _⟩⟩ := ParseInt_ok s v h
  · rcases hs with hs | hs
    · subst hs
      by_cases h0 : s.head? = some '0'
      · have hlen := hzero h0
        cases s with
        | nil => exact absurd rfl hne
        | cons c cs =>
          simp only [List.head?_cons, Option.some.injEq] at h0
          simp only [List.length_cons, Nat.add_eq_right, List.length_eq_zero] at hlen
          subst h0 hlen hv
          rfl
      · obtain ⟨h1, h2⟩ := decimalDigits_decVal s hd hne h0
        subst hv
        rw [formatInt_nonneg _ (Int.natCast_nonneg _), Int.natAbs_ofNat]
        exact h2 _ (Nat.lt_succ_self _)
    · subst hs
      exact absurd rfl hplus
  · subst hs
    have h0 : ds.head? ≠ some '0' := hminus rfl
    obtain ⟨h1, h2⟩ := decimalDigits_decVal ds hd hne h0
    subst hv
    rw [formatInt_neg _ (by omega), Int.natAbs_neg, Int.natAbs_ofNat]
    rw [h2 _ (Nat.lt_succ_self _)]

/-! ## `ParseSchedulerBucket` -/

/-- The result on a string with exactly three pieces. -/
theorem ParseSchedulerBucket_three (raw p0 p1 p2 : GoString) (h : Split raw = [p0, p1, p2]) :
    ParseSchedulerBucket raw =
      match ParseInt p0 with
      | (groupID, none) =>
        if p1 = [] ∨ p2 = [] then (SchedulerBucket.zero, false) else (⟨groupID, p1, p2⟩, true)
      | (_, some _) => (SchedulerBucket.zero, false) := by
  simp only [ParseSchedulerBucket, h]

/-- The result on a string that does not have exactly three pieces. -/
theorem ParseSchedulerBucket_not_three (raw : GoString) (h : (Split raw).length ≠ 3) :
    ParseSchedulerBucket raw = (SchedulerBucket.zero, false) := by
  unfold ParseSchedulerBucket
  split
  · rename_i p0 p1 p2 heq
    rw [heq] at h
    exact absurd rfl h
  · rfl

/-- A successful parse had exactly three pieces, the first a number and the others non-empty. -/
theorem ParseSchedulerBucket_ok (raw : GoString) (b : SchedulerBucket)
    (h : ParseSchedulerBucket raw = (b, true)) :
    ∃ p0, Split raw = [p0, b.Platform, b.Mode] ∧ ParseInt p0 = (b.GroupID, none) ∧
      b.Platform ≠ [] ∧ b.Mode ≠ [] := by
  by_cases hlen : (Split raw).length = 3
  · obtain ⟨p0, p1, p2, hs⟩ := List.length_eq_three.mp hlen
    rw [ParseSchedulerBucket_three raw p0 p1 p2 hs] at h
    rcases hp : ParseInt p0 with ⟨g, e⟩
    rw [hp] at h
    cases e with
    | some e => simp at h
    | none =>
      dsimp only at h
      by_cases hemp : p1 = [] ∨ p2 = []
      · rw [if_pos hemp] at h
        simp at h
      · rw [if_neg hemp] at h
        simp only [Prod.mk.injEq, and_true] at h
        subst h
        exact ⟨p0, hs, hp, fun h1 => hemp (Or.inl h1), fun h2 => hemp (Or.inr h2)⟩
  · rw [ParseSchedulerBucket_not_three raw hlen] at h
    simp at h

/-- Parsing the key of a bucket whose labels are non-empty and colon-free. -/
theorem ParseSchedulerBucket_String (g : Int) (p m : GoString) (hg : isInt64 g)
    (hp : p ≠ []) (hm : m ≠ []) (hpc : ':' ∉ p) (hmc : ':' ∉ m) :
    ParseSchedulerBucket (formatInt g ++ ':' :: (p ++ ':' :: m)) = (⟨g, p, m⟩, true) := by
  have hs : Split (formatInt g ++ ':' :: (p ++ ':' :: m)) = [formatInt g, p, m] := by
    rw [Split_append_colon _ _ (formatInt_noColon g), Split_append_colon _ _ hpc,
      Split_noColon _ hmc]
  rw [ParseSchedulerBucket_three _ _ _ _ hs, ParseInt_formatInt g hg.1 hg.2]
  dsimp only
  rw [if_neg (by simp [hp, hm])]

/-! ## Scheduler bucket keys: round trip, rejection, no normalisation -/

/-- C1 (as stated, refuted): the bucket `(1, "a:b", "m")` has non-empty `Platform` and `Mode`,
yet parsing its key `"1:a:b:m"` is rejected, because the key has four pieces. -/
theorem C1_colon_in_platform_rejected :
    isInt64 1 ∧ "a:b".toList ≠ [] ∧ "m".toList ≠ [] ∧
    SchedulerBucket.String ⟨1, "a:b".toList, "m".toList⟩ = "1:a:b:m".toList ∧
    ParseSchedulerBucket (SchedulerBucket.String ⟨1, "a:b".toList, "m".toList⟩) =
      (SchedulerBucket.zero, false) ∧
    ParseSchedulerBucket (SchedulerBucket.String ⟨1, "a:b".toList, "m".toList⟩) ≠
      (⟨1, "a:b".toList, "m".toList⟩, true) := by
  decide

/-- C1 (amended): for a bucket `b` whose `GroupID` is an `int64`,
`ParseSchedulerBucket(b.String())` returns `(b, true)` exactly when `Platform` and `Mode` are
non-empty and contain no colon. -/
theorem C1_roundtrip_iff (b : SchedulerBucket) (hg : isInt64 b.GroupID) :
    ParseSchedulerBucket b.String = (b, true) ↔
      (b.Platform ≠ [] ∧ b.Mode ≠ [] ∧ ':' ∉ b.Platform ∧ ':' ∉ b.Mode) := by
  constructor
  · intro h
    obtain ⟨p0, hs, _, hp, hm⟩ := ParseSchedulerBucket_ok _ _ h
    have hlen := Split_length b.String
    rw [hs] at hlen
    have h0 : (formatInt b.GroupID).count ':' = 0 :=
      List.count_eq_zero.mpr (formatInt_noColon b.GroupID)
    simp only [SchedulerBucket.String, List.count_append, List.count_cons_self, h0,
      List.length_cons, List.length_nil] at hlen
    refine ⟨hp, hm, ?_, ?_⟩
    · exact List.count_eq_zero.mp (by omega)
    · exact List.count_eq_zero.mp (by omega)
  · rintro ⟨hp, hm, hpc, hmc⟩
    exact ParseSchedulerBucket_String b.GroupID b.Platform b.Mode hg hp hm hpc hmc

/-- C1 (amended), at the bucket `(-5, "openai", "single")`. -/
theorem C1_roundtrip_iff_witness :
    isInt64 (-5) ∧
    ParseSchedulerBucket (SchedulerBucket.String ⟨-5, "openai".toList, "single".toList⟩) =
      (⟨-5, "openai".toList, "single".toList⟩, true) :=
  ⟨by decide, (C1_roundtrip_iff ⟨-5, "openai".toList, "single".toList⟩ (by decide)).mpr (by decide)⟩

/-- C2 (as stated, refuted): `"+1:a:b"` and `"01:a:b"` parse successfully to the bucket
`(1, "a", "b")`, whose key is `"1:a:b"`, not the string that was parsed. -/
theorem C2_plus_sign_not_preserved :
    ParseSchedulerBucket "+1:a:b".toList = (⟨1, "a".toList, "b".toList⟩, true) ∧
    ParseSchedulerBucket "01:a:b".toList = (⟨1, "a".toList, "b".toList⟩, true) ∧
    SchedulerBucket.String ⟨1, "a".toList, "b".toList⟩ = "1:a:b".toList ∧
    SchedulerBucket.String ⟨1, "a".toList, "b".toList⟩ ≠ "+1:a:b".toList ∧
    SchedulerBucket.String ⟨1, "a".toList, "b".toList⟩ ≠ "01:a:b".toList := by
  decide

/-- C2 (amended): if `ParseSchedulerBucket(raw)` returns `(b, true)` then `raw` has exactly three
pieces, `b.Platform` and `b.Mode` are the second and third piece unchanged, `b.GroupID` is an
`int64`, `ParseSchedulerBucket(b.String())` is `(b, true)` again, and `b.String() == raw` holds
exactly when the first piece is written canonically (no plus sign, no leading zero, no `-0`). -/
theorem C2_string_after_parse (raw : GoString) (b : SchedulerBucket)
    (h : ParseSchedulerBucket raw = (b, true)) :
    ∃ p0, Split raw = [p0, b.Platform, b.Mode] ∧ isInt64 b.GroupID ∧
      ParseSchedulerBucket b.String = (b, true) ∧
      (b.String = raw ↔ canonicalDecimal p0 = true) := by
  obtain ⟨p0, hs, hint, hp, hm⟩ := ParseSchedulerBucket_ok raw b h
  have hraw := Split_three raw _ _ _ hs
  have hcol := Split_noColon_mem raw
  rw [hs] at hcol
  have hg : isInt64 b.GroupID := ParseInt_range p0 _ hint
  refine ⟨p0, hs, hg, ?_, ?_⟩
  · exact ParseSchedulerBucket_String b.GroupID b.Platform b.Mode hg hp hm
      (hcol _ (by simp)) (hcol _ (by simp))
  · constructor
    · intro heq
      have h2 : Split b.String = [formatInt b.GroupID, b.Platform, b.Mode] := by
        unfold SchedulerBucket.String
        rw [Split_append_colon _ _ (formatInt_noColon _),
          Split_append_colon _ _ (hcol _ (by simp)), Split_noColon _ (hcol _ (by simp))]
      rw [heq, hs] at h2
      have h3 : p0 = formatInt b.GroupID := by
        simpa using h2
      rw [h3]
      exact formatInt_canonical _
    · intro hc
      unfold SchedulerBucket.String
      rw [formatInt_of_ParseInt p0 _ hint hc]
      exact hraw.symm

/-- C2 (amended), at `raw = "-7:openai:mixed"`. -/
theorem C2_string_after_parse_witness :
    ParseSchedulerBucket "-7:openai:mixed".toList = (⟨-7, "openai".toList, "mixed".toList⟩, true) ∧
    ∃ p0, Split "-7:openai:mixed".toList = [p0, "openai".toList, "mixed".toList] ∧ isInt64 (-7) ∧
      ParseSchedulerBucket (SchedulerBucket.String ⟨-7, "openai".toList, "mixed".toList⟩) =
        (⟨-7, "openai".toList, "mixed".toList⟩, true) ∧
      (SchedulerBucket.String ⟨-7, "openai".toList, "mixed".toList⟩ = "-7:openai:mixed".toList ↔
        canonicalDecimal p0 = true) :=
  ⟨by decide, C2_string_after_parse "-7:openai:mixed".toList
    ⟨-7, "openai".toList, "mixed".toList⟩ (by decide)⟩

/-- C3: a string that does not split on `:` into exactly three pieces, or whose first, second
or third piece is empty, is rejected with `(SchedulerBucket{}, false)`; in particular `""`,
`"1:2"` and `"1::mode"` are rejected. -/
theorem C3_malformed_rejected :
    (∀ raw : GoString,
      ((Split raw).length ≠ 3 ∨
        ∃ p0 p1 p2, Split raw = [p0, p1, p2] ∧ (p0 = [] ∨ p1 = [] ∨ p2 = [])) →
      ParseSchedulerBucket raw = (SchedulerBucket.zero, false)) ∧
    ParseSchedulerBucket "".toList = (SchedulerBucket.zero, false) ∧
    ParseSchedulerBucket "1:2".toList = (SchedulerBucket.zero, false) ∧
    ParseSchedulerBucket "1::mode".toList = (SchedulerBucket.zero, false) := by
  refine ⟨?_, by decide, by decide, by decide⟩
  rintro raw (hlen | ⟨p0, p1, p2, hs, hemp⟩)
  · exact ParseSchedulerBucket_not_three raw hlen
  · rw [ParseSchedulerBucket_three raw p0 p1 p2 hs]
    rcases hemp with h0 | h12
    · subst h0
      rfl
    · rcases hp : ParseInt p0 with ⟨g, e⟩
      cases e with
      | some e => rfl
      | none =>
        dsimp only
        rw [if_pos h12]

/-- C3, at `raw = ":openai:single"`, whose first piece is empty. -/
theorem C3_malformed_rejected_witness :
    (∃ p0 p1 p2, Split ":openai:single".toList = [p0, p1, p2] ∧ (p0 = [] ∨ p1 = [] ∨ p2 = [])) ∧
    ParseSchedulerBucket ":openai:single".toList = (SchedulerBucket.zero, false) :=
  ⟨⟨[], "openai".toList, "single".toList, by decide, Or.inl rfl⟩,
    C3_malformed_rejected.1 ":openai:single".toList
      (Or.inr ⟨[], "openai".toList, "single".toList, by decide, Or.inl rfl⟩)⟩

/-- C4: for every `int64` `g` (zero and negative included) and all non-empty, colon-free `p`
and `m`, parsing the decimal rendering of `g` followed by `":p:m"` succeeds with `GroupID == g`
and with `Platform` and `Mode` equal to `p` and `m` character for character. -/
theorem C4_parse_no_normalisation (g : Int) (p m : GoString) (hg : isInt64 g)
    (hp : p ≠ []) (hm : m ≠ []) (hpc : ':' ∉ p) (hmc : ':' ∉ m) :
    (ParseSchedulerBucket (formatInt g ++ ':' :: (p ++ ':' :: m))).2 = true ∧
    (ParseSchedulerBucket (formatInt g ++ ':' :: (p ++ ':' :: m))).1.GroupID = g ∧
    (ParseSchedulerBucket (formatInt g ++ ':' :: (p ++ ':' :: m))).1.Platform = p ∧
    (ParseSchedulerBucket (formatInt g ++ ':' :: (p ++ ':' :: m))).1.Mode = m := by
  rw [ParseSchedulerBucket_String g p m hg hp hm hpc hmc]
  exact ⟨rfl, rfl, rfl, rfl⟩

/-- C4, at `g = 0`, `p = " OpenAI "` (mixed case, surrounding blanks) and `m = "Single"`. -/
theorem C4_parse_no_normalisation_witness :
    formatInt 0 ++ ':' :: (" OpenAI ".toList ++ ':' :: "Single".toList) =
      "0: OpenAI :Single".toList ∧
    (ParseSchedulerBucket "0: OpenAI :Single".toList).2 = true ∧
    (ParseSchedulerBucket "0: OpenAI :Single".toList).1.GroupID = 0 ∧
    (ParseSchedulerBucket "0: OpenAI :Single".toList).1.Platform = " OpenAI ".toList ∧
    (ParseSchedulerBucket "0: OpenAI :Single".toList).1.Mode = "Single".toList :=
  ⟨by decide, C4_parse_no_normalisation 0 " OpenAI ".toList "Single".toList
    (by decide) (by decide) (by decide) (by decide) (by decide)⟩

/-! ## Lemmas on Go maps and `int64` sums -/

theorem mapGet_mapSet {K V : Type} [DecidableEq K] (m : GoMap K V) (k k' : K) (v : V) :
    mapGet (mapSet m k v) k' = if k = k' then some v else mapGet m k' := by
  induction m with
  | nil => simp [mapSet, mapGet]
  | cons e rest ih =>
    obtain ⟨k0, v0⟩ := e
    unfold mapSet
    by_cases h0 : k0 = k
    · subst h0
      simp only [if_true, mapGet]
      by_cases h1 : k0 = k' <;> simp [h1]
    · simp only [h0, if_false, mapGet, ih]
      by_cases h1 : k0 = k'
      · subst h1
        simp [h0, Ne.symm h0]
      · simp [h1]

theorem mapGet_mapSet_self {K V : Type} [DecidableEq K] (m : GoMap K V) (k : K) (v : V) :
    mapGet (mapSet m k v) k = some v := by
  rw [mapGet_mapSet, if_pos rfl]

theorem mapGet_mapSet_ne {K V : Type} [DecidableEq K] (m : GoMap K V) (k k' : K) (v : V)
    (h : k ≠ k') : mapGet (mapSet m k v) k' = mapGet m k' := by
  rw [mapGet_mapSet, if_neg h]

theorem mapGet_eq_none_iff {K V : Type} [DecidableEq K] (m : GoMap K V) (k : K) :
    mapGet m k = none ↔ k ∉ m.map Prod.fst := by
  induction m with
  | nil => simp [mapGet]
  | cons e rest ih =>
    obtain ⟨k0, v0⟩ := e
    unfold mapGet
    by_cases h0 : k0 = k
    · subst h0
      simp
    · simp only [h0, if_false, ih, List.map_cons, List.mem_cons, not_or]
      constructor
      · intro h
        exact ⟨fun h2 => h0 h2.symm, h⟩
      · intro h
        exact h.2

theorem mapSet_keys_of_some {K V : Type} [DecidableEq K] (m : GoMap K V) (k : K) (v : V)
    (h : mapGet m k ≠ none) : (mapSet m k v).map Prod.fst = m.map Prod.fst := by
  induction m with
  | nil => simp [mapGet] at h
  | cons e rest ih =>
    obtain ⟨k0, v0⟩ := e
    unfold mapSet
    by_cases h0 : k0 = k
    · subst h0
      simp
    · simp only [h0, if_false, List.map_cons]
      rw [ih (by simpa [mapGet, h0] using h)]

theorem mapSet_keys_of_none {K V : Type} [DecidableEq K] (m : GoMap K V) (k : K) (v : V)
    (h : mapGet m k = none) : (mapSet m k v).map Prod.fst = m.map Prod.fst ++ [k] := by
  induction m with
  | nil => simp [mapSet]
  | cons e rest ih =>
    obtain ⟨k0, v0⟩ := e
    unfold mapSet
    by_cases h0 : k0 = k
    · subst h0
      simp [mapGet] at h
    · simp only [h0, if_false, List.map_cons, List.cons_append]
      rw [ih (by simpa [mapGet, h0] using h)]

theorem mapSet_keys_nodup {K V : Type} [DecidableEq K] (m : GoMap K V) (k : K) (v : V)
    (h : (m.map Prod.fst).Nodup) : ((mapSet m k v).map Prod.fst).Nodup := by
  by_cases hk : mapGet m k = none
  · rw [mapSet_keys_of_none m k v hk]
    have hnot := (mapGet_eq_none_iff m k).mp hk
    rw [List.nodup_append]
    refine ⟨h, List.nodup_singleton k, ?_⟩
    intro a ha hb
    simp only [List.mem_singleton] at hb
    subst hb
    exact hnot ha
  · rw [mapSet_keys_of_some m k v hk]
    exact h

/-- In a map without repeated keys, the entries are what the lookup returns. -/
theorem mem_iff_mapGet {K V : Type} [DecidableEq K] (m : GoMap K V)
    (h : (m.map Prod.fst).Nodup) (k : K) (v : V) : (k, v) ∈ m ↔ mapGet m k = some v := by
  induction m with
  | nil => simp [mapGet]
  | cons e rest ih =>
    obtain ⟨k0, v0⟩ := e
    simp only [List.map_cons, List.nodup_cons] at h
    unfold mapGet
    by_cases h0 : k0 = k
    · subst h0
      simp only [List.mem_cons, Prod.mk.injEq, true_and, if_true, Option.some.injEq]
      constructor
      · rintro (h1 | h1)
        · exact h1.symm
        · exact absurd (List.mem_map_of_mem Prod.fst h1) h.1
      · intro h1
        exact Or.inl h1.symm
    · simp only [List.mem_cons, Prod.mk.injEq, h0, if_false, ih h.2]
      constructor
      · rintro (h1 | h1)
        · exact absurd h1.1.symm h0
        · exact h1
      · intro h1
        exact Or.inr h1

theorem mapGet_map {K V : Type} [DecidableEq K] (m : GoMap K V) (f : V → V) (k : K) :
    mapGet (m.map (fun e => (e.1, f e.2))) k = (mapGet m k).map f := by
  induction m with
  | nil => simp [mapGet]
  | cons e rest ih =>
    obtain ⟨k0, v0⟩ := e
    simp only [List.map_cons, mapGet]
    by_cases h0 : k0 = k
    · simp [h0]
    · simp [h0, ih]

theorem wrap64_add_wrap64 (a b : Int) : wrap64 (wrap64 a + b) = wrap64 (a + b) := by
  unfold wrap64
  norm_num
  omega

theorem wrap64_of_isInt64 (a : Int) (h : isInt64 a) : wrap64 a = a := by
  unfold isInt64 at h
  unfold wrap64
  norm_num at h ⊢
  omega

theorem wrap64_zero : wrap64 0 = 0 := by decide

/-! ## `getAccountsLoadMapBestEffort`: the de-duplicated batch -/

/-- One step of the de-duplication loop keeps the map free of repeated keys and keeps, for
every id, the largest concurrency seen so far among the entries with that positive id. -/
theorem uniqueStep_inv (m : GoMap Int Int) (l : List Account) (a : Account)
    (hn : (m.map Prod.fst).Nodup)
    (h : ∀ id, (mapGet m id = none → ¬ (0 < id ∧ ∃ acc ∈ l, acc.ID = id)) ∧
      ∀ c, mapGet m id = some c → 0 < id ∧ (∃ acc ∈ l, acc.ID = id ∧ acc.Concurrency = c) ∧
        ∀ acc ∈ l, acc.ID = id → acc.Concurrency ≤ c) :
    ((uniqueStep m a).map Prod.fst).Nodup ∧
    ∀ id, (mapGet (uniqueStep m a) id = none → ¬ (0 < id ∧ ∃ acc ∈ l ++ [a], acc.ID = id)) ∧
      ∀ c, mapGet (uniqueStep m a) id = some c →
        0 < id ∧ (∃ acc ∈ l ++ [a], acc.ID = id ∧ acc.Concurrency = c) ∧
        ∀ acc ∈ l ++ [a], acc.ID = id → acc.Concurrency ≤ c := by
  unfold uniqueStep
  by_cases hid : a.ID ≤ 0
  · rw [if_pos hid]
    refine ⟨hn, fun id => ⟨?_, ?_⟩⟩
    · rintro hnone ⟨hpos, acc, hacc, hacc2⟩
      simp only [List.mem_append, List.mem_singleton] at hacc
      rcases hacc with hacc | rfl
      · exact (h id).1 hnone ⟨hpos, acc, hacc, hacc2⟩
      · omega
    · intro c hc
      obtain ⟨hpos, ⟨acc, hacc, hacc2⟩, hmax⟩ := (h id).2 c hc
      refine ⟨hpos, ⟨acc, by simp [hacc], hacc2⟩, ?_⟩
      intro acc2 hmem heq
      simp only [List.mem_append, List.mem_singleton] at hmem
      rcases hmem with hmem | rfl
      · exact hmax acc2 hmem heq
      · omega
  · rw [if_neg hid]
    have hpos : 0 < a.ID := by omega
    -- the three ways in which the entry of `a.ID` can end up
    have key : ∀ (m2 : GoMap Int Int) (c0 : Int),
        ((m2.map Prod.fst).Nodup) →
        (∀ id, id ≠ a.ID → mapGet m2 id = mapGet m id) →
        mapGet m2 a.ID = some c0 →
        (∃ acc ∈ l ++ [a], acc.ID = a.ID ∧ acc.Concurrency = c0) →
        (∀ acc ∈ l ++ [a], acc.ID = a.ID → acc.Concurrency ≤ c0) →
        ((m2.map Prod.fst).Nodup) ∧
        ∀ id, (mapGet m2 id = none → ¬ (0 < id ∧ ∃ acc ∈ l ++ [a], acc.ID = id)) ∧
          ∀ c, mapGet m2 id = some c →
            0 < id ∧ (∃ acc ∈ l ++ [a], acc.ID = id ∧ acc.Concurrency = c) ∧
            ∀ acc ∈ l ++ [a], acc.ID = id → acc.Concurrency ≤ c := by
      intro m2 c0 hn2 hother hself hex hmax
      refine ⟨hn2, fun id => ?_⟩
      by_cases hida : id = a.ID
      · subst hida
        refine ⟨fun hnone => ?_, fun c hc => ?_⟩
        · rw [hself] at hnone
          simp at hnone
        · rw [hself] at hc
          simp only [Option.some.injEq] at hc
          subst hc
          exact ⟨hpos, hex, hmax⟩
      · rw [hother id hida]
        refine ⟨?_, ?_⟩
        · rintro hnone ⟨hp, acc, hacc, hacc2⟩
          simp only [List.mem_append, List.mem_singleton] at hacc
          rcases hacc with hacc | rfl
          · exact (h id).1 hnone ⟨hp, acc, hacc, hacc2⟩
          · exact hida hacc2.symm
        · intro c hc
          obtain ⟨hp, ⟨acc, hacc, hacc2⟩, hmx⟩ := (h id).2 c hc
          refine ⟨hp, ⟨acc, by simp [hacc], hacc2⟩, ?_⟩
          intro acc2 hmem heq
          simp only [List.mem_append, List.mem_singleton] at hmem
          rcases hmem with hmem | rfl
          · exact hmx acc2 hmem heq
          · exact absurd heq.symm hida
    cases hget : mapGet m a.ID with
    | none =>
      dsimp only
      refine key _ a.Concurrency (mapSet_keys_nodup m _ _ hn)
        (fun id hne => mapGet_mapSet_ne m _ _ _ (Ne.symm hne)) (mapGet_mapSet_self m _ _)
        ⟨a, by simp, rfl, rfl⟩ ?_
      intro acc hmem heq
      simp only [List.mem_append, List.mem_singleton] at hmem
      rcases hmem with hmem | rfl
      · exact absurd ⟨hpos, acc, hmem, heq⟩ ((h a.ID).1 hget)
      · exact le_refl _
    | some prev =>
      dsimp only
      obtain ⟨_, ⟨acc0, hacc0, hacc0id, hacc0c⟩, hmx⟩ := (h a.ID).2 prev hget
      by_cases hgt : a.Concurrency > prev
      · rw [if_pos hgt]
        refine key _ a.Concurrency (mapSet_keys_nodup m _ _ hn)
          (fun id hne => mapGet_mapSet_ne m _ _ _ (Ne.symm hne)) (mapGet_mapSet_self m _ _)
          ⟨a, by simp, rfl, rfl⟩ ?_
        intro acc hmem heq
        simp only [List.mem_append, List.mem_singleton] at hmem
        rcases hmem with hmem | rfl
        · have := hmx acc hmem heq
          omega
        · exact le_refl _
      · rw [if_neg hgt]
        refine key m prev hn (fun _ _ => rfl) hget ⟨acc0, by simp [hacc0], hacc0id, hacc0c⟩ ?_
        intro acc hmem heq
        simp only [List.mem_append, List.mem_singleton] at hmem
        rcases hmem with hmem | rfl
        · exact hmx acc hmem heq
        · omega

/-- The map `unique` after the de-duplication loop. -/
theorem unique_fold_inv (l : List Account) :
    ((l.foldl uniqueStep []).map Prod.fst).Nodup ∧
    ∀ id, (mapGet (l.foldl uniqueStep []) id = none → ¬ (0 < id ∧ ∃ acc ∈ l, acc.ID = id)) ∧
      ∀ c, mapGet (l.foldl uniqueStep []) id = some c →
        0 < id ∧ (∃ acc ∈ l, acc.ID = id ∧ acc.Concurrency = c) ∧
        ∀ acc ∈ l, acc.ID = id → acc.Concurrency ≤ c := by
  induction l using List.reverseRecOn with
  | nil =>
    refine ⟨by simp, fun id => ⟨?_, ?_⟩⟩
    · rintro _ ⟨_, acc, hacc, _⟩
      simp at hacc
    · intro c hc
      simp [mapGet] at hc
  | append_singleton l a ih =>
    rw [List.foldl_append]
    exact uniqueStep_inv _ l a ih.1 ih.2

/-- The batch has one entry per distinct positive account id, carrying the largest
concurrency listed for that id. -/
theorem buildBatch_spec (order : GoMap Int Int → GoMap Int Int)
    (horder : ∀ m, (order m).Perm m) (accounts : List Account) :
    ((buildBatch order accounts).map (fun e => e.ID)).Nodup ∧
    (∀ id, id ∈ (buildBatch order accounts).map (fun e => e.ID) ↔
      (0 < id ∧ ∃ acc ∈ accounts, acc.ID = id)) ∧
    ∀ e ∈ buildBatch order accounts,
      (∃ acc ∈ accounts, acc.ID = e.ID ∧ acc.Concurrency = e.MaxConcurrency) ∧
      ∀ acc ∈ accounts, acc.ID = e.ID → acc.Concurrency ≤ e.MaxConcurrency := by
  obtain ⟨hnodup, hinv⟩ := unique_fold_inv accounts
  have hperm := horder (accounts.foldl uniqueStep [])
  have hkeys : (buildBatch order accounts).map (fun e => e.ID) =
      (order (accounts.foldl uniqueStep [])).map Prod.fst := by
    simp [buildBatch, List.map_map, Function.comp_def]
  have hmem : ∀ k c, (k, c) ∈ order (accounts.foldl uniqueStep []) ↔
      mapGet (accounts.foldl uniqueStep []) k = some c := by
    intro k c
    rw [hperm.mem_iff]
    exact mem_iff_mapGet _ hnodup k c
  refine ⟨?_, ?_, ?_⟩
  · rw [hkeys]
    exact (hperm.map Prod.fst).nodup_iff.mpr hnodup
  · intro id
    rw [hkeys, (hperm.map Prod.fst).mem_iff]
    constructor
    · intro hin
      cases hget : mapGet (accounts.foldl uniqueStep []) id with
      | none => exact absurd hin ((mapGet_eq_none_iff _ id).mp hget)
      | some c =>
        obtain ⟨hp, ⟨acc, hacc, hid, _⟩, _⟩ := (hinv id).2 c hget
        exact ⟨hp, acc, hacc, hid⟩
    · intro hex
      by_contra hnot
      exact (hinv id).1 ((mapGet_eq_none_iff _ id).mpr hnot) hex
  · intro e he
    simp only [buildBatch, List.mem_map] at he
    obtain ⟨⟨k, c⟩, hkc, rfl⟩ := he
    obtain ⟨_, hex, hmx⟩ := (hinv k).2 c ((hmem k c).mp hkc)
    exact ⟨hex, hmx⟩

/-! ## `getAccountsLoadMapBestEffort`: the chunked calls -/

theorem loadLoop_zero (svc : LoadBatchService) (rest : List AccountWithConcurrency)
    (r : LoadResult) : loadLoop svc 0 rest r = r := by
  unfold loadLoop
  rfl

theorem loadLoop_nil (svc : LoadBatchService) (fuel : Nat) (r : LoadResult) :
    loadLoop svc fuel [] r = r := by
  cases fuel with
  | zero => exact loadLoop_zero svc [] r
  | succ f => simp [loadLoop]

/-- One iteration on a non-empty remainder. -/
theorem loadLoop_succ (svc : LoadBatchService) (fuel : Nat) (rest : List AccountWithConcurrency)
    (r : LoadResult) (h : rest ≠ []) :
    loadLoop svc (fuel + 1) rest r =
      loadLoop svc fuel (rest.drop opsConcurrencyBatchChunkSize)
        { out :=
            match svc r.calls.length (rest.take opsConcurrencyBatchChunkSize) with
            | Except.error _ => r.out
            | Except.ok part => part.foldl (fun o e => mapSet o e.1 e.2) r.out
          calls := r.calls ++ [rest.take opsConcurrencyBatchChunkSize] } := by
  rw [loadLoop, if_neg h]
  dsimp only
  cases svc r.calls.length (rest.take opsConcurrencyBatchChunkSize) <;> rfl

theorem drop_chunk_length (rest : List AccountWithConcurrency) (fuel : Nat) (h : rest ≠ [])
    (hlen : rest.length ≤ fuel + 1) :
    (rest.drop opsConcurrencyBatchChunkSize).length ≤ fuel := by
  have hpos : 0 < rest.length := List.length_pos.mpr h
  rw [List.length_drop]
  unfold opsConcurrencyBatchChunkSize
  omega

/-- The calls made by the loop: the earlier calls, then chunks of at most 200 entries that
together are the remainder of the batch, in order. -/
theorem loadLoop_calls (svc : LoadBatchService) (fuel : Nat) :
    ∀ (rest : List AccountWithConcurrency) (r : LoadResult), rest.length ≤ fuel →
    ∃ more : List (List AccountWithConcurrency),
      (loadLoop svc fuel rest r).calls = r.calls ++ more ∧ more.flatten = rest ∧
      ∀ c ∈ more, c ≠ [] ∧ c.length ≤ opsConcurrencyBatchChunkSize := by
  induction fuel with
  | zero =>
    intro rest r h
    have : rest = [] := List.length_eq_zero.mp (by omega)
    subst this
    exact ⟨[], by simp [loadLoop_zero], rfl, by simp⟩
  | succ f ih =>
    intro rest r h
    by_cases hr : rest = []
    · subst hr
      exact ⟨[], by simp [loadLoop_nil], rfl, by simp⟩
    · rw [loadLoop_succ svc f rest r hr]
      obtain ⟨more, h1, h2, h3⟩ := ih (rest.drop opsConcurrencyBatchChunkSize) _
        (drop_chunk_length rest f hr h)
      refine ⟨rest.take opsConcurrencyBatchChunkSize :: more, ?_, ?_, ?_⟩
      · rw [h1]
        simp
      · rw [List.flatten_cons, h2, List.take_append_drop]
      · intro c hc
        simp only [List.mem_cons] at hc
        rcases hc with rfl | hc
        · refine ⟨?_, ?_⟩
          · intro hnil
            rw [List.take_eq_nil_iff] at hnil
            rcases hnil with hnil | hnil
            · exact absurd hnil (by decide)
            · exact hr hnil
          · rw [List.length_take]
            exact Nat.min_le_left _ _
        · exact h3 c hc

/-- When every call fails the map is left as it was. -/
theorem loadLoop_out_of_fail (svc : LoadBatchService)
    (hfail : ∀ n chunk, ∃ err, svc n chunk = Except.error err) (fuel : Nat) :
    ∀ (rest : List AccountWithConcurrency) (r : LoadResult),
      (loadLoop svc fuel rest r).out = r.out := by
  induction fuel with
  | zero => intro rest r; rw [loadLoop_zero]
  | succ f ih =>
    intro rest r
    by_cases hr : rest = []
    · subst hr
      rw [loadLoop_nil]
    · rw [loadLoop_succ svc f rest r hr, ih]
      obtain ⟨err, herr⟩ := hfail r.calls.length (rest.take opsConcurrencyBatchChunkSize)
      simp only [herr]

/-- Copying the entries of an answer without repeated keys into a map. -/
theorem mapGet_foldl_mapSet {K V : Type} [DecidableEq K] (part : GoMap K V) :
    ∀ (m : GoMap K V), (part.map Prod.fst).Nodup → ∀ k,
      mapGet (part.foldl (fun o e => mapSet o e.1 e.2) m) k =
        match mapGet part k with
        | some v => some v
        | none => mapGet m k := by
  induction part with
  | nil => intro m _ k; simp [mapGet]
  | cons e rest ih =>
    intro m hn k
    obtain ⟨k0, v0⟩ := e
    simp only [List.map_cons, List.nodup_cons] at hn
    rw [List.foldl_cons, ih _ hn.2 k]
    by_cases h0 : k0 = k
    · subst h0
      have hnone : mapGet rest k0 = none := (mapGet_eq_none_iff rest k0).mpr hn.1
      simp [hnone, mapGet, mapGet_mapSet_self]
    · simp only [mapGet, h0, if_false]
      rw [mapGet_mapSet_ne _ _ _ _ h0]

/-- The map after one iteration, at a key outside the chunk and at a key inside it. -/
theorem chunk_out (svc : LoadBatchService)
    (hsvc : ∀ n chunk part, (chunk.map (fun e => e.ID)).Nodup → svc n chunk = Except.ok part →
      (part.map Prod.fst).Nodup ∧ ∀ k ∈ part.map Prod.fst, k ∈ chunk.map (fun e => e.ID))
    (n : Nat) (chunk : List AccountWithConcurrency) (hchunk : (chunk.map (fun e => e.ID)).Nodup)
    (out : GoMap Int (Option AccountLoadInfo)) (k : Int) :
    (k ∉ chunk.map (fun e => e.ID) →
      mapGet (match svc n chunk with
        | Except.error _ => out
        | Except.ok part => part.foldl (fun o e => mapSet o e.1 e.2) out) k = mapGet out k) ∧
    (mapGet out k = none →
      mapGet (match svc n chunk with
        | Except.error _ => out
        | Except.ok part => part.foldl (fun o e => mapSet o e.1 e.2) out) k =
        match svc n chunk with
        | Except.ok part => mapGet part k
        | Except.error _ => none) := by
  cases hs : svc n chunk with
  | error err =>
    dsimp only
    exact ⟨fun _ => rfl, fun h => h⟩
  | ok part =>
    dsimp only
    obtain ⟨hn, hsub⟩ := hsvc n chunk part hchunk hs
    rw [mapGet_foldl_mapSet part out hn k]
    constructor
    · intro hk
      have : mapGet part k = none :=
        (mapGet_eq_none_iff part k).mpr (fun hmem => hk (hsub k hmem))
      rw [this]
    · intro hnone
      cases mapGet part k with
      | none => exact hnone
      | some v => rfl

/-- The map returned by the loop when the service answers only for the accounts it was asked
about: keys outside the remainder are untouched, and a key of a chunk holds the answer of the
call made for that chunk, or nothing if that call failed. -/
theorem loadLoop_out (svc : LoadBatchService)
    (hsvc : ∀ n chunk part, (chunk.map (fun e => e.ID)).Nodup → svc n chunk = Except.ok part →
      (part.map Prod.fst).Nodup ∧ ∀ k ∈ part.map Prod.fst, k ∈ chunk.map (fun e => e.ID))
    (fuel : Nat) :
    ∀ (rest : List AccountWithConcurrency) (r : LoadResult), rest.length ≤ fuel →
      (rest.map (fun e => e.ID)).Nodup →
      (∀ k, k ∉ rest.map (fun e => e.ID) →
        mapGet (loadLoop svc fuel rest r).out k = mapGet r.out k) ∧
      ((∀ k ∈ rest.map (fun e => e.ID), mapGet r.out k = none) →
        ∀ n c, (loadLoop svc fuel rest r).calls[n]? = some c → r.calls.length ≤ n →
          ∀ k ∈ c.map (fun e => e.ID),
            mapGet (loadLoop svc fuel rest r).out k =
              match svc n c with
              | Except.ok part => mapGet part k
              | Except.error _ => none) := by
  induction fuel with
  | zero =>
    intro rest r _ _
    rw [loadLoop_zero]
    refine ⟨fun _ _ => rfl, ?_⟩
    intro _ n c hget hle
    have := List.getElem?_eq_some.mp hget
    obtain ⟨hlt, _⟩ := this
    omega
  | succ f ih =>
    intro rest r hlen hnodup
    by_cases hr : rest = []
    · subst hr
      rw [loadLoop_nil]
      refine ⟨fun _ _ => rfl, ?_⟩
      intro _ n c hget hle
      obtain ⟨hlt, _⟩ := List.getElem?_eq_some.mp hget
      omega
    · rw [loadLoop_succ svc f rest r hr]
      have hsplit : rest.take opsConcurrencyBatchChunkSize ++
          rest.drop opsConcurrencyBatchChunkSize = rest := List.take_append_drop _ _
      have hnd := hnodup
      rw [← hsplit, List.map_append, List.nodup_append] at hnd
      obtain ⟨hnd1, hnd2, hdisj⟩ := hnd
      have hmem_rest : ∀ k, k ∈ rest.map (fun e => e.ID) ↔
          (k ∈ (rest.take opsConcurrencyBatchChunkSize).map (fun e => e.ID) ∨
            k ∈ (rest.drop opsConcurrencyBatchChunkSize).map (fun e => e.ID)) := by
        intro k
        rw [← List.mem_append, ← List.map_append, hsplit]
      obtain ⟨ih1, ih2⟩ := ih (rest.drop opsConcurrencyBatchChunkSize)
        { out :=
            match svc r.calls.length (rest.take opsConcurrencyBatchChunkSize) with
            | Except.error _ => r.out
            | Except.ok part => part.foldl (fun o e => mapSet o e.1 e.2) r.out
          calls := r.calls ++ [rest.take opsConcurrencyBatchChunkSize] }
        (drop_chunk_length rest f hr hlen) hnd2
      obtain ⟨more, hcalls, _, _⟩ := loadLoop_calls svc f (rest.drop opsConcurrencyBatchChunkSize)
        { out :=
            match svc r.calls.length (rest.take opsConcurrencyBatchChunkSize) with
            | Except.error _ => r.out
            | Except.ok part => part.foldl (fun o e => mapSet o e.1 e.2) r.out
          calls := r.calls ++ [rest.take opsConcurrencyBatchChunkSize] }
        (drop_chunk_length rest f hr hlen)
      have hco := chunk_out svc hsvc r.calls.length (rest.take opsConcurrencyBatchChunkSize) hnd1
        r.out
      constructor
      · intro k hk
        rw [hmem_rest] at hk
        rw [ih1 k (fun h => hk (Or.inr h))]
        exact (hco k).1 (fun h => hk (Or.inl h))
      · intro hnone n c hget hle
        by_cases hn : n = r.calls.length
        · subst hn
          rw [hcalls] at hget
          simp only [List.append_assoc, List.singleton_append, List.length_append] at hget
          rw [List.getElem?_append_right (le_refl _)] at hget
          simp only [Nat.sub_self, List.getElem?_cons_zero, Option.some.injEq] at hget
          subst hget
          intro k hk
          rw [ih1 k (fun h => hdisj hk h)]
          exact (hco k).2 (hnone k ((hmem_rest k).mpr (Or.inl hk)))
        · refine ih2 ?_ n c hget (by simp only [List.length_append, List.length_singleton]; omega)
          intro k hk
          dsimp only
          rw [(hco k).1 (fun h => hdisj h hk)]
          exact hnone k ((hmem_rest k).mpr (Or.inr hk))

/-- The calls of `getAccountsLoadMapBestEffort`, put end to end, are the de-duplicated
batch, and no call is empty or longer than the chunk size. -/
theorem getAccountsLoadMapBestEffort_calls (svc : LoadBatchService)
    (order : GoMap Int Int → GoMap Int Int) (horder : ∀ m, (order m).Perm m)
    (accounts : List Account) :
    (getAccountsLoadMapBestEffort (some svc) order accounts).calls.flatten =
      buildBatch order accounts ∧
    ∀ c ∈ (getAccountsLoadMapBestEffort (some svc) order accounts).calls,
      c ≠ [] ∧ c.length ≤ opsConcurrencyBatchChunkSize := by
  unfold getAccountsLoadMapBestEffort
  dsimp only
  by_cases ha : accounts = []
  · subst ha
    have : buildBatch order [] = [] := by
      have hp := horder []
      simp [buildBatch, List.Perm.eq_nil hp]
    simp [this]
  · rw [if_neg ha]
    obtain ⟨more, h1, h2, h3⟩ := loadLoop_calls svc (buildBatch order accounts).length
      (buildBatch order accounts) { out := [], calls := [] } (le_refl _)
    rw [h1]
    simp only [List.nil_append]
    exact ⟨h2, h3⟩

/-- In a list of chunks whose ids are pairwise distinct, an id that occurs at all occurs in
exactly one chunk. -/
theorem one_chunk_of_nodup (L : List (List AccountWithConcurrency)) (id : Int) :
    (L.flatten.map (fun e => e.ID)).Nodup → id ∈ L.flatten.map (fun e => e.ID) →
    (L.filter (fun c => decide (id ∈ c.map (fun e => e.ID)))).length = 1 := by
  induction L with
  | nil => intro _ h; simp at h
  | cons c L ih =>
    intro hn hmem
    rw [List.flatten_cons, List.map_append] at hn hmem
    rw [List.nodup_append] at hn
    obtain ⟨_, hn2, hdisj⟩ := hn
    rw [List.mem_append] at hmem
    by_cases hc : id ∈ c.map (fun e => e.ID)
    · have hrest : L.filter (fun c => decide (id ∈ c.map (fun e => e.ID))) = [] := by
        rw [List.filter_eq_nil_iff]
        intro c2 hc2 hin
        simp only [decide_eq_true_eq] at hin
        apply hdisj hc
        rw [List.mem_map] at hin ⊢
        obtain ⟨e, he, heid⟩ := hin
        exact ⟨e, List.mem_flatten.mpr ⟨c2, hc2, he⟩, heid⟩
      rw [List.filter_cons_of_pos (by simpa using hc), hrest]
      rfl
    · rw [List.filter_cons_of_neg (by simpa using hc)]
      rcases hmem with h | h
      · exact absurd h hc
      · exact ih hn2 h

/-! ## Claims on `getAccountsLoadMapBestEffort` -/

/-- C5: the entries handed to `GetAccountsLoadBatch` (all calls of one invocation together)
have pairwise distinct ids, the ids are exactly the positive ids of the account list, and the
`MaxConcurrency` of each entry is the largest `Concurrency` listed for its id; ids `<= 0` are
never queried.  An id listed with capacities 10 and 20 is queried once, with 20. -/
theorem C5_batch_deduplicated (svc : LoadBatchService) (order : GoMap Int Int → GoMap Int Int)
    (horder : ∀ m, (order m).Perm m) (accounts : List Account) :
    (((getAccountsLoadMapBestEffort (some svc) order accounts).calls.flatten).map
      (fun e => e.ID)).Nodup ∧
    (∀ id, id ∈ ((getAccountsLoadMapBestEffort (some svc) order accounts).calls.flatten).map
        (fun e => e.ID) ↔ (0 < id ∧ ∃ acc ∈ accounts, acc.ID = id)) ∧
    (∀ e ∈ (getAccountsLoadMapBestEffort (some svc) order accounts).calls.flatten,
      (∃ acc ∈ accounts, acc.ID = e.ID ∧ acc.Concurrency = e.MaxConcurrency) ∧
      ∀ acc ∈ accounts, acc.ID = e.ID → acc.Concurrency ≤ e.MaxConcurrency) ∧
    (∀ a b : Account, a.ID = 7 → b.ID = 7 → a.Concurrency = 10 → b.Concurrency = 20 →
      (getAccountsLoadMapBestEffort (some svc) order [a, b]).calls = [[⟨7, 20⟩]]) := by
  rw [(getAccountsLoadMapBestEffort_calls svc order horder accounts).1]
  refine ⟨(buildBatch_spec order horder accounts).1, (buildBatch_spec order horder accounts).2.1,
    (buildBatch_spec order horder accounts).2.2, ?_⟩
  intro a b ha hb hca hcb
  have hu : [a, b].foldl uniqueStep [] = [(7, 20)] := by
    simp [uniqueStep, ha, hb, hca, hcb, mapGet, mapSet]
  have hb2 : buildBatch order [a, b] = [⟨7, 20⟩] := by
    unfold buildBatch
    rw [hu, List.perm_singleton.mp (horder [(7, 20)])]
    rfl
  unfold getAccountsLoadMapBestEffort
  dsimp only
  rw [if_neg (by simp), hb2]
  rw [List.length_singleton, loadLoop_succ svc 0 _ _ (by simp), loadLoop_zero]
  rfl

/-- C5, for the example accounts, with the map visited in insertion order: account 7 is
queried once with capacity 20, account 9 with capacity 3, the account with id 0 not at all. -/
theorem C5_batch_deduplicated_witness :
    (getAccountsLoadMapBestEffort (some exampleService) id exampleAccounts).calls =
      [[⟨7, 20⟩, ⟨9, 3⟩]] ∧
    ∀ e ∈ (getAccountsLoadMapBestEffort (some exampleService) id exampleAccounts).calls.flatten,
      (∃ acc ∈ exampleAccounts, acc.ID = e.ID ∧ acc.Concurrency = e.MaxConcurrency) ∧
      ∀ acc ∈ exampleAccounts, acc.ID = e.ID → acc.Concurrency ≤ e.MaxConcurrency :=
  ⟨by decide,
    (C5_batch_deduplicated exampleService id (fun m => List.Perm.refl m) exampleAccounts).2.2.1⟩

/-- C8: no call to `GetAccountsLoadBatch` receives more than 200 entries, and every distinct
positive account id of the list is passed in exactly one call of the invocation (and once in
that call). -/
theorem C8_chunked_calls (svc : LoadBatchService) (order : GoMap Int Int → GoMap Int Int)
    (horder : ∀ m, (order m).Perm m) (accounts : List Account) :
    (∀ c ∈ (getAccountsLoadMapBestEffort (some svc) order accounts).calls, c.length ≤ 200) ∧
    ∀ id, 0 < id → (∃ acc ∈ accounts, acc.ID = id) →
      ((getAccountsLoadMapBestEffort (some svc) order accounts).calls.filter
        (fun c => decide (id ∈ c.map (fun e => e.ID)))).length = 1 ∧
      (((getAccountsLoadMapBestEffort (some svc) order accounts).calls.flatten).map
        (fun e => e.ID)).count id = 1 := by
  obtain ⟨hflat, hlen⟩ := getAccountsLoadMapBestEffort_calls svc order horder accounts
  obtain ⟨hnd, hmem, _⟩ := buildBatch_spec order horder accounts
  refine ⟨fun c hc => (hlen c hc).2, ?_⟩
  intro id hpos hex
  have hin : id ∈ (buildBatch order accounts).map (fun e => e.ID) := (hmem id).mpr ⟨hpos, hex⟩
  constructor
  · apply one_chunk_of_nodup
    · rw [hflat]
      exact hnd
    · rw [hflat]
      exact hin
  · rw [hflat]
    exact List.count_eq_one_of_mem hnd hin

/-- C8, for the example accounts: one call with two entries, and id 7 is in exactly one call. -/
theorem C8_chunked_calls_witness :
    (∀ c ∈ (getAccountsLoadMapBestEffort (some failingService) id exampleAccounts).calls,
      c.length ≤ 200) ∧
    ((getAccountsLoadMapBestEffort (some failingService) id exampleAccounts).calls.filter
      (fun c => decide ((7 : Int) ∈ c.map (fun e => e.ID)))).length = 1 :=
  ⟨(C8_chunked_calls failingService id (fun m => List.Perm.refl m) exampleAccounts).1,
    ((C8_chunked_calls failingService id (fun m => List.Perm.refl m) exampleAccounts).2 7
      (by decide) ⟨_, List.mem_cons_self _ _, rfl⟩).1⟩

/-! ## `GetConcurrencyStats`: the loop body -/

/-- The loop body leaves the maps alone for an account it does not process, and otherwise
updates the three maps independently of one another. -/
theorem statsStep_eq (filter : Option Int) (loadMap : GoMap Int (Option AccountLoadInfo))
    (st : StatsMaps) (acc : Account) :
    statsStep filter loadMap st acc =
      if processed filter acc = true then
        { account := accountStep st.account acc (matchedGroupOf filter acc)
            (loadOf loadMap acc.ID).1 (loadOf loadMap acc.ID).2
          platform := platformStep st.platform acc (loadOf loadMap acc.ID).1
            (loadOf loadMap acc.ID).2
          group := groupStep st.group acc (matchedGroupOf filter acc)
            (loadOf loadMap acc.ID).1 (loadOf loadMap acc.ID).2 }
      else st := by
  unfold statsStep processed
  by_cases h1 : acc.ID ≤ 0
  · have : ¬ (0 < acc.ID) := by omega
    simp [h1, this]
  · have h1b : 0 < acc.ID := by omega
    by_cases h2 : (activeFilter filter).isSome ∧ matchedGroupOf filter acc = none
    · simp [h1, h1b, h2.1, h2.2]
    · rw [if_neg h1, if_neg h2]
      have : (decide (0 < acc.ID) &&
          !((activeFilter filter).isSome && decide (matchedGroupOf filter acc = none))) = true := by
        simp only [h1b, decide_True, Bool.true_and, Bool.not_eq_true', Bool.and_eq_false_imp,
          decide_eq_false_iff_not]
        intro h3 h4
        exact h2 ⟨h3, h4⟩
      rw [if_pos this]

theorem groupsLoop_eq_foldl (c u w : Int) (gs : List (Option Group)) :
    ∀ m, groupsLoop c u w gs m =
      (gs.filterMap (fun og => match og with
        | some g => if g.ID ≤ 0 then none else some g
        | none => none)).foldl (fun m g => addToGroup m g c u w) m := by
  induction gs with
  | nil => intro m; rfl
  | cons og rest ih =>
    intro m
    cases og with
    | none =>
      rw [groupsLoop, ih]
      simp [List.filterMap_cons]
    | some g =>
      rw [groupsLoop]
      by_cases hg : g.ID ≤ 0
      · rw [if_pos hg, ih]
        simp [List.filterMap_cons, hg]
      · rw [if_neg hg, ih]
        simp [List.filterMap_cons, hg]

/-- Group aggregation for a processed account adds the account to each of its `groupRefs`. -/
theorem groupStep_eq (filter : Option Int) (acc : Account) (m : GoMap Int GroupConcurrencyInfo)
    (u w : Int) (hp : processed filter acc = true) :
    groupStep m acc (matchedGroupOf filter acc) u w =
      (groupRefs filter acc).foldl (fun m g => addToGroup m g acc.Concurrency u w) m := by
  unfold processed at hp
  unfold groupRefs
  unfold matchedGroupOf at hp ⊢
  cases hf : activeFilter filter with
  | none =>
    simp only [groupStep]
    exact groupsLoop_eq_foldl _ _ _ _ _
  | some f =>
    rw [hf] at hp
    simp only [Option.isSome_some, Bool.true_and, Bool.and_eq_true, decide_eq_true_eq,
      Bool.not_eq_true', decide_eq_false_iff_not] at hp
    dsimp only
    cases hm : findMatchedGroup f acc.Groups with
    | none => exact absurd hm hp.2
    | some g => simp [groupStep]

/-- What the inner filter loop finds is a non-nil group of the account whose id is the filter. -/
theorem findMatchedGroup_some (f : Int) (gs : List (Option Group)) (g : Group)
    (h : findMatchedGroup f gs = some g) : some g ∈ gs ∧ g.ID = f ∧ 0 < g.ID := by
  induction gs with
  | nil => simp [findMatchedGroup] at h
  | cons og rest ih =>
    cases og with
    | none =>
      rw [findMatchedGroup] at h
      obtain ⟨h1, h2⟩ := ih h
      exact ⟨by simp [h1], h2⟩
    | some g0 =>
      rw [findMatchedGroup] at h
      by_cases hg : g0.ID ≤ 0
      · rw [if_pos hg] at h
        obtain ⟨h1, h2⟩ := ih h
        exact ⟨by simp [h1], h2⟩
      · rw [if_neg hg] at h
        by_cases he : g0.ID = f
        · rw [if_pos he] at h
          simp only [Option.some.injEq] at h
          subst h
          exact ⟨by simp, he, by omega⟩
        · rw [if_neg he] at h
          obtain ⟨h1, h2⟩ := ih h
          exact ⟨by simp [h1], h2⟩

/-- For a positive filter the inner loop finds a group exactly when the account has one with
that id. -/
theorem findMatchedGroup_isSome (f : Int) (hf : 0 < f) (acc : Account) :
    (findMatchedGroup f acc.Groups).isSome = inGroup acc f := by
  unfold inGroup
  induction acc.Groups with
  | nil => rfl
  | cons og rest ih =>
    cases og with
    | none =>
      rw [findMatchedGroup, ih]
      simp
    | some g0 =>
      rw [findMatchedGroup]
      by_cases hg : g0.ID ≤ 0
      · rw [if_pos hg, ih]
        have : g0.ID ≠ f := by omega
        simp [this]
      · rw [if_neg hg]
        by_cases he : g0.ID = f
        · rw [if_pos he]
          simp [he]
        · rw [if_neg he, ih]
          simp [he]

/-! ## `GetConcurrencyStats`: the three maps after the loop -/

theorem stats_fold_platform (filter : Option Int) (loadMap : GoMap Int (Option AccountLoadInfo))
    (l : List Account) : ∀ st : StatsMaps,
    (l.foldl (statsStep filter loadMap) st).platform =
      l.foldl (fun pm acc =>
        if processed filter acc = true then
          platformStep pm acc (loadOf loadMap acc.ID).1 (loadOf loadMap acc.ID).2
        else pm) st.platform := by
  induction l with
  | nil => intro st; rfl
  | cons a rest ih =>
    intro st
    rw [List.foldl_cons, List.foldl_cons, ih, statsStep_eq]
    by_cases hp : processed filter a = true <;> simp [hp]

theorem stats_fold_account (filter : Option Int) (loadMap : GoMap Int (Option AccountLoadInfo))
    (l : List Account) : ∀ st : StatsMaps,
    (l.foldl (statsStep filter loadMap) st).account =
      l.foldl (fun am acc =>
        if processed filter acc = true then
          accountStep am acc (matchedGroupOf filter acc) (loadOf loadMap acc.ID).1
            (loadOf loadMap acc.ID).2
        else am) st.account := by
  induction l with
  | nil => intro st; rfl
  | cons a rest ih =>
    intro st
    rw [List.foldl_cons, List.foldl_cons, ih, statsStep_eq]
    by_cases hp : processed filter a = true <;> simp [hp]

theorem stats_fold_group (filter : Option Int) (loadMap : GoMap Int (Option AccountLoadInfo))
    (l : List Account) : ∀ st : StatsMaps,
    (l.foldl (statsStep filter loadMap) st).group =
      (groupFlat filter l).foldl (fun gm ga =>
        addToGroup gm ga.1 ga.2.Concurrency (loadOf loadMap ga.2.ID).1 (loadOf loadMap ga.2.ID).2)
        st.group := by
  induction l with
  | nil => intro st; rfl
  | cons a rest ih =>
    intro st
    rw [List.foldl_cons, ih, statsStep_eq]
    unfold groupFlat
    rw [List.flatMap_cons, List.foldl_append]
    by_cases hp : processed filter a = true
    · rw [if_pos hp, if_pos hp]
      dsimp only
      rw [groupStep_eq filter a st.group _ _ hp, List.foldl_map]
    · rw [if_neg hp, if_neg hp]
      rfl

theorem sumOver_nil (f : Account → Int) : sumOver f [] = 0 := rfl

theorem sumOver_snoc (f : Account → Int) (l : List Account) (a : Account) :
    sumOver f (l ++ [a]) = sumOver f l + f a := by
  simp [sumOver]

theorem platformMembers_snoc (filter : Option Int) (p : GoString) (l : List Account)
    (a : Account) :
    platformMembers filter p (l ++ [a]) =
      if processed filter a = true ∧ a.Platform = p then platformMembers filter p l ++ [a]
      else platformMembers filter p l := by
  unfold platformMembers
  rw [List.filter_append]
  by_cases h : processed filter a = true ∧ a.Platform = p
  · rw [if_pos h]
    simp [h.1, h.2]
  · rw [if_neg h]
    have : (processed filter a && decide (a.Platform = p)) = false := by
      rw [Bool.and_eq_false_iff]
      by_cases hp : processed filter a = true
      · right
        simpa using fun h2 => h ⟨hp, h2⟩
      · left
        simpa using hp
    simp [this]

/-- The platform map after the loop: a platform has an entry exactly when its label is not
empty and some processed account carries it, and the entry holds the `int64` sums over those
accounts. -/
theorem platform_total (filter : Option Int) (loadMap : GoMap Int (Option AccountLoadInfo))
    (l : List Account) (p : GoString) :
    mapGet (l.foldl (fun pm acc =>
        if processed filter acc = true then
          platformStep pm acc (loadOf loadMap acc.ID).1 (loadOf loadMap acc.ID).2
        else pm) []) p =
      if p = [] ∨ platformMembers filter p l = [] then none
      else some
        { Platform := p
          CurrentInUse :=
            wrap64 (sumOver (fun a => (loadOf loadMap a.ID).1) (platformMembers filter p l))
          MaxCapacity := wrap64 (sumOver (fun a => a.Concurrency) (platformMembers filter p l))
          LoadPercentage := F64.zero
          WaitingInQueue :=
            wrap64 (sumOver (fun a => (loadOf loadMap a.ID).2) (platformMembers filter p l)) } := by
  induction l using List.reverseRecOn with
  | nil => simp [mapGet, platformMembers]
  | append_singleton l a ih =>
    rw [List.foldl_append, List.foldl_cons, List.foldl_nil, platformMembers_snoc]
    generalize List.foldl _ ([] : GoMap GoString PlatformConcurrencyInfo) l = m at ih ⊢
    by_cases hp : processed filter a = true
    · rw [if_pos hp]
      unfold platformStep
      by_cases hemp : a.Platform = []
      · rw [if_pos hemp, ih]
        by_cases hpe : p = []
        · simp [hpe]
        · have : ¬ (processed filter a = true ∧ a.Platform = p) := by
            rintro ⟨_, h2⟩
            exact hpe (h2 ▸ hemp)
          rw [if_neg this]
      · rw [if_neg hemp]
        by_cases hap : a.Platform = p
        · rw [if_pos (⟨hp, hap⟩ : processed filter a = true ∧ a.Platform = p)]
          rw [hap] at hemp ⊢
          rw [mapGet_mapSet_self]
          have hne : ¬ (p = [] ∨ platformMembers filter p l ++ [a] = []) := by simp [hemp]
          rw [if_neg hne]
          by_cases hms : platformMembers filter p l = []
          · have hih : mapGet m p = none := by
              rw [ih]
              simp [hms]
            rw [hih]
            simp [hms, sumOver]
          · have hne2 : ¬ (p = [] ∨ platformMembers filter p l = []) := by simp [hemp, hms]
            rw [ih, if_neg hne2]
            simp only [sumOver_snoc, wrap64_add_wrap64]
        · rw [mapGet_mapSet_ne _ _ _ _ hap, ih]
          have : ¬ (processed filter a = true ∧ a.Platform = p) := fun h => hap h.2
          rw [if_neg this]
    · rw [if_neg hp, ih]
      have : ¬ (processed filter a = true ∧ a.Platform = p) := fun h => hp h.1
      rw [if_neg this]

/-- The entry that `addToGroup` writes, at the key of the group. -/
theorem mapGet_addToGroup_self (m : GoMap Int GroupConcurrencyInfo) (g : Group) (c u w : Int) :
    mapGet (addToGroup m g c u w) g.ID =
      some
        { GroupID :=
            (match mapGet m g.ID with
              | some i => i.GroupID
              | none => g.ID)
          GroupName :=
            (match mapGet m g.ID with
              | some i => if i.GroupName = [] ∧ g.Name ≠ [] then g.Name else i.GroupName
              | none => g.Name)
          Platform :=
            (match mapGet m g.ID with
              | some i =>
                if i.Platform ≠ [] ∧ g.Platform ≠ [] ∧ i.Platform ≠ g.Platform then []
                else i.Platform
              | none => g.Platform)
          CurrentInUse :=
            (match mapGet m g.ID with
              | some i => wrap64 (i.CurrentInUse + u)
              | none => wrap64 (0 + u))
          MaxCapacity :=
            (match mapGet m g.ID with
              | some i => wrap64 (i.MaxCapacity + c)
              | none => wrap64 (0 + c))
          LoadPercentage :=
            (match mapGet m g.ID with
              | some i => i.LoadPercentage
              | none => F64.zero)
          WaitingInQueue :=
            (match mapGet m g.ID with
              | some i => wrap64 (i.WaitingInQueue + w)
              | none => wrap64 (0 + w)) } := by
  unfold addToGroup
  rw [mapGet_mapSet_self]
  cases mapGet m g.ID with
  | none =>
    dsimp only
    by_cases h1 : g.Name = [] <;> by_cases h2 : g.Platform = [] <;> simp [h1, h2]
  | some i => rfl

theorem mapGet_addToGroup_ne (m : GoMap Int GroupConcurrencyInfo) (g : Group) (c u w : Int)
    (gid : Int) (h : g.ID ≠ gid) : mapGet (addToGroup m g c u w) gid = mapGet m gid := by
  unfold addToGroup
  rw [mapGet_mapSet_ne _ _ _ _ h]

/-- The group map after the additions `F`: a group has an entry exactly when something was
added to it, and the entry holds the `int64` sums over the accounts added. -/
theorem group_total (loadMap : GoMap Int (Option AccountLoadInfo)) (F : List (Group × Account))
    (gid : Int) :
    (mapGet (F.foldl (fun gm ga => addToGroup gm ga.1 ga.2.Concurrency
        (loadOf loadMap ga.2.ID).1 (loadOf loadMap ga.2.ID).2) []) gid = none ↔
      F.filter (fun ga => decide (ga.1.ID = gid)) = []) ∧
    ∀ info, mapGet (F.foldl (fun gm ga => addToGroup gm ga.1 ga.2.Concurrency
        (loadOf loadMap ga.2.ID).1 (loadOf loadMap ga.2.ID).2) []) gid = some info →
      info.GroupID = gid ∧
      info.MaxCapacity = wrap64 (sumOver (fun a => a.Concurrency)
        ((F.filter (fun ga => decide (ga.1.ID = gid))).map Prod.snd)) ∧
      info.CurrentInUse = wrap64 (sumOver (fun a => (loadOf loadMap a.ID).1)
        ((F.filter (fun ga => decide (ga.1.ID = gid))).map Prod.snd)) ∧
      info.WaitingInQueue = wrap64 (sumOver (fun a => (loadOf loadMap a.ID).2)
        ((F.filter (fun ga => decide (ga.1.ID = gid))).map Prod.snd)) ∧
      info.LoadPercentage = F64.zero := by
  induction F using List.reverseRecOn with
  | nil =>
    refine ⟨by simp [mapGet], ?_⟩
    intro info h
    simp [mapGet] at h
  | append_singleton F ga ih =>
    obtain ⟨g, a⟩ := ga
    rw [List.foldl_append, List.foldl_cons, List.foldl_nil, List.filter_append]
    generalize List.foldl _ ([] : GoMap Int GroupConcurrencyInfo) F = m at ih ⊢
    obtain ⟨ih1, ih2⟩ := ih
    dsimp only
    by_cases hg : g.ID = gid
    · subst hg
      have hf : List.filter (fun ga : Group × Account => decide (ga.1.ID = g.ID)) [(g, a)] =
          [(g, a)] := by simp
      rw [hf, mapGet_addToGroup_self]
      refine ⟨by simp, ?_⟩
      intro info hinfo
      simp only [Option.some.injEq] at hinfo
      subst hinfo
      cases hm : mapGet m g.ID with
      | none =>
        have he := ih1.mp hm
        simp [he, sumOver]
      | some i0 =>
        obtain ⟨h1, h2, h3, h4, h5⟩ := ih2 i0 hm
        simp only [List.map_append, List.map_cons, List.map_nil, sumOver_snoc]
        rw [h2, h3, h4] 
        simp only [wrap64_add_wrap64]
        exact ⟨h1, trivial, trivial, trivial, h5⟩
    · have hf : List.filter (fun ga : Group × Account => decide (ga.1.ID = gid)) [(g, a)] = [] := by
        simp [hg]
      rw [hf, List.append_nil, mapGet_addToGroup_ne _ _ _ _ _ _ hg]
      exact ⟨ih1, ih2⟩

/-- The account map after the loop: the entry of an id is the record of the first processed
account with that id. -/
theorem account_total (filter : Option Int) (loadMap : GoMap Int (Option AccountLoadInfo))
    (l : List Account) (k : Int) :
    mapGet (l.foldl (fun am acc =>
        if processed filter acc = true then
          accountStep am acc (matchedGroupOf filter acc) (loadOf loadMap acc.ID).1
            (loadOf loadMap acc.ID).2
        else am) []) k =
      (l.find? (fun acc => processed filter acc && decide (acc.ID = k))).map
        (fun acc => newAccountInfo acc (matchedGroupOf filter acc) (loadOf loadMap acc.ID).1
          (loadOf loadMap acc.ID).2) := by
  induction l using List.reverseRecOn with
  | nil => simp [mapGet]
  | append_singleton l a ih =>
    rw [List.foldl_append, List.foldl_cons, List.foldl_nil, List.find?_append]
    generalize List.foldl _ ([] : GoMap Int AccountConcurrencyInfo) l = m at ih ⊢
    by_cases hp : processed filter a = true
    · rw [if_pos hp]
      unfold accountStep
      by_cases hk : a.ID = k
      · subst hk
        cases hm : mapGet m a.ID with
        | some i0 =>
          dsimp only
          rw [hm] at ih
          rw [hm]
          cases hf : l.find? (fun acc => processed filter acc && decide (acc.ID = a.ID)) with
          | none => rw [hf] at ih; simp at ih
          | some b =>
            rw [hf] at ih
            rw [ih]
            rfl
        | none =>
          dsimp only
          rw [hm] at ih
          rw [mapGet_mapSet_self]
          cases hf : l.find? (fun acc => processed filter acc && decide (acc.ID = a.ID)) with
          | some b => rw [hf] at ih; simp at ih
          | none => simp [hp]
      · have hfa : List.find? (fun acc => processed filter acc && decide (acc.ID = k)) [a] = none := by
          simp [hk]
        rw [hfa, Option.or_none, ← ih]
        cases hm : mapGet m a.ID with
        | some i0 => rfl
        | none =>
          dsimp only
          rw [mapGet_mapSet_ne _ _ _ _ hk]
    · rw [if_neg hp]
      have hfa : List.find? (fun acc => processed filter acc && decide (acc.ID = k)) [a] = none := by
        simp [hp]
      rw [hfa, Option.or_none, ih]

/-- The result of `GetConcurrencyStats` when monitoring is enabled and the accounts were
listed: it returns no error, and each of the three maps is described entry by entry.
`loadMap` is what `getAccountsLoadMapBestEffort` returned. -/
theorem GetConcurrencyStats_spec (now : Nat) (svc : Option LoadBatchService)
    (order : GoMap Int Int → GoMap Int Int) (filter : Option Int) (accounts : List Account) :
    ∃ r, GetConcurrencyStats none (Except.ok accounts) now svc order filter = Except.ok r ∧
      r.collectedAt = now ∧
      (∀ p,
        (mapGet r.platform p = none ↔ (p = [] ∨ platformMembers filter p accounts = [])) ∧
        ∀ info, mapGet r.platform p = some info →
          info.Platform = p ∧
          info.MaxCapacity =
            wrap64 (sumOver (fun a => a.Concurrency) (platformMembers filter p accounts)) ∧
          info.CurrentInUse =
            wrap64 (sumOver
              (fun a => (loadOf (getAccountsLoadMapBestEffort svc order accounts).out a.ID).1)
              (platformMembers filter p accounts)) ∧
          info.WaitingInQueue =
            wrap64 (sumOver
              (fun a => (loadOf (getAccountsLoadMapBestEffort svc order accounts).out a.ID).2)
              (platformMembers filter p accounts)) ∧
          info.LoadPercentage =
            if info.MaxCapacity > 0 then loadPercentage info.CurrentInUse info.MaxCapacity
            else F64.zero) ∧
      (∀ gid,
        (mapGet r.group gid = none ↔ groupMembers filter gid accounts = []) ∧
        ∀ info, mapGet r.group gid = some info →
          info.GroupID = gid ∧
          info.MaxCapacity =
            wrap64 (sumOver (fun a => a.Concurrency) (groupMembers filter gid accounts)) ∧
          info.CurrentInUse =
            wrap64 (sumOver
              (fun a => (loadOf (getAccountsLoadMapBestEffort svc order accounts).out a.ID).1)
              (groupMembers filter gid accounts)) ∧
          info.WaitingInQueue =
            wrap64 (sumOver
              (fun a => (loadOf (getAccountsLoadMapBestEffort svc order accounts).out a.ID).2)
              (groupMembers filter gid accounts)) ∧
          info.LoadPercentage =
            if info.MaxCapacity > 0 then loadPercentage info.CurrentInUse info.MaxCapacity
            else F64.zero) ∧
      (∀ k, mapGet r.account k =
        (accounts.find? (fun acc => processed filter acc && decide (acc.ID = k))).map
          (fun acc => newAccountInfo acc (matchedGroupOf filter acc)
            (loadOf (getAccountsLoadMapBestEffort svc order accounts).out acc.ID).1
            (loadOf (getAccountsLoadMapBestEffort svc order accounts).out acc.ID).2)) := by
  refine ⟨_, rfl, rfl, ?_, ?_, ?_⟩
  · intro p
    dsimp only
    rw [mapGet_map, stats_fold_platform, platform_total]
    by_cases hc : p = [] ∨ platformMembers filter p accounts = []
    · rw [if_pos hc]
      simp [hc]
    · rw [if_neg hc]
      refine ⟨by simp [hc], ?_⟩
      intro info hinfo
      simp only [Option.map_some', Option.some.injEq] at hinfo
      subst hinfo
      unfold finishPlatform
      split <;> simp_all
  · intro gid
    dsimp only
    rw [mapGet_map, stats_fold_group]
    obtain ⟨h1, h2⟩ := group_total (getAccountsLoadMapBestEffort svc order accounts).out
      (groupFlat filter accounts) gid
    unfold groupMembers
    constructor
    · rw [Option.map_eq_none', h1]
      simp
    · intro info hinfo
      rw [Option.map_eq_some'] at hinfo
      obtain ⟨i0, hi0, rfl⟩ := hinfo
      obtain ⟨e1, e2, e3, e4, e5⟩ := h2 i0 hi0
      unfold finishGroup
      split <;> simp_all
  · intro k
    dsimp only
    rw [stats_fold_account, account_total]

/-! ## Group totals without a group filter -/

theorem processed_of_no_filter (filter : Option Int) (hf : activeFilter filter = none)
    (acc : Account) : processed filter acc = decide (0 < acc.ID) := by
  unfold processed
  rw [hf]
  simp

theorem groupRefs_of_no_filter (filter : Option Int) (hf : activeFilter filter = none)
    (acc : Account) :
    groupRefs filter acc =
      acc.Groups.filterMap (fun og => match og with
        | some g => if g.ID ≤ 0 then none else some g
        | none => none) := by
  unfold groupRefs
  rw [hf]

/-- A reference to group `gid` comes from a group of the list with that id. -/
theorem mem_refs_filter (gs : List (Option Group)) (gid : Int) (g : Group)
    (h : g ∈ (gs.filterMap (fun og => match og with
        | some g => if g.ID ≤ 0 then none else some g
        | none => none)).filter (fun g => decide (g.ID = gid))) :
    some g ∈ gs ∧ g.ID = gid ∧ 0 < g.ID := by
  rw [List.mem_filter, List.mem_filterMap] at h
  obtain ⟨⟨og, hog, hval⟩, hid⟩ := h
  cases og with
  | none => simp at hval
  | some g0 =>
    dsimp only at hval
    by_cases hg : g0.ID ≤ 0
    · rw [if_pos hg] at hval
      simp at hval
    · rw [if_neg hg] at hval
      simp only [Option.some.injEq] at hval
      subst hval
      exact ⟨hog, by simpa using hid, by omega⟩

/-- When the group ids of an account are pairwise distinct, a positive group id is referred to
once if the account has the group and not at all otherwise. -/
theorem refs_filter_length (gs : List (Option Group)) (gid : Int) (hgid : 0 < gid)
    (hn : (gs.filterMap (fun og => og.map (fun g => g.ID))).Nodup) :
    ((gs.filterMap (fun og => match og with
        | some g => if g.ID ≤ 0 then none else some g
        | none => none)).filter (fun g => decide (g.ID = gid))).length =
      if gs.any (fun og => match og with
        | some g => decide (g.ID = gid)
        | none => false) = true then 1 else 0 := by
  induction gs with
  | nil => simp
  | cons og rest ih =>
    cases og with
    | none =>
      simp only [List.filterMap_cons, Option.map_none', List.any_cons, Bool.false_or] at hn ⊢
      exact ih hn
    | some g =>
      simp only [List.filterMap_cons, Option.map_some', List.nodup_cons] at hn
      have ih2 := ih hn.2
      by_cases hg : g.ID ≤ 0
      · have hne : g.ID ≠ gid := by omega
        simp only [List.filterMap_cons, hg, if_true, List.any_cons, hne, decide_False,
          Bool.false_or]
        exact ih2
      · simp only [List.filterMap_cons, hg, if_false, List.any_cons]
        by_cases he : g.ID = gid
        · have hrest : (rest.filterMap (fun og => match og with
              | some g => if g.ID ≤ 0 then none else some g
              | none => none)).filter (fun g => decide (g.ID = gid)) = [] := by
            rw [List.eq_nil_iff_forall_not_mem]
            intro x hx
            obtain ⟨hx1, hx2, _⟩ := mem_refs_filter rest gid x hx
            apply hn.1
            rw [List.mem_filterMap]
            exact ⟨some x, hx1, by simp [hx2, he]⟩
          rw [List.filter_cons_of_pos (by simpa using he), hrest]
          simp [he]
        · rw [List.filter_cons_of_neg (by simpa using he)]
          simp only [he, decide_False, Bool.false_or]
          exact ih2

/-- Without a group filter, when every id is positive and no account lists a group twice, the
accounts added to a group with a positive id are the accounts that have the group. -/
theorem groupMembers_of_no_filter (filter : Option Int) (hf : activeFilter filter = none)
    (gid : Int) (hgid : 0 < gid) (accounts : List Account)
    (hpos : ∀ acc ∈ accounts, 0 < acc.ID) (hgrp : ∀ acc ∈ accounts, (groupIDs acc).Nodup) :
    groupMembers filter gid accounts = accounts.filter (fun acc => inGroup acc gid) := by
  unfold groupMembers groupFlat
  induction accounts with
  | nil => rfl
  | cons a rest ih =>
    have ih2 := ih (fun acc h => hpos acc (by simp [h])) (fun acc h => hgrp acc (by simp [h]))
    have hp : processed filter a = true := by
      rw [processed_of_no_filter filter hf]
      simpa using hpos a (by simp)
    rw [List.flatMap_cons, List.filter_append, List.map_append, ih2, if_pos hp,
      groupRefs_of_no_filter filter hf]
    have hlen := refs_filter_length a.Groups gid hgid (hgrp a (by simp))
    have hone : ((a.Groups.filterMap (fun og => match og with
          | some g => if g.ID ≤ 0 then none else some g
          | none => none)).map (fun g => (g, a))).filter (fun ga => decide (ga.1.ID = gid)) =
        ((a.Groups.filterMap (fun og => match og with
          | some g => if g.ID ≤ 0 then none else some g
          | none => none)).filter (fun g => decide (g.ID = gid))).map (fun g => (g, a)) := by
      rw [List.filter_map]
      rfl
    rw [hone, List.map_map]
    have hconst : (Prod.snd ∘ fun g : Group => (g, a)) = fun _ => a := rfl
    rw [hconst, List.map_const', hlen]
    by_cases hin : inGroup a gid = true
    · have hin2 := hin
      unfold inGroup at hin2
      rw [if_pos hin2, List.filter_cons_of_pos (p := fun acc => inGroup acc gid) hin]
      rfl
    · have hin2 := hin
      unfold inGroup at hin2
      rw [if_neg hin2, List.filter_cons_of_neg (p := fun acc => inGroup acc gid) hin]
      rfl

/-- Nothing is ever added to a group with a non-positive id. -/
theorem groupMembers_of_nonpos (filter : Option Int) (gid : Int) (hgid : gid ≤ 0)
    (accounts : List Account) : groupMembers filter gid accounts = [] := by
  unfold groupMembers
  rw [List.map_eq_nil_iff, List.filter_eq_nil_iff]
  rintro ⟨g, a⟩ hmem
  unfold groupFlat at hmem
  rw [List.mem_flatMap] at hmem
  obtain ⟨acc, _, hacc⟩ := hmem
  by_cases hp : processed filter acc = true
  · rw [if_pos hp, List.mem_map] at hacc
    obtain ⟨g2, hg2, heq⟩ := hacc
    simp only [Prod.mk.injEq] at heq
    obtain ⟨rfl, rfl⟩ := heq
    have hpos : 0 < g2.ID := by
      unfold groupRefs at hg2
      cases hf : activeFilter filter with
      | none =>
        rw [hf] at hg2
        dsimp only at hg2
        rw [List.mem_filterMap] at hg2
        obtain ⟨og, _, hval⟩ := hg2
        cases og with
        | none => simp at hval
        | some g0 =>
          dsimp only at hval
          by_cases hg : g0.ID ≤ 0
          · rw [if_pos hg] at hval
            simp at hval
          · rw [if_neg hg] at hval
            simp only [Option.some.injEq] at hval
            subst hval
            omega
      | some f =>
        rw [hf] at hg2
        dsimp only at hg2
        rw [Option.mem_toList] at hg2
        exact (findMatchedGroup_some f acc.Groups g2 hg2).2.2
    simp only [decide_eq_true_eq]
    omega
  · rw [if_neg hp] at hacc
    simp at hacc

/-! ## Claims on `GetConcurrencyStats` -/

theorem sumOver_eq_zero (f : Account → Int) (hf : ∀ a, f a = 0) (l : List Account) :
    sumOver f l = 0 := by
  induction l with
  | nil => rfl
  | cons a rest ih =>
    unfold sumOver at ih ⊢
    rw [List.map_cons, List.sum_cons, ih, hf a]
    rfl

/-- When every call fails, `getAccountsLoadMapBestEffort` returns the empty map. -/
theorem getAccountsLoadMapBestEffort_of_fail (svc : LoadBatchService)
    (hfail : ∀ n chunk, ∃ err, svc n chunk = Except.error err)
    (order : GoMap Int Int → GoMap Int Int) (accounts : List Account) :
    (getAccountsLoadMapBestEffort (some svc) order accounts).out = [] := by
  unfold getAccountsLoadMapBestEffort
  dsimp only
  by_cases ha : accounts = []
  · rw [if_pos ha]
  · rw [if_neg ha, loadLoop_out_of_fail svc hfail]

/-- C7: if `GetAccountsLoadBatch` fails for every chunk, `getAccountsLoadMapBestEffort` still
returns, with an empty map, and `GetConcurrencyStats` returns no error and reports
`CurrentInUse == 0` and `WaitingInQueue == 0` for every account, platform and group, while
`MaxCapacity` is the account's capacity, respectively the `int64` sum of the capacities; the
entries are there: every listed account that the loop processes has its entry in the account
map, its platform, when it has one, an entry in the platform map, and each of its groups an
entry in the group map.  When
only some calls fail (and the service, asked about distinct accounts, answers without repeated
keys and only for those accounts), the returned map holds for every account of a chunk whose call succeeded
exactly the answer of that call, and nothing for the accounts of a failed chunk. -/
theorem C7_best_effort_load (now : Nat) (order : GoMap Int Int → GoMap Int Int)
    (horder : ∀ m, (order m).Perm m) (filter : Option Int) (accounts : List Account) :
    (∀ svc : LoadBatchService, (∀ n chunk, ∃ err, svc n chunk = Except.error err) →
      (getAccountsLoadMapBestEffort (some svc) order accounts).out = [] ∧
      ∃ r, GetConcurrencyStats none (Except.ok accounts) now (some svc) order filter =
          Except.ok r ∧
        (∀ k info, mapGet r.account k = some info →
          info.CurrentInUse = 0 ∧ info.WaitingInQueue = 0 ∧
          ∃ acc ∈ accounts, acc.ID = k ∧ info.MaxCapacity = acc.Concurrency) ∧
        (∀ p info, mapGet r.platform p = some info →
          info.CurrentInUse = 0 ∧ info.WaitingInQueue = 0 ∧
          info.MaxCapacity =
            wrap64 (sumOver (fun a => a.Concurrency) (platformMembers filter p accounts))) ∧
        (∀ gid info, mapGet r.group gid = some info →
          info.CurrentInUse = 0 ∧ info.WaitingInQueue = 0 ∧
          info.MaxCapacity =
            wrap64 (sumOver (fun a => a.Concurrency) (groupMembers filter gid accounts))) ∧
        (∀ acc ∈ accounts, processed filter acc = true →
          (∃ info, mapGet r.account acc.ID = some info) ∧
          (acc.Platform ≠ [] → ∃ info, mapGet r.platform acc.Platform = some info) ∧
          ∀ g ∈ groupRefs filter acc, ∃ info, mapGet r.group g.ID = some info)) ∧
    (∀ svc : LoadBatchService,
      (∀ n chunk part, (chunk.map (fun e => e.ID)).Nodup → svc n chunk = Except.ok part →
        (part.map Prod.fst).Nodup ∧ ∀ k ∈ part.map Prod.fst, k ∈ chunk.map (fun e => e.ID)) →
      ∀ n c, (getAccountsLoadMapBestEffort (some svc) order accounts).calls[n]? = some c →
        ∀ k ∈ c.map (fun e => e.ID),
          mapGet (getAccountsLoadMapBestEffort (some svc) order accounts).out k =
            match svc n c with
            | Except.ok part => mapGet part k
            | Except.error _ => none) := by
  constructor
  · intro svc hfail
    have hout := getAccountsLoadMapBestEffort_of_fail svc hfail order accounts
    refine ⟨hout, ?_⟩
    obtain ⟨r, hr, _, hplat, hgroup, hacc⟩ :=
      GetConcurrencyStats_spec now (some svc) order filter accounts
    rw [hout] at hplat hgroup hacc
    have hz1 : ∀ a : Account, (loadOf ([] : GoMap Int (Option AccountLoadInfo)) a.ID).1 = 0 :=
      fun _ => rfl
    have hz2 : ∀ a : Account, (loadOf ([] : GoMap Int (Option AccountLoadInfo)) a.ID).2 = 0 :=
      fun _ => rfl
    refine ⟨r, hr, ?_, ?_, ?_, ?_⟩
    · intro k info hinfo
      rw [hacc k] at hinfo
      rw [Option.map_eq_some'] at hinfo
      obtain ⟨acc, hfind, rfl⟩ := hinfo
      have hmem := List.mem_of_find?_eq_some hfind
      have hprop := List.find?_some hfind
      simp only [Bool.and_eq_true, decide_eq_true_eq] at hprop
      exact ⟨rfl, rfl, acc, hmem, hprop.2, rfl⟩
    · intro p info hinfo
      obtain ⟨_, h2, h3, h4, _⟩ := (hplat p).2 info hinfo
      rw [sumOver_eq_zero _ hz1] at h3
      rw [sumOver_eq_zero _ hz2] at h4
      exact ⟨h3.trans wrap64_zero, h4.trans wrap64_zero, h2⟩
    · intro gid info hinfo
      obtain ⟨_, h2, h3, h4, _⟩ := (hgroup gid).2 info hinfo
      rw [sumOver_eq_zero _ hz1] at h3
      rw [sumOver_eq_zero _ hz2] at h4
      exact ⟨h3.trans wrap64_zero, h4.trans wrap64_zero, h2⟩
    · intro acc hmem hp
      refine ⟨?_, ?_, ?_⟩
      · rw [hacc acc.ID]
        cases hfind : accounts.find?
            (fun a => processed filter a && decide (a.ID = acc.ID)) with
        | some a => exact ⟨_, rfl⟩
        | none =>
          exfalso
          rw [List.find?_eq_none] at hfind
          have := hfind acc hmem
          simp [hp] at this
      · intro hne
        cases hm : mapGet r.platform acc.Platform with
        | some info => exact ⟨info, rfl⟩
        | none =>
          exfalso
          rcases (hplat acc.Platform).1.mp hm with h | h
          · exact hne h
          · have hin : acc ∈ platformMembers filter acc.Platform accounts := by
              unfold platformMembers
              rw [List.mem_filter]
              exact ⟨hmem, by simp [hp]⟩
            rw [h] at hin
            simp at hin
      · intro g hg
        cases hm : mapGet r.group g.ID with
        | some info => exact ⟨info, rfl⟩
        | none =>
          exfalso
          have h := (hgroup g.ID).1.mp hm
          have hin : acc ∈ groupMembers filter g.ID accounts := by
            unfold groupMembers
            rw [List.mem_map]
            refine ⟨(g, acc), ?_, rfl⟩
            rw [List.mem_filter]
            refine ⟨?_, by simp⟩
            unfold groupFlat
            rw [List.mem_flatMap]
            refine ⟨acc, hmem, ?_⟩
            rw [if_pos hp, List.mem_map]
            exact ⟨g, hg, rfl⟩
          rw [h] at hin
          simp at hin
  · intro svc hsvc n c hget k hk
    unfold getAccountsLoadMapBestEffort at hget ⊢
    dsimp only at hget ⊢
    by_cases ha : accounts = []
    · rw [if_pos ha] at hget
      simp at hget
    · rw [if_neg ha] at hget ⊢
      have hnd := (buildBatch_spec order horder accounts).1
      exact (loadLoop_out svc hsvc (buildBatch order accounts).length (buildBatch order accounts)
        { out := [], calls := [] } (le_refl _) hnd).2 (fun _ _ => rfl) n c hget (Nat.zero_le _) k hk

/-- The example service answers once for each account it is asked about. -/
theorem exampleService_answers (n : Nat) (chunk : List AccountWithConcurrency)
    (part : GoMap Int (Option AccountLoadInfo)) (hchunk : (chunk.map (fun e => e.ID)).Nodup)
    (h : exampleService n chunk = Except.ok part) :
    (part.map Prod.fst).Nodup ∧ ∀ k ∈ part.map Prod.fst, k ∈ chunk.map (fun e => e.ID) := by
  unfold exampleService at h
  simp only [Except.ok.injEq] at h
  subst h
  simp only [List.map_map, Function.comp_def]
  exact ⟨hchunk, fun _ hk => hk⟩

/-- C7, for the example accounts: with the failing service the statistics are returned without
error; account 7 is shown with capacity 10 and no load, its platform `openai` and its group 5
with capacity 30 and no load; with the answering service the load of account 7 is the answer
of the call, three requests in flight and one waiting. -/
theorem C7_best_effort_load_witness :
    ((getAccountsLoadMapBestEffort (some failingService) id exampleAccounts).out = [] ∧
      ∃ r, GetConcurrencyStats none (Except.ok exampleAccounts) 0 (some failingService) id none =
          Except.ok r ∧
        ∀ k info, mapGet r.account k = some info →
          info.CurrentInUse = 0 ∧ info.WaitingInQueue = 0 ∧
          ∃ acc ∈ exampleAccounts, acc.ID = k ∧ info.MaxCapacity = acc.Concurrency) ∧
    (∃ r, GetConcurrencyStats none (Except.ok exampleAccounts) 0 (some failingService) id none =
        Except.ok r ∧
      (mapGet r.account 7).map
        (fun i => (i.MaxCapacity, i.CurrentInUse, i.WaitingInQueue)) = some (10, 0, 0) ∧
      (mapGet r.platform "openai".toList).map
        (fun i => (i.MaxCapacity, i.CurrentInUse, i.WaitingInQueue)) = some (30, 0, 0) ∧
      (mapGet r.group 5).map
        (fun i => (i.MaxCapacity, i.CurrentInUse, i.WaitingInQueue)) = some (30, 0, 0)) ∧
    (getAccountsLoadMapBestEffort (some exampleService) id exampleAccounts).calls[0]? =
      some [⟨7, 20⟩, ⟨9, 3⟩] ∧
    mapGet (getAccountsLoadMapBestEffort (some exampleService) id exampleAccounts).out 7 =
      some (some ⟨3, 1⟩) :=
  ⟨⟨((C7_best_effort_load 0 id (fun m => List.Perm.refl m) none exampleAccounts).1
      failingService (fun _ _ => ⟨_, rfl⟩)).1,
    (((C7_best_effort_load 0 id (fun m => List.Perm.refl m) none exampleAccounts).1
      failingService (fun _ _ => ⟨_, rfl⟩)).2).imp (fun _ h => ⟨h.1, h.2.1⟩)⟩,
    ⟨_, rfl, by decide, by decide, by decide⟩,
    by decide,
    (C7_best_effort_load 0 id (fun m => List.Perm.refl m) none exampleAccounts).2
      exampleService exampleService_answers 0 [⟨7, 20⟩, ⟨9, 3⟩] (by decide) 7 (by decide)⟩

/-! ## Totals under a group filter -/

theorem activeFilter_pos (f : Int) (hf : 0 < f) : activeFilter (some f) = some f := by
  simp [activeFilter, hf]

/-- Under a positive filter the loop processes exactly the accounts with a positive id that
have the group. -/
theorem processed_of_filter (f : Int) (hf : 0 < f) (acc : Account) :
    processed (some f) acc = (decide (0 < acc.ID) && inGroup acc f) := by
  unfold processed matchedGroupOf
  rw [activeFilter_pos f hf, ← findMatchedGroup_isSome f hf acc]
  cases h : findMatchedGroup f acc.Groups <;> simp [h]

/-- Under a positive filter every addition to the group map is made to the filter's group. -/
theorem groupFlat_of_filter (f : Int) (hf : 0 < f) (accounts : List Account) :
    ∀ ga ∈ groupFlat (some f) accounts, ga.1.ID = f := by
  rintro ⟨g, a⟩ hmem
  unfold groupFlat at hmem
  rw [List.mem_flatMap] at hmem
  obtain ⟨acc, _, hacc⟩ := hmem
  by_cases hp : processed (some f) acc = true
  · rw [if_pos hp, List.mem_map] at hacc
    obtain ⟨g2, hg2, heq⟩ := hacc
    simp only [Prod.mk.injEq] at heq
    obtain ⟨rfl, rfl⟩ := heq
    unfold groupRefs at hg2
    rw [activeFilter_pos f hf] at hg2
    dsimp only at hg2
    rw [Option.mem_toList] at hg2
    exact (findMatchedGroup_some f acc.Groups g2 hg2).2.1
  · rw [if_neg hp] at hacc
    simp at hacc

/-- C10: with a group filter `f > 0`, `GetConcurrencyStats` returns no error, and only the
accounts that have a group with id `f` contribute: every entry of the account map is the entry
of a listed account with that id which has the group `f`, and shows `f` as its display group;
the group map has no key other than `f`; and the totals of a platform are the `int64` sums
over the accounts of that platform with a positive id that have the group `f`. -/
theorem C10_group_filter (now : Nat) (svc : Option LoadBatchService)
    (order : GoMap Int Int → GoMap Int Int) (accounts : List Account) (f : Int) (hf : 0 < f) :
    ∃ r, GetConcurrencyStats none (Except.ok accounts) now svc order (some f) = Except.ok r ∧
      (∀ k info, mapGet r.account k = some info →
        info.AccountID = k ∧ info.GroupID = f ∧
        ∃ acc ∈ accounts, acc.ID = k ∧ inGroup acc f = true ∧
          info.MaxCapacity = acc.Concurrency) ∧
      (∀ gid, gid ≠ f → mapGet r.group gid = none) ∧
      (∀ p info, mapGet r.platform p = some info →
        info.MaxCapacity = wrap64 (sumOver (fun a => a.Concurrency)
          (accounts.filter (fun acc =>
            decide (0 < acc.ID) && inGroup acc f && decide (acc.Platform = p)))) ∧
        info.CurrentInUse = wrap64 (sumOver
          (fun a => (loadOf (getAccountsLoadMapBestEffort svc order accounts).out a.ID).1)
          (accounts.filter (fun acc =>
            decide (0 < acc.ID) && inGroup acc f && decide (acc.Platform = p)))) ∧
        info.WaitingInQueue = wrap64 (sumOver
          (fun a => (loadOf (getAccountsLoadMapBestEffort svc order accounts).out a.ID).2)
          (accounts.filter (fun acc =>
            decide (0 < acc.ID) && inGroup acc f && decide (acc.Platform = p))))) := by
  obtain ⟨r, hr, _, hplat, hgroup, hacc⟩ :=
    GetConcurrencyStats_spec now svc order (some f) accounts
  refine ⟨r, hr, ?_, ?_, ?_⟩
  · intro k info hinfo
    rw [hacc k, Option.map_eq_some'] at hinfo
    obtain ⟨acc, hfind, rfl⟩ := hinfo
    have hmem := List.mem_of_find?_eq_some hfind
    have hprop := List.find?_some hfind
    simp only [Bool.and_eq_true, decide_eq_true_eq] at hprop
    obtain ⟨hp, hk⟩ := hprop
    have hp2 := hp
    rw [processed_of_filter f hf, Bool.and_eq_true] at hp2
    have hsome : (findMatchedGroup f acc.Groups).isSome = true := by
      rw [findMatchedGroup_isSome f hf]
      exact hp2.2
    obtain ⟨g, hg⟩ := Option.isSome_iff_exists.mp hsome
    have hgid := (findMatchedGroup_some f acc.Groups g hg).2.1
    have hmatched : matchedGroupOf (some f) acc = some g := by
      unfold matchedGroupOf
      rw [activeFilter_pos f hf]
      exact hg
    refine ⟨hk, ?_, acc, hmem, hk, hp2.2, rfl⟩
    rw [hmatched]
    exact hgid
  · intro gid hne
    rw [(hgroup gid).1]
    unfold groupMembers
    rw [List.map_eq_nil_iff, List.filter_eq_nil_iff]
    intro ga hga
    have := groupFlat_of_filter f hf accounts ga hga
    simp only [decide_eq_true_eq]
    intro h
    exact hne (h.symm.trans this)
  · intro p info hinfo
    obtain ⟨_, h2, h3, h4, _⟩ := (hplat p).2 info hinfo
    have hmem : platformMembers (some f) p accounts =
        accounts.filter (fun acc =>
          decide (0 < acc.ID) && inGroup acc f && decide (acc.Platform = p)) := by
      unfold platformMembers
      apply List.filter_congr
      intro acc _
      rw [processed_of_filter f hf]
    rw [hmem] at h2 h3 h4
    exact ⟨h2, h3, h4⟩

/-- C10, for the example accounts and the filter 5: account 9, which is not in group 5, has no
entry, and account 7 shows group 5. -/
theorem C10_group_filter_witness :
    (∃ r, GetConcurrencyStats none (Except.ok exampleAccounts) 0 (some exampleService) id
        (some 5) = Except.ok r ∧
      mapGet r.account 9 = none ∧ (mapGet r.account 7).map (fun i => i.GroupID) = some 5 ∧
      (mapGet r.platform "gemini".toList) = none) ∧
    ∃ r, GetConcurrencyStats none (Except.ok exampleAccounts) 0 (some exampleService) id
        (some 5) = Except.ok r ∧
      (∀ k info, mapGet r.account k = some info →
        info.AccountID = k ∧ info.GroupID = 5 ∧
        ∃ acc ∈ exampleAccounts, acc.ID = k ∧ inGroup acc 5 = true ∧
          info.MaxCapacity = acc.Concurrency) ∧
      (∀ gid, gid ≠ 5 → mapGet r.group gid = none) :=
  ⟨⟨_, rfl, by decide⟩,
    (C10_group_filter 0 (some exampleService) id exampleAccounts 5 (by decide)).imp
      (fun _ h => ⟨h.1, h.2.1, h.2.2.1⟩)⟩

/-! ## The platform label of a group -/

/-- The label of a group entry follows `labelStep`, whatever the loads are. -/
theorem label_fold (loadMap : GoMap Int (Option AccountLoadInfo)) (gid : Int)
    (F : List (Group × Account)) : ∀ m : GoMap Int GroupConcurrencyInfo,
    (mapGet (F.foldl (fun gm ga => addToGroup gm ga.1 ga.2.Concurrency
        (loadOf loadMap ga.2.ID).1 (loadOf loadMap ga.2.ID).2) m) gid).map (fun i => i.Platform) =
      (F.map Prod.fst).foldl (labelStep gid) ((mapGet m gid).map (fun i => i.Platform)) := by
  induction F with
  | nil => intro m; rfl
  | cons ga rest ih =>
    intro m
    obtain ⟨g, a⟩ := ga
    rw [List.foldl_cons, ih, List.map_cons, List.foldl_cons]
    congr 1
    unfold labelStep
    by_cases hg : g.ID = gid
    · subst hg
      rw [if_pos rfl, mapGet_addToGroup_self]
      cases mapGet m g.ID with
      | none => rfl
      | some i0 =>
        simp only [Option.map_some']
        by_cases hc : i0.Platform ≠ [] ∧ g.Platform ≠ [] ∧ i0.Platform ≠ g.Platform
        · rw [if_pos hc, if_pos hc]
        · rw [if_neg hc, if_neg hc]
    · rw [if_neg hg]
      dsimp only
      rw [mapGet_addToGroup_ne _ _ _ _ _ _ hg]

/-- A blank label stays blank. -/
theorem label_blank_stays (gid : Int) (gs : List Group) :
    gs.foldl (labelStep gid) (some []) = some [] := by
  induction gs with
  | nil => rfl
  | cons g rest ih =>
    rw [List.foldl_cons]
    have : labelStep gid (some []) g = some [] := by
      unfold labelStep
      by_cases hg : g.ID = gid <;> simp [hg]
    rw [this, ih]

/-- A non-empty label is blanked by a later reference under a different non-empty label. -/
theorem label_conflict_later (gid : Int) (gs : List Group) : ∀ p : GoString, p ≠ [] →
    (∃ g ∈ gs, g.ID = gid ∧ g.Platform ≠ [] ∧ g.Platform ≠ p) →
    gs.foldl (labelStep gid) (some p) = some [] := by
  induction gs with
  | nil => intro p _ h; simp at h
  | cons g rest ih =>
    intro p hp hex
    rw [List.foldl_cons]
    unfold labelStep
    by_cases hg : g.ID = gid
    · rw [if_pos hg]
      dsimp only
      by_cases hc : p ≠ [] ∧ g.Platform ≠ [] ∧ p ≠ g.Platform
      · rw [if_pos hc]
        exact label_blank_stays gid rest
      · rw [if_neg hc]
        apply ih p hp
        obtain ⟨x, hx, hx1, hx2, hx3⟩ := hex
        simp only [List.mem_cons] at hx
        rcases hx with rfl | hx
        · exact absurd ⟨hp, hx2, fun h => hx3 h.symm⟩ hc
        · exact ⟨x, hx, hx1, hx2, hx3⟩
    · rw [if_neg hg]
      apply ih p hp
      obtain ⟨x, hx, hx1, hx2, hx3⟩ := hex
      simp only [List.mem_cons] at hx
      rcases hx with rfl | hx
      · exact absurd hx1 hg
      · exact ⟨x, hx, hx1, hx2, hx3⟩

/-- Two references to a group under different non-empty labels leave its label blank. -/
theorem label_conflict (gid : Int) (gs : List Group)
    (hex : ∃ g1 ∈ gs, ∃ g2 ∈ gs, g1.ID = gid ∧ g2.ID = gid ∧ g1.Platform ≠ [] ∧
      g2.Platform ≠ [] ∧ g1.Platform ≠ g2.Platform) :
    gs.foldl (labelStep gid) none = some [] := by
  induction gs with
  | nil =>
    obtain ⟨g1, h1, _⟩ := hex
    simp at h1
  | cons g rest ih =>
    obtain ⟨g1, h1, g2, h2, e1, e2, n1, n2, hne⟩ := hex
    rw [List.foldl_cons]
    unfold labelStep
    by_cases hg : g.ID = gid
    · rw [if_pos hg]
      dsimp only
      by_cases hgp : g.Platform = []
      · rw [hgp]
        exact label_blank_stays gid rest
      · apply label_conflict_later gid rest g.Platform hgp
        simp only [List.mem_cons] at h1 h2
        by_cases hd : g1.Platform = g.Platform
        · have hd2 : g2.Platform ≠ g.Platform := fun h => hne (hd.trans h.symm)
          rcases h2 with rfl | h2
          · exact absurd rfl hd2
          · exact ⟨g2, h2, e2, n2, hd2⟩
        · rcases h1 with rfl | h1
          · exact absurd rfl hd
          · exact ⟨g1, h1, e1, n1, hd⟩
    · rw [if_neg hg]
      apply ih
      simp only [List.mem_cons] at h1 h2
      rcases h1 with rfl | h1
      · exact absurd e1 hg
      · rcases h2 with rfl | h2
        · exact absurd e2 hg
        · exact ⟨g1, h1, g2, h2, e1, e2, n1, n2, hne⟩

/-- The platform label of a group in the result of `GetConcurrencyStats`. -/
theorem GetConcurrencyStats_label (now : Nat) (svc : Option LoadBatchService)
    (order : GoMap Int Int → GoMap Int Int) (filter : Option Int) (accounts : List Account)
    (gid : Int) :
    ∃ r, GetConcurrencyStats none (Except.ok accounts) now svc order filter = Except.ok r ∧
      (mapGet r.group gid).map (fun i => i.Platform) =
        ((groupFlat filter accounts).map Prod.fst).foldl (labelStep gid) none := by
  refine ⟨_, rfl, ?_⟩
  dsimp only
  have hl := label_fold (getAccountsLoadMapBestEffort svc order accounts).out gid
    (groupFlat filter accounts) []
  have hfin : (fun i : GroupConcurrencyInfo => i.Platform) ∘ finishGroup =
      fun i => i.Platform := by
    funext i
    unfold finishGroup
    dsimp only [Function.comp]
    split <;> rfl
  rw [mapGet_map, stats_fold_group, Option.map_map, hfin]
  exact hl

theorem groupFlat_append (filter : Option Int) (l1 l2 : List Account) :
    groupFlat filter (l1 ++ l2) = groupFlat filter l1 ++ groupFlat filter l2 := by
  unfold groupFlat
  rw [List.flatMap_append]

theorem mem_groupFlat (filter : Option Int) (accounts : List Account) (acc : Account)
    (g : Group) (hacc : acc ∈ accounts) (hp : processed filter acc = true)
    (hg : g ∈ groupRefs filter acc) : g ∈ (groupFlat filter accounts).map Prod.fst := by
  rw [List.mem_map]
  refine ⟨(g, acc), ?_, rfl⟩
  unfold groupFlat
  rw [List.mem_flatMap]
  refine ⟨acc, hacc, ?_⟩
  rw [if_pos hp, List.mem_map]
  exact ⟨g, hg, rfl⟩

/-- Two processed accounts that refer to the same group under different non-empty platform
labels leave the label of the group blank. -/
theorem label_blank_of_conflict (now : Nat) (svc : Option LoadBatchService)
    (order : GoMap Int Int → GoMap Int Int) (filter : Option Int) (accounts : List Account)
    (acc1 acc2 : Account) (g1 g2 : Group) (h1 : acc1 ∈ accounts) (h2 : acc2 ∈ accounts)
    (hp1 : processed filter acc1 = true) (hp2 : processed filter acc2 = true)
    (hg1 : g1 ∈ groupRefs filter acc1) (hg2 : g2 ∈ groupRefs filter acc2)
    (hid : g1.ID = g2.ID) (hn1 : g1.Platform ≠ []) (hn2 : g2.Platform ≠ [])
    (hne : g1.Platform ≠ g2.Platform) :
    ∃ r, GetConcurrencyStats none (Except.ok accounts) now svc order filter = Except.ok r ∧
      ∃ info, mapGet r.group g1.ID = some info ∧ info.Platform = [] := by
  obtain ⟨r, hr, hlab⟩ := GetConcurrencyStats_label now svc order filter accounts g1.ID
  refine ⟨r, hr, ?_⟩
  rw [label_conflict g1.ID _ ⟨g1, mem_groupFlat filter accounts acc1 g1 h1 hp1 hg1, g2,
    mem_groupFlat filter accounts acc2 g2 h2 hp2 hg2, rfl, hid.symm, hn1, hn2, hne⟩] at hlab
  rw [Option.map_eq_some'] at hlab
  exact hlab

/-- C9: if two processed accounts refer to the same group id under different non-empty
`Platform` labels, the entry that `GetConcurrencyStats` returns for that group has
`Platform == ""`.  Without a group filter the references of an account with a positive id are
its non-nil groups with a positive id; under a filter `f > 0` the reference is the matched
group.  And once the label of a group is blank it stays blank whatever accounts follow. -/
theorem C9_platform_label_blanked (now : Nat) (svc : Option LoadBatchService)
    (order : GoMap Int Int → GoMap Int Int) (filter : Option Int) (accounts : List Account) :
    (activeFilter filter = none →
      ∀ acc1 ∈ accounts, ∀ acc2 ∈ accounts, ∀ g1 g2 : Group,
        0 < acc1.ID → 0 < acc2.ID → some g1 ∈ acc1.Groups → some g2 ∈ acc2.Groups →
        0 < g1.ID → g1.ID = g2.ID → g1.Platform ≠ [] → g2.Platform ≠ [] →
        g1.Platform ≠ g2.Platform →
        ∃ r, GetConcurrencyStats none (Except.ok accounts) now svc order filter = Except.ok r ∧
          ∃ info, mapGet r.group g1.ID = some info ∧ info.Platform = []) ∧
    (∀ f, activeFilter filter = some f →
      ∀ acc1 ∈ accounts, ∀ acc2 ∈ accounts, ∀ g1 g2 : Group,
        0 < acc1.ID → 0 < acc2.ID → findMatchedGroup f acc1.Groups = some g1 →
        findMatchedGroup f acc2.Groups = some g2 → g1.Platform ≠ [] → g2.Platform ≠ [] →
        g1.Platform ≠ g2.Platform →
        ∃ r, GetConcurrencyStats none (Except.ok accounts) now svc order filter = Except.ok r ∧
          ∃ info, mapGet r.group f = some info ∧ info.Platform = []) ∧
    (∀ (gid : Int) (more : List Account) (now2 : Nat) (svc2 : Option LoadBatchService)
        (order2 : GoMap Int Int → GoMap Int Int),
      (∃ r, GetConcurrencyStats none (Except.ok accounts) now svc order filter = Except.ok r ∧
        ∃ info, mapGet r.group gid = some info ∧ info.Platform = []) →
      ∃ r2, GetConcurrencyStats none (Except.ok (accounts ++ more)) now2 svc2 order2 filter =
          Except.ok r2 ∧
        ∃ info, mapGet r2.group gid = some info ∧ info.Platform = []) := by
  refine ⟨?_, ?_, ?_⟩
  · intro hf acc1 h1 acc2 h2 g1 g2 hp1 hp2 hg1 hg2 hpos hid hn1 hn2 hne
    have hmem : ∀ (acc : Account) (g : Group), some g ∈ acc.Groups → 0 < g.ID →
        g ∈ groupRefs filter acc := by
      intro acc g hg hgpos
      rw [groupRefs_of_no_filter filter hf, List.mem_filterMap]
      refine ⟨some g, hg, ?_⟩
      dsimp only
      rw [if_neg (by omega)]
    exact label_blank_of_conflict now svc order filter accounts acc1 acc2 g1 g2 h1 h2
      (by rw [processed_of_no_filter filter hf]; simpa using hp1)
      (by rw [processed_of_no_filter filter hf]; simpa using hp2)
      (hmem acc1 g1 hg1 hpos) (hmem acc2 g2 hg2 (by omega)) hid hn1 hn2 hne
  · intro f hf acc1 h1 acc2 h2 g1 g2 hp1 hp2 hg1 hg2 hn1 hn2 hne
    have hproc : ∀ (acc : Account) (g : Group), 0 < acc.ID →
        findMatchedGroup f acc.Groups = some g →
        processed filter acc = true ∧ g ∈ groupRefs filter acc := by
      intro acc g hpos hg
      unfold processed matchedGroupOf groupRefs
      rw [hf]
      simp [hpos, hg]
    have e1 := (findMatchedGroup_some f acc1.Groups g1 hg1).2.1
    have e2 := (findMatchedGroup_some f acc2.Groups g2 hg2).2.1
    have := label_blank_of_conflict now svc order filter accounts acc1 acc2 g1 g2 h1 h2
      (hproc acc1 g1 hp1 hg1).1 (hproc acc2 g2 hp2 hg2).1
      (hproc acc1 g1 hp1 hg1).2 (hproc acc2 g2 hp2 hg2).2 (e1.trans e2.symm) hn1 hn2 hne
    rw [e1] at this
    exact this
  · rintro gid more now2 svc2 order2 ⟨r, hr, info, hinfo, hblank⟩
    obtain ⟨r1, hr1, hlab1⟩ := GetConcurrencyStats_label now svc order filter accounts gid
    obtain ⟨r2, hr2, hlab2⟩ :=
      GetConcurrencyStats_label now2 svc2 order2 filter (accounts ++ more) gid
    rw [hr] at hr1
    simp only [Except.ok.injEq] at hr1
    subst hr1
    rw [hinfo, Option.map_some', hblank] at hlab1
    refine ⟨r2, hr2, ?_⟩
    rw [groupFlat_append, List.map_append, List.foldl_append, ← hlab1, label_blank_stays,
      Option.map_eq_some'] at hlab2
    exact hlab2

/-- C9, for accounts 1 and 2 that refer to group 5 as `openai` and as `gemini`, followed by
account 3: the label of group 5 is blank. -/
theorem C9_platform_label_blanked_witness :
    (∃ r, GetConcurrencyStats none (Except.ok conflictAccounts) 0 (some exampleService) id none =
        Except.ok r ∧
      (mapGet r.group 5).map (fun i => (i.Platform, i.MaxCapacity)) = some ([], 16)) ∧
    ∃ r, GetConcurrencyStats none (Except.ok conflictAccounts) 0 (some exampleService) id none =
        Except.ok r ∧
      ∃ info, mapGet r.group 5 = some info ∧ info.Platform = [] :=
  ⟨⟨_, rfl, by decide⟩,
    (C9_platform_label_blanked 0 (some exampleService) id none conflictAccounts).1 rfl
      ⟨1, "A".toList, "openai".toList, 10, [some ⟨5, "g5".toList, "openai".toList⟩]⟩ (by decide)
      ⟨2, "B".toList, "gemini".toList, 5, [some ⟨5, "g5".toList, "gemini".toList⟩]⟩ (by decide)
      ⟨5, "g5".toList, "openai".toList⟩ ⟨5, "g5".toList, "gemini".toList⟩
      (by decide) (by decide) (by decide) (by decide) (by decide) (by decide) (by decide)
      (by decide) (by decide)⟩

/-! ## The store commands -/

theorem redisLive_of_mapGet (store : RedisStore) (key : GoString) (now : Nat) (e : RedisEntry)
    (h : mapGet store key = some e) :
    redisLive store key now =
      match e.expireAt with
      | none => some e
      | some t => if now < t then some e else none := by
  unfold redisLive
  rw [h]

theorem redisLive_mapSet_self (store : RedisStore) (key : GoString) (now : Nat) (e : RedisEntry) :
    redisLive (mapSet store key e) key now =
      match e.expireAt with
      | none => some e
      | some t => if now < t then some e else none :=
  redisLive_of_mapGet _ key now e (mapGet_mapSet_self store key e)

/-- A live entry is the entry stored under the key. -/
theorem mapGet_of_redisLive (store : RedisStore) (key : GoString) (now : Nat) (e : RedisEntry)
    (h : redisLive store key now = some e) : mapGet store key = some e := by
  unfold redisLive at h
  cases hm : mapGet store key with
  | none => rw [hm] at h; simp at h
  | some e0 =>
    rw [hm] at h
    dsimp only at h
    cases he : e0.expireAt with
    | none => rw [he] at h; exact h
    | some t =>
      rw [he] at h
      dsimp only at h
      by_cases hlt : now < t
      · rw [if_pos hlt] at h; exact h
      · rw [if_neg hlt] at h; simp at h

theorem redisINCR_absent (store : RedisStore) (key : GoString) (now : Nat)
    (h : redisLive store key now = none) :
    redisINCR store key now = (Except.ok 1, mapSet store key { value := 1, expireAt := none }) := by
  unfold redisINCR
  rw [h]

theorem redisINCR_live (store : RedisStore) (key : GoString) (now : Nat) (e : RedisEntry)
    (h : redisLive store key now = some e) (hv : e.value < 2 ^ 63 - 1) :
    redisINCR store key now =
      (Except.ok (e.value + 1),
        mapSet store key { value := e.value + 1, expireAt := e.expireAt }) := by
  unfold redisINCR
  rw [h]
  dsimp only
  rw [if_neg (by omega)]

theorem redisINCR_overflow (store : RedisStore) (key : GoString) (now : Nat) (e : RedisEntry)
    (h : redisLive store key now = some e) (hv : e.value ≥ 2 ^ 63 - 1) :
    redisINCR store key now =
      (Except.error "ERR increment or decrement would overflow".toList, store) := by
  unfold redisINCR
  rw [h]
  dsimp only
  rw [if_pos hv]

theorem redisPEXPIRE_live (store : RedisStore) (key : GoString) (now : Nat) (ms : Int)
    (e : RedisEntry) (h : redisLive store key now = some e) (hms : 0 < ms) :
    redisPEXPIRE store key now ms =
      (1, mapSet store key { value := e.value, expireAt := some (now + ms.toNat) }) := by
  unfold redisPEXPIRE
  rw [h]
  dsimp only
  rw [if_neg (by omega)]

/-! ## The timeout counter -/

theorem timeoutTTLSeconds_ge (w : Int) : 60 ≤ timeoutTTLSeconds w := by
  unfold timeoutTTLSeconds
  split <;> omega

/-- The script on a key that is absent or has expired: the count is 1 and the key expires
`ttl` seconds from now. -/
theorem timeoutCounterIncrScript_absent (store : RedisStore) (key : GoString) (now : Nat)
    (ttl : Int) (httl : 0 < ttl) (h : redisLive store key now = none) :
    ∃ st, timeoutCounterIncrScript store key now ttl = (Except.ok 1, st) ∧
      mapGet st key = some { value := 1, expireAt := some (now + (ttl * 1000).toNat) } := by
  unfold timeoutCounterIncrScript
  rw [redisINCR_absent store key now h]
  dsimp only
  rw [if_pos rfl]
  unfold redisEXPIRE
  rw [redisPEXPIRE_live _ key now (ttl * 1000) { value := 1, expireAt := none }
    (by rw [redisLive_mapSet_self]) (by omega)]
  exact ⟨_, rfl, mapGet_mapSet_self _ _ _⟩

/-- The script on a live key with a positive count below the largest `int64`: the count goes
up by one and the expiry is left as it is. -/
theorem timeoutCounterIncrScript_live (store : RedisStore) (key : GoString) (now : Nat)
    (ttl : Int) (e : RedisEntry) (h : redisLive store key now = some e) (h1 : 1 ≤ e.value)
    (hv : e.value < 2 ^ 63 - 1) :
    timeoutCounterIncrScript store key now ttl =
      (Except.ok (e.value + 1),
        mapSet store key { value := e.value + 1, expireAt := e.expireAt }) := by
  unfold timeoutCounterIncrScript
  rw [redisINCR_live store key now e h hv]
  dsimp only
  rw [if_neg (by omega)]

theorem IncrementTimeoutCount_absent (store : RedisStore) (now : Nat) (a w : Int)
    (h : redisLive store (timeoutCounterKey a) now = none) :
    (IncrementTimeoutCount true store now a w).1 = (1, none) ∧
    mapGet (IncrementTimeoutCount true store now a w).2 (timeoutCounterKey a) =
      some { value := 1, expireAt := some (now + (timeoutTTLSeconds w * 1000).toNat) } := by
  obtain ⟨st, hs, hget⟩ := timeoutCounterIncrScript_absent store (timeoutCounterKey a) now
    (timeoutTTLSeconds w) (by have := timeoutTTLSeconds_ge w; omega) h
  unfold IncrementTimeoutCount
  rw [if_neg (by simp), hs]
  exact ⟨rfl, hget⟩

theorem IncrementTimeoutCount_live (store : RedisStore) (now : Nat) (a w : Int) (v : Int)
    (t : Nat) (h : mapGet store (timeoutCounterKey a) = some { value := v, expireAt := some t })
    (hnow : now < t) (h1 : 1 ≤ v) (hv : v < 2 ^ 63 - 1) :
    (IncrementTimeoutCount true store now a w).1 = (v + 1, none) ∧
    mapGet (IncrementTimeoutCount true store now a w).2 (timeoutCounterKey a) =
      some { value := v + 1, expireAt := some t } := by
  have hlive : redisLive store (timeoutCounterKey a) now =
      some { value := v, expireAt := some t } := by
    rw [redisLive_of_mapGet store _ now _ h]
    dsimp only
    rw [if_pos hnow]
  unfold IncrementTimeoutCount
  rw [if_neg (by simp), timeoutCounterIncrScript_live store _ now _ _ hlive h1 hv]
  exact ⟨rfl, mapGet_mapSet_self _ _ _⟩

/-- Calls made while the key is live: the counts go up one by one from the stored count and
the expiry stays what it was. -/
theorem runIncrements_live (a : Int) (t : Nat) (later : List (Nat × Int)) :
    ∀ (store : RedisStore) (v : Int),
      mapGet store (timeoutCounterKey a) = some { value := v, expireAt := some t } →
      1 ≤ v → (∀ c ∈ later, c.1 < t) → v + (later.length : Int) < 2 ^ 63 →
      (runIncrements a store later).1 =
        (List.range later.length).map
          (fun (i : Nat) => ((v + 1 + (i : Int), none) : Int × Option GoError)) ∧
      mapGet (runIncrements a store later).2 (timeoutCounterKey a) =
        some { value := v + (later.length : Int), expireAt := some t } := by
  induction later with
  | nil =>
    intro store v h _ _ _
    simp [runIncrements, h]
  | cons c rest ih =>
    intro store v h h1 hbefore hcount
    obtain ⟨now, w⟩ := c
    have hlen : ((now, w) :: rest).length = rest.length + 1 := rfl
    rw [hlen] at hcount ⊢
    have hcount2 : v + (rest.length : Int) + 1 < 2 ^ 63 := by
      push_cast at hcount
      omega
    obtain ⟨hr, hst⟩ := IncrementTimeoutCount_live store now a w v t h
      (hbefore (now, w) (by simp)) h1 (by omega)
    obtain ⟨ih1, ih2⟩ := ih (IncrementTimeoutCount true store now a w).2 (v + 1) hst (by omega)
      (fun c hc => hbefore c (by simp [hc])) (by omega)
    unfold runIncrements
    dsimp only
    rw [hr, ih1, ih2]
    constructor
    · rw [List.range_succ_eq_map, List.map_cons, List.map_map]
      congr 1
      · simp
      · apply List.map_congr_left
        intro i _
        simp only [Function.comp, Nat.succ_eq_add_one, Nat.cast_add, Nat.cast_one, Prod.mk.injEq,
          and_true]
        omega
    · congr 2
      push_cast
      omega

/-! ## Claims on the timeout counter -/

/-- C11: for every `windowMinutes` (zero, negative or positive) the TTL in seconds that
`IncrementTimeoutCount` passes to the increment script is `max(60, windowMinutes * 60)`, the
product being the one of Go's `int` arithmetic (the exact product whenever it fits 64 bits),
so the TTL is never below 60. -/
theorem C11_ttl_at_least_a_minute (windowMinutes : Int) :
    timeoutTTLSeconds windowMinutes = max 60 (wrap64 (windowMinutes * 60)) ∧
    60 ≤ timeoutTTLSeconds windowMinutes ∧
    (isInt64 (windowMinutes * 60) →
      timeoutTTLSeconds windowMinutes = max 60 (windowMinutes * 60)) ∧
    ∀ (store : RedisStore) (now : Nat) (accountID : Int),
      IncrementTimeoutCount true store now accountID windowMinutes =
        match timeoutCounterIncrScript store (timeoutCounterKey accountID) now
            (max 60 (wrap64 (windowMinutes * 60))) with
        | (Except.error err, st) => ((0, some ("increment timeout count: ".toList ++ err)), st)
        | (Except.ok result, st) => ((result, none), st) := by
  have h1 : timeoutTTLSeconds windowMinutes = max 60 (wrap64 (windowMinutes * 60)) := by
    unfold timeoutTTLSeconds
    split
    · rw [max_eq_left (by omega)]
    · rw [max_eq_right (by omega)]
  refine ⟨h1, timeoutTTLSeconds_ge windowMinutes, ?_, ?_⟩
  · intro hfit
    rw [h1, wrap64_of_isInt64 _ hfit]
  · intro store now accountID
    unfold IncrementTimeoutCount
    rw [if_neg (by simp), h1]

/-- C11, at `windowMinutes = -3`, `0` and `5`: the TTL is 60, 60 and 300 seconds. -/
theorem C11_ttl_at_least_a_minute_witness :
    timeoutTTLSeconds (-3) = 60 ∧ timeoutTTLSeconds 0 = 60 ∧ timeoutTTLSeconds 5 = 300 ∧
    60 ≤ timeoutTTLSeconds (-3) :=
  ⟨by decide, by decide,
    ((C11_ttl_at_least_a_minute 5).2.2.1 (by decide)).trans (by decide),
    (C11_ttl_at_least_a_minute (-3)).2.1⟩

/-- C12: with the counter key of the account absent (or expired) at the time `t0` of a first
call, that call and the calls `later`, all made before the expiry set by the first call, return
1, 2, ..., k without error (k an `int64`); after each of them the key expires at the time set
by the first call, which later calls do not move; and the first call at or after that time
returns 1 again and sets a new expiry. -/
theorem C12_counter_window (store : RedisStore) (accountID : Int) (t0 : Nat) (w0 : Int)
    (later : List (Nat × Int))
    (habsent : redisLive store (timeoutCounterKey accountID) t0 = none)
    (hbefore : ∀ c ∈ later, c.1 < t0 + (timeoutTTLSeconds w0 * 1000).toNat)
    (hcount : (later.length : Int) + 1 < 2 ^ 63) :
    (runIncrements accountID store ((t0, w0) :: later)).1 =
      (List.range (later.length + 1)).map
        (fun (i : Nat) => (((i : Int) + 1, none) : Int × Option GoError)) ∧
    (∀ n ≤ later.length,
      mapGet (runIncrements accountID store ((t0, w0) :: later.take n)).2
          (timeoutCounterKey accountID) =
        some { value := (n : Int) + 1,
               expireAt := some (t0 + (timeoutTTLSeconds w0 * 1000).toNat) }) ∧
    ∀ (t1 : Nat) (w1 : Int), t0 + (timeoutTTLSeconds w0 * 1000).toNat ≤ t1 →
      (IncrementTimeoutCount true (runIncrements accountID store ((t0, w0) :: later)).2 t1
        accountID w1).1 = (1, none) ∧
      mapGet (IncrementTimeoutCount true (runIncrements accountID store ((t0, w0) :: later)).2 t1
          accountID w1).2 (timeoutCounterKey accountID) =
        some { value := 1, expireAt := some (t1 + (timeoutTTLSeconds w1 * 1000).toNat) } := by
  obtain ⟨hfirst, hstore⟩ := IncrementTimeoutCount_absent store t0 accountID w0 habsent
  have hrun : ∀ l : List (Nat × Int),
      (∀ c ∈ l, c.1 < t0 + (timeoutTTLSeconds w0 * 1000).toNat) →
      (l.length : Int) + 1 < 2 ^ 63 →
      (runIncrements accountID store ((t0, w0) :: l)).1 =
        (List.range (l.length + 1)).map
          (fun (i : Nat) => (((i : Int) + 1, none) : Int × Option GoError)) ∧
      mapGet (runIncrements accountID store ((t0, w0) :: l)).2 (timeoutCounterKey accountID) =
        some { value := (l.length : Int) + 1,
               expireAt := some (t0 + (timeoutTTLSeconds w0 * 1000).toNat) } := by
    intro l hl hc
    obtain ⟨h1, h2⟩ := runIncrements_live accountID _ l
      (IncrementTimeoutCount true store t0 accountID w0).2 1 hstore (le_refl _) hl (by omega)
    unfold runIncrements
    dsimp only
    rw [hfirst, h1, h2]
    constructor
    · rw [List.range_succ_eq_map, List.map_cons, List.map_map]
      congr 1
      apply List.map_congr_left
      intro i _
      simp only [Function.comp, Nat.succ_eq_add_one, Nat.cast_add, Nat.cast_one, Prod.mk.injEq,
        and_true]
      omega
    · congr 2
      omega
  refine ⟨(hrun later hbefore hcount).1, ?_, ?_⟩
  · intro n hn
    have hlen : (later.take n).length = n := by
      rw [List.length_take]
      omega
    have := (hrun (later.take n) (fun c hc => hbefore c (List.mem_of_mem_take hc))
      (by rw [hlen]; omega)).2
    rw [hlen] at this
    exact this
  · intro t1 w1 ht1
    apply IncrementTimeoutCount_absent
    rw [redisLive_of_mapGet _ _ t1 _ (hrun later hbefore hcount).2]
    dsimp only
    rw [if_neg (by omega)]

/-- C12, for account 7 and a window of one minute: calls at 0 ms, 10 ms and 59999 ms return 1,
2 and 3, and a fourth call at 60000 ms, when the key has expired, returns 1 again. -/
theorem C12_counter_window_witness :
    (runIncrements 7 [] [(0, 1), (10, 1), (59999, 1)]).1 = [(1, none), (2, none), (3, none)] ∧
    mapGet (runIncrements 7 [] [(0, 1), (10, 1), (59999, 1)]).2 (timeoutCounterKey 7) =
      some { value := 3, expireAt := some 60000 } ∧
    (IncrementTimeoutCount true (runIncrements 7 [] [(0, 1), (10, 1), (59999, 1)]).2 60000 7
      1).1 = (1, none) :=
  ⟨(C12_counter_window [] 7 0 1 [(10, 1), (59999, 1)] (by decide) (by decide) (by decide)).1,
    (C12_counter_window [] 7 0 1 [(10, 1), (59999, 1)] (by decide) (by decide) (by decide)).2.1
      2 (by decide),
    ((C12_counter_window [] 7 0 1 [(10, 1), (59999, 1)] (by decide) (by decide)
      (by decide)).2.2 60000 1 (by decide)).1⟩

/-! ## The rate limiter -/

theorem windowTTLMillis_ge (window : Int) : 1 ≤ windowTTLMillis window := by
  unfold windowTTLMillis
  split <;> omega

/-- The rate-limit script on a key that is absent or has expired. -/
theorem rateLimitScript_absent (store : RedisStore) (key : GoString) (now : Nat) (arg : Int)
    (harg : 0 < arg) (h : redisLive store key now = none) :
    ∃ post, rateLimitScript store key now arg = (Except.ok (1, 0), post) ∧
      mapGet post key = some { value := 1, expireAt := some (now + arg.toNat) } := by
  unfold rateLimitScript
  rw [redisINCR_absent store key now h]
  dsimp only
  rw [if_pos rfl, redisPEXPIRE_live _ key now arg { value := 1, expireAt := none }
    (by rw [redisLive_mapSet_self]) harg]
  exact ⟨_, rfl, mapGet_mapSet_self _ _ _⟩

/-- The rate-limit script on a live key whose count can be incremented. -/
theorem rateLimitScript_live (store : RedisStore) (key : GoString) (now : Nat) (arg : Int)
    (harg : 0 < arg) (e0 : RedisEntry) (h : redisLive store key now = some e0)
    (hv : e0.value < 2 ^ 63 - 1) :
    ∃ post, rateLimitScript store key now arg =
        (Except.ok (e0.value + 1, if e0.value + 1 ≠ 1 ∧ e0.expireAt = none then 1 else 0),
          post) ∧
      mapGet post key = some
        { value := e0.value + 1
          expireAt :=
            if e0.value + 1 = 1 ∨ e0.expireAt = none then some (now + arg.toNat)
            else e0.expireAt } := by
  have hget := mapGet_of_redisLive store key now e0 h
  have hlive0 := redisLive_of_mapGet store key now e0 hget
  rw [h] at hlive0
  have hlive1 : redisLive (mapSet store key { value := e0.value + 1, expireAt := e0.expireAt })
      key now = some { value := e0.value + 1, expireAt := e0.expireAt } := by
    rw [redisLive_mapSet_self]
    dsimp only
    cases he : e0.expireAt with
    | none => rfl
    | some t =>
      rw [he] at hlive0
      dsimp only at hlive0 ⊢
      by_cases hlt : now < t
      · rw [if_pos hlt]
      · rw [if_neg hlt] at hlive0
        simp at hlive0
  unfold rateLimitScript
  rw [redisINCR_live store key now e0 h hv]
  dsimp only
  by_cases h1 : e0.value + 1 = 1
  · rw [if_pos h1, redisPEXPIRE_live _ key now arg _ hlive1 harg]
    refine ⟨_, Prod.ext ?_ rfl, (mapGet_mapSet_self _ _ _).trans ?_⟩
    · simp [h1]
    · simp [h1]
  · rw [if_neg h1]
    unfold redisPTTL
    rw [hlive1]
    dsimp only
    cases he : e0.expireAt with
    | none =>
      dsimp only
      rw [if_pos rfl, redisPEXPIRE_live _ key now arg _ (by rw [← he]; exact hlive1) harg]
      refine ⟨_, Prod.ext ?_ rfl, (mapGet_mapSet_self _ _ _).trans ?_⟩
      · simp [h1]
      · simp
    | some t =>
      dsimp only
      rw [he] at hlive0
      dsimp only at hlive0
      have hlt : now < t := by
        by_contra hc
        rw [if_neg hc] at hlive0
        simp at hlive0
      rw [if_neg (by omega)]
      refine ⟨_, Prod.ext ?_ rfl, (mapGet_mapSet_self _ _ _).trans ?_⟩
      · simp
      · simp [h1]

/-- The rate-limit script on a key whose count is the largest `int64`: `INCR` fails, the script
ends with the error and the store is as before. -/
theorem rateLimitScript_overflow (store : RedisStore) (key : GoString) (now : Nat) (arg : Int)
    (e0 : RedisEntry) (h : redisLive store key now = some e0) (hv : e0.value ≥ 2 ^ 63 - 1) :
    rateLimitScript store key now arg =
      (Except.error "ERR increment or decrement would overflow".toList, store) := by
  unfold rateLimitScript
  rw [redisINCR_overflow store key now e0 h hv]

/-! ## Claims on the rate limiter -/

/-- C13 as worded does not hold: for a counter key that holds the largest `int64` and has no
TTL, `INCR` fails, the script ends with the error before it reaches `PEXPIRE`, and the key is
left as it was, without an expiry. -/
theorem C13_full_counter_stays_unexpiring :
    rateLimitScript [("k".toList, { value := 9223372036854775807, expireAt := none })]
        "k".toList 100 (windowTTLMillis 1000000000) =
      (Except.error "ERR increment or decrement would overflow".toList,
        [("k".toList, { value := 9223372036854775807, expireAt := none })]) ∧
    mapGet (rateLimitScript [("k".toList, { value := 9223372036854775807, expireAt := none })]
        "k".toList 100 (windowTTLMillis 1000000000)).2 "k".toList =
      some { value := 9223372036854775807, expireAt := none } :=
  ⟨rfl, by decide⟩

/-- C13, amended: the TTL argument `windowTTLMillis(window)` is at least 1 ms, and after every
execution of the rate-limit script that returns `{current, repaired}` the counter key carries an
expiry in the future: the expiry is set to `now + ttl` when the incremented count is 1 or the key had no
TTL and is otherwise the one the key had, and `repaired` is 1 exactly when the count is not 1
and the key had no TTL.  The script returns unless `INCR` overflows, that is unless the count is
already the largest `int64`; in that case it fails and changes nothing. -/
theorem C13_rate_limit_key_expires (store : RedisStore) (key : GoString) (now : Nat)
    (window : Int) :
    1 ≤ windowTTLMillis window ∧
    (∀ cur rep post,
      rateLimitScript store key now (windowTTLMillis window) = (Except.ok (cur, rep), post) →
      ∃ t, mapGet post key = some { value := cur, expireAt := some t } ∧ now < t ∧
        ((cur = 1 ∨ ∃ e0, redisLive store key now = some e0 ∧ e0.expireAt = none) →
          t = now + (windowTTLMillis window).toNat) ∧
        (¬ (cur = 1 ∨ ∃ e0, redisLive store key now = some e0 ∧ e0.expireAt = none) →
          ∃ e0, redisLive store key now = some e0 ∧ e0.expireAt = some t) ∧
        (rep = 1 ↔
          (cur ≠ 1 ∧ ∃ e0, redisLive store key now = some e0 ∧ e0.expireAt = none)) ∧
        (rep = 0 ∨ rep = 1) ∧
        rateLimitRun true store now key (windowTTLMillis window) =
          ((cur, decide (rep = 1), none), post)) ∧
    (∀ err post,
      rateLimitScript store key now (windowTTLMillis window) = (Except.error err, post) →
      post = store ∧ ∃ e0, redisLive store key now = some e0 ∧ e0.value ≥ 2 ^ 63 - 1) ∧
    ((∀ e0, redisLive store key now = some e0 → e0.value < 2 ^ 63 - 1) →
      ∃ cur rep post,
        rateLimitScript store key now (windowTTLMillis window) = (Except.ok (cur, rep), post)) := by
  have harg := windowTTLMillis_ge window
  have hpos : 0 < windowTTLMillis window := by omega
  have hfut : now < now + (windowTTLMillis window).toNat := by omega
  have hrun : ∀ cur rep post,
      rateLimitScript store key now (windowTTLMillis window) = (Except.ok (cur, rep), post) →
      rateLimitRun true store now key (windowTTLMillis window) =
        ((cur, decide (rep = 1), none), post) := by
    intro cur rep post hs
    unfold rateLimitRun
    rw [if_neg (by simp), hs]
  refine ⟨harg, ?_, ?_, ?_⟩
  · intro cur rep post hs
    cases hl : redisLive store key now with
    | none =>
      obtain ⟨post0, h0, hg⟩ := rateLimitScript_absent store key now _ hpos hl
      rw [h0] at hs
      simp only [Prod.mk.injEq, Except.ok.injEq] at hs
      obtain ⟨⟨rfl, rfl⟩, rfl⟩ := hs
      refine ⟨_, hg, hfut, fun _ => rfl, ?_, ?_, Or.inl rfl, hrun 1 0 post0 h0⟩
      · intro hn
        exact absurd (Or.inl rfl) hn
      · constructor
        · intro h
          exact absurd h (by decide)
        · rintro ⟨h, _⟩
          exact absurd rfl h
    | some e0 =>
      by_cases hv : e0.value < 2 ^ 63 - 1
      · obtain ⟨post0, h0, hg⟩ := rateLimitScript_live store key now _ hpos e0 hl hv
        have hs0 := hs
        rw [h0] at hs
        simp only [Prod.mk.injEq, Except.ok.injEq] at hs
        obtain ⟨⟨rfl, rfl⟩, rfl⟩ := hs
        have hno : (∃ e1, some e0 = some e1 ∧ e1.expireAt = none) ↔ e0.expireAt = none := by
          constructor
          · rintro ⟨e1, he1, he2⟩
            simp only [Option.some.injEq] at he1
            subst he1
            exact he2
          · intro h
            exact ⟨e0, rfl, h⟩
        simp only [hno]
        by_cases hc : e0.value + 1 = 1 ∨ e0.expireAt = none
        · rw [if_pos hc] at hg
          refine ⟨_, hg, hfut, fun _ => rfl, fun hn => absurd hc hn, ?_, ?_, hrun _ _ _ hs0⟩
          · by_cases h1 : e0.value + 1 = 1
            · simp [h1]
            · have h2 : e0.expireAt = none := hc.resolve_left h1
              simp [h1, h2]
          · by_cases h3 : e0.value + 1 ≠ 1 ∧ e0.expireAt = none
            · rw [if_pos h3]; exact Or.inr rfl
            · rw [if_neg h3]; exact Or.inl rfl
        · rw [if_neg hc] at hg
          have hc1 : ¬ e0.value + 1 = 1 := fun h => hc (Or.inl h)
          have hc2 : ¬ e0.expireAt = none := fun h => hc (Or.inr h)
          obtain ⟨t, het⟩ : ∃ t, e0.expireAt = some t := by
            cases hx : e0.expireAt with
            | none => exact absurd hx hc2
            | some t => exact ⟨t, rfl⟩
          rw [het] at hg
          have hlt : now < t := by
            have := redisLive_of_mapGet store key now e0 (mapGet_of_redisLive store key now e0 hl)
            rw [hl, het] at this
            dsimp only at this
            by_contra hcon
            rw [if_neg hcon] at this
            simp at this
          refine ⟨t, hg, hlt, ?_, fun _ => ⟨e0, rfl, het⟩, ?_, ?_, hrun _ _ _ hs0⟩
          · intro h
            rcases h with h | h
            · exact absurd h hc1
            · exact absurd h hc2
          · simp [hc1, hc2]
          · rw [if_neg (fun h => hc2 h.2)]
            exact Or.inl rfl
      · rw [rateLimitScript_overflow store key now _ e0 hl (by omega)] at hs
        simp at hs
  · intro err post hs
    cases hl : redisLive store key now with
    | none =>
      obtain ⟨post0, h0, _⟩ := rateLimitScript_absent store key now _ hpos hl
      rw [h0] at hs
      simp at hs
    | some e0 =>
      by_cases hv : e0.value < 2 ^ 63 - 1
      · obtain ⟨post0, h0, _⟩ := rateLimitScript_live store key now _ hpos e0 hl hv
        rw [h0] at hs
        simp at hs
      · rw [rateLimitScript_overflow store key now _ e0 hl (by omega)] at hs
        simp only [Prod.mk.injEq] at hs
        exact ⟨hs.2.symm, e0, rfl, by omega⟩
  · intro hok
    cases hl : redisLive store key now with
    | none =>
      obtain ⟨post0, h0, _⟩ := rateLimitScript_absent store key now _ hpos hl
      exact ⟨_, _, _, h0⟩
    | some e0 =>
      obtain ⟨post0, h0, _⟩ := rateLimitScript_live store key now _ hpos e0 hl (hok e0 hl)
      exact ⟨_, _, _, h0⟩

/-- C13, for a key with count 5 and no TTL, at time 100 ms and a window of one second: the
script returns `{6, 1}` and the key then expires at 1100 ms. -/
theorem C13_rate_limit_key_expires_witness :
    windowTTLMillis 1000000000 = 1000 ∧
    rateLimitScript [("k".toList, { value := 5, expireAt := none })] "k".toList 100
        (windowTTLMillis 1000000000) =
      (Except.ok (6, 1), [("k".toList, { value := 6, expireAt := some 1100 })]) ∧
    ∃ t, mapGet [("k".toList, ({ value := 6, expireAt := some 1100 } : RedisEntry))] "k".toList =
        some { value := 6, expireAt := some t } ∧ 100 < t :=
  ⟨by decide, rfl,
    ((C13_rate_limit_key_expires [("k".toList, { value := 5, expireAt := none })] "k".toList 100
      1000000000).2.1 6 1 [("k".toList, { value := 6, expireAt := some 1100 })]
      rfl).imp (fun _ h => ⟨h.1, h.2.1⟩)⟩

/-- C14: the middleware lets the request through to the next handler if and only if either the
store call fails and the configured failure mode is not `RateLimitFailClose` (so also for the
zero value, which is `RateLimitFailOpen`, and for unknown values), or the store call succeeds
with a count `<= limit`; in every other case it aborts with HTTP 429.  `Limit` is
`LimitWithOptions` with the zero value. -/
theorem C14_rate_limit_outcome (run : GoString → Int → Int × Bool × Option GoError)
    (keyPrefix key : GoString) (limit window mode : Int) (ip : GoString) :
    (LimitWithOptions run keyPrefix key limit window mode ip = HandlerOutcome.next ↔
      (((run (keyPrefix ++ key ++ ":".toList ++ ip) (windowTTLMillis window)).2.2 ≠ none ∧
          mode ≠ RateLimitFailClose) ∨
        ((run (keyPrefix ++ key ++ ":".toList ++ ip) (windowTTLMillis window)).2.2 = none ∧
          (run (keyPrefix ++ key ++ ":".toList ++ ip) (windowTTLMillis window)).1 ≤ limit))) ∧
    (LimitWithOptions run keyPrefix key limit window mode ip ≠ HandlerOutcome.next →
      LimitWithOptions run keyPrefix key limit window mode ip = HandlerOutcome.abort 429) ∧
    RateLimitFailOpen = 0 ∧
    Limit run keyPrefix key limit window ip =
      LimitWithOptions run keyPrefix key limit window RateLimitFailOpen ip := by
  refine ⟨?_, ?_, rfl, rfl⟩
  · unfold LimitWithOptions
    dsimp only
    rcases hr : run (keyPrefix ++ key ++ ":".toList ++ ip) (windowTTLMillis window) with
      ⟨count, repaired, err⟩
    cases err with
    | some e =>
      dsimp only
      by_cases hm : mode = RateLimitFailClose
      · simp [hm]
      · have hopen : RateLimitFailOpen ≠ RateLimitFailClose := by decide
        rw [if_pos hm, if_neg hopen]
        simp [hm]
    | none =>
      dsimp only
      by_cases hc : count > limit
      · rw [if_pos hc]
        simp
        omega
      · rw [if_neg hc]
        simp
        omega
  · unfold LimitWithOptions
    dsimp only
    rcases hr : run (keyPrefix ++ key ++ ":".toList ++ ip) (windowTTLMillis window) with
      ⟨count, repaired, err⟩
    cases err with
    | some e =>
      dsimp only
      split <;> simp [StatusTooManyRequests]
    | none =>
      dsimp only
      split <;> simp [StatusTooManyRequests]

/-- C14, against a store that cannot be reached: the default mode lets the request through and
`RateLimitFailClose` answers 429; and with a store call that succeeds, limit 1 lets the count
1 through and answers 429 to the count 2. -/
theorem C14_rate_limit_outcome_witness :
    Limit (fun k w => (rateLimitRun false [] 0 k w).1) "rate_limit:".toList "test".toList 1
      1000000000 "127.0.0.1".toList = HandlerOutcome.next ∧
    LimitWithOptions (fun k w => (rateLimitRun false [] 0 k w).1) "rate_limit:".toList
      "test".toList 1 1000000000 RateLimitFailClose "127.0.0.1".toList =
      HandlerOutcome.abort 429 ∧
    LimitWithOptions (fun _ _ => (1, false, none)) "rate_limit:".toList "test".toList 1
      1000000000 0 "127.0.0.1".toList = HandlerOutcome.next ∧
    LimitWithOptions (fun _ _ => (2, false, none)) "rate_limit:".toList "test".toList 1
      1000000000 0 "127.0.0.1".toList = HandlerOutcome.abort 429 :=
  ⟨by decide, by decide,
    (C14_rate_limit_outcome (fun _ _ => (1, false, none)) "rate_limit:".toList "test".toList 1
      1000000000 0 "127.0.0.1".toList).1.mpr (Or.inr ⟨rfl, by decide⟩),
    (C14_rate_limit_outcome (fun _ _ => (2, false, none)) "rate_limit:".toList "test".toList 1
      1000000000 0 "127.0.0.1".toList).2.1 (by decide)⟩

/-! ## Dynamic values -/

theorem asString_mapIndex (m : GoMap GoString GoAny) (k s : GoString) :
    asString (mapIndex m k) = some s ↔ mapGet m k = some (GoAny.str s) := by
  unfold mapIndex
  cases hm : mapGet m k with
  | none => simp [asString]
  | some v => cases v <;> simp [asString]

theorem asArray_mapIndex (m : GoMap GoString GoAny) (k : GoString) (items : List GoAny) :
    asArray (mapIndex m k) = some items ↔ mapGet m k = some (GoAny.arr items) := by
  unfold mapIndex
  cases hm : mapGet m k with
  | none => simp [asArray]
  | some v => cases v <;> simp [asArray]

theorem asObject_eq_some (v : GoAny) (fields : GoMap GoString GoAny) :
    asObject v = some fields ↔ v = GoAny.obj fields := by
  cases v <;> simp [asObject]

/-- The string read from a field is a given non-empty string exactly when the field holds that
string. -/
theorem stringField_eq_iff (m : GoMap GoString GoAny) (k want : GoString) (hw : want ≠ []) :
    stringField m k = want ↔ mapGet m k = some (GoAny.str want) := by
  unfold stringField
  cases hs : asString (mapIndex m k) with
  | none =>
    dsimp only
    constructor
    · intro h
      exact absurd h.symm hw
    · intro h
      rw [(asString_mapIndex m k want).mpr h] at hs
      simp at hs
  | some s =>
    dsimp only
    rw [asString_mapIndex] at hs
    rw [hs]
    simp

/-! ## `NeedsToolContinuation` -/

theorem hasNonEmptyString_iff (m : GoMap GoString GoAny) (k : GoString) :
    hasNonEmptyString (mapIndex m k) = true ↔
      ∃ s, mapGet m k = some (GoAny.str s) ∧ TrimSpace s ≠ [] := by
  unfold hasNonEmptyString
  cases hs : asString (mapIndex m k) with
  | none =>
    dsimp only
    constructor
    · intro h
      simp at h
    · rintro ⟨s, h1, _⟩
      rw [(asString_mapIndex m k s).mpr h1] at hs
      simp at hs
  | some s0 =>
    dsimp only
    rw [asString_mapIndex] at hs
    rw [decide_eq_true_iff]
    constructor
    · intro h
      exact ⟨s0, hs, h⟩
    · rintro ⟨s, h1, h2⟩
      rw [hs] at h1
      simp only [Option.some.injEq, GoAny.str.injEq] at h1
      subst h1
      exact h2

theorem hasToolsSignal_iff (body : GoMap GoString GoAny) :
    hasToolsSignal body = true ↔
      ∃ items, mapGet body "tools".toList = some (GoAny.arr items) ∧ items ≠ [] := by
  unfold hasToolsSignal
  cases hm : mapGet body "tools".toList with
  | none => simp
  | some v =>
    cases v with
    | arr items =>
      simp only [asArray, decide_eq_true_eq, Option.some.injEq, GoAny.arr.injEq,
        exists_eq_left']
      exact List.length_pos
    | null => simp
    | str s => simp [asArray]
    | obj f => simp [asArray]
    | other => simp [asArray]

theorem hasToolChoiceSignal_iff (body : GoMap GoString GoAny) :
    hasToolChoiceSignal body = true ↔
      ((∃ s, mapGet body "tool_choice".toList = some (GoAny.str s) ∧ TrimSpace s ≠ []) ∨
        ∃ fields, mapGet body "tool_choice".toList = some (GoAny.obj fields) ∧ fields ≠ []) := by
  unfold hasToolChoiceSignal
  cases hm : mapGet body "tool_choice".toList with
  | none => simp
  | some v =>
    cases v with
    | arr items => simp
    | null => simp
    | str s => simp
    | obj f =>
      simp only [decide_eq_true_eq, Option.some.injEq, GoAny.obj.injEq, exists_eq_left',
        reduceCtorEq, false_and, exists_false, false_or]
      exact List.length_pos
    | other => simp

theorem inputHasTypeLoop_iff (want : GoString) (items : List GoAny) :
    inputHasTypeLoop want items = true ↔
      ∃ fields, GoAny.obj fields ∈ items ∧ stringField fields "type".toList = want := by
  induction items with
  | nil => simp [inputHasTypeLoop]
  | cons item rest ih =>
    unfold inputHasTypeLoop
    cases ho : asObject item with
    | none =>
      dsimp only
      rw [ih]
      constructor
      · rintro ⟨f, hf, hw⟩
        exact ⟨f, by simp [hf], hw⟩
      · rintro ⟨f, hf, hw⟩
        simp only [List.mem_cons] at hf
        rcases hf with rfl | hf
        · simp [asObject] at ho
        · exact ⟨f, hf, hw⟩
    | some itemMap =>
      dsimp only
      rw [asObject_eq_some] at ho
      subst ho
      by_cases hw : stringField itemMap "type".toList = want
      · rw [if_pos hw]
        simp only [true_iff]
        exact ⟨itemMap, by simp, hw⟩
      · rw [if_neg hw, ih]
        constructor
        · rintro ⟨f, hf, hw2⟩
          exact ⟨f, by simp [hf], hw2⟩
        · rintro ⟨f, hf, hw2⟩
          simp only [List.mem_cons, GoAny.obj.injEq] at hf
          rcases hf with rfl | hf
          · exact absurd hw2 hw
          · exact ⟨f, hf, hw2⟩

theorem inputHasType_iff (body : GoMap GoString GoAny) (want : GoString) (hw : want ≠ []) :
    inputHasType body want = true ↔
      ∃ items, mapGet body "input".toList = some (GoAny.arr items) ∧
        ∃ fields, GoAny.obj fields ∈ items ∧
          mapGet fields "type".toList = some (GoAny.str want) := by
  unfold inputHasType
  cases ha : asArray (mapIndex body "input".toList) with
  | none =>
    dsimp only
    constructor
    · intro h
      simp at h
    · rintro ⟨items, h1, _⟩
      rw [(asArray_mapIndex _ _ items).mpr h1] at ha
      simp at ha
  | some input =>
    dsimp only
    rw [asArray_mapIndex] at ha
    rw [inputHasTypeLoop_iff]
    constructor
    · rintro ⟨f, hf, hws⟩
      exact ⟨input, ha, f, hf, (stringField_eq_iff f _ want hw).mp hws⟩
    · rintro ⟨items, h1, f, hf, hws⟩
      rw [ha] at h1
      simp only [Option.some.injEq, GoAny.arr.injEq] at h1
      subst h1
      exact ⟨f, hf, (stringField_eq_iff f _ want hw).mpr hws⟩

/-- C15: `NeedsToolContinuation(body)` is true if and only if the body is not nil and at least
one of these holds: `previous_response_id` is a string that is not blank after trimming;
`tools` is a non-empty array; `tool_choice` is a string that is not blank after trimming or a
non-empty object; `input` is an array containing an object whose `type` is the string
`function_call_output` or `item_reference`. -/
theorem C15_needs_tool_continuation (reqBody : Option (GoMap GoString GoAny)) :
    NeedsToolContinuation reqBody = true ↔
      ∃ body, reqBody = some body ∧
        ((∃ s, mapGet body "previous_response_id".toList = some (GoAny.str s) ∧
            TrimSpace s ≠ []) ∨
          (∃ items, mapGet body "tools".toList = some (GoAny.arr items) ∧ items ≠ []) ∨
          ((∃ s, mapGet body "tool_choice".toList = some (GoAny.str s) ∧ TrimSpace s ≠ []) ∨
            ∃ fields, mapGet body "tool_choice".toList = some (GoAny.obj fields) ∧
              fields ≠ []) ∨
          ∃ items, mapGet body "input".toList = some (GoAny.arr items) ∧
            ∃ fields, GoAny.obj fields ∈ items ∧
              (mapGet fields "type".toList = some (GoAny.str "function_call_output".toList) ∨
                mapGet fields "type".toList = some (GoAny.str "item_reference".toList))) := by
  cases reqBody with
  | none => simp [NeedsToolContinuation]
  | some body =>
    have h1 := hasNonEmptyString_iff body "previous_response_id".toList
    have h2 := hasToolsSignal_iff body
    have h3 := hasToolChoiceSignal_iff body
    have h4 := inputHasType_iff body "function_call_output".toList (by decide)
    have h5 := inputHasType_iff body "item_reference".toList (by decide)
    have hD : (∃ items, mapGet body "input".toList = some (GoAny.arr items) ∧
          ∃ fields, GoAny.obj fields ∈ items ∧
            (mapGet fields "type".toList = some (GoAny.str "function_call_output".toList) ∨
              mapGet fields "type".toList = some (GoAny.str "item_reference".toList))) ↔
        (inputHasType body "function_call_output".toList = true ∨
          inputHasType body "item_reference".toList = true) := by
      rw [h4, h5]
      constructor
      · rintro ⟨items, hi, f, hf, hw | hw⟩
        · exact Or.inl ⟨items, hi, f, hf, hw⟩
        · exact Or.inr ⟨items, hi, f, hf, hw⟩
      · rintro (⟨items, hi, f, hf, hw⟩ | ⟨items, hi, f, hf, hw⟩)
        · exact ⟨items, hi, f, hf, Or.inl hw⟩
        · exact ⟨items, hi, f, hf, Or.inr hw⟩
    simp only [Option.some.injEq, exists_eq_left']
    rw [hD, ← h1, ← h2, ← h3]
    unfold NeedsToolContinuation
    dsimp only
    cases hasNonEmptyString (mapIndex body "previous_response_id".toList) <;>
      cases hasToolsSignal body <;> cases hasToolChoiceSignal body <;>
      cases inputHasType body "function_call_output".toList <;>
      cases inputHasType body "item_reference".toList <;> simp

/-- C15, at a body whose only field is `tool_choice` with the value `"auto"`. -/
theorem C15_needs_tool_continuation_witness :
    NeedsToolContinuation
      (some [("tool_choice".toList, GoAny.str "auto".toList)]) = true :=
  (C15_needs_tool_continuation (some [("tool_choice".toList, GoAny.str "auto".toList)])).mpr
    ⟨_, rfl, Or.inr (Or.inr (Or.inl (Or.inl ⟨"auto".toList, rfl, by decide⟩)))⟩

/-! ## Sets of strings built by a loop -/

/-- A loop that adds to a set at most one string per item, the string `P` relates to the item:
the set has no repeated key and holds exactly the strings related to some item. -/
theorem collect_spec (step : GoMap GoString Unit → GoAny → GoMap GoString Unit)
    (P : GoAny → GoString → Prop)
    (hstep : ∀ ids item, (step ids item = ids ∧ ∀ id, ¬ P item id) ∨
      ∃ id, P item id ∧ (∀ id2, P item id2 → id2 = id) ∧ step ids item = mapSet ids id ())
    (items : List GoAny) :
    ((items.foldl step []).map Prod.fst).Nodup ∧
    ∀ id, mapGet (items.foldl step []) id ≠ none ↔ ∃ item ∈ items, P item id := by
  induction items using List.reverseRecOn with
  | nil => simp [mapGet]
  | append_singleton l a ih =>
    rw [List.foldl_append, List.foldl_cons, List.foldl_nil]
    obtain ⟨ihn, ihm⟩ := ih
    rcases hstep (l.foldl step []) a with ⟨heq, hno⟩ | ⟨id0, hp, huniq, heq⟩
    · rw [heq]
      refine ⟨ihn, fun id => ?_⟩
      rw [ihm id]
      constructor
      · rintro ⟨item, hi, hP⟩
        exact ⟨item, by simp [hi], hP⟩
      · rintro ⟨item, hi, hP⟩
        simp only [List.mem_append, List.mem_singleton] at hi
        rcases hi with hi | rfl
        · exact ⟨item, hi, hP⟩
        · exact absurd hP (hno id)
    · rw [heq]
      refine ⟨mapSet_keys_nodup _ _ _ ihn, fun id => ?_⟩
      by_cases hid : id0 = id
      · subst hid
        rw [mapGet_mapSet_self]
        simp only [ne_eq, reduceCtorEq, not_false_eq_true, true_iff]
        exact ⟨a, by simp, hp⟩
      · rw [mapGet_mapSet_ne _ _ _ _ hid, ihm id]
        constructor
        · rintro ⟨item, hi, hP⟩
          exact ⟨item, by simp [hi], hP⟩
        · rintro ⟨item, hi, hP⟩
          simp only [List.mem_append, List.mem_singleton] at hi
          rcases hi with hi | rfl
          · exact ⟨item, hi, hP⟩
          · exact absurd (huniq id hP).symm hid

theorem stringField_of_mapGet (m : GoMap GoString GoAny) (k s : GoString)
    (h : mapGet m k = some (GoAny.str s)) : stringField m k = s := by
  unfold stringField
  rw [(asString_mapIndex m k s).mpr h]

theorem TrimSpace_nil : TrimSpace [] = [] := rfl

/-- What one item adds to the set of call ids. -/
theorem callIDStep_spec (ids : GoMap GoString Unit) (item : GoAny) :
    (callIDStep ids item = ids ∧ ∀ id, ¬ ∃ fields, item = GoAny.obj fields ∧
        mapGet fields "type".toList = some (GoAny.str "function_call_output".toList) ∧
        mapGet fields "call_id".toList = some (GoAny.str id) ∧ TrimSpace id ≠ []) ∨
    ∃ id, (∃ fields, item = GoAny.obj fields ∧
        mapGet fields "type".toList = some (GoAny.str "function_call_output".toList) ∧
        mapGet fields "call_id".toList = some (GoAny.str id) ∧ TrimSpace id ≠ []) ∧
      (∀ id2, (∃ fields, item = GoAny.obj fields ∧
        mapGet fields "type".toList = some (GoAny.str "function_call_output".toList) ∧
        mapGet fields "call_id".toList = some (GoAny.str id2) ∧ TrimSpace id2 ≠ []) → id2 = id) ∧
      callIDStep ids item = mapSet ids id () := by
  unfold callIDStep
  cases ho : asObject item with
  | none =>
    left
    refine ⟨rfl, ?_⟩
    rintro id ⟨fields, rfl, _⟩
    simp [asObject] at ho
  | some itemMap =>
    rw [asObject_eq_some] at ho
    subst ho
    dsimp only
    by_cases ht : stringField itemMap "type".toList = "function_call_output".toList
    · rw [if_neg (by simpa using ht)]
      have ht2 := (stringField_eq_iff itemMap _ _ (by decide)).mp ht
      cases hc : asString (mapIndex itemMap "call_id".toList) with
      | none =>
        left
        refine ⟨rfl, ?_⟩
        rintro id ⟨fields, hf, _, h3, _⟩
        simp only [GoAny.obj.injEq] at hf
        subst hf
        rw [(asString_mapIndex _ _ id).mpr h3] at hc
        simp at hc
      | some callID =>
        dsimp only
        rw [asString_mapIndex] at hc
        by_cases hb : TrimSpace callID ≠ []
        · right
          rw [if_pos hb]
          refine ⟨callID, ⟨itemMap, rfl, ht2, hc, hb⟩, ?_, rfl⟩
          rintro id2 ⟨fields, hf, _, h3, _⟩
          simp only [GoAny.obj.injEq] at hf
          subst hf
          rw [hc] at h3
          simp only [Option.some.injEq, GoAny.str.injEq] at h3
          exact h3.symm
        · left
          rw [if_neg hb]
          refine ⟨rfl, ?_⟩
          rintro id ⟨fields, hf, _, h3, h4⟩
          simp only [GoAny.obj.injEq] at hf
          subst hf
          rw [hc] at h3
          simp only [Option.some.injEq, GoAny.str.injEq] at h3
          subst h3
          exact hb h4
    · left
      rw [if_pos (by simpa using ht)]
      refine ⟨rfl, ?_⟩
      rintro id ⟨fields, hf, h2, _⟩
      simp only [GoAny.obj.injEq] at hf
      subst hf
      exact ht (stringField_of_mapGet _ _ _ h2)

/-- The set of call ids after the loop of `FunctionCallOutputCallIDs`. -/
theorem callIDs_fold (items : List GoAny) :
    ((items.foldl callIDStep []).map Prod.fst).Nodup ∧
    ∀ id, mapGet (items.foldl callIDStep []) id ≠ none ↔ isCallIDOf items id := by
  obtain ⟨h1, h2⟩ := collect_spec callIDStep
    (fun item id => ∃ fields, item = GoAny.obj fields ∧
      mapGet fields "type".toList = some (GoAny.str "function_call_output".toList) ∧
      mapGet fields "call_id".toList = some (GoAny.str id) ∧ TrimSpace id ≠ [])
    callIDStep_spec items
  refine ⟨h1, fun id => ?_⟩
  rw [h2 id]
  unfold isCallIDOf
  constructor
  · rintro ⟨item, hi, fields, rfl, hp⟩
    exact ⟨fields, hi, hp⟩
  · rintro ⟨fields, hi, hp⟩
    exact ⟨_, hi, fields, rfl, hp⟩

/-- C16: whatever the order in which the set of ids is visited, a non-nil result of
`FunctionCallOutputCallIDs(body)` has no duplicates, is not empty, and its elements are exactly
the `call_id` strings of the `function_call_output` items of `input` whose `call_id` is not
blank; and the result is nil exactly when the body is nil, `input` is not an array, or there
is no such item. -/
theorem C16_function_call_output_call_ids (order : GoMap GoString Unit → GoMap GoString Unit)
    (horder : ∀ m, (order m).Perm m) (reqBody : Option (GoMap GoString GoAny)) :
    (∀ l, FunctionCallOutputCallIDs order reqBody = some l →
      l.Nodup ∧ l ≠ [] ∧
      ∃ body items, reqBody = some body ∧
        mapGet body "input".toList = some (GoAny.arr items) ∧
        ∀ id, id ∈ l ↔ isCallIDOf items id) ∧
    (FunctionCallOutputCallIDs order reqBody = none ↔
      (reqBody = none ∨
        (∃ body, reqBody = some body ∧
          ∀ items, mapGet body "input".toList ≠ some (GoAny.arr items)) ∨
        ∃ body items, reqBody = some body ∧
          mapGet body "input".toList = some (GoAny.arr items) ∧
          ∀ id, ¬ isCallIDOf items id)) := by
  cases reqBody with
  | none => simp [FunctionCallOutputCallIDs]
  | some body =>
    unfold FunctionCallOutputCallIDs
    dsimp only
    cases ha : asArray (mapIndex body "input".toList) with
    | none =>
      dsimp only
      refine ⟨by simp, ?_⟩
      simp only [true_iff]
      right; left
      refine ⟨body, rfl, ?_⟩
      intro items hi
      rw [(asArray_mapIndex _ _ items).mpr hi] at ha
      simp at ha
    | some input =>
      dsimp only
      rw [asArray_mapIndex] at ha
      obtain ⟨hnd, hmem⟩ := callIDs_fold input
      have hperm := horder (input.foldl callIDStep [])
      have hin : ∀ id, id ∈ (order (input.foldl callIDStep [])).map Prod.fst ↔
          isCallIDOf input id := by
        intro id
        rw [(hperm.map Prod.fst).mem_iff, ← hmem id, ne_eq, mapGet_eq_none_iff, not_not]
      by_cases hlen : (input.foldl callIDStep []).length = 0
      · rw [if_pos hlen]
        refine ⟨by simp, ?_⟩
        simp only [true_iff]
        right; right
        refine ⟨body, input, rfl, ha, ?_⟩
        intro id hid
        rw [← hmem id, List.length_eq_zero.mp hlen] at hid
        simp [mapGet] at hid
      · rw [if_neg hlen]
        constructor
        · intro l hl
          simp only [Option.some.injEq] at hl
          subst hl
          refine ⟨(hperm.map Prod.fst).nodup_iff.mpr hnd, ?_, body, input, rfl, ha, hin⟩
          intro hnil
          rw [List.map_eq_nil_iff] at hnil
          rw [hnil] at hperm
          exact hlen (by rw [List.nil_perm.mp hperm]; rfl)
        · constructor
          · intro h
            simp at h
          · rintro (h | ⟨b2, hb, hno⟩ | ⟨b2, items, hb, hi, hno⟩)
            · simp at h
            · simp only [Option.some.injEq] at hb
              subst hb
              exact absurd ha (hno input)
            · simp only [Option.some.injEq] at hb
              subst hb
              rw [ha] at hi
              simp only [Option.some.injEq, GoAny.arr.injEq] at hi
              subst hi
              exfalso
              apply hlen
              cases hf : input.foldl callIDStep [] with
              | nil => rfl
              | cons e rest =>
                exfalso
                apply hno e.1
                rw [← hmem e.1, hf]
                simp [mapGet]

/-- C16, for an input with the call id `call_1` twice and an empty call id once, the set
being visited in insertion order: the result is the one id `call_1`. -/
theorem C16_function_call_output_call_ids_witness :
    FunctionCallOutputCallIDs id
      (some [("input".toList, GoAny.arr
        [GoAny.obj [("type".toList, GoAny.str "function_call_output".toList),
          ("call_id".toList, GoAny.str "call_1".toList)],
         GoAny.obj [("type".toList, GoAny.str "function_call_output".toList),
          ("call_id".toList, GoAny.str [])],
         GoAny.obj [("type".toList, GoAny.str "function_call_output".toList),
          ("call_id".toList, GoAny.str "call_1".toList)]])]) = some ["call_1".toList] ∧
    ["call_1".toList].Nodup ∧ ["call_1".toList] ≠ [] :=
  ⟨by decide,
    ((C16_function_call_output_call_ids id (fun m => List.Perm.refl m)
      (some [("input".toList, GoAny.arr
        [GoAny.obj [("type".toList, GoAny.str "function_call_output".toList),
          ("call_id".toList, GoAny.str "call_1".toList)],
         GoAny.obj [("type".toList, GoAny.str "function_call_output".toList),
          ("call_id".toList, GoAny.str [])],
         GoAny.obj [("type".toList, GoAny.str "function_call_output".toList),
          ("call_id".toList, GoAny.str "call_1".toList)]])])).1 ["call_1".toList]
      (by decide)).1,
    ((C16_function_call_output_call_ids id (fun m => List.Perm.refl m)
      (some [("input".toList, GoAny.arr
        [GoAny.obj [("type".toList, GoAny.str "function_call_output".toList),
          ("call_id".toList, GoAny.str "call_1".toList)],
         GoAny.obj [("type".toList, GoAny.str "function_call_output".toList),
          ("call_id".toList, GoAny.str [])],
         GoAny.obj [("type".toList, GoAny.str "function_call_output".toList),
          ("call_id".toList, GoAny.str "call_1".toList)]])])).1 ["call_1".toList]
      (by decide)).2.1⟩

/-- What one item adds to the set of reference ids. -/
theorem referenceIDStep_spec (ids : GoMap GoString Unit) (item : GoAny) :
    (referenceIDStep ids item = ids ∧ ∀ id, ¬ ∃ fields raw, item = GoAny.obj fields ∧
        mapGet fields "type".toList = some (GoAny.str "item_reference".toList) ∧
        mapGet fields "id".toList = some (GoAny.str raw) ∧ TrimSpace raw = id ∧ id ≠ []) ∨
    ∃ id, (∃ fields raw, item = GoAny.obj fields ∧
        mapGet fields "type".toList = some (GoAny.str "item_reference".toList) ∧
        mapGet fields "id".toList = some (GoAny.str raw) ∧ TrimSpace raw = id ∧ id ≠ []) ∧
      (∀ id2, (∃ fields raw, item = GoAny.obj fields ∧
        mapGet fields "type".toList = some (GoAny.str "item_reference".toList) ∧
        mapGet fields "id".toList = some (GoAny.str raw) ∧ TrimSpace raw = id2 ∧ id2 ≠ []) →
          id2 = id) ∧
      referenceIDStep ids item = mapSet ids id () := by
  unfold referenceIDStep
  cases ho : asObject item with
  | none =>
    left
    refine ⟨rfl, ?_⟩
    rintro id ⟨fields, raw, rfl, _⟩
    simp [asObject] at ho
  | some itemMap =>
    rw [asObject_eq_some] at ho
    subst ho
    dsimp only
    by_cases ht : stringField itemMap "type".toList = "item_reference".toList
    · rw [if_neg (by simpa using ht)]
      have ht2 := (stringField_eq_iff itemMap _ _ (by decide)).mp ht
      by_cases hb : TrimSpace (stringField itemMap "id".toList) = []
      · left
        rw [if_pos hb]
        refine ⟨rfl, ?_⟩
        rintro id ⟨fields, raw, hf, _, h3, h4, h5⟩
        simp only [GoAny.obj.injEq] at hf
        subst hf
        rw [stringField_of_mapGet _ _ _ h3, h4] at hb
        exact h5 hb
      · right
        rw [if_neg hb]
        have hne : stringField itemMap "id".toList ≠ [] := by
          intro h
          rw [h] at hb
          exact hb TrimSpace_nil
        have hid := (stringField_eq_iff itemMap "id".toList _ hne).mp rfl
        refine ⟨_, ⟨itemMap, _, rfl, ht2, hid, rfl, hb⟩, ?_, rfl⟩
        rintro id2 ⟨fields, raw, hf, _, h3, h4, _⟩
        simp only [GoAny.obj.injEq] at hf
        subst hf
        rw [stringField_of_mapGet _ _ _ h3, h4]
    · left
      rw [if_pos (by simpa using ht)]
      refine ⟨rfl, ?_⟩
      rintro id ⟨fields, raw, hf, h2, _⟩
      simp only [GoAny.obj.injEq] at hf
      subst hf
      exact ht (stringField_of_mapGet _ _ _ h2)

/-- The set of reference ids after the first loop of `HasItemReferenceForCallIDs`. -/
theorem referenceIDs_fold (items : List GoAny) :
    ((items.foldl referenceIDStep []).map Prod.fst).Nodup ∧
    ∀ id, mapGet (items.foldl referenceIDStep []) id ≠ none ↔
      isTrimmedItemReferenceID items id := by
  obtain ⟨h1, h2⟩ := collect_spec referenceIDStep
    (fun item id => ∃ fields raw, item = GoAny.obj fields ∧
      mapGet fields "type".toList = some (GoAny.str "item_reference".toList) ∧
      mapGet fields "id".toList = some (GoAny.str raw) ∧ TrimSpace raw = id ∧ id ≠ [])
    referenceIDStep_spec items
  refine ⟨h1, fun id => ?_⟩
  rw [h2 id]
  unfold isTrimmedItemReferenceID
  constructor
  · rintro ⟨item, hi, fields, raw, rfl, hp⟩
    exact ⟨fields, raw, hi, hp⟩
  · rintro ⟨fields, raw, hi, hp⟩
    exact ⟨_, hi, fields, raw, rfl, hp⟩

/-- C17 as worded does not hold: the `id` of an `item_reference` item is compared after its
leading and trailing white space is removed.  With the one item
`{"type": "item_reference", "id": " call_1 "}` the call id `" call_1 "` equals the id of the
item and is reported as not covered, and the call id `"call_1"` equals the id of no item and is
reported as covered. -/
theorem C17_reference_id_is_trimmed :
    isItemReferenceID
      [GoAny.obj [("type".toList, GoAny.str "item_reference".toList),
        ("id".toList, GoAny.str " call_1 ".toList)]] " call_1 ".toList ∧
    HasItemReferenceForCallIDs
      (some [("input".toList, GoAny.arr
        [GoAny.obj [("type".toList, GoAny.str "item_reference".toList),
          ("id".toList, GoAny.str " call_1 ".toList)]])]) [" call_1 ".toList] = false ∧
    ¬ isItemReferenceID
      [GoAny.obj [("type".toList, GoAny.str "item_reference".toList),
        ("id".toList, GoAny.str " call_1 ".toList)]] "call_1".toList ∧
    HasItemReferenceForCallIDs
      (some [("input".toList, GoAny.arr
        [GoAny.obj [("type".toList, GoAny.str "item_reference".toList),
          ("id".toList, GoAny.str " call_1 ".toList)]])]) ["call_1".toList] = true := by
  refine ⟨⟨_, List.mem_singleton.mpr rfl, rfl, rfl⟩, by decide, ?_, by decide⟩
  rintro ⟨fields, hmem, _, hid⟩
  rw [List.mem_singleton] at hmem
  simp only [GoAny.obj.injEq] at hmem
  subst hmem
  have hget : mapGet [("type".toList, GoAny.str "item_reference".toList),
      ("id".toList, GoAny.str " call_1 ".toList)] "id".toList =
      some (GoAny.str " call_1 ".toList) := rfl
  rw [hget] at hid
  simp only [Option.some.injEq, GoAny.str.injEq] at hid
  revert hid
  decide

/-- C17, amended: `HasItemReferenceForCallIDs(body, callIDs)` is true if and only if `callIDs`
is not empty, `input` of the body is an array, and every element of `callIDs` is the
white-space-trimmed, non-empty `id` of some `item_reference` item of `input`; so it is false
for a nil body, a missing `input`, an empty `callIDs` and any call id that is not covered. -/
theorem C17_item_references_cover_call_ids (reqBody : Option (GoMap GoString GoAny))
    (callIDs : List GoString) :
    HasItemReferenceForCallIDs reqBody callIDs = true ↔
      (callIDs ≠ [] ∧ ∃ body items, reqBody = some body ∧
        mapGet body "input".toList = some (GoAny.arr items) ∧
        ∀ id ∈ callIDs, isTrimmedItemReferenceID items id) := by
  cases reqBody with
  | none => simp [HasItemReferenceForCallIDs]
  | some body =>
    unfold HasItemReferenceForCallIDs
    dsimp only
    by_cases hc : callIDs.length = 0
    · rw [if_pos hc]
      simp [List.length_eq_zero.mp hc]
    · rw [if_neg hc]
      have hne : callIDs ≠ [] := fun h => hc (by rw [h]; rfl)
      cases ha : asArray (mapIndex body "input".toList) with
      | none =>
        dsimp only
        constructor
        · intro h
          simp at h
        · rintro ⟨_, b2, items, hb, hi, _⟩
          simp only [Option.some.injEq] at hb
          subst hb
          rw [(asArray_mapIndex _ _ items).mpr hi] at ha
          simp at ha
      | some input =>
        dsimp only
        rw [asArray_mapIndex] at ha
        obtain ⟨_, hmem⟩ := referenceIDs_fold input
        have hall : (callIDs.all
            (fun callID => (mapGet (input.foldl referenceIDStep []) callID).isSome)) = true ↔
            ∀ id ∈ callIDs, isTrimmedItemReferenceID input id := by
          rw [List.all_eq_true]
          constructor
          · intro h id hid
            rw [← hmem id]
            have := h id hid
            intro hn
            rw [hn] at this
            simp at this
          · intro h id hid
            have := (hmem id).mpr (h id hid)
            cases hg : mapGet (input.foldl referenceIDStep []) id with
            | none => exact absurd hg this
            | some u => rfl
        by_cases hlen : (input.foldl referenceIDStep []).length = 0
        · rw [if_pos hlen]
          constructor
          · intro h
            simp at h
          · rintro ⟨_, b2, items, hb, hi, hcov⟩
            exfalso
            simp only [Option.some.injEq] at hb
            subst hb
            rw [ha] at hi
            simp only [Option.some.injEq, GoAny.arr.injEq] at hi
            subst hi
            obtain ⟨c, rest, hcs⟩ := List.exists_cons_of_ne_nil hne
            have := (hmem c).mpr (hcov c (by rw [hcs]; simp))
            rw [List.length_eq_zero.mp hlen] at this
            simp [mapGet] at this
        · rw [if_neg hlen, hall]
          constructor
          · intro h
            exact ⟨hne, body, input, rfl, ha, h⟩
          · rintro ⟨_, b2, items, hb, hi, hcov⟩
            simp only [Option.some.injEq] at hb
            subst hb
            rw [ha] at hi
            simp only [Option.some.injEq, GoAny.arr.injEq] at hi
            subst hi
            exact hcov

/-- C17, amended, for the one item `{"type": "item_reference", "id": " call_1 "}` and the call
id `"call_1"`: the call id is covered, being the trimmed id of the item. -/
theorem C17_item_references_cover_call_ids_witness :
    ∀ id ∈ ["call_1".toList], isTrimmedItemReferenceID
      [GoAny.obj [("type".toList, GoAny.str "item_reference".toList),
        ("id".toList, GoAny.str " call_1 ".toList)]] id := by
  obtain ⟨_, body, items, hb, hi, hcov⟩ := (C17_item_references_cover_call_ids
    (some [("input".toList, GoAny.arr
      [GoAny.obj [("type".toList, GoAny.str "item_reference".toList),
        ("id".toList, GoAny.str " call_1 ".toList)]])]) ["call_1".toList]).mp (by decide)
  simp only [Option.some.injEq] at hb
  subst hb
  have hi2 : GoAny.arr
      [GoAny.obj [("type".toList, GoAny.str "item_reference".toList),
        ("id".toList, GoAny.str " call_1 ".toList)]] = GoAny.arr items :=
    Option.some.inj ((rfl : mapGet [("input".toList, GoAny.arr
      [GoAny.obj [("type".toList, GoAny.str "item_reference".toList),
        ("id".toList, GoAny.str " call_1 ".toList)]])] "input".toList = some (GoAny.arr
      [GoAny.obj [("type".toList, GoAny.str "item_reference".toList),
        ("id".toList, GoAny.str " call_1 ".toList)]])).symm.trans hi)
  simp only [GoAny.arr.injEq] at hi2
  subst hi2
  exact hcov

/-! ## Lemmas on the string functions -/

theorem Contains_iff (sub s : GoString) : Contains sub s = true ↔ sub <:+: s := by
  induction s with
  | nil =>
    rw [Contains, List.infix_nil, List.isEmpty_iff]
  | cons c cs ih =>
    rw [Contains, Bool.or_eq_true, ih, List.infix_cons_iff, List.isPrefixOf_iff_prefix]

theorem ContainsAny_iff (s chars : GoString) :
    ContainsAny s chars = true ↔ ∃ c ∈ s, c ∈ chars := by
  simp [ContainsAny]

/-- C18: for every input string, `sanitizeFrontendRedirectPath` returns the empty string or the
input without its leading and trailing white space; a result that is not empty starts with
`/`, does not start with `//`, contains neither `://` nor a carriage return nor a line feed,
and has at most 2048 bytes; and a trimmed input with all these properties is returned. -/
theorem C18_sanitized_redirect_path (path : GoString) :
    (sanitizeFrontendRedirectPath path = [] ∨
      sanitizeFrontendRedirectPath path = TrimSpace path) ∧
    (sanitizeFrontendRedirectPath path ≠ [] →
      "/".toList <+: sanitizeFrontendRedirectPath path ∧
      ¬ "//".toList <+: sanitizeFrontendRedirectPath path ∧
      ¬ "://".toList <:+: sanitizeFrontendRedirectPath path ∧
      '\r' ∉ sanitizeFrontendRedirectPath path ∧
      '\n' ∉ sanitizeFrontendRedirectPath path ∧
      byteLen (sanitizeFrontendRedirectPath path) ≤ 2048) ∧
    ("/".toList <+: TrimSpace path → ¬ "//".toList <+: TrimSpace path →
      ¬ "://".toList <:+: TrimSpace path → '\r' ∉ TrimSpace path → '\n' ∉ TrimSpace path →
      byteLen (TrimSpace path) ≤ 2048 →
      sanitizeFrontendRedirectPath path = TrimSpace path) := by
  unfold sanitizeFrontendRedirectPath
  by_cases h1 : TrimSpace path = []
  · rw [if_pos h1]
    refine ⟨Or.inl rfl, fun h => absurd rfl h, fun _ _ _ _ _ _ => h1.symm⟩
  rw [if_neg h1]
  by_cases h2 : byteLen (TrimSpace path) > linuxDoOAuthMaxRedirectLen
  · rw [if_pos h2]
    refine ⟨Or.inl rfl, fun h => absurd rfl h, fun _ _ _ _ _ h => ?_⟩
    unfold linuxDoOAuthMaxRedirectLen at h2
    omega
  rw [if_neg h2]
  by_cases h3 : "/".toList <+: TrimSpace path
  swap
  · have hb3 : "/".toList.isPrefixOf (TrimSpace path) = false := by
      cases hx : "/".toList.isPrefixOf (TrimSpace path) with
      | false => rfl
      | true => exact absurd (List.isPrefixOf_iff_prefix.mp hx) h3
    rw [if_pos (by rw [hb3]; rfl)]
    refine ⟨Or.inl rfl, fun h => absurd rfl h, fun h _ _ _ _ _ => absurd h h3⟩
  rw [if_neg (by rw [List.isPrefixOf_iff_prefix.mpr h3]; decide)]
  by_cases h4 : "//".toList <+: TrimSpace path
  · rw [if_pos (List.isPrefixOf_iff_prefix.mpr h4)]
    refine ⟨Or.inl rfl, fun h => absurd rfl h, fun _ h _ _ _ _ => absurd h4 h⟩
  rw [if_neg (by rw [List.isPrefixOf_iff_prefix]; exact h4)]
  by_cases h5 : "://".toList <:+: TrimSpace path
  · rw [if_pos ((Contains_iff _ _).mpr h5)]
    refine ⟨Or.inl rfl, fun h => absurd rfl h, fun _ _ h _ _ _ => absurd h5 h⟩
  rw [if_neg (by rw [Contains_iff]; exact h5)]
  by_cases h6 : ContainsAny (TrimSpace path) "\r\n".toList = true
  · rw [if_pos h6]
    refine ⟨Or.inl rfl, fun h => absurd rfl h, fun _ _ _ hr hn _ => ?_⟩
    exfalso
    obtain ⟨c, hc, hcc⟩ := (ContainsAny_iff _ _).mp h6
    have hcc2 : c = '\r' ∨ c = '\n' := by simpa using hcc
    rcases hcc2 with rfl | rfl
    · exact hr hc
    · exact hn hc
  rw [if_neg h6]
  refine ⟨Or.inr rfl, fun _ => ⟨h3, h4, h5, ?_, ?_, ?_⟩, fun _ _ _ _ _ _ => rfl⟩
  · intro hr
    exact h6 ((ContainsAny_iff _ _).mpr ⟨_, hr, by decide⟩)
  · intro hn
    exact h6 ((ContainsAny_iff _ _).mpr ⟨_, hn, by decide⟩)
  · unfold linuxDoOAuthMaxRedirectLen at h2
    omega

/-- C18, for the inputs `" /dashboard "`, returned trimmed, and `"//evil.com"`, refused. -/
theorem C18_sanitized_redirect_path_witness :
    sanitizeFrontendRedirectPath " /dashboard ".toList = "/dashboard".toList ∧
    sanitizeFrontendRedirectPath "//evil.com".toList = [] ∧
    "/".toList <+: sanitizeFrontendRedirectPath " /dashboard ".toList ∧
    byteLen (sanitizeFrontendRedirectPath " /dashboard ".toList) ≤ 2048 :=
  ⟨by decide, by decide,
    ((C18_sanitized_redirect_path " /dashboard ".toList).2.1 (by decide)).1,
    ((C18_sanitized_redirect_path " /dashboard ".toList).2.1 (by decide)).2.2.2.2.2⟩

/-! ## Case folding against the word `Bearer` -/

theorem toLower_outside (c : Char) (h : c.toNat < 65 ∨ 90 < c.toNat) : c.toLower = c := by
  unfold Char.toLower
  rw [if_neg]
  intro hh
  have h1 : 65 ≤ c.toNat := hh.1
  have h2 : c.toNat ≤ 90 := hh.2
  omega

/-- For a letter of the word `Bearer`, equality under simple case folding is equality of the
lower-case forms of the ASCII letters. -/
theorem foldsToASCII_iff (c d : Char) (hd : d ∈ "Bearer".toList) :
    foldsToASCII c d = true ↔ c.toLower = d.toLower := by
  have hd2 : d = 'B' ∨ d = 'e' ∨ d = 'a' ∨ d = 'r' := by
    simp at hd
    tauto
  by_cases hr : 65 ≤ c.toNat ∧ c.toNat ≤ 122
  · obtain ⟨h1, h2⟩ := hr
    generalize hn : c.toNat = n at h1 h2
    have hc : c = Char.ofNat n := by rw [← hn, Char.ofNat_toNat]
    subst hc
    clear hn
    interval_cases n <;> rcases hd2 with rfl | rfl | rfl | rfl <;> decide
  · have hout : c.toNat < 65 ∨ 122 < c.toNat := by omega
    have hl : c.toLower = c := toLower_outside c (by omega)
    rw [hl]
    constructor
    · intro h
      exfalso
      unfold foldsToASCII at h
      rcases hd2 with rfl | rfl | rfl | rfl <;> simp at h <;>
        (rcases h with rfl | h
         · exact absurd hout (by decide)
         · omega)
    · intro h
      exfalso
      subst h
      rcases hd2 with rfl | rfl | rfl | rfl <;> revert hout <;> decide

theorem EqualFold_iff (t u : GoString) (hu : ∀ d ∈ u, d ∈ "Bearer".toList) :
    EqualFold t u = true ↔ t.map Char.toLower = u.map Char.toLower := by
  induction t generalizing u with
  | nil =>
    cases u with
    | nil => simp [EqualFold]
    | cons d ds => simp [EqualFold]
  | cons c cs ih =>
    cases u with
    | nil => simp [EqualFold]
    | cons d ds =>
      rw [EqualFold, Bool.and_eq_true, foldsToASCII_iff c d (hu d (by simp)),
        ih ds (fun x hx => hu x (by simp [hx])), List.map_cons, List.map_cons,
        List.cons.injEq]

/-- C19: `buildBearerAuthorization(tokenType, accessToken)` returns a value if and only if the
trimmed `tokenType` is empty or equal to `Bearer` when case is ignored, and the trimmed
`accessToken` is not empty and contains no space, tab, carriage return or line feed; the value
returned is `"Bearer "` followed by the trimmed `accessToken`; and otherwise an error is
returned. -/
theorem C19_bearer_authorization (tokenType accessToken : GoString) :
    ((∃ v, buildBearerAuthorization tokenType accessToken = Except.ok v) ↔
      ((TrimSpace tokenType = [] ∨
          (TrimSpace tokenType).map Char.toLower = "Bearer".toList.map Char.toLower) ∧
        TrimSpace accessToken ≠ [] ∧
        ' ' ∉ TrimSpace accessToken ∧ '\t' ∉ TrimSpace accessToken ∧
        '\r' ∉ TrimSpace accessToken ∧ '\n' ∉ TrimSpace accessToken)) ∧
    (∀ v, buildBearerAuthorization tokenType accessToken = Except.ok v →
      v = "Bearer ".toList ++ TrimSpace accessToken) ∧
    (¬ ((TrimSpace tokenType = [] ∨
          (TrimSpace tokenType).map Char.toLower = "Bearer".toList.map Char.toLower) ∧
        TrimSpace accessToken ≠ [] ∧
        ' ' ∉ TrimSpace accessToken ∧ '\t' ∉ TrimSpace accessToken ∧
        '\r' ∉ TrimSpace accessToken ∧ '\n' ∉ TrimSpace accessToken) →
      ∃ e, buildBearerAuthorization tokenType accessToken = Except.error e) := by
  have htype : EqualFold (if TrimSpace tokenType = [] then "Bearer".toList
      else TrimSpace tokenType) "Bearer".toList = true ↔
      (TrimSpace tokenType = [] ∨
        (TrimSpace tokenType).map Char.toLower = "Bearer".toList.map Char.toLower) := by
    by_cases he : TrimSpace tokenType = []
    · rw [if_pos he]
      exact ⟨fun _ => Or.inl he, fun _ => by decide⟩
    · rw [if_neg he, EqualFold_iff _ _ (fun d hd => hd)]
      exact ⟨fun h => Or.inr h, fun h => h.resolve_left he⟩
  have hws : ContainsAny (TrimSpace accessToken) " \t\r\n".toList = true ↔
      ¬ (' ' ∉ TrimSpace accessToken ∧ '\t' ∉ TrimSpace accessToken ∧
        '\r' ∉ TrimSpace accessToken ∧ '\n' ∉ TrimSpace accessToken) := by
    rw [ContainsAny_iff]
    constructor
    · rintro ⟨c, hc, hcc⟩ ⟨h1, h2, h3, h4⟩
      have hcc2 : c = ' ' ∨ c = '\t' ∨ c = '\r' ∨ c = '\n' := by simpa using hcc
      rcases hcc2 with rfl | rfl | rfl | rfl
      · exact h1 hc
      · exact h2 hc
      · exact h3 hc
      · exact h4 hc
    · intro h
      by_contra hno
      apply h
      refine ⟨?_, ?_, ?_, ?_⟩ <;> intro hm <;> exact hno ⟨_, hm, by decide⟩
  unfold buildBearerAuthorization
  by_cases h1 : EqualFold (if TrimSpace tokenType = [] then "Bearer".toList
      else TrimSpace tokenType) "Bearer".toList = true
  swap
  · rw [if_pos (by simpa using h1)]
    refine ⟨⟨?_, ?_⟩, ?_, fun _ => ⟨_, rfl⟩⟩
    · rintro ⟨v, hv⟩
      simp at hv
    · rintro ⟨ht, _⟩
      exact absurd (htype.mpr ht) h1
    · intro v hv
      simp at hv
  rw [if_neg (by simpa using h1)]
  by_cases h2 : TrimSpace accessToken = []
  · rw [if_pos h2]
    refine ⟨⟨?_, ?_⟩, ?_, fun _ => ⟨_, rfl⟩⟩
    · rintro ⟨v, hv⟩
      simp at hv
    · rintro ⟨_, hne, _⟩
      exact absurd h2 hne
    · intro v hv
      simp at hv
  rw [if_neg h2]
  by_cases h3 : ContainsAny (TrimSpace accessToken) " \t\r\n".toList = true
  · rw [if_pos h3]
    refine ⟨⟨?_, ?_⟩, ?_, fun _ => ⟨_, rfl⟩⟩
    · rintro ⟨v, hv⟩
      simp at hv
    · rintro ⟨_, _, hw⟩
      exact absurd hw (hws.mp h3)
    · intro v hv
      simp at hv
  rw [if_neg h3]
  have hclean := not_not.mp (fun hn => h3 (hws.mpr hn))
  refine ⟨⟨fun _ => ⟨htype.mp h1, h2, hclean⟩, fun _ => ⟨_, rfl⟩⟩, ?_, ?_⟩
  · intro v hv
    simp only [Except.ok.injEq] at hv
    exact hv.symm
  · intro hn
    exact absurd ⟨htype.mp h1, h2, hclean⟩ hn

/-- C19, for the token type `bearer` and the access token `" token123 "`: the result is
`"Bearer token123"`. -/
theorem C19_bearer_authorization_witness :
    buildBearerAuthorization "bearer".toList " token123 ".toList =
      Except.ok "Bearer token123".toList ∧
    "Bearer token123".toList = "Bearer ".toList ++ TrimSpace " token123 ".toList :=
  ⟨rfl, (C19_bearer_authorization "bearer".toList " token123 ".toList).2.1
    "Bearer token123".toList rfl⟩

/-! ## Lemmas on `TrimSpace` and on the subject check -/

theorem TrimSpace_idempotent (s : GoString) : TrimSpace (TrimSpace s) = TrimSpace s := by
  unfold TrimSpace
  generalize ht0 : s.dropWhile isSpace = t
  have ht : t.dropWhile isSpace = t := by
    rw [← ht0, List.dropWhile_idempotent]
  have hr : (t.rdropWhile isSpace).dropWhile isSpace = t.rdropWhile isSpace := by
    obtain ⟨u, hu⟩ := List.rdropWhile_prefix isSpace (l := t)
    cases hrr : t.rdropWhile isSpace with
    | nil => rfl
    | cons c cs =>
      rw [hrr] at hu
      rw [← hu, List.cons_append] at ht
      have hc : isSpace c = false := by
        cases hx : isSpace c with
        | false => rfl
        | true =>
          exfalso
          rw [List.dropWhile_cons_of_pos hx] at ht
          have h1 := congrArg List.length ht
          have h2 := (List.dropWhile_sublist isSpace (l := cs ++ u)).length_le
          rw [List.length_cons] at h1
          omega
      rw [List.dropWhile_cons_of_neg (by rw [hc]; decide)]
  rw [hr, List.rdropWhile_idempotent]

theorem byteLen_append (a b : GoString) : byteLen (a ++ b) = byteLen a + byteLen b := by
  simp [byteLen]

theorem safeSubjectLoop_iff (s : GoString) :
    safeSubjectLoop s = true ↔
      ∀ c ∈ s, c.isAlphanum = true ∨ c = '_' ∨ c = '-' := by
  induction s with
  | nil => simp [safeSubjectLoop]
  | cons r rest ih =>
    have hd : ('0' ≤ r ∧ r ≤ '9') ↔ r.isDigit = true := by
      simp [Char.isDigit, Char.le_def, UInt32.le_def]
    have hl : ('a' ≤ r ∧ r ≤ 'z') ↔ r.isLower = true := by
      simp [Char.isLower, Char.le_def, UInt32.le_def]
    have hu : ('A' ≤ r ∧ r ≤ 'Z') ↔ r.isUpper = true := by
      simp [Char.isUpper, Char.le_def, UInt32.le_def]
    have hall : (r.isAlphanum = true ∨ r = '_' ∨ r = '-') ↔
        (('0' ≤ r ∧ r ≤ '9') ∨ ('a' ≤ r ∧ r ≤ 'z') ∨ ('A' ≤ r ∧ r ≤ 'Z') ∨
          (r = '_' ∨ r = '-')) := by
      rw [hd, hl, hu]
      simp only [Char.isAlphanum, Char.isAlpha, Bool.or_eq_true]
      constructor
      · rintro (((h | h) | h) | h)
        · exact Or.inr (Or.inr (Or.inl h))
        · exact Or.inr (Or.inl h)
        · exact Or.inl h
        · exact Or.inr (Or.inr (Or.inr h))
      · rintro (h | h | h | h)
        · exact Or.inl (Or.inr h)
        · exact Or.inl (Or.inl (Or.inr h))
        · exact Or.inl (Or.inl (Or.inl h))
        · exact Or.inr h
    rw [List.forall_mem_cons, ← ih, hall, safeSubjectLoop]
    by_cases h1 : '0' ≤ r ∧ r ≤ '9'
    · rw [if_pos h1]
      exact ⟨fun h => ⟨Or.inl h1, h⟩, fun h => h.2⟩
    rw [if_neg h1]
    by_cases h2 : 'a' ≤ r ∧ r ≤ 'z'
    · rw [if_pos h2]
      exact ⟨fun h => ⟨Or.inr (Or.inl h2), h⟩, fun h => h.2⟩
    rw [if_neg h2]
    by_cases h3 : 'A' ≤ r ∧ r ≤ 'Z'
    · rw [if_pos h3]
      exact ⟨fun h => ⟨Or.inr (Or.inr (Or.inl h3)), h⟩, fun h => h.2⟩
    rw [if_neg h3]
    by_cases h4 : r = '_' ∨ r = '-'
    · rw [if_pos h4]
      exact ⟨fun h => ⟨Or.inr (Or.inr (Or.inr h4)), h⟩, fun h => h.2⟩
    rw [if_neg h4]
    constructor
    · intro h
      exact absurd h (by decide)
    · rintro ⟨h | h | h | h, _⟩
      · exact absurd h h1
      · exact absurd h h2
      · exact absurd h h3
      · exact absurd h h4

theorem isSafeLinuxDoSubject_iff (subject : GoString) :
    isSafeLinuxDoSubject subject = true ↔
      (TrimSpace subject ≠ [] ∧ byteLen (TrimSpace subject) ≤ 56 ∧
        ∀ c ∈ TrimSpace subject, c.isAlphanum = true ∨ c = '_' ∨ c = '-') := by
  have hmax : linuxDoOAuthMaxSubjectLen = 56 := by decide
  unfold isSafeLinuxDoSubject
  rw [hmax]
  by_cases h : TrimSpace subject = [] ∨ byteLen (TrimSpace subject) > 56
  · rw [if_pos h]
    constructor
    · intro hf
      exact absurd hf (by decide)
    · rintro ⟨h1, h2, _⟩
      rcases h with h | h
      · exact absurd h h1
      · omega
  · rw [if_neg h, safeSubjectLoop_iff]
    constructor
    · intro hs
      exact ⟨fun he => h (Or.inl he), by omega, hs⟩
    · intro hs
      exact hs.2.2

/-- Values that are all blank have no first non-blank value. -/
theorem firstNonEmpty_of_blank (l : List GoString) (h : ∀ t ∈ l, TrimSpace t = []) :
    firstNonEmpty l = [] := by
  induction l with
  | nil => rfl
  | cons v rest ih =>
    unfold firstNonEmpty
    rw [if_neg (by simpa using h v (List.mem_cons_self _ _))]
    exact ih (fun t ht => h t (List.mem_cons_of_mem _ ht))

/-- The first value that is not blank, after blank ones, is the one returned, trimmed. -/
theorem firstNonEmpty_first (pre : List GoString) (s : GoString) (post : List GoString)
    (hpre : ∀ t ∈ pre, TrimSpace t = []) (hs : TrimSpace s ≠ []) :
    firstNonEmpty (pre ++ s :: post) = TrimSpace s := by
  induction pre with
  | nil =>
    rw [List.nil_append, firstNonEmpty, if_pos hs]
  | cons v rest ih =>
    rw [List.cons_append, firstNonEmpty,
      if_neg (by simpa using hpre v (List.mem_cons_self _ _))]
    exact ih (fun t ht => hpre t (List.mem_cons_of_mem _ ht))

/-- A list of values is all blank or has a first value that is not blank. -/
theorem firstNonEmpty_cases (l : List GoString) :
    (∀ t ∈ l, TrimSpace t = []) ∨
    ∃ pre s post, l = pre ++ s :: post ∧ (∀ t ∈ pre, TrimSpace t = []) ∧ TrimSpace s ≠ [] := by
  induction l with
  | nil => exact Or.inl (fun t ht => by simp at ht)
  | cons v rest ih =>
    by_cases hv : TrimSpace v = []
    · rcases ih with hall | ⟨pre, s, post, hl, hpre, hs⟩
      · left
        intro t ht
        rcases List.mem_cons.mp ht with rfl | ht
        · exact hv
        · exact hall t ht
      · right
        refine ⟨v :: pre, s, post, by rw [hl]; rfl, ?_, hs⟩
        intro t ht
        rcases List.mem_cons.mp ht with rfl | ht
        · exact hv
        · exact hpre t ht
    · exact Or.inr ⟨[], v, rest, rfl, fun t ht => by simp at ht, hv⟩

/-- C20: the constant `linuxDoOAuthMaxSubjectLen` is 56; `isSafeLinuxDoSubject` is true of a
subject if and only if the subject, once trimmed, is not empty, has at most 56 bytes and
consists of ASCII letters, digits, `_` and `-` only; `linuxDoParseUserInfo` returns no error
if and only if the values of the id paths have a first value that is not blank and this value,
once trimmed, has at most 56 bytes and consists of such characters only; it then returns that
value trimmed as the subject, and, when no user name and no e-mail address is given, the user
name `"linuxdo_"` and the e-mail address `"linuxdo-"` followed by it; and for every accepted
subject the local part `"linuxdo-"` followed by the trimmed subject, as built by
`linuxDoSyntheticEmail`, has at most 64 bytes. -/
theorem C20_safe_subject (subject : GoString) (emails usernames subjects : List GoString) :
    linuxDoOAuthMaxSubjectLen = 56 ∧
    (isSafeLinuxDoSubject subject = true ↔
      (TrimSpace subject ≠ [] ∧ byteLen (TrimSpace subject) ≤ 56 ∧
        ∀ c ∈ TrimSpace subject, c.isAlphanum = true ∨ c = '_' ∨ c = '-')) ∧
    ((∃ v, linuxDoParseUserInfo emails usernames subjects = Except.ok v) ↔
      ∃ pre s post, subjects = pre ++ s :: post ∧ (∀ t ∈ pre, TrimSpace t = []) ∧
        TrimSpace s ≠ [] ∧ byteLen (TrimSpace s) ≤ 56 ∧
        ∀ c ∈ TrimSpace s, c.isAlphanum = true ∨ c = '_' ∨ c = '-') ∧
    (∀ pre s post, subjects = pre ++ s :: post → (∀ t ∈ pre, TrimSpace t = []) →
      isSafeLinuxDoSubject s = true →
      ∃ email username,
        linuxDoParseUserInfo emails usernames subjects =
          Except.ok (email, username, TrimSpace s) ∧
        ((∀ t ∈ usernames, TrimSpace t = []) →
          username = "linuxdo_".toList ++ TrimSpace s) ∧
        ((∀ t ∈ emails, TrimSpace t = []) →
          email = "linuxdo-".toList ++ TrimSpace s ++ LinuxDoConnectSyntheticEmailDomain)) ∧
    (isSafeLinuxDoSubject subject = true →
      linuxDoSyntheticEmail subject =
        "linuxdo-".toList ++ TrimSpace subject ++ LinuxDoConnectSyntheticEmailDomain ∧
      byteLen ("linuxdo-".toList ++ TrimSpace subject) ≤ 64) := by
  have hsafeTrim : ∀ s : GoString,
      isSafeLinuxDoSubject (TrimSpace s) = isSafeLinuxDoSubject s := by
    intro s
    unfold isSafeLinuxDoSubject
    rw [TrimSpace_idempotent]
  have hok : ∀ pre s post, subjects = pre ++ s :: post → (∀ t ∈ pre, TrimSpace t = []) →
      isSafeLinuxDoSubject s = true →
      linuxDoParseUserInfo emails usernames subjects =
        Except.ok
          (if TrimSpace (firstNonEmpty emails) = [] then linuxDoSyntheticEmail (TrimSpace s)
            else TrimSpace (firstNonEmpty emails),
            if TrimSpace (firstNonEmpty usernames) = [] then "linuxdo_".toList ++ TrimSpace s
            else TrimSpace (firstNonEmpty usernames),
            TrimSpace s) := by
    intro pre s post hl hpre hs
    have hne := ((isSafeLinuxDoSubject_iff s).mp hs).1
    have hfirst : firstNonEmpty subjects = TrimSpace s := by
      rw [hl]
      exact firstNonEmpty_first pre s post hpre hne
    unfold linuxDoParseUserInfo
    rw [hfirst, TrimSpace_idempotent, if_neg hne, hsafeTrim, hs, if_neg (by decide)]
  refine ⟨by decide, isSafeLinuxDoSubject_iff subject, ?_, ?_, ?_⟩
  · constructor
    · rintro ⟨v, hv⟩
      rcases firstNonEmpty_cases subjects with hall | ⟨pre, s, post, hl, hpre, hs⟩
      · exfalso
        unfold linuxDoParseUserInfo at hv
        rw [firstNonEmpty_of_blank subjects hall, TrimSpace_nil, if_pos rfl] at hv
        simp at hv
      · have hfirst : firstNonEmpty subjects = TrimSpace s := by
          rw [hl]
          exact firstNonEmpty_first pre s post hpre hs
        unfold linuxDoParseUserInfo at hv
        rw [hfirst, TrimSpace_idempotent, if_neg hs, hsafeTrim] at hv
        cases hsafe : isSafeLinuxDoSubject s with
        | false =>
          rw [hsafe, if_pos (by decide)] at hv
          simp at hv
        | true =>
          obtain ⟨_, h2, h3⟩ := (isSafeLinuxDoSubject_iff s).mp hsafe
          exact ⟨pre, s, post, hl, hpre, hs, h2, h3⟩
    · rintro ⟨pre, s, post, hl, hpre, hs, h2, h3⟩
      exact ⟨_, hok pre s post hl hpre ((isSafeLinuxDoSubject_iff s).mpr ⟨hs, h2, h3⟩)⟩
  · intro pre s post hl hpre hs
    have hne := ((isSafeLinuxDoSubject_iff s).mp hs).1
    refine ⟨_, _, hok pre s post hl hpre hs, ?_, ?_⟩
    · intro hblank
      rw [firstNonEmpty_of_blank usernames hblank, TrimSpace_nil, if_pos rfl]
    · intro hblank
      rw [firstNonEmpty_of_blank emails hblank, TrimSpace_nil, if_pos rfl]
      unfold linuxDoSyntheticEmail
      rw [TrimSpace_idempotent, if_neg hne]
  · intro hs
    obtain ⟨hne, hlen, _⟩ := (isSafeLinuxDoSubject_iff subject).mp hs
    constructor
    · unfold linuxDoSyntheticEmail
      rw [if_neg hne]
    · rw [byteLen_append]
      have h8 : byteLen "linuxdo-".toList = 8 := by decide
      omega

/-- C20, for a userinfo whose id paths give a blank value and then `" 123 "`, and that names
no user and no e-mail address: it is accepted with the subject `123`, the user name
`linuxdo_123` and the e-mail address `linuxdo-123@linuxdo-connect.invalid`; the id `bad id` is
refused; and the subject `" user_123-AB "` is safe. -/
theorem C20_safe_subject_witness :
    linuxDoParseUserInfo [] [] ["".toList, " 123 ".toList] =
      Except.ok ("linuxdo-123@linuxdo-connect.invalid".toList, "linuxdo_123".toList,
        "123".toList) ∧
    linuxDoParseUserInfo [] [] ["bad id".toList] =
      Except.error "userinfo returned invalid id field".toList ∧
    (∃ v, linuxDoParseUserInfo [] [] ["".toList, " 123 ".toList] = Except.ok v) ∧
    isSafeLinuxDoSubject " user_123-AB ".toList = true ∧
    byteLen ("linuxdo-".toList ++ TrimSpace " user_123-AB ".toList) ≤ 64 :=
  ⟨rfl, rfl,
    (C20_safe_subject [] [] [] ["".toList, " 123 ".toList]).2.2.1.mpr
      ⟨["".toList], " 123 ".toList, [], rfl, by decide, by decide, by decide, by decide⟩,
    by decide,
    ((C20_safe_subject " user_123-AB ".toList [] [] []).2.2.2.2 (by decide)).2⟩

/-! ## Promo codes -/

/-- An input whose `ExpiresAt` is nil leaves the expiry of the stored promo code as it is. -/
theorem applyUpdate_expiry_none (ToUpper : GoString → GoString) (promoCode : PromoCode)
    (input : UpdatePromoCodeInput) (h : input.ExpiresAt = none) :
    (applyUpdate ToUpper promoCode input).ExpiresAt = promoCode.ExpiresAt := by
  unfold applyUpdate
  simp only [h]

/-- C21, at the stored promo code 7 that expires at the Unix time 1700000000 and the request
body `{"expires_at": 0}`: the handler maps the request to an input whose `ExpiresAt` is nil,
the service leaves the stored expiry as it is, and the promo code passed to the `Update` of the
repository still expires at 1700000000, so that its `ExpiresAt` is not nil. -/
theorem C21_expiry_kept_on_zero :
    (updateInputOfRequest ⟨none, none, none, none, some 0, none⟩).ExpiresAt = none ∧
    (PromoHandler.Update (fun s => s.map Char.toUpper)
      (fun id => Except.ok
        ⟨id, "WELCOME".toList, F64.zero, 0, 0, "active".toList, some (timeUnix 1700000000),
          [], 0, 0⟩)
      (fun _ => none) "7".toList
      (Except.ok ⟨none, none, none, none, some 0, none⟩)).2 =
      [⟨7, "WELCOME".toList, F64.zero, 0, 0, "active".toList, some (timeUnix 1700000000),
          [], 0, 0⟩] ∧
    (⟨7, "WELCOME".toList, F64.zero, 0, 0, "active".toList, some (timeUnix 1700000000),
          [], 0, 0⟩ : PromoCode).ExpiresAt ≠ none := by
  refine ⟨rfl, by decide, by decide⟩

/-- C22: for every promo code and current time, `CanUse()` is true if and only if the status
is the active one, `ExpiresAt` is nil or the current time is not after it, and `MaxUses <= 0`
or `UsedCount < MaxUses`; with `MaxUses = 0` the number of uses plays no part; and
`validatePromoCodeStatus` returns nil exactly when `CanUse()` is true, whatever the clock shows
at its second reading. -/
theorem C22_can_use (active disabled : GoString) (now now2 : GoTime) (p : PromoCode) :
    (p.CanUse active now = true ↔
      (p.Status = active ∧ (∀ expiresAt, p.ExpiresAt = some expiresAt → now ≤ expiresAt) ∧
        (p.MaxUses ≤ 0 ∨ p.UsedCount < p.MaxUses))) ∧
    (p.MaxUses = 0 →
      (p.CanUse active now = true ↔
        (p.Status = active ∧ ∀ expiresAt, p.ExpiresAt = some expiresAt → now ≤ expiresAt))) ∧
    (validatePromoCodeStatus active disabled now now2 p = none ↔
      p.CanUse active now = true) := by
  have hexp : p.ExpiresAt.any (fun expiresAt => timeAfter now expiresAt) = true ↔
      ¬ ∀ expiresAt, p.ExpiresAt = some expiresAt → now ≤ expiresAt := by
    cases he : p.ExpiresAt with
    | none => simp
    | some t => simp [timeAfter]
  have hcan : p.CanUse active now = true ↔
      (p.Status = active ∧ (∀ expiresAt, p.ExpiresAt = some expiresAt → now ≤ expiresAt) ∧
        (p.MaxUses ≤ 0 ∨ p.UsedCount < p.MaxUses)) := by
    unfold PromoCode.CanUse
    by_cases h1 : p.Status ≠ active
    · rw [if_pos h1]
      constructor
      · intro h
        exact absurd h (by decide)
      · rintro ⟨h, _⟩
        exact absurd h h1
    rw [if_neg h1]
    by_cases h2 : p.ExpiresAt.any (fun expiresAt => timeAfter now expiresAt) = true
    · rw [if_pos h2]
      constructor
      · intro h
        exact absurd h (by decide)
      · rintro ⟨_, h, _⟩
        exact absurd h (hexp.mp h2)
    rw [if_neg h2]
    by_cases h3 : p.MaxUses > 0 ∧ p.UsedCount ≥ p.MaxUses
    · rw [if_pos h3]
      constructor
      · intro h
        exact absurd h (by decide)
      · rintro ⟨_, _, h⟩
        omega
    rw [if_neg h3]
    refine ⟨fun _ => ⟨not_not.mp h1, ?_, by omega⟩, fun _ => rfl⟩
    by_contra hn
    exact h2 (hexp.mpr hn)
  refine ⟨hcan, ?_, ?_⟩
  · intro h0
    rw [hcan]
    constructor
    · rintro ⟨h1, h2, _⟩
      exact ⟨h1, h2⟩
    · rintro ⟨h1, h2⟩
      exact ⟨h1, h2, Or.inl (by omega)⟩
  · unfold validatePromoCodeStatus
    cases hc : p.CanUse active now with
    | true => simp
    | false =>
      simp only [Bool.not_false, if_true]
      constructor
      · intro h
        exfalso
        revert h
        split_ifs <;> simp
      · intro h
        exact absurd h (by decide)

/-- C22, for an active promo code with unlimited uses that expires at the instant 100, read at
the instant 100: it can be used, and the validation returns nil. -/
theorem C22_can_use_witness :
    (⟨1, "A".toList, F64.zero, 0, 5, "active".toList, some 100, [], 0, 0⟩ :
      PromoCode).CanUse "active".toList 100 = true ∧
    validatePromoCodeStatus "active".toList "disabled".toList 100 101
      ⟨1, "A".toList, F64.zero, 0, 5, "active".toList, some 100, [], 0, 0⟩ = none :=
  ⟨((C22_can_use "active".toList "disabled".toList 100 101
      ⟨1, "A".toList, F64.zero, 0, 5, "active".toList, some 100, [], 0, 0⟩).2.1 rfl).mpr
      ⟨rfl, fun expiresAt h => by
        have h2 : (100 : Int) = expiresAt := Option.some.inj h
        rw [← h2]⟩,
    (C22_can_use "active".toList "disabled".toList 100 101
      ⟨1, "A".toList, F64.zero, 0, 5, "active".toList, some 100, [], 0, 0⟩).2.2.mpr
      (by decide)⟩

/-! ## The bucket rebuild lock -/

theorem TryLockBucket_free (keyPrefix : GoString) (store : RedisStore) (now : Nat)
    (bucket : SchedulerBucket) (ttl : Nat)
    (h : redisLive store (keyPrefix ++ bucket.String) now = none) :
    TryLockBucket keyPrefix true store now bucket ttl =
      ((true, none),
        mapSet store (keyPrefix ++ bucket.String) { value := 1, expireAt := some (now + ttl) }) := by
  unfold TryLockBucket
  rw [h]
  rfl

theorem TryLockBucket_held (keyPrefix : GoString) (store : RedisStore) (now : Nat)
    (bucket : SchedulerBucket) (ttl : Nat) (e : RedisEntry)
    (h : redisLive store (keyPrefix ++ bucket.String) now = some e) :
    TryLockBucket keyPrefix true store now bucket ttl = ((false, none), store) := by
  unfold TryLockBucket
  rw [h]
  rfl

/-- The two calls of a race, the first on a free lock and the second before the lock of the
first expires: the first acquires the lock and the second does not. -/
theorem TryLockBucket_twice (keyPrefix : GoString) (store : RedisStore) (t1 t2 : Nat)
    (bucket : SchedulerBucket) (ttl : Nat)
    (hfree : redisLive store (keyPrefix ++ bucket.String) t1 = none) (h2 : t2 < t1 + ttl) :
    (TryLockBucket keyPrefix true store t1 bucket ttl).1.1 = true ∧
    (TryLockBucket keyPrefix true
      (TryLockBucket keyPrefix true store t1 bucket ttl).2 t2 bucket ttl).1.1 = false := by
  rw [TryLockBucket_free _ _ _ _ _ hfree]
  refine ⟨rfl, ?_⟩
  have hlive : redisLive
      (mapSet store (keyPrefix ++ bucket.String) { value := 1, expireAt := some (t1 + ttl) })
      (keyPrefix ++ bucket.String) t2 = some { value := 1, expireAt := some (t1 + ttl) } := by
    rw [redisLive_mapSet_self]
    dsimp only
    rw [if_pos h2]
  rw [TryLockBucket_held _ _ _ _ _ _ hlive]

/-- C23: two concurrent calls `TryLockBucket(b, ttl)` for the same bucket by the callers `A`
and `B`, on a lock that is free, whichever call takes effect first, the other taking effect
before the lock of the first expires: exactly one of the two callers is answered true, and it
is the one whose call took effect first. -/
theorem C23_lock_mutual_exclusion (keyPrefix : GoString) (store : RedisStore)
    (first : LockCaller) (t1 t2 : Nat) (bucket : SchedulerBucket) (ttl : Nat)
    (hfree : redisLive store (keyPrefix ++ bucket.String) t1 = none)
    (hlive : t2 < t1 + ttl) :
    ((lockRace keyPrefix store first t1 t2 bucket ttl).1.1 = true ∧
        (lockRace keyPrefix store first t1 t2 bucket ttl).1.2 = false) ∨
      ((lockRace keyPrefix store first t1 t2 bucket ttl).1.1 = false ∧
        (lockRace keyPrefix store first t1 t2 bucket ttl).1.2 = true) := by
  obtain ⟨ha, hb⟩ := TryLockBucket_twice keyPrefix store t1 t2 bucket ttl hfree hlive
  cases first with
  | A => exact Or.inl ⟨ha, hb⟩
  | B => exact Or.inr ⟨hb, ha⟩

/-- C23, for the bucket `1:openai:single` on an empty store, the caller `B` first at the time
1000 and the caller `A` at the time 1001, with a lock of 30 seconds: `B` is answered true and
`A` false. -/
theorem C23_lock_mutual_exclusion_witness :
    (lockRace "sched:lock:".toList [] LockCaller.B 1000 1001
      ⟨1, "openai".toList, "single".toList⟩ 30000).1 = (false, true) ∧
    (((lockRace "sched:lock:".toList [] LockCaller.B 1000 1001
        ⟨1, "openai".toList, "single".toList⟩ 30000).1.1 = true ∧
      (lockRace "sched:lock:".toList [] LockCaller.B 1000 1001
        ⟨1, "openai".toList, "single".toList⟩ 30000).1.2 = false) ∨
    ((lockRace "sched:lock:".toList [] LockCaller.B 1000 1001
        ⟨1, "openai".toList, "single".toList⟩ 30000).1.1 = false ∧
      (lockRace "sched:lock:".toList [] LockCaller.B 1000 1001
        ⟨1, "openai".toList, "single".toList⟩ 30000).1.2 = true)) :=
  ⟨by decide, C23_lock_mutual_exclusion "sched:lock:".toList [] LockCaller.B 1000 1001
    ⟨1, "openai".toList, "single".toList⟩ 30000 rfl (by decide)⟩

/-! ## The dashboard statistics cache -/

/-- A cached payload that cannot be decoded, or whose entry has no statistics, is a cache miss
after one deletion of the cache entry. -/
theorem getCachedDashboardStats_bad {S : Type} (deps : DashboardDeps S) (cacheFreshTTL : Int)
    (now : GoTime) (data : GoString) (hget : deps.cacheGet = Except.ok data)
    (hbad : (∃ err, deps.unmarshal data = Except.error err) ∨
      ∃ entry, deps.unmarshal data = Except.ok entry ∧ entry.Stats = none) :
    getCachedDashboardStats deps cacheFreshTTL now =
      ((none, false, some ErrDashboardStatsCacheMiss),
        [DashboardCall.cacheGet, DashboardCall.cacheDelete]) := by
  unfold getCachedDashboardStats
  rw [hget]
  dsimp only
  rcases hbad with ⟨err, he⟩ | ⟨entry, he, hs⟩
  · rw [he]
    rfl
  · rw [he]
    dsimp only
    rw [hs]
    rfl

/-- C24: when the cache answers with a payload that `json.Unmarshal` rejects, or with an entry
whose `Stats` is nil, `GetDashboardStats` deletes the cache entry exactly once, asks the usage
repository exactly once, starts no asynchronous refresh, and returns what the repository
returns: its statistics, or the error `get dashboard stats: ...` when the repository fails. -/
theorem C24_bad_cache_entry_evicted {S : Type} (deps : DashboardDeps S)
    (cacheFreshTTL cacheTTL : Int) (now : GoTime) (nowUnix : Int) (data : GoString)
    (hget : deps.cacheGet = Except.ok data)
    (hbad : (∃ err, deps.unmarshal data = Except.error err) ∨
      ∃ entry, deps.unmarshal data = Except.ok entry ∧ entry.Stats = none) :
    (GetDashboardStats deps true cacheFreshTTL cacheTTL now nowUnix).2.count
        DashboardCall.cacheDelete = 1 ∧
    (GetDashboardStats deps true cacheFreshTTL cacheTTL now nowUnix).2.count
        DashboardCall.repoGet = 1 ∧
    DashboardCall.refreshAsync ∉ (GetDashboardStats deps true cacheFreshTTL cacheTTL now nowUnix).2 ∧
    (∀ stats, deps.repoGet = Except.ok stats →
      (GetDashboardStats deps true cacheFreshTTL cacheTTL now nowUnix).1 = Except.ok stats) ∧
    (∀ err, deps.repoGet = Except.error err →
      (GetDashboardStats deps true cacheFreshTTL cacheTTL now nowUnix).1 =
        Except.error ("get dashboard stats: ".toList ++ err)) := by
  have hc := getCachedDashboardStats_bad deps cacheFreshTTL now data hget hbad
  have hsave : ∀ stats, (saveDashboardStatsCache deps true cacheTTL nowUnix stats).count
        DashboardCall.cacheDelete = 0 ∧
      (saveDashboardStatsCache deps true cacheTTL nowUnix stats).count
        DashboardCall.repoGet = 0 ∧
      DashboardCall.refreshAsync ∉ saveDashboardStatsCache deps true cacheTTL nowUnix stats := by
    intro stats
    unfold saveDashboardStatsCache
    split_ifs
    · simp
    · cases deps.marshal { Stats := stats, UpdatedAt := nowUnix } with
      | error e => simp
      | ok d => simp
  unfold GetDashboardStats
  rw [hc]
  rw [if_neg (by simp)]
  unfold refreshDashboardStats
  cases hr : deps.repoGet with
  | error e =>
    dsimp only
    refine ⟨by decide, by decide, by decide, ?_, ?_⟩
    · intro stats h
      simp at h
    · intro err h
      simp only [Except.error.injEq] at h
      rw [h]
  | ok st =>
    dsimp only
    obtain ⟨h1, h2, h3⟩ := hsave st
    refine ⟨?_, ?_, ?_, ?_, ?_⟩
    · simp [List.count_cons, h1]
    · simp [List.count_cons, h2]
    · simpa using h3
    · intro stats h
      simp only [Except.ok.injEq] at h
      rw [h]
    · intro err h
      simp at h

/-- C24, for the cache that answers `not-json` and the repository that answers the statistics
9: the calls are the read of the cache, one deletion, one read of the repository and the write
of the new entry, and the statistics 9 are returned. -/
theorem C24_bad_cache_entry_evicted_witness :
    (GetDashboardStats parseErrorDeps true 15000000000 30000000000 0 0).2 =
      [DashboardCall.cacheGet, DashboardCall.cacheDelete, DashboardCall.repoGet,
        DashboardCall.cacheSet "entry".toList 30000000000] ∧
    (GetDashboardStats parseErrorDeps true 15000000000 30000000000 0 0).1 =
      Except.ok (some 9) :=
  ⟨by decide,
    (C24_bad_cache_entry_evicted parseErrorDeps 15000000000 30000000000 0 0 "not-json".toList
      rfl (Or.inl ⟨"invalid character".toList, rfl⟩)).2.2.2.1 (some 9) rfl⟩

/-! ## The query mode of the ops dashboard -/

theorem ParseOpsQueryMode_valid (ToLower : GoString → GoString) (raw : GoString) :
    ParseOpsQueryMode ToLower raw = OpsQueryModeAuto ∨
    ParseOpsQueryMode ToLower raw = OpsQueryModeRaw ∨
    ParseOpsQueryMode ToLower raw = OpsQueryModePreagg := by
  unfold ParseOpsQueryMode
  split_ifs
  · exact Or.inr (Or.inl rfl)
  · exact Or.inr (Or.inr rfl)
  · exact Or.inl rfl

theorem storedDefaultMode_valid (ToLower : GoString → GoString) (s : Option OpsModeService) :
    storedDefaultMode ToLower s = OpsQueryModeAuto ∨
    storedDefaultMode ToLower s = OpsQueryModeRaw ∨
    storedDefaultMode ToLower s = OpsQueryModePreagg := by
  unfold storedDefaultMode
  cases s with
  | none => exact Or.inl rfl
  | some svc =>
    dsimp only
    cases svc.settingRepo with
    | none => exact Or.inl rfl
    | some res =>
      cases res with
      | error e => exact Or.inl rfl
      | ok raw => exact ParseOpsQueryMode_valid ToLower raw

theorem IsValid_iff (m : OpsQueryMode) :
    OpsQueryMode.IsValid m = true ↔
      (m = OpsQueryModeAuto ∨ m = OpsQueryModeRaw ∨ m = OpsQueryModePreagg) := by
  unfold OpsQueryMode.IsValid
  split_ifs with h
  · exact ⟨fun _ => h, fun _ => rfl⟩
  · exact ⟨fun hf => absurd hf (by decide), fun hm => absurd hm h⟩

/-- C25: for a service whose configuration has `Ops.UsePreaggregatedTables` false,
`resolveOpsQueryMode` never returns `auto`; a requested `auto` resolves to `raw`; a request
that is not a valid mode, the empty one included, resolves to `raw` when the stored default is
`auto` (as it is when the stored value parses to `auto`); a requested `preagg` is returned as
`preagg`; and for every service and every request the result is a valid mode. -/
theorem C25_auto_disabled (ToLower : GoString → GoString) (s : Option OpsModeService)
    (requested : OpsQueryMode) :
    OpsQueryMode.IsValid (resolveOpsQueryMode ToLower s requested) = true ∧
    (∀ svc, s = some svc → svc.cfg = some false →
      resolveOpsQueryMode ToLower s requested ≠ OpsQueryModeAuto ∧
      (requested = OpsQueryModeAuto →
        resolveOpsQueryMode ToLower s requested = OpsQueryModeRaw) ∧
      (OpsQueryMode.IsValid requested = false →
        (∀ raw, svc.settingRepo = some (Except.ok raw) →
          ParseOpsQueryMode ToLower raw = OpsQueryModeAuto →
          resolveOpsQueryMode ToLower s requested = OpsQueryModeRaw) ∧
        (storedDefaultMode ToLower s = OpsQueryModeAuto →
          resolveOpsQueryMode ToLower s requested = OpsQueryModeRaw)) ∧
      (requested = OpsQueryModePreagg →
        resolveOpsQueryMode ToLower s requested = OpsQueryModePreagg)) := by
  have hra : OpsQueryModeRaw ≠ OpsQueryModeAuto := by decide
  have hpa : OpsQueryModePreagg ≠ OpsQueryModeAuto := by decide
  constructor
  · unfold resolveOpsQueryMode
    by_cases hv : OpsQueryMode.IsValid requested = true
    · rw [if_pos hv]
      split_ifs
      · rfl
      · exact hv
    · rw [if_neg hv]
      split_ifs
      · rfl
      · exact (IsValid_iff _).mpr (storedDefaultMode_valid ToLower s)
  · intro svc hs hcfg
    have hdis : autoDisabled s = true := by
      rw [hs]
      unfold autoDisabled
      simp only [hcfg]
      rfl
    have hstored : OpsQueryMode.IsValid requested = false →
        storedDefaultMode ToLower s = OpsQueryModeAuto →
        resolveOpsQueryMode ToLower s requested = OpsQueryModeRaw := by
      intro hv hauto
      unfold resolveOpsQueryMode
      rw [if_neg (by rw [hv]; decide), if_pos ⟨hauto, hdis⟩]
    refine ⟨?_, ?_, ?_, ?_⟩
    · unfold resolveOpsQueryMode
      by_cases hv : OpsQueryMode.IsValid requested = true
      · rw [if_pos hv]
        by_cases ha : requested = OpsQueryModeAuto
        · rw [if_pos ⟨ha, hdis⟩]
          exact hra
        · rw [if_neg (fun h => ha h.1)]
          exact ha
      · rw [if_neg hv]
        by_cases ha : storedDefaultMode ToLower s = OpsQueryModeAuto
        · rw [if_pos ⟨ha, hdis⟩]
          exact hra
        · rw [if_neg (fun h => ha h.1)]
          exact ha
    · intro ha
      unfold resolveOpsQueryMode
      rw [if_pos ((IsValid_iff _).mpr (Or.inl ha)), if_pos ⟨ha, hdis⟩]
    · intro hv
      refine ⟨?_, hstored hv⟩
      intro raw hrepo hparse
      apply hstored hv
      rw [hs]
      unfold storedDefaultMode
      simp only [hrepo]
      exact hparse
    · intro hp
      unfold resolveOpsQueryMode
      rw [if_pos ((IsValid_iff _).mpr (Or.inr (Or.inr hp))),
        if_neg (fun h => hpa (hp.symm.trans h.1))]
      exact hp

/-- C25, for a service with `Ops.UsePreaggregatedTables` false whose stored default is
`" AUTO "`, and the empty request: the result is `raw`. -/
theorem C25_auto_disabled_witness :
    resolveOpsQueryMode (fun s => s.map Char.toLower)
      (some ⟨some false, some (Except.ok " AUTO ".toList)⟩) [] = OpsQueryModeRaw :=
  ((C25_auto_disabled (fun s => s.map Char.toLower)
    (some ⟨some false, some (Except.ok " AUTO ".toList)⟩) []).2
    ⟨some false, some (Except.ok " AUTO ".toList)⟩ rfl rfl).2.2.1 (by decide) |>.1
    " AUTO ".toList rfl (by decide)

/-! ## The bucket key as a partition key -/

theorem formatInt_injective (g1 g2 : Int) (h : formatInt g1 = formatInt g2) : g1 = g2 := by
  have hv1 := decVal_decimalDigits (g1.natAbs + 1) g1.natAbs (Nat.lt_succ_self _)
  have hv2 := decVal_decimalDigits (g2.natAbs + 1) g2.natAbs (Nat.lt_succ_self _)
  have hminus : ∀ (fuel n : Nat), '-' ∉ decimalDigits fuel n := by
    intro fuel n hmem
    exact absurd (decimalDigits_digits fuel n _ hmem).1 (by decide)
  by_cases hg1 : g1 < 0
  · by_cases hg2 : g2 < 0
    · rw [formatInt_neg g1 hg1, formatInt_neg g2 hg2, List.cons.injEq] at h
      have hd := congrArg (decVal 0) h.2
      rw [hv1, hv2] at hd
      omega
    · rw [formatInt_neg g1 hg1, formatInt_nonneg g2 (by omega)] at h
      exact absurd (h ▸ List.mem_cons_self _ _) (hminus _ _)
  · by_cases hg2 : g2 < 0
    · rw [formatInt_nonneg g1 (by omega), formatInt_neg g2 hg2] at h
      exact absurd (h.symm ▸ List.mem_cons_self _ _) (hminus _ _)
    · rw [formatInt_nonneg g1 (by omega), formatInt_nonneg g2 (by omega)] at h
      have hd := congrArg (decVal 0) h
      rw [hv1, hv2] at hd
      omega

/-- Two strings that agree and are each cut at a colon, with no colon before the cut, are cut
at the same place. -/
theorem colon_cut_unique (p q r s : GoString) (hp : ':' ∉ p) (hq : ':' ∉ q)
    (h : p ++ ':' :: r = q ++ ':' :: s) : p = q ∧ r = s := by
  induction p generalizing q with
  | nil =>
    cases q with
    | nil => exact ⟨rfl, by simpa using h⟩
    | cons d ds =>
      exfalso
      rw [List.nil_append, List.cons_append, List.cons.injEq] at h
      exact hq (by rw [← h.1]; exact List.mem_cons_self _ _)
  | cons c cs ih =>
    cases q with
    | nil =>
      exfalso
      rw [List.nil_append, List.cons_append, List.cons.injEq] at h
      exact hp (by rw [h.1]; exact List.mem_cons_self _ _)
    | cons d ds =>
      rw [List.cons_append, List.cons_append, List.cons.injEq] at h
      obtain ⟨h1, h2⟩ := ih ds (fun hm => hp (List.mem_cons_of_mem _ hm))
        (fun hm => hq (List.mem_cons_of_mem _ hm)) h.2
      exact ⟨by rw [h.1, h1], h2⟩

/-- The same with no colon after the cut. -/
theorem colon_cut_unique_right (p q r s : GoString) (hr : ':' ∉ r) (hs : ':' ∉ s)
    (h : p ++ ':' :: r = q ++ ':' :: s) : p = q ∧ r = s := by
  have hrev := congrArg List.reverse h
  simp only [List.reverse_append, List.reverse_cons, List.append_assoc,
    List.singleton_append] at hrev
  obtain ⟨h1, h2⟩ := colon_cut_unique r.reverse s.reverse p.reverse q.reverse
    (by simpa using hr) (by simpa using hs) hrev
  exact ⟨List.reverse_injective h2, List.reverse_injective h1⟩

/-- C27 as worded does not hold: the buckets `(1, "a:b", "c")` and `(1, "a", "b:c")` differ in
`Platform` and in `Mode` and have the same key `1:a:b:c`. -/
theorem C27_colon_buckets_share_key :
    (⟨1, "a:b".toList, "c".toList⟩ : SchedulerBucket) ≠ ⟨1, "a".toList, "b:c".toList⟩ ∧
    SchedulerBucket.String ⟨1, "a:b".toList, "c".toList⟩ = "1:a:b:c".toList ∧
    SchedulerBucket.String ⟨1, "a".toList, "b:c".toList⟩ = "1:a:b:c".toList := by
  decide

/-- C27, amended: two buckets whose `Platform` fields contain no colon, or whose `Mode` fields
contain no colon, and that differ in `GroupID`, `Platform` or `Mode`, have different keys. -/
theorem C27_key_injective (b1 b2 : SchedulerBucket)
    (hcolon : (':' ∉ b1.Platform ∧ ':' ∉ b2.Platform) ∨ (':' ∉ b1.Mode ∧ ':' ∉ b2.Mode))
    (hne : b1.GroupID ≠ b2.GroupID ∨ b1.Platform ≠ b2.Platform ∨ b1.Mode ≠ b2.Mode) :
    b1.String ≠ b2.String := by
  intro h
  unfold SchedulerBucket.String at h
  obtain ⟨hg, hrest⟩ := colon_cut_unique _ _ _ _ (formatInt_noColon b1.GroupID)
    (formatInt_noColon b2.GroupID) h
  have hg2 := formatInt_injective _ _ hg
  have hpm : b1.Platform = b2.Platform ∧ b1.Mode = b2.Mode := by
    rcases hcolon with ⟨h1, h2⟩ | ⟨h1, h2⟩
    · exact colon_cut_unique _ _ _ _ h1 h2 hrest
    · exact colon_cut_unique_right _ _ _ _ h1 h2 hrest
  rcases hne with hn | hn | hn
  · exact hn hg2
  · exact hn hpm.1
  · exact hn hpm.2

/-- C27, amended, for the buckets `(1, "openai", "single")` and `(1, "openai", "mixed")`:
their keys differ. -/
theorem C27_key_injective_witness :
    SchedulerBucket.String ⟨1, "openai".toList, "single".toList⟩ ≠
      SchedulerBucket.String ⟨1, "openai".toList, "mixed".toList⟩ :=
  C27_key_injective ⟨1, "openai".toList, "single".toList⟩ ⟨1, "openai".toList, "mixed".toList⟩
    (Or.inl ⟨by decide, by decide⟩) (Or.inr (Or.inr (by decide)))

/-! ## Call ids covered by item references -/

/-- C29 as worded does not hold.  In the input made of the items
`{"type": "function_call_output", "call_id": " call_1 "}` and
`{"type": "item_reference", "id": " call_1 "}` the call id of the one `function_call_output`
item is not blank and is the id of an `item_reference` item, and the check is false, the id
of the reference being compared without its white space.  And a body without `input` has no
`function_call_output` item at all, and the check is false. -/
theorem C29_padded_call_id_not_covered :
    everyOutputReferenced
      [GoAny.obj [("type".toList, GoAny.str "function_call_output".toList),
        ("call_id".toList, GoAny.str " call_1 ".toList)],
       GoAny.obj [("type".toList, GoAny.str "item_reference".toList),
        ("id".toList, GoAny.str " call_1 ".toList)]] ∧
    HasItemReferenceForCallIDs
      (some [("input".toList, GoAny.arr
        [GoAny.obj [("type".toList, GoAny.str "function_call_output".toList),
          ("call_id".toList, GoAny.str " call_1 ".toList)],
         GoAny.obj [("type".toList, GoAny.str "item_reference".toList),
          ("id".toList, GoAny.str " call_1 ".toList)]])])
      ((FunctionCallOutputCallIDs id
        (some [("input".toList, GoAny.arr
          [GoAny.obj [("type".toList, GoAny.str "function_call_output".toList),
            ("call_id".toList, GoAny.str " call_1 ".toList)],
           GoAny.obj [("type".toList, GoAny.str "item_reference".toList),
            ("id".toList, GoAny.str " call_1 ".toList)]])])).getD []) = false ∧
    HasItemReferenceForCallIDs (some []) ((FunctionCallOutputCallIDs id (some [])).getD []) =
      false := by
  refine ⟨?_, by decide, by decide⟩
  intro fields hmem htype
  simp only [List.mem_cons, GoAny.obj.injEq, List.mem_singleton, List.not_mem_nil,
    or_false] at hmem
  rcases hmem with rfl | rfl
  · exact ⟨" call_1 ".toList, rfl, by decide,
      ⟨_, List.mem_cons_of_mem _ (List.mem_singleton.mpr rfl), rfl, rfl⟩⟩
  · exfalso
    have hget : mapGet [("type".toList, GoAny.str "item_reference".toList),
        ("id".toList, GoAny.str " call_1 ".toList)] "type".toList =
        some (GoAny.str "item_reference".toList) := rfl
    rw [hget] at htype
    simp only [Option.some.injEq, GoAny.str.injEq] at htype
    revert htype
    decide

/-- C29, amended: whatever the order in which the set of call ids is visited,
`HasItemReferenceForCallIDs(body, FunctionCallOutputCallIDs(body))` is true if and only if
`input` of the body is an array, some `function_call_output` item of it has a `call_id` that
is not blank, and every such `call_id` is the white-space-trimmed, non-empty `id` of an
`item_reference` item of the same input. -/
theorem C29_outputs_covered_by_references (order : GoMap GoString Unit → GoMap GoString Unit)
    (horder : ∀ m, (order m).Perm m) (reqBody : Option (GoMap GoString GoAny)) :
    HasItemReferenceForCallIDs reqBody ((FunctionCallOutputCallIDs order reqBody).getD []) =
        true ↔
      ∃ body items, reqBody = some body ∧
        mapGet body "input".toList = some (GoAny.arr items) ∧
        (∃ id, isCallIDOf items id) ∧
        ∀ id, isCallIDOf items id → isTrimmedItemReferenceID items id := by
  cases reqBody with
  | none => simp [HasItemReferenceForCallIDs]
  | some body =>
    unfold HasItemReferenceForCallIDs FunctionCallOutputCallIDs
    dsimp only
    cases ha : asArray (mapIndex body "input".toList) with
    | none =>
      dsimp only
      constructor
      · intro h
        simp at h
      · rintro ⟨b2, items, hb, hi, _⟩
        simp only [Option.some.injEq] at hb
        subst hb
        rw [(asArray_mapIndex _ _ items).mpr hi] at ha
        simp at ha
    | some input =>
      dsimp only
      rw [asArray_mapIndex] at ha
      obtain ⟨_, hcall⟩ := callIDs_fold input
      obtain ⟨_, href⟩ := referenceIDs_fold input
      have hperm := horder (input.foldl callIDStep [])
      have hin : ∀ id, id ∈ (order (input.foldl callIDStep [])).map Prod.fst ↔
          isCallIDOf input id := by
        intro id
        rw [(hperm.map Prod.fst).mem_iff, ← hcall id, ne_eq, mapGet_eq_none_iff, not_not]
      have hright : ∀ P : Prop, (P ↔ ((∃ id, isCallIDOf input id) ∧
            ∀ id, isCallIDOf input id → isTrimmedItemReferenceID input id)) →
          (P ↔ ∃ body2 items, some body = some body2 ∧
            mapGet body2 "input".toList = some (GoAny.arr items) ∧
            (∃ id, isCallIDOf items id) ∧
            ∀ id, isCallIDOf items id → isTrimmedItemReferenceID items id) := by
        intro P hP
        rw [hP]
        constructor
        · rintro ⟨h1, h2⟩
          exact ⟨body, input, rfl, ha, h1, h2⟩
        · rintro ⟨b2, items, hb, hi, h1, h2⟩
          simp only [Option.some.injEq] at hb
          subst hb
          rw [ha] at hi
          simp only [Option.some.injEq, GoAny.arr.injEq] at hi
          subst hi
          exact ⟨h1, h2⟩
      apply hright
      by_cases hlen : (input.foldl callIDStep []).length = 0
      · rw [if_pos hlen]
        simp only [Option.getD_none, List.length_nil, if_true]
        constructor
        · intro h
          exact absurd h (by decide)
        · rintro ⟨⟨id, hid⟩, _⟩
          exfalso
          rw [← hcall id, List.length_eq_zero.mp hlen] at hid
          simp [mapGet] at hid
      · rw [if_neg hlen]
        simp only [Option.getD_some]
        have hex : ∃ id, isCallIDOf input id := by
          cases hf : input.foldl callIDStep [] with
          | nil => rw [hf] at hlen; exact absurd rfl hlen
          | cons e rest =>
            refine ⟨e.1, ?_⟩
            rw [← hcall e.1, hf]
            simp [mapGet]
        have hlen2 : ¬ ((order (input.foldl callIDStep [])).map Prod.fst).length = 0 := by
          rw [List.length_map, hperm.length_eq]
          exact hlen
        rw [if_neg hlen2]
        by_cases hrl : (input.foldl referenceIDStep []).length = 0
        · rw [if_pos hrl]
          constructor
          · intro h
            exact absurd h (by decide)
          · rintro ⟨⟨id, hid⟩, hcov⟩
            exfalso
            have := (href id).mpr (hcov id hid)
            rw [List.length_eq_zero.mp hrl] at this
            simp [mapGet] at this
        · rw [if_neg hrl, List.all_eq_true]
          constructor
          · intro h
            refine ⟨hex, fun id hid => ?_⟩
            rw [← href id]
            have := h id ((hin id).mpr hid)
            intro hn
            rw [hn] at this
            simp at this
          · rintro ⟨_, hcov⟩ id hid
            have := (href id).mpr (hcov id ((hin id).mp hid))
            cases hg : mapGet (input.foldl referenceIDStep []) id with
            | none => exact absurd hg this
            | some u => rfl

/-- C29, amended, for the input made of the items
`{"type": "function_call_output", "call_id": "call_1"}` and
`{"type": "item_reference", "id": " call_1 "}`, the set being visited in insertion order: the
check is true. -/
theorem C29_outputs_covered_by_references_witness :
    HasItemReferenceForCallIDs
      (some [("input".toList, GoAny.arr
        [GoAny.obj [("type".toList, GoAny.str "function_call_output".toList),
          ("call_id".toList, GoAny.str "call_1".toList)],
         GoAny.obj [("type".toList, GoAny.str "item_reference".toList),
          ("id".toList, GoAny.str " call_1 ".toList)]])])
      ((FunctionCallOutputCallIDs id
        (some [("input".toList, GoAny.arr
          [GoAny.obj [("type".toList, GoAny.str "function_call_output".toList),
            ("call_id".toList, GoAny.str "call_1".toList)],
           GoAny.obj [("type".toList, GoAny.str "item_reference".toList),
            ("id".toList, GoAny.str " call_1 ".toList)]])])).getD []) = true ∧
    ∃ body items,
      some [("input".toList, GoAny.arr
        [GoAny.obj [("type".toList, GoAny.str "function_call_output".toList),
          ("call_id".toList, GoAny.str "call_1".toList)],
         GoAny.obj [("type".toList, GoAny.str "item_reference".toList),
          ("id".toList, GoAny.str " call_1 ".toList)]])] = some body ∧
      mapGet body "input".toList = some (GoAny.arr items) ∧
      (∃ id, isCallIDOf items id) ∧
      ∀ id, isCallIDOf items id → isTrimmedItemReferenceID items id :=
  ⟨by decide,
    (C29_outputs_covered_by_references id (fun m => List.Perm.refl m)
      (some [("input".toList, GoAny.arr
        [GoAny.obj [("type".toList, GoAny.str "function_call_output".toList),
          ("call_id".toList, GoAny.str "call_1".toList)],
         GoAny.obj [("type".toList, GoAny.str "item_reference".toList),
          ("id".toList, GoAny.str " call_1 ".toList)]])])).mp (by decide)⟩

/-! ## The normalised request detail filter -/

/-- C30: for every filter, nil included, and every current time, `Normalize` returns a page of
at least 1, a page size between 1 and 100, and a start time that is not after the end time; a
nil filter gives page 1, page size 50 and the hour that ends at the current time; and a filter
with an `EndTime` and no `StartTime` gives that end time and the start time one hour before
it. -/
theorem C30_normalize (now : GoTime) (f : Option OpsRequestDetailFilter) :
    (1 ≤ (OpsRequestDetailFilter.Normalize now f).1 ∧
      1 ≤ (OpsRequestDetailFilter.Normalize now f).2.1 ∧
      (OpsRequestDetailFilter.Normalize now f).2.1 ≤ 100 ∧
      timeAfter (OpsRequestDetailFilter.Normalize now f).2.2.1
        (OpsRequestDetailFilter.Normalize now f).2.2.2 = false ∧
      (OpsRequestDetailFilter.Normalize now f).2.2.1 ≤
        (OpsRequestDetailFilter.Normalize now f).2.2.2) ∧
    (f = none →
      OpsRequestDetailFilter.Normalize now f = (1, 50, now - timeHour, now)) ∧
    (∀ g endTime, f = some g → g.StartTime = none → g.EndTime = some endTime →
      (OpsRequestDetailFilter.Normalize now f).2.2.2 = endTime ∧
      (OpsRequestDetailFilter.Normalize now f).2.2.1 = endTime - timeHour) := by
  have hhour : (0 : Int) < timeHour := by decide
  refine ⟨?_, ?_, ?_⟩
  · cases f with
    | none =>
      simp only [OpsRequestDetailFilter.Normalize, timeAfter, decide_eq_false_iff_not]
      unfold GoTime at *
      refine ⟨?_, ?_, ?_, ?_, ?_⟩ <;> omega
    | some g =>
      obtain ⟨startTime, endTime, page, pageSize⟩ := g
      cases startTime <;> cases endTime <;>
        simp only [OpsRequestDetailFilter.Normalize, timeAfter] <;>
        split_ifs <;> simp only [decide_eq_false_iff_not, decide_eq_true_eq] at * <;>
        unfold GoTime at * <;>
        refine ⟨?_, ?_, ?_, ?_, ?_⟩ <;> omega
  · intro hf
    subst hf
    simp [OpsRequestDetailFilter.Normalize]
  · intro g endTime hf hs he
    subst hf
    simp only [OpsRequestDetailFilter.Normalize, hs, he, timeAfter]
    unfold GoTime at *
    rw [if_neg (by simp only [decide_eq_true_eq]; omega)]
    refine ⟨rfl, ?_⟩
    show endTime - 1 * timeHour = endTime - timeHour
    omega

/-- C30, for the filter with page 0, page size 500 and the end time 7200 seconds after the
epoch, read at any later time: page 1, page size 100, and the hour before the end time. -/
theorem C30_normalize_witness :
    OpsRequestDetailFilter.Normalize (timeUnix 9000) (some ⟨none, some (timeUnix 7200), 0, 500⟩) =
      (1, 100, timeUnix 3600, timeUnix 7200) ∧
    (OpsRequestDetailFilter.Normalize (timeUnix 9000)
      (some ⟨none, some (timeUnix 7200), 0, 500⟩)).2.2.1 = timeUnix 7200 - timeHour :=
  ⟨by decide,
    ((C30_normalize (timeUnix 9000) (some ⟨none, some (timeUnix 7200), 0, 500⟩)).2.2
      ⟨none, some (timeUnix 7200), 0, 500⟩ (timeUnix 7200) rfl rfl rfl).2⟩

/-! ## The platform view against the account view -/

theorem mapSet_of_none {K V : Type} [DecidableEq K] (m : GoMap K V) (k : K) (v : V)
    (h : mapGet m k = none) : mapSet m k v = m ++ [(k, v)] := by
  induction m with
  | nil => simp [mapSet]
  | cons e rest ih =>
    obtain ⟨k0, v0⟩ := e
    unfold mapSet
    by_cases h0 : k0 = k
    · subst h0
      simp [mapGet] at h
    · simp only [h0, if_false, List.cons_append]
      rw [ih (by simpa [mapGet, h0] using h)]

/-- With pairwise distinct ids among the processed accounts, the account map has one entry for
each processed account, in the order of the list. -/
theorem account_entries (filter : Option Int) (loadMap : GoMap Int (Option AccountLoadInfo))
    (l : List Account)
    (hnd : ((l.filter (fun acc => processed filter acc)).map (fun acc => acc.ID)).Nodup) :
    l.foldl (fun am acc =>
        if processed filter acc = true then
          accountStep am acc (matchedGroupOf filter acc) (loadOf loadMap acc.ID).1
            (loadOf loadMap acc.ID).2
        else am) [] =
      (l.filter (fun acc => processed filter acc)).map (fun acc =>
        (acc.ID, newAccountInfo acc (matchedGroupOf filter acc) (loadOf loadMap acc.ID).1
          (loadOf loadMap acc.ID).2)) := by
  induction l using List.reverseRecOn with
  | nil => rfl
  | append_singleton l a ih =>
    rw [List.filter_append, List.map_append, List.nodup_append] at hnd
    obtain ⟨hl, _, hdisj⟩ := hnd
    rw [List.foldl_append, List.foldl_cons, List.foldl_nil, ih hl, List.filter_append,
      List.map_append]
    by_cases hp : processed filter a = true
    · rw [if_pos hp]
      have hfa : List.filter (fun acc => processed filter acc) [a] = [a] := by
        simp [hp]
      rw [hfa] at hdisj ⊢
      unfold accountStep
      have hnone : mapGet ((l.filter (fun acc => processed filter acc)).map (fun acc =>
          (acc.ID, newAccountInfo acc (matchedGroupOf filter acc) (loadOf loadMap acc.ID).1
            (loadOf loadMap acc.ID).2))) a.ID = none := by
        rw [mapGet_eq_none_iff, List.map_map]
        intro hmem
        exact hdisj hmem (by simp)
      rw [hnone]
      dsimp only
      rw [mapSet_of_none _ _ _ hnone]
      rfl
    · rw [if_neg hp]
      have hfa : List.filter (fun acc => processed filter acc) [a] = [] := by
        simp [hp]
      rw [hfa]
      simp

/-- The sum of a field over the entries of platform `p` of the account map is the sum over the
processed accounts of the platform. -/
theorem accountEntriesSum_eq (filter : Option Int) (p : GoString) (l : List Account)
    (info : Account → AccountConcurrencyInfo) (hplat : ∀ acc, (info acc).Platform = acc.Platform)
    (f : AccountConcurrencyInfo → Int) :
    accountEntriesSum f p
        ((l.filter (fun acc => processed filter acc)).map (fun acc => (acc.ID, info acc))) =
      sumOver (fun acc => f (info acc)) (platformMembers filter p l) := by
  unfold accountEntriesSum sumOver platformMembers
  induction l with
  | nil => rfl
  | cons a rest ih =>
    by_cases hp : processed filter a = true
    · by_cases hq : a.Platform = p
      · simp only [List.filter_cons, hp, if_true, List.map_cons, hplat, hq, decide_True,
          Bool.and_self, List.sum_cons]
        rw [← ih]
      · simp only [List.filter_cons, hp, if_true, List.map_cons, hplat, hq, decide_False,
          Bool.and_false, Bool.false_eq_true, if_false]
        rw [← ih]
    · simp only [List.filter_cons, hp, Bool.false_eq_true, if_false, Bool.false_and]
      rw [← ih]

/-- C28: `GetConcurrencyStats` on `exampleAccounts`, a list that names account 7 of platform
`openai` twice, with capacities 10 and 20.  The account map is guarded against a repeated id
and keeps the first listing only (capacity 10, 3 in use, 1 waiting), while the platform totals
have no such guard and add both listings (capacity 30, 6 in use, 2 waiting): the platform
fields are not the sums over the entries of the account map. -/
theorem C28_duplicate_account_counted_twice :
    ∃ r, GetConcurrencyStats none (Except.ok exampleAccounts) 0 (some exampleService) id
        none = Except.ok r ∧
      (mapGet r.platform "openai".toList).map
        (fun info => (info.MaxCapacity, info.CurrentInUse, info.WaitingInQueue)) =
        some (30, 6, 2) ∧
      accountEntriesSum (fun i => i.MaxCapacity) "openai".toList r.account = 10 ∧
      accountEntriesSum (fun i => i.CurrentInUse) "openai".toList r.account = 3 ∧
      accountEntriesSum (fun i => i.WaitingInQueue) "openai".toList r.account = 1 :=
  ⟨_, rfl, by decide, by decide, by decide, by decide⟩

/-- The platform view agrees with the account view when no id is repeated: for every account
list in which the accounts with a positive id have pairwise distinct ids, every platform `P`
of the returned platform map has `MaxCapacity`,
`CurrentInUse` and `WaitingInQueue` equal to the `int64` sums of the same fields over the
entries of the returned account map whose `Platform` is `P`, and equal to the exact sums
whenever these fit an `int64`. -/
theorem platform_view_of_distinct_ids (now : Nat) (svc : Option LoadBatchService)
    (order : GoMap Int Int → GoMap Int Int) (filter : Option Int) (accounts : List Account)
    (hdistinct : ((accounts.filter (fun acc => decide (0 < acc.ID))).map
      (fun acc => acc.ID)).Nodup) :
    ∃ r, GetConcurrencyStats none (Except.ok accounts) now svc order filter = Except.ok r ∧
      ∀ p info, mapGet r.platform p = some info →
        (info.MaxCapacity = wrap64 (accountEntriesSum (fun i => i.MaxCapacity) p r.account) ∧
          info.CurrentInUse =
            wrap64 (accountEntriesSum (fun i => i.CurrentInUse) p r.account) ∧
          info.WaitingInQueue =
            wrap64 (accountEntriesSum (fun i => i.WaitingInQueue) p r.account)) ∧
        (isInt64 (accountEntriesSum (fun i => i.MaxCapacity) p r.account) →
          info.MaxCapacity = accountEntriesSum (fun i => i.MaxCapacity) p r.account) ∧
        (isInt64 (accountEntriesSum (fun i => i.CurrentInUse) p r.account) →
          info.CurrentInUse = accountEntriesSum (fun i => i.CurrentInUse) p r.account) ∧
        (isInt64 (accountEntriesSum (fun i => i.WaitingInQueue) p r.account) →
          info.WaitingInQueue = accountEntriesSum (fun i => i.WaitingInQueue) p r.account) := by
  have hnd : ((accounts.filter (fun acc => processed filter acc)).map
      (fun acc => acc.ID)).Nodup := by
    have hsub : (accounts.filter (fun acc => processed filter acc)).Sublist
        (accounts.filter (fun acc => decide (0 < acc.ID))) := by
      have hff : accounts.filter (fun acc => processed filter acc) =
          (accounts.filter (fun acc => decide (0 < acc.ID))).filter
            (fun acc => processed filter acc) := by
        rw [List.filter_filter]
        apply List.filter_congr
        intro acc _
        unfold processed
        cases decide (0 < acc.ID) <;> simp
      rw [hff]
      exact List.filter_sublist _
    exact hdistinct.sublist (hsub.map _)
  obtain ⟨r, hr, _, hplat, _, _⟩ := GetConcurrencyStats_spec now svc order filter accounts
  have hacc : r.account =
      (accounts.filter (fun acc => processed filter acc)).map (fun acc =>
        (acc.ID, newAccountInfo acc (matchedGroupOf filter acc)
          (loadOf (getAccountsLoadMapBestEffort svc order accounts).out acc.ID).1
          (loadOf (getAccountsLoadMapBestEffort svc order accounts).out acc.ID).2)) := by
    have hdef : GetConcurrencyStats none (Except.ok accounts) now svc order filter =
        Except.ok
          { platform := ((accounts.foldl (statsStep filter
                (getAccountsLoadMapBestEffort svc order accounts).out)
                { platform := [], group := [], account := [] }).platform).map
              (fun e => (e.1, finishPlatform e.2))
            group := ((accounts.foldl (statsStep filter
                (getAccountsLoadMapBestEffort svc order accounts).out)
                { platform := [], group := [], account := [] }).group).map
              (fun e => (e.1, finishGroup e.2))
            account := (accounts.foldl (statsStep filter
                (getAccountsLoadMapBestEffort svc order accounts).out)
                { platform := [], group := [], account := [] }).account
            collectedAt := now } := rfl
    rw [hdef] at hr
    simp only [Except.ok.injEq] at hr
    rw [← hr]
    dsimp only
    rw [stats_fold_account, account_entries filter _ accounts hnd]
  refine ⟨r, hr, ?_⟩
  intro p info hinfo
  obtain ⟨_, hmax, huse, hwait, _⟩ := (hplat p).2 info hinfo
  have e1 : accountEntriesSum (fun i => i.MaxCapacity) p r.account =
      sumOver (fun a => a.Concurrency) (platformMembers filter p accounts) := by
    rw [hacc, accountEntriesSum_eq filter p accounts _ (fun _ => rfl)]
    rfl
  have e2 : accountEntriesSum (fun i => i.CurrentInUse) p r.account =
      sumOver (fun a => (loadOf (getAccountsLoadMapBestEffort svc order accounts).out a.ID).1)
        (platformMembers filter p accounts) := by
    rw [hacc, accountEntriesSum_eq filter p accounts _ (fun _ => rfl)]
    rfl
  have e3 : accountEntriesSum (fun i => i.WaitingInQueue) p r.account =
      sumOver (fun a => (loadOf (getAccountsLoadMapBestEffort svc order accounts).out a.ID).2)
        (platformMembers filter p accounts) := by
    rw [hacc, accountEntriesSum_eq filter p accounts _ (fun _ => rfl)]
    rfl
  rw [e1, e2, e3]
  refine ⟨⟨hmax, huse, hwait⟩, ?_, ?_, ?_⟩
  · intro h
    rw [hmax, wrap64_of_isInt64 _ h]
  · intro h
    rw [huse, wrap64_of_isInt64 _ h]
  · intro h
    rw [hwait, wrap64_of_isInt64 _ h]

/-- The agreement of the two views for the accounts A (capacity 10, 3 in use) and B
(capacity 5, 5 in use) of platform `openai`: the platform shows capacity 15 and 8 in use, which are the sums over the
two entries of the account map. -/
theorem platform_view_of_distinct_ids_example :
    (∃ r, GetConcurrencyStats none (Except.ok abAccounts) 0 (some abService) id none =
        Except.ok r ∧
      (mapGet r.platform "openai".toList).map
        (fun info => (info.MaxCapacity, info.CurrentInUse, info.WaitingInQueue)) =
        some (15, 8, 0) ∧
      accountEntriesSum (fun i => i.MaxCapacity) "openai".toList r.account = 15 ∧
      accountEntriesSum (fun i => i.CurrentInUse) "openai".toList r.account = 8) ∧
    ∃ r, GetConcurrencyStats none (Except.ok abAccounts) 0 (some abService) id none =
        Except.ok r ∧
      ∀ p info, mapGet r.platform p = some info →
        (info.MaxCapacity = wrap64 (accountEntriesSum (fun i => i.MaxCapacity) p r.account) ∧
          info.CurrentInUse =
            wrap64 (accountEntriesSum (fun i => i.CurrentInUse) p r.account) ∧
          info.WaitingInQueue =
            wrap64 (accountEntriesSum (fun i => i.WaitingInQueue) p r.account)) ∧
        (isInt64 (accountEntriesSum (fun i => i.MaxCapacity) p r.account) →
          info.MaxCapacity = accountEntriesSum (fun i => i.MaxCapacity) p r.account) ∧
        (isInt64 (accountEntriesSum (fun i => i.CurrentInUse) p r.account) →
          info.CurrentInUse = accountEntriesSum (fun i => i.CurrentInUse) p r.account) ∧
        (isInt64 (accountEntriesSum (fun i => i.WaitingInQueue) p r.account) →
          info.WaitingInQueue = accountEntriesSum (fun i => i.WaitingInQueue) p r.account) :=
  ⟨⟨_, rfl, by decide, by decide, by decide⟩,
    platform_view_of_distinct_ids 0 (some abService) id none abAccounts (by decide)⟩

/-! ## `combineApproxPercentiles` -/

/-! ### Rounding -/

theorem le_roundHalfEven (n : Int) (x : ℚ) (h : (n : ℚ) ≤ x) : n ≤ roundHalfEven x := by
  have hf : n ≤ Int.floor x := Int.le_floor.mpr h
  unfold roundHalfEven
  split_ifs <;> omega

theorem roundHalfEven_le (n : Int) (x : ℚ) (h : x ≤ (n : ℚ)) : roundHalfEven x ≤ n := by
  have hfl : (Int.floor x : ℚ) ≤ x := Int.floor_le x
  have hf : Int.floor x ≤ n := by
    have : (Int.floor x : ℚ) ≤ (n : ℚ) := le_trans hfl h
    exact_mod_cast this
  unfold roundHalfEven
  by_cases h1 : x - Int.floor x < 1 / 2
  · rw [if_pos h1]
    exact hf
  · have hlt : Int.floor x < n := by
      rcases lt_or_eq_of_le hf with hlt | heq
      · exact hlt
      · exfalso
        apply h1
        have : x ≤ (Int.floor x : ℚ) := by rw [heq]; exact h
        linarith
    rw [if_neg h1]
    split_ifs <;> omega

theorem le_mathRound (a : Int) (x : ℚ) (h : (a : ℚ) ≤ x) : a ≤ mathRound x := by
  unfold mathRound
  split_ifs with h0
  · apply Int.le_floor.mpr
    linarith
  · have : Int.floor (-x + 1 / 2) < -a + 1 := by
      rw [Int.floor_lt]
      push_cast
      linarith
    omega

theorem mathRound_le (b : Int) (x : ℚ) (h : x ≤ (b : ℚ)) : mathRound x ≤ b := by
  unfold mathRound
  split_ifs with h0
  · have : Int.floor (x + 1 / 2) < b + 1 := by
      rw [Int.floor_lt]
      push_cast
      linarith
    omega
  · have : -b ≤ Int.floor (-x + 1 / 2) := by
      apply Int.le_floor.mpr
      push_cast
      linarith
    omega

/-- The two powers of two that enclose a number that is not zero. -/
theorem log_bounds (x : ℚ) (hx : x ≠ 0) :
    (2 : ℚ) ^ Int.log 2 (abs x) ≤ abs x ∧ abs x < (2 : ℚ) ^ (Int.log 2 (abs x) + 1) := by
  have h1 := Int.zpow_log_le_self (b := 2) (r := abs x) (by norm_num) (abs_pos.mpr hx)
  have h2 := Int.lt_zpow_succ_log_self (b := 2) (by norm_num) (abs x)
  simp only [Nat.cast_ofNat] at h1 h2
  exact ⟨h1, h2⟩

/-- A multiple of the unit in the last place below the number stays below its rounding. -/
theorem mul_ulp_le_toFloat64 (x : ℚ) (hx : x ≠ 0) (k : Int)
    (hk : (k : ℚ) ≤ x / 2 ^ (Int.log 2 (abs x) - 52)) :
    (k : ℚ) * 2 ^ (Int.log 2 (abs x) - 52) ≤ toFloat64 x := by
  unfold toFloat64
  rw [if_neg hx]
  have hu : (0 : ℚ) < 2 ^ (Int.log 2 (abs x) - 52) := by positivity
  have := le_roundHalfEven k _ hk
  have hc : (k : ℚ) ≤ (roundHalfEven (x / 2 ^ (Int.log 2 (abs x) - 52)) : ℚ) := by
    exact_mod_cast this
  exact mul_le_mul_of_nonneg_right hc (le_of_lt hu)

theorem toFloat64_le_mul_ulp (x : ℚ) (hx : x ≠ 0) (k : Int)
    (hk : x / 2 ^ (Int.log 2 (abs x) - 52) ≤ (k : ℚ)) :
    toFloat64 x ≤ (k : ℚ) * 2 ^ (Int.log 2 (abs x) - 52) := by
  unfold toFloat64
  rw [if_neg hx]
  have hu : (0 : ℚ) < 2 ^ (Int.log 2 (abs x) - 52) := by positivity
  have := roundHalfEven_le k _ hk
  have hc : (roundHalfEven (x / 2 ^ (Int.log 2 (abs x) - 52)) : ℚ) ≤ (k : ℚ) := by
    exact_mod_cast this
  exact mul_le_mul_of_nonneg_right hc (le_of_lt hu)

/-- An integer of magnitude at most `2 ^ 53` below a number is below its rounding: such an
integer is a `float64`, and rounding goes to the nearest one. -/
theorem le_toFloat64 (a : Int) (h1 : -(2 : Int) ^ 53 ≤ a) (h2 : a ≤ (2 : Int) ^ 53) (x : ℚ)
    (h : (a : ℚ) ≤ x) : (a : ℚ) ≤ toFloat64 x := by
  have h1q : -(2 : ℚ) ^ 53 ≤ (a : ℚ) := by exact_mod_cast h1
  have h2q : (a : ℚ) ≤ (2 : ℚ) ^ 53 := by exact_mod_cast h2
  by_cases hx : x = 0
  · rw [hx] at h ⊢
    unfold toFloat64
    rw [if_pos rfl]
    exact h
  obtain ⟨hlo, hhi⟩ := log_bounds x hx
  rcases le_or_lt (Int.log 2 (abs x)) 52 with he | he
  · obtain ⟨n, hn⟩ : ∃ n : ℕ, Int.log 2 (abs x) - 52 = -(n : ℤ) :=
      ⟨(52 - Int.log 2 (abs x)).toNat, by omega⟩
    have hk := mul_ulp_le_toFloat64 x hx (a * 2 ^ n) (by
      rw [hn, zpow_neg, zpow_natCast, div_inv_eq_mul]
      push_cast
      exact mul_le_mul_of_nonneg_right h (by positivity))
    rw [hn, zpow_neg, zpow_natCast] at hk
    push_cast at hk
    rw [mul_assoc, mul_inv_cancel₀ (by positivity), mul_one] at hk
    exact hk
  · obtain ⟨n, hn⟩ : ∃ n : ℕ, Int.log 2 (abs x) - 52 = (n : ℤ) + 1 :=
      ⟨(Int.log 2 (abs x) - 53).toNat, by omega⟩
    have he2 : Int.log 2 (abs x) = 52 + ((n : ℤ) + 1) := by omega
    have hu2 : (2 : ℚ) ≤ 2 ^ ((n : ℤ) + 1) := by
      have : (2 : ℚ) ^ ((n : ℤ) + 1) = 2 ^ (n + 1) := by
        rw [← zpow_natCast]
        push_cast
        rfl
      rw [this, pow_succ]
      have : (1 : ℚ) ≤ 2 ^ n := one_le_pow₀ (by norm_num)
      linarith
    have hupos : (0 : ℚ) < 2 ^ ((n : ℤ) + 1) := by positivity
    have hpow : (2 : ℚ) ^ Int.log 2 (abs x) = 2 ^ 52 * 2 ^ ((n : ℤ) + 1) := by
      rw [he2, zpow_add₀ (by norm_num)]
      norm_num
    rw [hpow] at hlo
    rcases lt_or_gt_of_ne hx with hneg | hpos
    · rw [abs_of_neg hneg] at hlo
      have hxe : x = -(2 ^ 52 * 2 ^ ((n : ℤ) + 1)) := by
        apply le_antisymm
        · linarith
        · nlinarith
      have hk := mul_ulp_le_toFloat64 x hx (-(2 ^ 52)) (by
        rw [hn]
        push_cast
        rw [le_div_iff₀ hupos]
        linarith)
      rw [hn] at hk
      push_cast at hk
      linarith
    · rw [abs_of_pos hpos] at hlo
      have hk := mul_ulp_le_toFloat64 x hx (2 ^ 52) (by
        rw [hn]
        push_cast
        rw [le_div_iff₀ hupos]
        exact hlo)
      rw [hn] at hk
      push_cast at hk
      nlinarith

/-- An integer of magnitude at most `2 ^ 53` above a number is above its rounding. -/
theorem toFloat64_le (b : Int) (h1 : -(2 : Int) ^ 53 ≤ b) (h2 : b ≤ (2 : Int) ^ 53) (x : ℚ)
    (h : x ≤ (b : ℚ)) : toFloat64 x ≤ (b : ℚ) := by
  have h1q : -(2 : ℚ) ^ 53 ≤ (b : ℚ) := by exact_mod_cast h1
  have h2q : (b : ℚ) ≤ (2 : ℚ) ^ 53 := by exact_mod_cast h2
  by_cases hx : x = 0
  · rw [hx] at h ⊢
    unfold toFloat64
    rw [if_pos rfl]
    exact h
  obtain ⟨hlo, hhi⟩ := log_bounds x hx
  rcases le_or_lt (Int.log 2 (abs x)) 52 with he | he
  · obtain ⟨n, hn⟩ : ∃ n : ℕ, Int.log 2 (abs x) - 52 = -(n : ℤ) :=
      ⟨(52 - Int.log 2 (abs x)).toNat, by omega⟩
    have hk := toFloat64_le_mul_ulp x hx (b * 2 ^ n) (by
      rw [hn, zpow_neg, zpow_natCast, div_inv_eq_mul]
      push_cast
      exact mul_le_mul_of_nonneg_right h (by positivity))
    rw [hn, zpow_neg, zpow_natCast] at hk
    push_cast at hk
    rw [mul_assoc, mul_inv_cancel₀ (by positivity), mul_one] at hk
    exact hk
  · obtain ⟨n, hn⟩ : ∃ n : ℕ, Int.log 2 (abs x) - 52 = (n : ℤ) + 1 :=
      ⟨(Int.log 2 (abs x) - 53).toNat, by omega⟩
    have he2 : Int.log 2 (abs x) = 52 + ((n : ℤ) + 1) := by omega
    have hu2 : (2 : ℚ) ≤ 2 ^ ((n : ℤ) + 1) := by
      have : (2 : ℚ) ^ ((n : ℤ) + 1) = 2 ^ (n + 1) := by
        rw [← zpow_natCast]
        push_cast
        rfl
      rw [this, pow_succ]
      have : (1 : ℚ) ≤ 2 ^ n := one_le_pow₀ (by norm_num)
      linarith
    have hupos : (0 : ℚ) < 2 ^ ((n : ℤ) + 1) := by positivity
    have hpow : (2 : ℚ) ^ Int.log 2 (abs x) = 2 ^ 52 * 2 ^ ((n : ℤ) + 1) := by
      rw [he2, zpow_add₀ (by norm_num)]
      norm_num
    rw [hpow] at hlo
    rcases lt_or_gt_of_ne hx with hneg | hpos
    · rw [abs_of_neg hneg] at hlo
      have hk := toFloat64_le_mul_ulp x hx (-(2 ^ 52)) (by
        rw [hn]
        push_cast
        rw [div_le_iff₀ hupos]
        linarith)
      rw [hn] at hk
      push_cast at hk
      nlinarith
    · rw [abs_of_pos hpos] at hlo
      have hxe : x = 2 ^ 52 * 2 ^ ((n : ℤ) + 1) := by
        apply le_antisymm
        · nlinarith
        · linarith
      have hk := toFloat64_le_mul_ulp x hx (2 ^ 52) (by
        rw [hn]
        push_cast
        rw [div_le_iff₀ hupos]
        linarith)
      rw [hn] at hk
      push_cast at hk
      linarith

/-- An integer of magnitude at most `2 ^ 53` is a `float64`. -/
theorem toFloat64_intCast (n : Int) (h1 : -(2 : Int) ^ 53 ≤ n) (h2 : n ≤ (2 : Int) ^ 53) :
    toFloat64 (n : ℚ) = (n : ℚ) :=
  le_antisymm (toFloat64_le n h1 h2 _ (le_refl _)) (le_toFloat64 n h1 h2 _ (le_refl _))

/-! ### The maximum of a field -/

/-- The variable `max` of `maxInt` after the loop, from any start: it is nil when nothing was
there and no segment has the field, and otherwise it is the start or a value of the field and
bounds them all. -/
theorem maxInt_fold (get : OpsPercentiles → Option Int) (segments : List opsPercentileSegment) :
    ∀ m0 : Option Int,
      (segments.foldl (maxStep get) m0 = none ↔ m0 = none ∧ fieldValues get segments = []) ∧
      ∀ m, segments.foldl (maxStep get) m0 = some m →
        (m0 = some m ∨ m ∈ fieldValues get segments) ∧
        (∀ v, m0 = some v → v ≤ m) ∧ ∀ v ∈ fieldValues get segments, v ≤ m := by
  induction segments with
  | nil =>
    intro m0
    refine ⟨by simp [fieldValues], ?_⟩
    intro m hm
    rw [List.foldl_nil] at hm
    refine ⟨Or.inl hm, ?_, fun v hv => by simp [fieldValues] at hv⟩
    intro v hv
    rw [hm] at hv
    simp only [Option.some.injEq] at hv
    omega
  | cons seg rest ih =>
    intro m0
    rw [List.foldl_cons]
    unfold fieldValues at ih ⊢
    rw [List.filterMap_cons]
    cases hg : get seg.p with
    | none =>
      have hs : maxStep get m0 seg = m0 := by
        unfold maxStep
        rw [hg]
      rw [hs]
      exact ih m0
    | some v =>
      dsimp only
      cases m0 with
      | none =>
        have hs : maxStep get none seg = some v := by
          unfold maxStep
          rw [hg]
        obtain ⟨ih1, ih2⟩ := ih (some v)
        refine ⟨?_, ?_⟩
        · rw [hs, ih1]
          simp
        · intro m hm
          rw [hs] at hm
          obtain ⟨h1, h2, h3⟩ := ih2 m hm
          refine ⟨Or.inr ?_, fun w hw => by simp at hw, ?_⟩
          · rcases h1 with h1 | h1
            · simp only [Option.some.injEq] at h1
              rw [h1]
              exact List.mem_cons_self _ _
            · exact List.mem_cons_of_mem _ h1
          · intro w hw
            rcases List.mem_cons.mp hw with rfl | hw
            · exact h2 w rfl
            · exact h3 w hw
      | some m1 =>
        have hs : maxStep get (some m1) seg = some (if v > m1 then v else m1) := by
          unfold maxStep
          rw [hg]
          dsimp only
          split_ifs <;> rfl
        obtain ⟨ih1, ih2⟩ := ih (some (if v > m1 then v else m1))
        refine ⟨?_, ?_⟩
        · rw [hs, ih1]
          simp
        · intro m hm
          rw [hs] at hm
          obtain ⟨h1, h2, h3⟩ := ih2 m hm
          have hmax := h2 _ rfl
          refine ⟨?_, ?_, ?_⟩
          · rcases h1 with h1 | h1
            · simp only [Option.some.injEq] at h1
              by_cases hv : v > m1
              · rw [if_pos hv] at h1
                right
                rw [← h1]
                exact List.mem_cons_self _ _
              · rw [if_neg hv] at h1
                left
                rw [h1]
            · exact Or.inr (List.mem_cons_of_mem _ h1)
          · intro w hw
            simp only [Option.some.injEq] at hw
            subst hw
            split_ifs at hmax <;> omega
          · intro w hw
            rcases List.mem_cons.mp hw with rfl | hw
            · split_ifs at hmax <;> omega
            · exact h3 w hw

/-! ### The weighted mean of a field -/

theorem contributions_pos (get : OpsPercentiles → Option Int)
    (segments : List opsPercentileSegment) :
    ∀ wv ∈ contributions get segments, 0 < wv.1 := by
  intro wv hwv
  unfold contributions at hwv
  rw [List.mem_filterMap] at hwv
  obtain ⟨seg, _, hseg⟩ := hwv
  by_cases hw : seg.weight ≤ 0
  · rw [if_pos hw] at hseg
    simp at hseg
  · rw [if_neg hw] at hseg
    cases hg : get seg.p with
    | none => rw [hg] at hseg; simp at hseg
    | some v =>
      rw [hg] at hseg
      simp only [Option.map_some', Option.some.injEq] at hseg
      rw [← hseg]
      dsimp only
      omega

theorem weightSum_nonneg (c : List (Int × Int)) (hpos : ∀ wv ∈ c, 0 < wv.1) :
    0 ≤ weightSum c := by
  unfold weightSum
  apply List.sum_nonneg
  intro x hx
  rw [List.mem_map] at hx
  obtain ⟨wv, hwv, rfl⟩ := hx
  exact le_of_lt (hpos wv hwv)

theorem weightedMagnitude_nonneg (c : List (Int × Int)) (hpos : ∀ wv ∈ c, 0 < wv.1) :
    0 ≤ weightedMagnitude c := by
  unfold weightedMagnitude
  apply List.sum_nonneg
  intro x hx
  rw [List.mem_map] at hx
  obtain ⟨wv, hwv, rfl⟩ := hx
  exact mul_nonneg (le_of_lt (hpos wv hwv)) (abs_nonneg _)

/-- A segment without a positive weight or without the field leaves `sum` and `w` alone. -/
theorem weightedStep_skip (fused : Bool) (get : OpsPercentiles → Option Int) (acc : ℚ × Int)
    (seg : opsPercentileSegment)
    (h : (if seg.weight ≤ 0 then none else (get seg.p).map (fun v => (seg.weight, v))) = none) :
    weightedStep fused get acc seg = acc := by
  unfold weightedStep
  by_cases hw : seg.weight ≤ 0
  · rw [if_pos hw]
  · rw [if_neg hw] at h ⊢
    cases hg : get seg.p with
    | none => rfl
    | some v => rw [hg] at h; simp at h

theorem weightedStep_take (fused : Bool) (get : OpsPercentiles → Option Int) (acc : ℚ × Int)
    (seg : opsPercentileSegment) (w v : Int)
    (h : (if seg.weight ≤ 0 then none else (get seg.p).map (fun v => (seg.weight, v))) =
      some (w, v)) :
    weightedStep fused get acc seg =
      (if fused then toFloat64 (acc.1 + toFloat64 v * toFloat64 w)
        else toFloat64 (acc.1 + toFloat64 (toFloat64 v * toFloat64 w)),
        wrap64 (acc.2 + w)) := by
  unfold weightedStep
  by_cases hw : seg.weight ≤ 0
  · rw [if_pos hw] at h
    simp at h
  · rw [if_neg hw] at h ⊢
    cases hg : get seg.p with
    | none => rw [hg] at h; simp at h
    | some v0 =>
      rw [hg] at h
      simp only [Option.map_some', Option.some.injEq, Prod.mk.injEq] at h
      obtain ⟨h1, h2⟩ := h
      dsimp only
      rw [h1, h2]

theorem weighted_fold_nil (fused : Bool) (get : OpsPercentiles → Option Int)
    (segments : List opsPercentileSegment) (h : contributions get segments = []) :
    ∀ acc, segments.foldl (weightedStep fused get) acc = acc := by
  induction segments with
  | nil => intro acc; rfl
  | cons seg rest ih =>
    intro acc
    unfold contributions at h ih
    rw [List.filterMap_cons] at h
    cases hc : (if seg.weight ≤ 0 then none
        else (get seg.p).map (fun v => (seg.weight, v))) with
    | none =>
      rw [hc] at h
      rw [List.foldl_cons, weightedStep_skip fused get acc seg hc]
      exact ih h acc
    | some wv =>
      rw [hc] at h
      simp at h

/-- While the magnitudes stay within `2 ^ 53` every operation of the loop is exact: `sum` is
the exact weighted sum and `w` the exact sum of the weights. -/
theorem weighted_fold_exact (fused : Bool) (get : OpsPercentiles → Option Int)
    (segments : List opsPercentileSegment) :
    ∀ s0 w0 : Int,
      abs s0 + weightedMagnitude (contributions get segments) ≤ 2 ^ 53 →
      0 ≤ w0 → w0 + weightSum (contributions get segments) ≤ 2 ^ 53 →
      segments.foldl (weightedStep fused get) ((s0 : ℚ), w0) =
        (((s0 + weightedSum (contributions get segments) : Int) : ℚ),
          w0 + weightSum (contributions get segments)) := by
  induction segments with
  | nil =>
    intro s0 w0 _ _ _
    simp [contributions, weightedSum, weightSum]
  | cons seg rest ih =>
    intro s0 w0 hs hw0 hw
    have hpos := contributions_pos get (seg :: rest)
    unfold contributions at hs hw hpos ih ⊢
    rw [List.filterMap_cons] at hs hw hpos ⊢
    rw [List.foldl_cons]
    cases hc : (if seg.weight ≤ 0 then none
        else (get seg.p).map (fun v => (seg.weight, v))) with
    | none =>
      rw [hc] at hs hw hpos
      dsimp only at hs hw hpos ⊢
      rw [weightedStep_skip fused get _ seg hc]
      exact ih s0 w0 hs hw0 hw
    | some wv =>
      obtain ⟨w, v⟩ := wv
      rw [hc] at hs hw hpos
      dsimp only at hs hw hpos ⊢
      have hwpos : 0 < w := hpos (w, v) (List.mem_cons_self _ _)
      have hrest : ∀ wv ∈ List.filterMap (fun seg => if seg.weight ≤ 0 then none
          else (get seg.p).map (fun v => (seg.weight, v))) rest, 0 < wv.1 :=
        fun wv h => hpos wv (List.mem_cons_of_mem _ h)
      have hR := weightedMagnitude_nonneg _ hrest
      have hW := weightSum_nonneg _ hrest
      have hmag : weightedMagnitude ((w, v) :: List.filterMap (fun seg =>
          if seg.weight ≤ 0 then none else (get seg.p).map (fun v => (seg.weight, v))) rest) =
          w * abs v + weightedMagnitude (List.filterMap (fun seg =>
            if seg.weight ≤ 0 then none else (get seg.p).map (fun v => (seg.weight, v))) rest) := by
        simp [weightedMagnitude]
      have hwsum : weightSum ((w, v) :: List.filterMap (fun seg =>
          if seg.weight ≤ 0 then none else (get seg.p).map (fun v => (seg.weight, v))) rest) =
          w + weightSum (List.filterMap (fun seg =>
            if seg.weight ≤ 0 then none else (get seg.p).map (fun v => (seg.weight, v))) rest) := by
        simp [weightSum]
      have hvsum : weightedSum ((w, v) :: List.filterMap (fun seg =>
          if seg.weight ≤ 0 then none else (get seg.p).map (fun v => (seg.weight, v))) rest) =
          w * v + weightedSum (List.filterMap (fun seg =>
            if seg.weight ≤ 0 then none else (get seg.p).map (fun v => (seg.weight, v))) rest) := by
        simp [weightedSum]
      rw [hmag] at hs
      rw [hwsum] at hw
      rw [hvsum, hwsum]
      have hs0 : 0 ≤ abs s0 := abs_nonneg s0
      have hv0 : 0 ≤ abs v := abs_nonneg v
      have hwv : abs v ≤ w * abs v := by nlinarith
      have hvb : abs v ≤ 2 ^ 53 := by linarith
      have hvw : abs (v * w) ≤ 2 ^ 53 := by
        rw [abs_mul, abs_of_pos hwpos, mul_comm]
        linarith
      have hsum : abs (s0 + v * w) ≤ 2 ^ 53 := by
        have := abs_add s0 (v * w)
        rw [abs_mul v w, abs_of_pos hwpos, mul_comm (abs v) w] at this
        linarith
      have ev : toFloat64 (v : ℚ) = (v : ℚ) :=
        toFloat64_intCast v (by have := neg_abs_le v; linarith) (by have := le_abs_self v; linarith)
      have ew : toFloat64 (w : ℚ) = (w : ℚ) :=
        toFloat64_intCast w (by linarith) (by linarith)
      have evw : toFloat64 ((v : ℚ) * (w : ℚ)) = (v : ℚ) * (w : ℚ) := by
        have := toFloat64_intCast (v * w) (by have := neg_abs_le (v * w); linarith)
          (by have := le_abs_self (v * w); linarith)
        push_cast at this
        exact this
      have esum : toFloat64 ((s0 : ℚ) + (v : ℚ) * (w : ℚ)) = ((s0 + w * v : Int) : ℚ) := by
        have := toFloat64_intCast (s0 + v * w) (by have := neg_abs_le (s0 + v * w); linarith)
          (by have := le_abs_self (s0 + v * w); linarith)
        push_cast at this
        rw [this]
        push_cast
        ring
      have ewrap : wrap64 (w0 + w) = w0 + w :=
        wrap64_of_isInt64 _ ⟨by linarith, by linarith⟩
      rw [weightedStep_take fused get _ seg w v hc]
      dsimp only
      rw [ev, ew, evw, esum, ewrap]
      have hstep : (if fused = true then ((s0 + w * v : Int) : ℚ)
          else ((s0 + w * v : Int) : ℚ)) = ((s0 + w * v : Int) : ℚ) := by
        split_ifs <;> rfl
      rw [hstep, ih (s0 + w * v) (w0 + w) (by
          have := abs_add s0 (w * v)
          rw [abs_mul w v, abs_of_pos hwpos] at this
          linarith) (by linarith) (by linarith)]
      congr 1
      · push_cast
        ring
      · ring

/-- The conversion of `2 ^ 53 + 1` to a `float64` gives `2 ^ 53`: the number lies half way
between two `float64` values and the one with the even significand is taken. -/
theorem toFloat64_tie : toFloat64 9007199254740993 = 9007199254740992 := by
  have hlog : Int.log 2 (abs (9007199254740993 : ℚ)) = 53 := by
    have hpos : (0 : ℚ) < abs (9007199254740993 : ℚ) := by norm_num
    apply le_antisymm
    · have := (Int.lt_zpow_iff_log_lt (b := 2) (x := 54) (by norm_num) hpos).mp (by norm_num)
      omega
    · exact (Int.zpow_le_iff_le_log (b := 2) (x := 53) (by norm_num) hpos).mp (by norm_num)
  have hfloor : Int.floor ((9007199254740993 : ℚ) / 2) = 4503599627370496 := by
    rw [Int.floor_eq_iff]
    constructor <;> norm_num
  unfold toFloat64
  rw [if_neg (by norm_num), hlog]
  have h1 : (2 : ℚ) ^ ((53 : ℤ) - 52) = 2 := by norm_num
  rw [h1]
  unfold roundHalfEven
  rw [hfloor]
  norm_num

theorem weightedInt_tie (fused : Bool) (convOverflow : Int → Int) :
    weightedInt fused convOverflow
      [⟨1, ⟨some 9007199254740993, none, none, none, none, none⟩⟩] (fun p => p.P50) =
      some 9007199254740992 := by
  have e1 : toFloat64 (1 : ℚ) = 1 := by
    simpa using toFloat64_intCast 1 (by norm_num) (by norm_num)
  have e53 : toFloat64 (9007199254740992 : ℚ) = 9007199254740992 := by
    simpa using toFloat64_intCast 9007199254740992 (by norm_num) (by norm_num)
  have hfold : List.foldl (weightedStep fused (fun p => p.P50)) (0, 0)
      [⟨1, ⟨some 9007199254740993, none, none, none, none, none⟩⟩] =
      ((9007199254740992 : ℚ), 1) := by
    rw [List.foldl_cons, List.foldl_nil,
      weightedStep_take fused (fun p => p.P50) (0, 0)
        ⟨1, ⟨some 9007199254740993, none, none, none, none, none⟩⟩ 1 9007199254740993
        (by decide)]
    dsimp only
    push_cast
    rw [toFloat64_tie, e1, mul_one, e53, zero_add, e53]
    have hw : wrap64 1 = 1 := by decide
    rw [hw]
    split_ifs <;> rfl
  have hround : mathRound (9007199254740992 : ℚ) = 9007199254740992 := by
    unfold mathRound
    rw [if_pos (by norm_num), Int.floor_eq_iff]
    constructor <;> norm_num
  unfold weightedInt
  rw [hfold]
  dsimp only
  rw [if_neg (by norm_num)]
  push_cast
  rw [e1, div_one, e53, hround]
  unfold intOfFloat64
  rw [if_pos (by decide)]

theorem weightSum_pos (c : List (Int × Int)) (hne : c ≠ []) (hpos : ∀ wv ∈ c, 0 < wv.1) :
    0 < weightSum c := by
  cases c with
  | nil => exact absurd rfl hne
  | cons wv rest =>
    have h1 := hpos wv (List.mem_cons_self _ _)
    have h2 := weightSum_nonneg rest (fun x hx => hpos x (List.mem_cons_of_mem _ hx))
    have : weightSum (wv :: rest) = wv.1 + weightSum rest := by simp [weightSum]
    rw [this]
    linarith

theorem weightedSum_lower (c : List (Int × Int)) (hpos : ∀ wv ∈ c, 0 < wv.1) (a : Int)
    (h : ∀ wv ∈ c, a ≤ wv.2) : a * weightSum c ≤ weightedSum c := by
  induction c with
  | nil => simp [weightSum, weightedSum]
  | cons wv rest ih =>
    have h1 := hpos wv (List.mem_cons_self _ _)
    have h2 := h wv (List.mem_cons_self _ _)
    have h3 := ih (fun x hx => hpos x (List.mem_cons_of_mem _ hx))
      (fun x hx => h x (List.mem_cons_of_mem _ hx))
    have e1 : weightSum (wv :: rest) = wv.1 + weightSum rest := by simp [weightSum]
    have e2 : weightedSum (wv :: rest) = wv.1 * wv.2 + weightedSum rest := by
      simp [weightedSum]
    rw [e1, e2]
    nlinarith

theorem weightedSum_upper (c : List (Int × Int)) (hpos : ∀ wv ∈ c, 0 < wv.1) (b : Int)
    (h : ∀ wv ∈ c, wv.2 ≤ b) : weightedSum c ≤ b * weightSum c := by
  induction c with
  | nil => simp [weightSum, weightedSum]
  | cons wv rest ih =>
    have h1 := hpos wv (List.mem_cons_self _ _)
    have h2 := h wv (List.mem_cons_self _ _)
    have h3 := ih (fun x hx => hpos x (List.mem_cons_of_mem _ hx))
      (fun x hx => h x (List.mem_cons_of_mem _ hx))
    have e1 : weightSum (wv :: rest) = wv.1 + weightSum rest := by simp [weightSum]
    have e2 : weightedSum (wv :: rest) = wv.1 * wv.2 + weightedSum rest := by
      simp [weightedSum]
    rw [e1, e2]
    nlinarith

theorem abs_le_weightedMagnitude (c : List (Int × Int)) (hpos : ∀ wv ∈ c, 0 < wv.1) :
    ∀ wv ∈ c, abs wv.2 ≤ weightedMagnitude c := by
  induction c with
  | nil => intro wv hwv; simp at hwv
  | cons x rest ih =>
    intro wv hwv
    have h1 := hpos x (List.mem_cons_self _ _)
    have hr := weightedMagnitude_nonneg rest (fun y hy => hpos y (List.mem_cons_of_mem _ hy))
    have e : weightedMagnitude (x :: rest) = x.1 * abs x.2 + weightedMagnitude rest := by
      simp [weightedMagnitude]
    rw [e]
    rcases List.mem_cons.mp hwv with rfl | hmem
    · have := abs_nonneg wv.2
      nlinarith
    · have := ih (fun y hy => hpos y (List.mem_cons_of_mem _ hy)) wv hmem
      have := abs_nonneg x.2
      nlinarith

/-- A weighted field is nil when no segment contributes, whatever the rounding. -/
theorem weightedInt_of_no_contribution (fused : Bool) (convOverflow : Int → Int)
    (segments : List opsPercentileSegment) (get : OpsPercentiles → Option Int)
    (h : contributions get segments = []) :
    weightedInt fused convOverflow segments get = none := by
  unfold weightedInt
  rw [weighted_fold_nil fused get segments h]
  rfl

/-- A weighted field in the range where the operations before the division are exact: it is
nil exactly when no segment contributes, and otherwise lies within any bounds of the
contributing values. -/
theorem weightedInt_between (fused : Bool) (convOverflow : Int → Int)
    (segments : List opsPercentileSegment) (get : OpsPercentiles → Option Int)
    (hmag : weightedMagnitude (contributions get segments) ≤ 2 ^ 53)
    (hw : weightSum (contributions get segments) ≤ 2 ^ 53) :
    (weightedInt fused convOverflow segments get = none ↔ contributions get segments = []) ∧
    ∀ x, weightedInt fused convOverflow segments get = some x →
      ∀ lo hi, (∀ wv ∈ contributions get segments, lo ≤ wv.2 ∧ wv.2 ≤ hi) →
        lo ≤ x ∧ x ≤ hi := by
  have hpos := contributions_pos get segments
  have hfold := weighted_fold_exact fused get segments 0 0 (by simpa using hmag) (le_refl 0)
    (by simpa using hw)
  simp only [Int.cast_zero, zero_add] at hfold
  have hfold2 : segments.foldl (weightedStep fused get) (0, 0) =
      (((weightedSum (contributions get segments) : Int) : ℚ),
        weightSum (contributions get segments)) := hfold
  by_cases hne : contributions get segments = []
  · have hnone := weightedInt_of_no_contribution fused convOverflow segments get hne
    refine ⟨⟨fun _ => hne, fun _ => hnone⟩, ?_⟩
    intro x hx
    rw [hnone] at hx
    simp at hx
  · have hWpos := weightSum_pos _ hne hpos
    have hWq : (0 : ℚ) < ((weightSum (contributions get segments) : Int) : ℚ) := by
      exact_mod_cast hWpos
    have hval : weightedInt fused convOverflow segments get =
        some (intOfFloat64 convOverflow (mathRound (toFloat64
          (((weightedSum (contributions get segments) : Int) : ℚ) /
            ((weightSum (contributions get segments) : Int) : ℚ))))) := by
      unfold weightedInt
      rw [hfold2]
      dsimp only
      rw [if_neg (by omega), toFloat64_intCast _ (by linarith) hw]
    refine ⟨⟨fun h => ?_, fun h => absurd h hne⟩, ?_⟩
    · rw [hval] at h
      simp at h
    · intro x hx lo hi hb
      rw [hval] at hx
      simp only [Option.some.injEq] at hx
      obtain ⟨wv0, hwv0⟩ := List.exists_mem_of_ne_nil _ hne
      have habs := abs_le_weightedMagnitude _ hpos
      have hlow : ∀ wv ∈ contributions get segments, max lo (-(2 ^ 53)) ≤ wv.2 := by
        intro wv hwv
        have h1 := (hb wv hwv).1
        have h2 := habs wv hwv
        have h3 := neg_abs_le wv.2
        exact max_le h1 (by linarith)
      have hupp : ∀ wv ∈ contributions get segments, wv.2 ≤ min hi (2 ^ 53) := by
        intro wv hwv
        have h1 := (hb wv hwv).2
        have h2 := habs wv hwv
        have h3 := le_abs_self wv.2
        exact le_min h1 (by linarith)
      have ha1 : -(2 : Int) ^ 53 ≤ max lo (-(2 ^ 53)) := le_max_right _ _
      have ha2 : max lo (-(2 ^ 53)) ≤ (2 : Int) ^ 53 := by
        have h1 := hlow wv0 hwv0
        have h2 := hupp wv0 hwv0
        have h3 : min hi (2 ^ 53) ≤ (2 : Int) ^ 53 := min_le_right _ _
        linarith
      have hb2 : min hi (2 ^ 53) ≤ (2 : Int) ^ 53 := min_le_right _ _
      have hb1 : -(2 : Int) ^ 53 ≤ min hi (2 ^ 53) := by
        have h1 := hlow wv0 hwv0
        have h2 := hupp wv0 hwv0
        linarith
      have hq1 : ((max lo (-(2 ^ 53)) : Int) : ℚ) ≤
          ((weightedSum (contributions get segments) : Int) : ℚ) /
            ((weightSum (contributions get segments) : Int) : ℚ) := by
        rw [le_div_iff₀ hWq]
        exact_mod_cast weightedSum_lower _ hpos _ hlow
      have hq2 : ((weightedSum (contributions get segments) : Int) : ℚ) /
            ((weightSum (contributions get segments) : Int) : ℚ) ≤
          ((min hi (2 ^ 53) : Int) : ℚ) := by
        rw [div_le_iff₀ hWq]
        exact_mod_cast weightedSum_upper _ hpos _ hupp
      have hr1 := le_mathRound _ _ (le_toFloat64 _ ha1 ha2 _ hq1)
      have hr2 := mathRound_le _ _ (toFloat64_le _ hb1 hb2 _ hq2)
      have hint : intOfFloat64 convOverflow (mathRound (toFloat64
          (((weightedSum (contributions get segments) : Int) : ℚ) /
            ((weightSum (contributions get segments) : Int) : ℚ)))) =
          mathRound (toFloat64
          (((weightedSum (contributions get segments) : Int) : ℚ) /
            ((weightSum (contributions get segments) : Int) : ℚ))) := by
        unfold intOfFloat64
        rw [if_pos ⟨by linarith, by linarith⟩]
      rw [hint] at hx
      rw [← hx]
      have hlo := le_max_left lo (-(2 ^ 53))
      have hhi := min_le_left hi (2 ^ 53)
      exact ⟨by linarith, by linarith⟩

theorem maxInt_isMaxOf (segments : List opsPercentileSegment)
    (get : OpsPercentiles → Option Int) :
    isMaxOf (fieldValues get segments) (maxInt segments get) := by
  obtain ⟨h1, h2⟩ := maxInt_fold get segments none
  unfold isMaxOf maxInt
  refine ⟨?_, ?_⟩
  · rw [h1]
    simp
  · intro x hx
    obtain ⟨h3, _, h5⟩ := h2 x hx
    refine ⟨?_, h5⟩
    rcases h3 with h3 | h3
    · simp at h3
    · exact h3

theorem weightedInt_weightedWithin (fused : Bool) (convOverflow : Int → Int)
    (segments : List opsPercentileSegment) (get : OpsPercentiles → Option Int) :
    weightedWithin (contributions get segments)
      (weightedInt fused convOverflow segments get) := by
  unfold weightedWithin
  refine ⟨?_, fun hmag hw => weightedInt_between fused convOverflow segments get hmag hw⟩
  intro x hx hnil
  rw [weightedInt_of_no_contribution fused convOverflow segments get hnil] at hx
  simp at hx

/-- C26 as worded does not hold: for the one segment of weight 1 whose `P50` is
`2 ^ 53 + 1 = 9007199254740993`, the conversion `float64(*v)` rounds the value to `2 ^ 53`,
and `P50` of the result is `9007199254740992`, below the only contributing value, with or
without a fused multiplication and addition. -/
theorem C26_weighted_value_below_minimum :
    contributions (fun p => p.P50)
      [⟨1, ⟨some 9007199254740993, none, none, none, none, none⟩⟩] =
      [(1, 9007199254740993)] ∧
    (∀ (fused : Bool) (convOverflow : Int → Int),
      (combineApproxPercentiles fused convOverflow
        [⟨1, ⟨some 9007199254740993, none, none, none, none, none⟩⟩]).P50 =
        some 9007199254740992) ∧
    (9007199254740992 : Int) < 9007199254740993 :=
  ⟨by decide, fun fused convOverflow => weightedInt_tie fused convOverflow, by decide⟩

/-- C26, amended: for every list of segments, `P95`, `P99` and `Max` of the result are the
maximum of the non-nil values of the field over the segments, nil when there is none; `P50`,
`P90` and `Avg` are nil unless some segment has a positive weight and a value of the field;
and when, over those segments, the weights and the magnitudes of weight times value each sum
to at most `2 ^ 53`, they are nil only in that case and lie within any bounds of the values
of those segments, so between their minimum and maximum. -/
theorem C26_combined_percentiles (fused : Bool) (convOverflow : Int → Int)
    (segments : List opsPercentileSegment) :
    isMaxOf (fieldValues (fun p => p.P95) segments)
      (combineApproxPercentiles fused convOverflow segments).P95 ∧
    isMaxOf (fieldValues (fun p => p.P99) segments)
      (combineApproxPercentiles fused convOverflow segments).P99 ∧
    isMaxOf (fieldValues (fun p => p.Max) segments)
      (combineApproxPercentiles fused convOverflow segments).Max ∧
    weightedWithin (contributions (fun p => p.P50) segments)
      (combineApproxPercentiles fused convOverflow segments).P50 ∧
    weightedWithin (contributions (fun p => p.P90) segments)
      (combineApproxPercentiles fused convOverflow segments).P90 ∧
    weightedWithin (contributions (fun p => p.Avg) segments)
      (combineApproxPercentiles fused convOverflow segments).Avg :=
  ⟨maxInt_isMaxOf segments _, maxInt_isMaxOf segments _, maxInt_isMaxOf segments _,
    weightedInt_weightedWithin fused convOverflow segments _,
    weightedInt_weightedWithin fused convOverflow segments _,
    weightedInt_weightedWithin fused convOverflow segments _⟩

/-- C26, amended, for the three example segments: `Max` is 90, and `P50` is not nil and lies
between 10 and 40. -/
theorem C26_combined_percentiles_witness :
    (combineApproxPercentiles false id exampleSegments).Max = some 90 ∧
    ((combineApproxPercentiles false id exampleSegments).P50 ≠ none ∧
      ∀ x, (combineApproxPercentiles false id exampleSegments).P50 = some x →
        10 ≤ x ∧ x ≤ 40) :=
  ⟨by decide,
    fun h => absurd
      ((((C26_combined_percentiles false id exampleSegments).2.2.2.1.2
        (by decide) (by decide)).1).mp h) (by decide),
    fun x hx => ((C26_combined_percentiles false id exampleSegments).2.2.2.1.2
      (by decide) (by decide)).2 x hx 10 40 (by decide)⟩


/-! ### The rounding error -/

theorem abs_roundHalfEven_sub_le (y : ℚ) : abs ((roundHalfEven y : ℚ) - y) ≤ 1 / 2 := by
  have h1 : (Int.floor y : ℚ) ≤ y := Int.floor_le y
  have h2 : y < (Int.floor y : ℚ) + 1 := Int.lt_floor_add_one y
  rw [abs_le]
  unfold roundHalfEven
  split_ifs with ha hb hc
  · constructor <;> linarith
  · push_cast
    constructor <;> linarith
  · constructor <;> linarith
  · push_cast
    constructor <;> linarith

/-- A number and its rounding differ by at most the fraction `2 ^ (-53)` of the number. -/
theorem abs_toFloat64_sub_le (x : ℚ) : abs (toFloat64 x - x) ≤ abs x / 2 ^ 53 := by
  by_cases hx : x = 0
  · rw [hx]
    unfold toFloat64
    rw [if_pos rfl]
    norm_num
  obtain ⟨hlo, _⟩ := log_bounds x hx
  have hu : (0 : ℚ) < 2 ^ (Int.log 2 (abs x) - 52) := by positivity
  have hround := abs_roundHalfEven_sub_le (x / 2 ^ (Int.log 2 (abs x) - 52))
  have hsplit : (2 : ℚ) ^ Int.log 2 (abs x) = 2 ^ (Int.log 2 (abs x) - 52) * 2 ^ 52 := by
    have : Int.log 2 (abs x) = (Int.log 2 (abs x) - 52) + 52 := by ring
    conv_lhs => rw [this]
    rw [zpow_add₀ (by norm_num)]
    norm_num
  have hdiff : toFloat64 x - x =
      ((roundHalfEven (x / 2 ^ (Int.log 2 (abs x) - 52)) : ℚ) -
        x / 2 ^ (Int.log 2 (abs x) - 52)) * 2 ^ (Int.log 2 (abs x) - 52) := by
    unfold toFloat64
    rw [if_neg hx]
    field_simp
  rw [hdiff, abs_mul, abs_of_pos hu, le_div_iff₀ (by positivity)]
  rw [hsplit] at hlo
  have hprod := mul_le_mul_of_nonneg_right hround (le_of_lt hu)
  generalize abs ((roundHalfEven (x / 2 ^ (Int.log 2 (abs x) - 52)) : ℚ) -
    x / 2 ^ (Int.log 2 (abs x) - 52)) * 2 ^ (Int.log 2 (abs x) - 52) = ru at hprod ⊢
  generalize (2 : ℚ) ^ (Int.log 2 (abs x) - 52) = u at hlo hprod hu
  linarith

/-- The percentage `float64(c) / float64(m) * 100` for integers that are `float64` values: it
differs from the exact quotient times 100 by at most the fraction `3 / 2 ^ 53` of it. -/
theorem percentage_accuracy (c m : Int) (hm : 0 < m) (hm2 : m ≤ 2 ^ 53)
    (hc1 : -(2 : Int) ^ 53 ≤ c) (hc2 : c ≤ 2 ^ 53) :
    abs (toFloat64 (toFloat64 (toFloat64 (c : ℚ) / toFloat64 (m : ℚ)) * 100) -
        (c : ℚ) / (m : ℚ) * 100) ≤
      abs ((c : ℚ) / (m : ℚ) * 100) * (3 / 2 ^ 53) := by
  rw [toFloat64_intCast c hc1 hc2, toFloat64_intCast m (by linarith) hm2]
  have e1 := abs_toFloat64_sub_le ((c : ℚ) / (m : ℚ))
  have e2 := abs_toFloat64_sub_le (toFloat64 ((c : ℚ) / (m : ℚ)) * 100)
  generalize (c : ℚ) / (m : ℚ) = q at e1 e2 ⊢
  generalize toFloat64 q = q1 at e1 e2 ⊢
  generalize toFloat64 (q1 * 100) = q2 at e2 ⊢
  have hq1 : abs q1 ≤ abs q + abs q / 2 ^ 53 := by
    have := abs_sub_abs_le_abs_sub q1 q
    linarith
  have h100 : abs (q1 * 100) = abs q1 * 100 := by
    rw [abs_mul]
    norm_num
  have hq100 : abs (q * 100) = abs q * 100 := by
    rw [abs_mul]
    norm_num
  have h3 : abs (q1 * 100 - q * 100) = abs (q1 - q) * 100 := by
    rw [← sub_mul, abs_mul]
    norm_num
  have htri : abs (q2 - q * 100) ≤ abs (q2 - q1 * 100) + abs (q1 * 100 - q * 100) := by
    have : q2 - q * 100 = (q2 - q1 * 100) + (q1 * 100 - q * 100) := by ring
    rw [this]
    exact abs_add _ _
  rw [h100] at e2
  rw [h3] at htri
  rw [hq100]
  have hq0 : 0 ≤ abs q := abs_nonneg q
  have hsmall : abs q / 2 ^ 53 ≤ abs q := by
    apply div_le_self hq0
    norm_num
  have e2b : abs (q2 - q1 * 100) ≤ (abs q + abs q / 2 ^ 53) * 100 / 2 ^ 53 := by
    apply le_trans e2
    apply div_le_div_of_nonneg_right _ (by positivity)
    nlinarith
  have e2c : (abs q + abs q / 2 ^ 53) * 100 / 2 ^ 53 ≤ (abs q + abs q) * 100 / 2 ^ 53 := by
    apply div_le_div_of_nonneg_right _ (by positivity)
    nlinarith
  have : abs q * 100 * (3 / 2 ^ 53) =
      (abs q + abs q) * 100 / 2 ^ 53 + abs q / 2 ^ 53 * 100 := by ring
  rw [this]
  nlinarith

/-! ## Group totals and their percentage -/

theorem value_loadPercentage (c m : Int) :
    (loadPercentage c m).value =
      toFloat64 (toFloat64 (toFloat64 (c : ℚ) / toFloat64 (m : ℚ)) * 100) := rfl

/-- C6: without a group filter, for accounts with positive ids none of which lists a group
twice, `GetConcurrencyStats` returns no error and the entry of every group `g` holds as
`MaxCapacity`, `CurrentInUse` and `WaitingInQueue` the `int64` sums of `Concurrency`, current
concurrency and waiting count over all accounts that have `g` among their groups (the exact
sums whenever these fit an `int64`).  The value of `LoadPercentage` is 0 when the summed
`MaxCapacity` is not positive; otherwise it is the `float64` result of
`float64(CurrentInUse) / float64(MaxCapacity) * 100` on the summed values, which, for sums of
magnitude at most `2 ^ 53`, differs from the exact quotient times 100 by at most the fraction
`3 / 2 ^ 53` of it.  Every group with a positive id that some account has gets an entry. -/
theorem C6_group_sums (now : Nat) (svc : Option LoadBatchService)
    (order : GoMap Int Int → GoMap Int Int) (filter : Option Int) (accounts : List Account)
    (hf : activeFilter filter = none) (hpos : ∀ acc ∈ accounts, 0 < acc.ID)
    (hgrp : ∀ acc ∈ accounts, (groupIDs acc).Nodup) :
    ∃ r, GetConcurrencyStats none (Except.ok accounts) now svc order filter = Except.ok r ∧
      ∀ gid,
        (0 < gid → (∃ acc ∈ accounts, inGroup acc gid = true) →
          ∃ info, mapGet r.group gid = some info) ∧
        ∀ info, mapGet r.group gid = some info →
          info.MaxCapacity = wrap64 (sumOver (fun a => a.Concurrency)
            (accounts.filter (fun acc => inGroup acc gid))) ∧
          info.CurrentInUse = wrap64 (sumOver
            (fun a => (loadOf (getAccountsLoadMapBestEffort svc order accounts).out a.ID).1)
            (accounts.filter (fun acc => inGroup acc gid))) ∧
          info.WaitingInQueue = wrap64 (sumOver
            (fun a => (loadOf (getAccountsLoadMapBestEffort svc order accounts).out a.ID).2)
            (accounts.filter (fun acc => inGroup acc gid))) ∧
          (isInt64 (sumOver (fun a => a.Concurrency)
              (accounts.filter (fun acc => inGroup acc gid))) →
            info.MaxCapacity = sumOver (fun a => a.Concurrency)
              (accounts.filter (fun acc => inGroup acc gid))) ∧
          (isInt64 (sumOver
              (fun a => (loadOf (getAccountsLoadMapBestEffort svc order accounts).out a.ID).1)
              (accounts.filter (fun acc => inGroup acc gid))) →
            info.CurrentInUse = sumOver
              (fun a => (loadOf (getAccountsLoadMapBestEffort svc order accounts).out a.ID).1)
              (accounts.filter (fun acc => inGroup acc gid))) ∧
          (isInt64 (sumOver
              (fun a => (loadOf (getAccountsLoadMapBestEffort svc order accounts).out a.ID).2)
              (accounts.filter (fun acc => inGroup acc gid))) →
            info.WaitingInQueue = sumOver
              (fun a => (loadOf (getAccountsLoadMapBestEffort svc order accounts).out a.ID).2)
              (accounts.filter (fun acc => inGroup acc gid))) ∧
          (info.MaxCapacity ≤ 0 → info.LoadPercentage.value = 0) ∧
          (0 < info.MaxCapacity →
            info.LoadPercentage.value =
              toFloat64 (toFloat64 (toFloat64 (info.CurrentInUse : ℚ) /
                toFloat64 (info.MaxCapacity : ℚ)) * 100)) ∧
          (0 < info.MaxCapacity → info.MaxCapacity ≤ 2 ^ 53 →
            -(2 : Int) ^ 53 ≤ info.CurrentInUse → info.CurrentInUse ≤ 2 ^ 53 →
            abs (info.LoadPercentage.value -
                (info.CurrentInUse : ℚ) / (info.MaxCapacity : ℚ) * 100) ≤
              abs ((info.CurrentInUse : ℚ) / (info.MaxCapacity : ℚ) * 100) * (3 / 2 ^ 53)) := by
  obtain ⟨r, hr, _, _, hgroup, _⟩ := GetConcurrencyStats_spec now svc order filter accounts
  refine ⟨r, hr, fun gid => ?_⟩
  obtain ⟨hnone, hsome⟩ := hgroup gid
  by_cases hgid : 0 < gid
  · rw [groupMembers_of_no_filter filter hf gid hgid accounts hpos hgrp] at hnone hsome
    constructor
    · rintro _ ⟨acc, hacc, hin⟩
      cases hm : mapGet r.group gid with
      | some info => exact ⟨info, rfl⟩
      | none =>
        have := hnone.mp hm
        rw [List.filter_eq_nil_iff] at this
        exact absurd hin (this acc hacc)
    · intro info hinfo
      obtain ⟨_, h2, h3, h4, h5⟩ := hsome info hinfo
      refine ⟨h2, h3, h4, ?_, ?_, ?_, ?_, ?_, ?_⟩
      · intro hr2
        rw [h2, wrap64_of_isInt64 _ hr2]
      · intro hr2
        rw [h3, wrap64_of_isInt64 _ hr2]
      · intro hr2
        rw [h4, wrap64_of_isInt64 _ hr2]
      · intro hle
        rw [h5, if_neg (by omega)]
        rfl
      · intro hlt
        rw [h5, if_pos hlt, value_loadPercentage]
      · intro hlt hm2 hc1 hc2
        rw [h5, if_pos hlt, value_loadPercentage]
        exact percentage_accuracy _ _ hlt hm2 hc1 hc2
  · constructor
    · intro h
      exact absurd h hgid
    · intro info hinfo
      have := hnone.mpr (groupMembers_of_nonpos filter gid (by omega) accounts)
      rw [this] at hinfo
      simp at hinfo

/-- C6, for A (capacity 10, 3 in use) and B (capacity 5, 5 in use) in group 5: the entry of
group 5 has `MaxCapacity` 15 and `CurrentInUse` 8, and the value of its `LoadPercentage` lies
between 53.33 and 53.34. -/
theorem C6_group_sums_witness :
    ∃ r, GetConcurrencyStats none (Except.ok abAccounts) 0 (some abService) id none =
        Except.ok r ∧
      (mapGet r.group 5).map (fun i => (i.MaxCapacity, i.CurrentInUse)) = some (15, 8) ∧
      ∀ info, mapGet r.group 5 = some info →
        (5333 : ℚ) / 100 < info.LoadPercentage.value ∧
        info.LoadPercentage.value < (5334 : ℚ) / 100 := by
  obtain ⟨r, hr, h⟩ :=
    C6_group_sums 0 (some abService) id none abAccounts rfl (by decide) (by decide)
  have hval : (mapGet r.group 5).map (fun i => (i.MaxCapacity, i.CurrentInUse)) =
      some (15, 8) := by
    have hr2 : GetConcurrencyStats none (Except.ok abAccounts) 0 (some abService) id none =
        Except.ok r := hr
    have hdef : ∃ r0, GetConcurrencyStats none (Except.ok abAccounts) 0 (some abService) id
        none = Except.ok r0 ∧
        (mapGet r0.group 5).map (fun i => (i.MaxCapacity, i.CurrentInUse)) = some (15, 8) :=
      ⟨_, rfl, by decide⟩
    obtain ⟨r0, hr0, hv0⟩ := hdef
    rw [hr2] at hr0
    simp only [Except.ok.injEq] at hr0
    rw [hr0]
    exact hv0
  refine ⟨r, hr, hval, ?_⟩
  intro info hinfo
  rw [hinfo] at hval
  simp only [Option.map_some', Option.some.injEq, Prod.mk.injEq] at hval
  obtain ⟨hmax, hcur⟩ := hval
  have hacc := ((h 5).2 info hinfo).2.2.2.2.2.2.2.2 (by rw [hmax]; norm_num)
    (by rw [hmax]; norm_num) (by rw [hcur]; norm_num) (by rw [hcur]; norm_num)
  rw [hmax, hcur] at hacc
  rw [abs_le] at hacc
  have habs : abs (((8 : Int) : ℚ) / ((15 : Int) : ℚ) * 100) = 160 / 3 := by
    rw [abs_of_pos (by norm_num)]
    norm_num
  rw [habs] at hacc
  obtain ⟨hlo, hhi⟩ := hacc
  push_cast at hlo hhi
  constructor
  · have : (5333 : ℚ) / 100 < 8 / 15 * 100 - 160 / 3 * (3 / 2 ^ 53) := by norm_num
    linarith
  · have : (8 : ℚ) / 15 * 100 + 160 / 3 * (3 / 2 ^ 53) < 5334 / 100 := by norm_num
    linarith

end Sub2api
